import Mathlib

/-! jdupes: the duplicate-detection core

A shallow embedding of `src/jdupes.c` (default build: hard links, permissions and
symlinks compiled in, no tree rebalancing) and of `src/act_printmatches.c`, and of
the properties the specification states about the walker, the scan and the printers.

* Pointers to `file_t` records are indices into the candidate list, in the order the
  main loop walks it (`files`, then `next`); the heap of records is a function
  `Nat → file_t`.
* The search tree is an inductive binary tree; a `file_t **` returned by `checkmatch`
  is the path from the root to the node whose `file` slot it points to.
* File contents live outside the records: `fopen` maps a path to the bytes of the
  file, or to nothing when the file cannot be opened.
* No signal is delivered during the scan (`interrupt` stays 0) and the progress
  indicator is not modelled.
* Loops over the heap that the C code runs until a pointer is `NULL` take a fuel
  argument and return `none` when it runs out, so a result `some _` is a result of
  the C code. The recursion of `grokdir` takes fuel in the same way.
* The walker sees the file system through `stat`, `lstat` and `readdir`, which are
  parameters; allocation succeeds and the path buffer is large enough.
* An output stream is the text written to it so far.
-/

namespace jdupes

/-! ## Constants -/

/-- The `CHUNK_SIZE` of the source (size of the static I/O buffers). -/
def CHUNK_SIZE : Nat := 32768

/-- The `PARTIAL_HASH_SIZE` of the source. -/
def PARTIAL_HASH_SIZE : Nat := 4096

/-! ## Data model -/

/-- Modelled from the spec: `jdupes.h` is not among the sources, so the global
behaviour flag word `flags` is one Boolean per `F_*` bit that the code tests with
`ISFLAG(flags, ...)`. -/
structure flags_t where
  F_RECURSE : Bool := false
  F_HIDEPROGRESS : Bool := false
  F_SOFTABORT : Bool := false
  F_FOLLOWLINKS : Bool := false
  F_DELETEFILES : Bool := false
  F_INCLUDEEMPTY : Bool := false
  F_CONSIDERHARDLINKS : Bool := false
  F_SHOWSIZE : Bool := false
  F_OMITFIRST : Bool := false
  F_RECURSEAFTER : Bool := false
  F_NOPROMPT : Bool := false
  F_SUMMARIZEMATCHES : Bool := false
  F_EXCLUDEHIDDEN : Bool := false
  F_PERMISSIONS : Bool := false
  F_HARDLINKFILES : Bool := false
  F_EXCLUDESIZE : Bool := false
  F_QUICKCOMPARE : Bool := false
  F_USEPARAMORDER : Bool := false
  F_REVERSESORT : Bool := false
  F_ISOLATE : Bool := false
  F_MAKESYMLINKS : Bool := false
  F_PRINTMATCHES : Bool := false
  F_ONEFS : Bool := false
  F_JSONOUTPUT : Bool := false
  deriving DecidableEq, Repr

/-- Modelled from the spec: `jdupes.h` is not among the sources, so the record
`file_t` has the fields the code reads and writes, and its per-file `flags` word is
one Boolean per bit (`F_VALID_STAT`, `F_HASH_PARTIAL`, `F_HASH_FULL`, `F_HAS_DUPES`,
`F_IS_SYMLINK`). `duplicates` is the index of the next record of the chain; `next` is
the successor index in the candidate list and needs no field. -/
structure file_t where
  d_name : String := ""
  user_order : Nat := 0
  size : Int := -1
  device : Nat := 0
  inode : Nat := 0
  mtime : Int := 0
  mode : Nat := 0
  uid : Nat := 0
  gid : Nat := 0
  filehash : Nat := 0
  filehash_partial : Nat := 0
  duplicates : Option Nat := none
  F_VALID_STAT : Bool := false
  F_HASH_PARTIAL : Bool := false
  F_HASH_FULL : Bool := false
  F_HAS_DUPES : Bool := false
  F_IS_SYMLINK : Bool := false
  deriving DecidableEq, Repr

instance : Inhabited file_t := ⟨{}⟩

/-- The `ordertype_t` of `main`: the key of the intra-group sort. -/
inductive ordertype_t where
  | ORDER_NAME
  | ORDER_TIME
  deriving DecidableEq, Repr

/-- The direction options of `registerfile`. -/
inductive tree_direction where
  | NONE
  | LEFT
  | RIGHT
  deriving DecidableEq, Repr

/-- The search tree `filetree_t` (default build: `file`, `left`, `right`); `nil` is
the `NULL` pointer. -/
inductive filetree_t where
  | nil
  | node (file : Nat) (left right : filetree_t)
  deriving DecidableEq, Repr

/-- What the scan reads from its surroundings: the flag word, the probed cache sizes,
the sort key, the block hash of `jody_hash.h`, the name comparison of `jody_sort.h`
(neither is among the sources, so both are parameters) and the files on disk. -/
structure globals where
  flags : flags_t := {}
  l1 : Nat := 0
  l1d : Nat := 0
  ordertype : ordertype_t := ordertype_t.ORDER_NAME
  jody_block_hash : List Nat → Nat → Nat
  numeric_sort : String → String → Int → Int
  fopen : String → Option (List Nat)

/-- Ghost log of the I/O the scan asks for: a call of `get_filehash` on a record
with its `max_read`, and a call of `confirmmatch` on two records. -/
inductive event where
  | hash (file : Nat) (max_read : Nat)
  | confirm (file1 file2 : Nat)
  deriving DecidableEq, Repr

/-- The mutable state of the scan: the records, the tree `checktree` and the log. -/
structure scan_state where
  files : Nat → file_t
  checktree : filetree_t
  trace : List event

/-! ## Stores into the heap of records -/

/-- The store `p->duplicates = v`. -/
def link_duplicates (fs : Nat → file_t) (p : Nat) (v : Option Nat) : Nat → file_t :=
  Function.update fs p { fs p with duplicates := v }

/-- The stores `SETFLAG(p->flags, F_HAS_DUPES)` (`b = true`) and
`CLEARFLAG(p->flags, F_HAS_DUPES)` (`b = false`). -/
def mark_has_dupes (fs : Nat → file_t) (p : Nat) (b : Bool) : Nat → file_t :=
  Function.update fs p { fs p with F_HAS_DUPES := b }

/-- The stores `p->filehash_partial = h; SETFLAG(p->flags, F_HASH_PARTIAL)`. -/
def cache_partial_hash (fs : Nat → file_t) (p : Nat) (h : Nat) : Nat → file_t :=
  Function.update fs p { fs p with filehash_partial := h, F_HASH_PARTIAL := true }

/-- The stores `p->filehash = h; SETFLAG(p->flags, F_HASH_FULL)`. -/
def cache_full_hash (fs : Nat → file_t) (p : Nat) (h : Nat) : Nat → file_t :=
  Function.update fs p { fs p with filehash := h, F_HASH_FULL := true }

/-! ## Startup: chunk size (`main`, lines 1549-1557) -/

/-- The value `main` leaves in `auto_chunk_size`, a static that starts at 0. -/
def auto_chunk_size (G : globals) : Nat :=
  let a := if G.l1 ≠ 0 then G.l1 / 2 else if G.l1d ≠ 0 then G.l1d / 2 else 0
  let a := if a < 4096 ∨ a > CHUNK_SIZE then CHUNK_SIZE else a
  if a &&& 0x00000fff ≠ 0 then (a + 0x00000fff) &&& 0x000ff000 else a

/-- The value of `sort_direction` during the scan (`main`, line 1835). -/
def sort_direction (G : globals) : Int :=
  if G.flags.F_REVERSESORT then -1 else 1

/-! ## The condition filter -/

/-- The function `check_conditions`. -/
def check_conditions (flags : flags_t) (file1 file2 : file_t) : Int :=
  if flags.F_ISOLATE ∧ file1.user_order = file2.user_order then -1
  else if flags.F_ONEFS ∧ file1.device ≠ file2.device then -1
  else if flags.F_PERMISSIONS ∧
      (file1.mode ≠ file2.mode ∨ file1.uid ≠ file2.uid ∨ file1.gid ≠ file2.gid) then -1
  else if file1.inode = file2.inode ∧ file1.device = file2.device then
    if flags.F_CONSIDERHARDLINKS then 2 else -2
  else if file1.size > file2.size then -1
  else if file1.size < file2.size then 1
  else 0

/-- The macro `HASH_COMPARE`. -/
def HASH_COMPARE (a b : Nat) : Int :=
  if a > b then 1 else if a = b then 0 else -1

/-! ## Hashing -/

/-- The read loop of `get_filehash`: `file` is what is left of the stream. One
`fread` of `bytes_to_read` bytes fails when fewer are left. The fuel is the length of
the stream, which every successful read shortens. -/
def get_filehash_loop (G : globals) : Nat → List Nat → Int → Nat → Option Nat
  | fuel, file, fsize, hash =>
    if fsize > 0 then
      let bytes_to_read : Nat :=
        if fsize ≥ (auto_chunk_size G : Int) then auto_chunk_size G else fsize.toNat
      if bytes_to_read = 0 ∨ file.length < bytes_to_read then none
      else
        let hash := G.jody_block_hash (file.take bytes_to_read) hash
        if (bytes_to_read : Int) > fsize then some hash
        else
          match fuel with
          | 0 => none
          | fuel + 1 =>
            get_filehash_loop G fuel (file.drop bytes_to_read) (fsize - bytes_to_read) hash
    else some hash

/-- The function `get_filehash`; `none` is its `NULL`. -/
def get_filehash (G : globals) (checkfile : file_t) (max_read : Nat) : Option Nat :=
  if checkfile.size = -1 then none
  else
    let fsize : Int :=
      if max_read > 0 ∧ checkfile.size > (max_read : Int) then (max_read : Int)
      else checkfile.size
    if checkfile.F_HASH_PARTIAL ∧ max_read ≠ 0 ∧ max_read ≤ PARTIAL_HASH_SIZE then
      some checkfile.filehash_partial
    else
      match G.fopen checkfile.d_name with
      | none => none
      | some file =>
        if checkfile.F_HASH_PARTIAL then
          get_filehash_loop G (file.length) (file.drop PARTIAL_HASH_SIZE)
            (fsize - PARTIAL_HASH_SIZE) checkfile.filehash_partial
        else
          get_filehash_loop G (file.length) file fsize 0

/-! ## The search tree -/

/-- The function `registerfile` (default build). With direction `NONE` the new node
becomes the tree; otherwise it is hung below the node `nodeptr` points to. -/
def registerfile (nodeptr : filetree_t) (d : tree_direction) (file : Nat) : filetree_t :=
  match d, nodeptr with
  | tree_direction.NONE, _ => filetree_t.node file filetree_t.nil filetree_t.nil
  | tree_direction.LEFT, filetree_t.node f _ r =>
    filetree_t.node f (filetree_t.node file filetree_t.nil filetree_t.nil) r
  | tree_direction.RIGHT, filetree_t.node f l _ =>
    filetree_t.node f l (filetree_t.node file filetree_t.nil filetree_t.nil)
  | _, filetree_t.nil => filetree_t.nil

/-- The record a `file_t **` into the tree points to: the `file` slot of the node at
the end of the path. -/
def filetree_t.slot : filetree_t → List tree_direction → Option Nat
  | filetree_t.nil, _ => none
  | filetree_t.node f _ _, [] => some f
  | filetree_t.node _ l _, tree_direction.LEFT :: p => l.slot p
  | filetree_t.node _ _ r, tree_direction.RIGHT :: p => r.slot p
  | filetree_t.node _ _ _, tree_direction.NONE :: _ => none

/-- The store `*matchlist = v` through a `file_t **` into the tree. -/
def filetree_t.setslot : filetree_t → List tree_direction → Nat → filetree_t
  | filetree_t.nil, _, _ => filetree_t.nil
  | filetree_t.node _ l r, [], v => filetree_t.node v l r
  | filetree_t.node f l r, tree_direction.LEFT :: p, v => filetree_t.node f (l.setslot p v) r
  | filetree_t.node f l r, tree_direction.RIGHT :: p, v => filetree_t.node f l (r.setslot p v)
  | filetree_t.node f l r, tree_direction.NONE :: _, _ => filetree_t.node f l r

/-- The records the nodes of a tree hold, left to right. -/
def filetree_t.nodefiles : filetree_t → List Nat
  | filetree_t.nil => []
  | filetree_t.node f l r => l.nodefiles ++ f :: r.nodefiles

/-- What `checkmatch` leaves behind: the records, the log, the tree, and the returned
pointer (`none` is `NULL`). -/
structure checkmatch_result where
  files : Nat → file_t
  trace : List event
  tree : filetree_t
  ret : Option (List tree_direction)

/-- The step `if (!ISFLAG(p->flags, F_HASH_PARTIAL)) { ... }` of `checkmatch`
(lines 1152-1158 and 1160-1166): `none` when `get_filehash` yields `NULL`. -/
def partial_hash_step (G : globals) (fs : Nat → file_t) (p : Nat) : Option (Nat → file_t) :=
  if (fs p).F_HASH_PARTIAL then some fs
  else (get_filehash G (fs p) PARTIAL_HASH_SIZE).map (cache_partial_hash fs p)

/-- The step `if (!ISFLAG(p->flags, F_HASH_FULL)) { ... }` of the full-hash branch of
`checkmatch` (lines 1188-1194 and 1196-1202). -/
def full_hash_step (G : globals) (fs : Nat → file_t) (p : Nat) : Option (Nat → file_t) :=
  if (fs p).F_HASH_FULL then some fs
  else (get_filehash G (fs p) 0).map (cache_full_hash fs p)

/-- The step of the small-file branch of `checkmatch` (lines 1176-1180 and
1181-1185): the partial hash becomes the full hash. -/
def small_file_step (fs : Nat → file_t) (p : Nat) : Nat → file_t :=
  if (fs p).F_HASH_FULL then fs
  else cache_full_hash fs p ( file_t.filehash_partial (fs p))

/-- The log after a hash step on `p`: one more call of `get_filehash` unless the
cache was already filled. -/
def log_hash (tr : List event) (cached : Bool) (p max_read : Nat) : List event :=
  if cached then tr else tr ++ [event.hash p max_read]

/-- The block of `checkmatch` that runs when `check_conditions` is 0 (lines
1149-1212): fill the hash caches of the node's record `tf` and of `file` as needed
and compare. The third component is `none` when `checkmatch` returns `NULL` from
inside the block, else the new `cmpresult`. -/
def checkmatch_hashes (G : globals) (tf file : Nat) (fs : Nat → file_t) (tr : List event) :
    (Nat → file_t) × List event × Option Int :=
  let tr1 := log_hash tr (fs tf).F_HASH_PARTIAL tf PARTIAL_HASH_SIZE
  match partial_hash_step G fs tf with
  | none => (fs, tr1, none)
  | some fs1 =>
    let tr2 := log_hash tr1 (fs1 file).F_HASH_PARTIAL file PARTIAL_HASH_SIZE
    match partial_hash_step G fs1 file with
    | none => (fs1, tr2, none)
    | some fs2 =>
      let cmpresult :=
        HASH_COMPARE ( file_t.filehash_partial (fs2 file)) ( file_t.filehash_partial (fs2 tf))
      if (fs2 file).size ≤ (PARTIAL_HASH_SIZE : Int) then
        (small_file_step (small_file_step fs2 file) tf, tr2, some cmpresult)
      else if cmpresult = 0 then
        let tr3 := log_hash tr2 (fs2 tf).F_HASH_FULL tf 0
        match full_hash_step G fs2 tf with
        | none => (fs2, tr3, none)
        | some fs3 =>
          let tr4 := log_hash tr3 (fs3 file).F_HASH_FULL file 0
          match full_hash_step G fs3 file with
          | none => (fs3, tr4, none)
          | some fs4 => (fs4, tr4, some (HASH_COMPARE (fs4 file).filehash (fs4 tf).filehash))
      else (fs2, tr2, some cmpresult)

/-- The function `checkmatch`. On the `NULL` tree the C code aborts in `nullptr`;
`main` never passes one. -/
def checkmatch (G : globals) :
    filetree_t → Nat → (Nat → file_t) → List event → checkmatch_result
  | filetree_t.nil, _, fs, tr => ⟨fs, tr, filetree_t.nil, none⟩
  | filetree_t.node tf l r, file, fs, tr =>
    let c := check_conditions G.flags (fs tf) (fs file)
    if c = 2 then ⟨fs, tr, filetree_t.node tf l r, some []⟩
    else if c = -2 then ⟨fs, tr, filetree_t.node tf l r, none⟩
    else
      match (if c = 0 then checkmatch_hashes G tf file fs tr else (fs, tr, some c)) with
      | (fs, tr, none) => ⟨fs, tr, filetree_t.node tf l r, none⟩
      | (fs, tr, some cmpresult) =>
        if cmpresult < 0 then
          match l with
          | filetree_t.nil =>
            ⟨fs, tr, registerfile (filetree_t.node tf l r) tree_direction.LEFT file, none⟩
          | filetree_t.node _ _ _ =>
            let res := checkmatch G l file fs tr
            ⟨res.files, res.trace, filetree_t.node tf res.tree r,
              res.ret.map (fun p => tree_direction.LEFT :: p)⟩
        else if cmpresult > 0 then
          match r with
          | filetree_t.nil =>
            ⟨fs, tr, registerfile (filetree_t.node tf l r) tree_direction.RIGHT file, none⟩
          | filetree_t.node _ _ _ =>
            let res := checkmatch G r file fs tr
            ⟨res.files, res.trace, filetree_t.node tf l res.tree,
              res.ret.map (fun p => tree_direction.RIGHT :: p)⟩
        else ⟨fs, tr, filetree_t.node tf l r, some []⟩

/-! ## Byte confirmation -/

/-- The loop of `confirmmatch` over what is left of the two streams: each `fread`
returns up to `auto_chunk_size` bytes. The fuel is the length of the second stream,
which every non-empty read shortens. -/
def confirmmatch_loop (G : globals) : Nat → List Nat → List Nat → Int
  | fuel, file1, file2 =>
    let c1 := file1.take (auto_chunk_size G)
    let c2 := file2.take (auto_chunk_size G)
    let r1 := c1.length
    let r2 := c2.length
    if r1 ≠ r2 then 0
    else if c1 ≠ c2 then 0
    else if r2 ≠ 0 then
      match fuel with
      | 0 => 0
      | fuel + 1 =>
        confirmmatch_loop G fuel (file1.drop (auto_chunk_size G)) (file2.drop (auto_chunk_size G))
    else 1

/-- The function `confirmmatch` on two freshly opened streams. -/
def confirmmatch (G : globals) (file1 file2 : List Nat) : Int :=
  confirmmatch_loop G file2.length file1 file2

/-! ## The group registry -/

/-- The function `sort_pairs_by_param_order`. -/
def sort_pairs_by_param_order (G : globals) (f1 f2 : file_t) : Int :=
  if ¬ G.flags.F_USEPARAMORDER then 0
  else if f1.user_order < f2.user_order then - sort_direction G
  else if f1.user_order > f2.user_order then sort_direction G
  else 0

/-- The function `sort_pairs_by_mtime`. -/
def sort_pairs_by_mtime (G : globals) (f1 f2 : file_t) : Int :=
  let po := sort_pairs_by_param_order G f1 f2
  if po ≠ 0 then po
  else if f1.mtime < f2.mtime then - sort_direction G
  else if f1.mtime > f2.mtime then sort_direction G
  else 0

/-- The function `sort_pairs_by_filename`. -/
def sort_pairs_by_filename (G : globals) (f1 f2 : file_t) : Int :=
  let po := sort_pairs_by_param_order G f1 f2
  if po ≠ 0 then po
  else G.numeric_sort f1.d_name f2.d_name (sort_direction G)

/-- The comparison `main` hands to `registerpair`. -/
def comparef (G : globals) : file_t → file_t → Int :=
  if G.ordertype = ordertype_t.ORDER_TIME then sort_pairs_by_mtime G
  else sort_pairs_by_filename G

/-- The `while (traverse)` loop of `registerpair`. `head` is the current value of
`*matchlist`; the result holds the records and the final value of `*matchlist`. The
loop follows `duplicates` pointers, so it takes fuel and yields `none` when the fuel
runs out before it exits. -/
def registerpair_loop (cmp : file_t → file_t → Int) (newmatch : Nat) :
    Nat → (Nat → file_t) → Nat → Option Nat → Option Nat → Option ((Nat → file_t) × Nat)
  | _, fs, head, _, none => some (fs, head)
  | 0, _, _, _, some _ => none
  | fuel + 1, fs, head, back, some traverse =>
    if cmp (fs newmatch) (fs traverse) ≤ 0 then
      let fs := link_duplicates fs newmatch (some traverse)
      match back with
      | none =>
        let fs := mark_has_dupes fs newmatch true
        let fs := mark_has_dupes fs traverse false
        some (fs, newmatch)
      | some b =>
        some (link_duplicates fs b (some newmatch), head)
    else if (fs traverse).duplicates = none then
      let fs := link_duplicates fs traverse (some newmatch)
      let fs :=
        if back = none then mark_has_dupes fs traverse true
        else fs
      some (fs, head)
    else
      registerpair_loop cmp newmatch fuel fs head (some traverse) (fs traverse).duplicates

/-- The function `registerpair`: `head` is `*matchlist` on entry, the second
component of the result is `*matchlist` on exit. -/
def registerpair (cmp : file_t → file_t → Int) (fuel : Nat) (fs : Nat → file_t)
    (head newmatch : Nat) : Option ((Nat → file_t) × Nat) :=
  let fs := mark_has_dupes fs head true
  registerpair_loop cmp newmatch fuel fs head none (some head)

/-! ## The match engine -/

/-- The part of the body of the main loop that follows a non-`NULL` result of
`checkmatch` (lines 1876-1924): `p` is the returned pointer, `n` the number of
candidates (fuel for the chain walk). -/
def main_match (G : globals) (n : Nat) (st : scan_state) (curfile : Nat)
    (p : List tree_direction) : Option scan_state :=
  match st.checktree.slot p with
  | none => none
  | some m =>
    let register : Option scan_state :=
      (registerpair (comparef G) n st.files m curfile).map
        (fun q => { st with files := q.1, checktree := st.checktree.setslot p q.2 })
    if G.flags.F_QUICKCOMPARE ∨
        (G.flags.F_CONSIDERHARDLINKS ∧ (st.files curfile).inode = (st.files m).inode ∧
          (st.files curfile).device = (st.files m).device) then
      register
    else
      match G.fopen (st.files curfile).d_name with
      | none => some st
      | some file1 =>
        match G.fopen (st.files m).d_name with
        | none => some st
        | some file2 =>
          let st := { st with trace := st.trace ++ [event.confirm curfile m] }
          if confirmmatch G file1 file2 ≠ 0 then
            (registerpair (comparef G) n st.files m curfile).map
              (fun q => { st with files := q.1, checktree := st.checktree.setslot p q.2 })
          else some st

/-- One pass through the body of the main loop of `main` for the record `curfile`. -/
def main_body (G : globals) (n : Nat) (st : scan_state) (curfile : Nat) : Option scan_state :=
  match st.checktree with
  | filetree_t.nil =>
    some { st with checktree := registerfile st.checktree tree_direction.NONE curfile }
  | filetree_t.node f l r =>
    let res := checkmatch G (filetree_t.node f l r) curfile st.files st.trace
    let st : scan_state := { files := res.files, checktree := res.tree, trace := res.trace }
    match res.ret with
    | none => some st
    | some p => main_match G n st curfile p

/-- The state in which the main loop starts: the candidate list as the walker left
it, an empty tree. -/
def scan_init (cands : List file_t) : scan_state :=
  { files := fun i => cands.getD i default, checktree := filetree_t.nil, trace := [] }

/-- The state after the first `k` passes through the main loop. -/
def scan_upto (G : globals) (cands : List file_t) : Nat → Option scan_state
  | 0 => some (scan_init cands)
  | k + 1 => (scan_upto G cands k).bind (fun st => main_body G cands.length st k)

/-- The whole scan: the main loop run over the candidate list. -/
def scan (G : globals) (cands : List file_t) : Option scan_state :=
  scan_upto G cands cands.length

/-! ## Reading the result -/

/-- The records reached from `h` along `duplicates`, `h` first, the way the
consumers of the scan walk a chain; at most `fuel + 1` of them. -/
def dupchain (fs : Nat → file_t) : Nat → Nat → List Nat
  | 0, h => [h]
  | fuel + 1, h =>
    h :: (match (fs h).duplicates with
          | none => []
          | some x => dupchain fs fuel x)

/-- The groups a consumer finds: for each record of the list with `F_HAS_DUPES`, in
list order, its chain. -/
def groups (n : Nat) (fs : Nat → file_t) : List (List Nat) :=
  ((List.range n).filter (fun h => (fs h).F_HAS_DUPES)).map (dupchain fs n)

/-- What the walker leaves in the mutable part of a record (`grokdir`, lines
690-693): no hash, no chain link, no group-head bit. -/
def walker_fresh (f : file_t) : Prop :=
  f.F_HASH_PARTIAL = false ∧ f.F_HASH_FULL = false ∧ f.F_HAS_DUPES = false ∧
    f.duplicates = none

instance (f : file_t) : Decidable (walker_fresh f) := by
  unfold walker_fresh; infer_instance

/-! ## Vocabulary of the properties -/

/-- The part of a record that the walker fills and the scan never writes: the
record with its hash caches, chain link and the three scan-owned flag bits reset. -/
def stat_of (f : file_t) : file_t :=
  { f with filehash := 0, filehash_partial := 0, duplicates := none,
           F_HASH_PARTIAL := false, F_HASH_FULL := false, F_HAS_DUPES := false }

/-- Two records are linked: same inode on the same device. -/
def linked (f g : file_t) : Prop :=
  f.inode = g.inode ∧ f.device = g.device

instance (f g : file_t) : Decidable (linked f g) := by
  unfold linked; infer_instance

/-- How `checkmatch` may change a record: the walker part, the chain link and the
group-head bit stay, and a hash cache that is filled keeps its bit and its value. -/
def hash_evolves (f g : file_t) : Prop :=
  stat_of g = stat_of f ∧ g.duplicates = f.duplicates ∧ g.F_HAS_DUPES = f.F_HAS_DUPES ∧
  (f.F_HASH_PARTIAL = true →
    g.F_HASH_PARTIAL = true ∧ file_t.filehash_partial g = file_t.filehash_partial f) ∧
  (f.F_HASH_FULL = true → g.F_HASH_FULL = true ∧ g.filehash = f.filehash)

/-- The hash-cache invariant of a record: a computed full hash comes with a computed
partial hash, and for a file of at most `PARTIAL_HASH_SIZE` bytes the two cached
values agree. -/
def hash_cache_ok (f : file_t) : Prop :=
  (f.F_HASH_FULL = true → f.F_HASH_PARTIAL = true) ∧
  (f.F_HASH_FULL = true → f.size ≤ (PARTIAL_HASH_SIZE : Int) →
    f.filehash = file_t.filehash_partial f)

/-- How `registerpair` may change a record: the walker part and the hash caches
stay. -/
def link_evolves (f g : file_t) : Prop :=
  stat_of g = stat_of f ∧ g.F_HASH_PARTIAL = f.F_HASH_PARTIAL ∧
  file_t.filehash_partial g = file_t.filehash_partial f ∧
  g.F_HASH_FULL = f.F_HASH_FULL ∧ g.filehash = f.filehash

/-- The record `b` is reached from `a` along `duplicates` pointers. -/
def reach (fs : Nat → file_t) : Nat → Nat → Prop :=
  Relation.ReflTransGen (fun i j => (fs i).duplicates = some j)

/-- The three ways `registerpair` can leave the heap, read from the records `fs` on
entry: the newcomer `nm` becomes the head of the chain of `h0`; or it is linked
between a member `b` and its successor `t`; or it is linked behind the last member
`t`. `h'` is the final value of `*matchlist`. -/
def pair_registered (fs : Nat → file_t) (h0 nm : Nat) (fs' : Nat → file_t) (h' : Nat) : Prop :=
  (∀ i, link_evolves (fs i) (fs' i)) ∧
  ((h' = nm ∧ ∀ i,
      (fs' i).duplicates = (if i = nm then some h0 else (fs i).duplicates) ∧
      (fs' i).F_HAS_DUPES =
        (if i = h0 then false else if i = nm then true else (fs i).F_HAS_DUPES)) ∨
   (h' = h0 ∧ ∃ b t, reach fs h0 b ∧ (fs b).duplicates = some t ∧ ∀ i,
      (fs' i).duplicates =
        (if i = b then some nm else if i = nm then some t else (fs i).duplicates) ∧
      (fs' i).F_HAS_DUPES = (if i = h0 then true else (fs i).F_HAS_DUPES)) ∨
   (h' = h0 ∧ ∃ t, reach fs h0 t ∧ (fs t).duplicates = none ∧ ∀ i,
      (fs' i).duplicates = (if i = t then some nm else (fs i).duplicates) ∧
      (fs' i).F_HAS_DUPES = (if i = h0 then true else (fs i).F_HAS_DUPES)))

/-- The shape of the chains after `k` passes of the main loop. `rk` is a ghost rank
that falls along every `duplicates` pointer (so chains are finite). Pointers stay
among the processed records; no record has two predecessors; the record of a tree
node has none; a record with `F_HAS_DUPES` is the record of a tree node and has a
successor, and a tree node's record with a successor has `F_HAS_DUPES`; no record is
held by two nodes; the records not yet processed carry no link and no flag. `nf`
lists the records of the tree nodes. -/
structure chain_inv (k : Nat) (fs : Nat → file_t) (nf : List Nat) (rk : Nat → ℚ) :
    Prop where
  edges : ∀ i j, (fs i).duplicates = some j → i < k ∧ j < k ∧ rk j < rk i
  inj : ∀ i j x, (fs i).duplicates = some x → (fs j).duplicates = some x → i = j
  nodes : ∀ h, h ∈ nf → h < k ∧ ∀ i, (fs i).duplicates ≠ some h
  heads : ∀ i, (fs i).F_HAS_DUPES = true → i ∈ nf ∧ (fs i).duplicates ≠ none
  flagged : ∀ h, h ∈ nf → (fs h).duplicates ≠ none → (fs h).F_HAS_DUPES = true
  nodup : nf.Nodup
  fresh : ∀ i, k ≤ i → (fs i).duplicates = none ∧ (fs i).F_HAS_DUPES = false

/-- Why the main loop registers the pair `(m, c)`: `check_conditions` gave 2 or 0 for
it, and either quick mode is on, or hard links count and the two are linked, or both
files opened and `confirmmatch` returned non-zero. -/
def match_ok (G : globals) (fs : Nat → file_t) (m c : Nat) : Prop :=
  (check_conditions G.flags (fs m) (fs c) = 2 ∨ check_conditions G.flags (fs m) (fs c) = 0) ∧
  (G.flags.F_QUICKCOMPARE = true ∨
   (G.flags.F_CONSIDERHARDLINKS = true ∧ linked (fs c) (fs m)) ∨
   ∃ file1 file2, G.fopen (fs c).d_name = some file1 ∧ G.fopen (fs m).d_name = some file2 ∧
     confirmmatch G file1 file2 ≠ 0)

/-- What one pass of the main loop for the record `k` does to the state: first the
records change as `checkmatch` changes them (giving `fs1`); then either nothing is
registered and the tree is unchanged or has `k` as one more node, or `k` is
registered against the record `m` of a tree node. -/
def scan_step (G : globals) (k : Nat) (st st' : scan_state) : Prop :=
  ∃ fs1 : Nat → file_t,
    (∀ i, hash_evolves (st.files i) (fs1 i)) ∧
    (∀ i, i ∉ st.checktree.nodefiles → i ≠ k → fs1 i = st.files i) ∧
    ((∀ i, hash_cache_ok (st.files i)) → ∀ i, hash_cache_ok (fs1 i)) ∧
    ((st'.files = fs1 ∧
        (st'.checktree.nodefiles = st.checktree.nodefiles ∨
         List.Perm st'.checktree.nodefiles (k :: st.checktree.nodefiles))) ∨
     (∃ p m h', st.checktree.slot p = some m ∧ st'.checktree = st.checktree.setslot p h' ∧
        pair_registered fs1 m k st'.files h' ∧ match_ok G fs1 m k))

/-! ## Sample inputs

A small world used to run the definitions: the block hash is a polynomial in the
bytes, names compare by length, and the disk holds a few short files. -/

/-- A sample environment without option flags. -/
def sample_globals : globals where
  jody_block_hash := fun d h => d.foldl (fun a b => a * 31 + b) h
  numeric_sort := fun a b d =>
    if a.length < b.length then -d else if a.length = b.length then 0 else d
  fopen := fun p =>
    if p = "X/dup.bin" then some [7, 7, 7]
    else if p = "Y/dup.bin" then some [7, 7, 7]
    else if p = "X/copy.bin" then some [7, 7, 7]
    else if p = "a" then some [1, 2, 3]
    else if p = "b" then some [1, 2, 3]
    else if p = "c" then some [1, 2, 3]
    else if p = "d" then some [1, 2, 4]
    else none

/-- The sample environment with one-file-system and permission matching on. -/
def sample_globals_1p : globals :=
  { sample_globals with flags := { F_ONEFS := true, F_PERMISSIONS := true } }

/-- The sample environment with hard links counted as duplicates. -/
def sample_globals_H : globals :=
  { sample_globals with flags := { F_CONSIDERHARDLINKS := true } }

/-- Three candidates: `a` and `b` are hard links of one inode, `c` is a copy. -/
def sample_links : List file_t :=
  [ { d_name := "a", user_order := 1, size := 3, inode := 10, device := 1, F_VALID_STAT := true },
    { d_name := "b", user_order := 1, size := 3, inode := 10, device := 1, F_VALID_STAT := true },
    { d_name := "c", user_order := 1, size := 3, inode := 11, device := 1, F_VALID_STAT := true } ]

/-- Four candidates with the same bytes except `d`; `c` lives on another device. -/
def sample_mixed : List file_t :=
  [ { d_name := "a", user_order := 1, size := 3, inode := 10, device := 1, mode := 420,
      F_VALID_STAT := true },
    { d_name := "b", user_order := 1, size := 3, inode := 11, device := 1, mode := 420,
      F_VALID_STAT := true },
    { d_name := "c", user_order := 2, size := 3, inode := 12, device := 2, mode := 420,
      F_VALID_STAT := true },
    { d_name := "d", user_order := 2, size := 3, inode := 13, device := 1, mode := 420,
      F_VALID_STAT := true } ]

/-- The sample environment with isolation on and groups sorted by time. -/
def sample_globals_I : globals :=
  { sample_globals with flags := { F_ISOLATE := true }, ordertype := ordertype_t.ORDER_TIME }

/-- The sample environment with groups sorted by time. -/
def sample_globals_time : globals :=
  { sample_globals with ordertype := ordertype_t.ORDER_TIME }

/-- Two roots `X/` and `Y/`, each with one file `dup.bin` of the same bytes, as the
walker leaves them: the file of the root scanned last heads the list. -/
def sample_roots : List file_t :=
  [ { d_name := "Y/dup.bin", user_order := 2, size := 3, inode := 21, device := 1,
      F_VALID_STAT := true },
    { d_name := "X/dup.bin", user_order := 1, size := 3, inode := 20, device := 1,
      F_VALID_STAT := true } ]

/-- Root `X/` holds `dup.bin` and `copy.bin`, root `Y/` holds `dup.bin`; the three
files have the same bytes and rising modification times. -/
def sample_isolated : List file_t :=
  [ { d_name := "Y/dup.bin", user_order := 2, size := 3, inode := 21, device := 1, mtime := 0,
      F_VALID_STAT := true },
    { d_name := "X/dup.bin", user_order := 1, size := 3, inode := 20, device := 1, mtime := 1,
      F_VALID_STAT := true },
    { d_name := "X/copy.bin", user_order := 1, size := 3, inode := 22, device := 1, mtime := 2,
      F_VALID_STAT := true } ]

/-- The copy `c` first, then the two hard links `a` and `b` of one inode, with rising
modification times. -/
def sample_copy_links : List file_t :=
  [ { d_name := "c", user_order := 1, size := 3, inode := 11, device := 1, mtime := 0,
      F_VALID_STAT := true },
    { d_name := "a", user_order := 1, size := 3, inode := 10, device := 1, mtime := 1,
      F_VALID_STAT := true },
    { d_name := "b", user_order := 1, size := 3, inode := 10, device := 1, mtime := 2,
      F_VALID_STAT := true } ]

/-- The two hard links `a` and `b` alone. -/
def sample_two_links : List file_t :=
  [ { d_name := "a", user_order := 1, size := 3, inode := 10, device := 1, mtime := 1,
      F_VALID_STAT := true },
    { d_name := "b", user_order := 1, size := 3, inode := 10, device := 1, mtime := 2,
      F_VALID_STAT := true } ]

/-- The file of a record can be read over its whole size: the size is known, the
path opens, and the stream holds at least `size` bytes. -/
def readable (G : globals) (f : file_t) : Prop :=
  0 ≤ f.size ∧ ∃ bytes ∈ G.fopen f.d_name, f.size ≤ (bytes.length : Int)

/-- The partial hash of a file: what `get_filehash` returns for `max_read =
PARTIAL_HASH_SIZE` on a record without cached hash. -/
def partial_hash_of (G : globals) (f : file_t) : Option Nat :=
  get_filehash G (stat_of f) PARTIAL_HASH_SIZE

/-- The full hash of a file as `checkmatch` obtains it: the partial hash for a file
of at most `PARTIAL_HASH_SIZE` bytes, else what `get_filehash` returns for `max_read =
0` on a record that caches the partial hash. -/
def full_hash_of (G : globals) (f : file_t) : Option Nat :=
  if f.size ≤ (PARTIAL_HASH_SIZE : Int) then partial_hash_of G f
  else (partial_hash_of G f).bind (fun h =>
    get_filehash G { stat_of f with filehash_partial := h, F_HASH_PARTIAL := true } 0)

/-- The hash caches of a record hold the hashes of its file. -/
def hash_cache_true (G : globals) (f : file_t) : Prop :=
  (f.F_HASH_PARTIAL = true → partial_hash_of G f = some ( file_t.filehash_partial f)) ∧
  (f.F_HASH_FULL = true → full_hash_of G f = some f.filehash)

/-- The key by which `checkmatch` orders the tree when no exclusion fires: size, then
partial hash, then (for files above `PARTIAL_HASH_SIZE`) full hash. -/
def scan_key (G : globals) (f : file_t) : ℤ ×ₗ ℕ ×ₗ ℕ :=
  toLex (f.size, toLex ((partial_hash_of G f).getD 0,
    if f.size ≤ (PARTIAL_HASH_SIZE : Int) then 0 else (full_hash_of G f).getD 0))

/-- The tree is a search tree for the keys `key` of the records: the records of the
left subtree have smaller keys than the node's record, those of the right subtree
greater ones. -/
def bst (key : Nat → ℤ ×ₗ ℕ ×ₗ ℕ) : filetree_t → Prop
  | filetree_t.nil => True
  | filetree_t.node f l r =>
    (∀ x ∈ l.nodefiles, key x < key f) ∧ (∀ x ∈ r.nodefiles, key f < key x) ∧
    bst key l ∧ bst key r

instance (G : globals) (f : file_t) : Decidable (readable G f) := by
  unfold readable; infer_instance

/-- The log entry is a call of `confirmmatch`. -/
def event.is_confirm : event → Bool
  | event.confirm _ _ => true
  | event.hash _ _ => false

/-- The contents of a file of 64 KiB. -/
def sample_bytes : List Nat := List.replicate 65536 1

/-- A sample environment in which every path opens to the same 64 KiB of data. -/
def sample_globals_big : globals where
  jody_block_hash := fun d h => d.foldl (fun a b => a * 31 + b) h
  numeric_sort := fun a b d =>
    if a.length < b.length then -d else if a.length = b.length then 0 else d
  fopen := fun _ => some sample_bytes

/-- Three files `p`, `q`, `r` of 64 KiB each. -/
def sample_pqr : List file_t :=
  [ { d_name := "p", user_order := 1, size := 65536, inode := 30, device := 1,
      F_VALID_STAT := true },
    { d_name := "q", user_order := 1, size := 65536, inode := 31, device := 1,
      F_VALID_STAT := true },
    { d_name := "r", user_order := 1, size := 65536, inode := 32, device := 1,
      F_VALID_STAT := true } ]

/-! ## Streams with read failures -/

/-- Modelled from the spec: the stdio stream `FILE` is library code. A stream is the
bytes from the read position on, plus a schedule for the coming calls of `fread`:
`none` for a call that works, `some k` for a call that fails after `k` bytes. A
schedule that has run out means no further failure. -/
structure FILE where
  data : List Nat
  faults : List (Option Nat) := []
  deriving DecidableEq, Repr

/-- Modelled from the spec: the stdio call `fread(buf, 1, n, stream)`. It yields the
bytes read and the stream behind them; a failed call returns fewer bytes than are
available (possibly 0). -/
def fread (n : Nat) (stream : FILE) : List Nat × FILE :=
  match stream.faults with
  | some k :: rest => (stream.data.take (min k n), ⟨stream.data.drop (min k n), rest⟩)
  | none :: rest => (stream.data.take n, ⟨stream.data.drop n, rest⟩)
  | [] => (stream.data.take n, ⟨stream.data.drop n, []⟩)

/-- The `do ... while (r2)` loop of `confirmmatch` over two streams, for a value
`chunk` of the static `auto_chunk_size`. The fuel bounds the number of passes; `none`
means it ran out before the loop ended. -/
def confirmmatch_reads (chunk : Nat) : Nat → FILE → FILE → Option Int
  | fuel, file1, file2 =>
    let a := fread chunk file1
    let b := fread chunk file2
    let r1 := a.1.length
    let r2 := b.1.length
    if r1 ≠ r2 then some 0
    else if a.1 ≠ b.1 then some 0
    else if r2 ≠ 0 then
      match fuel with
      | 0 => none
      | fuel + 1 => confirmmatch_reads chunk fuel a.2 b.2
    else some 1

/-! ## The descent of `checkmatch` -/

/-- The call `checkmatch(tree, file)` on the records `fs` with log `tr` reaches the
node `sub` with the records `fs'` and the log `tr'`: either it is the call itself, or
the call compares below zero (above zero) at its node, the left (right) child is not
`NULL`, and the recursive call on that child reaches `sub`. -/
inductive checkmatch_visits (G : globals) (file : Nat) :
    filetree_t → (Nat → file_t) → List event →
    filetree_t → (Nat → file_t) → List event → Prop where
  | here (t : filetree_t) (fs : Nat → file_t) (tr : List event) :
    checkmatch_visits G file t fs tr t fs tr
  | left (tf : Nat) (l r : filetree_t) (fs fs1 : Nat → file_t) (tr tr1 : List event)
      (cmpresult : Int) (sub : filetree_t) (fs' : Nat → file_t) (tr' : List event) :
    check_conditions G.flags (fs tf) (fs file) ≠ 2 →
    check_conditions G.flags (fs tf) (fs file) ≠ -2 →
    (if check_conditions G.flags (fs tf) (fs file) = 0 then checkmatch_hashes G tf file fs tr
      else (fs, tr, some (check_conditions G.flags (fs tf) (fs file)))) =
      (fs1, tr1, some cmpresult) →
    cmpresult < 0 → l ≠ filetree_t.nil →
    checkmatch_visits G file l fs1 tr1 sub fs' tr' →
    checkmatch_visits G file (filetree_t.node tf l r) fs tr sub fs' tr'
  | right (tf : Nat) (l r : filetree_t) (fs fs1 : Nat → file_t) (tr tr1 : List event)
      (cmpresult : Int) (sub : filetree_t) (fs' : Nat → file_t) (tr' : List event) :
    check_conditions G.flags (fs tf) (fs file) ≠ 2 →
    check_conditions G.flags (fs tf) (fs file) ≠ -2 →
    (if check_conditions G.flags (fs tf) (fs file) = 0 then checkmatch_hashes G tf file fs tr
      else (fs, tr, some (check_conditions G.flags (fs tf) (fs file)))) =
      (fs1, tr1, some cmpresult) →
    ¬ cmpresult < 0 → cmpresult > 0 → r ≠ filetree_t.nil →
    checkmatch_visits G file r fs1 tr1 sub fs' tr' →
    checkmatch_visits G file (filetree_t.node tf l r) fs tr sub fs' tr'

/-- One of the calls of `get_filehash` that the hash block of `checkmatch` (lines
1152-1202) makes for the node's record `tf` and the incoming record `file` returns
`NULL`: the partial hash of `tf`, the partial hash of `file`, or, when the file is
larger than `PARTIAL_HASH_SIZE` and the partial hashes agree, the full hash of `tf`
or the full hash of `file`. A hash is asked for only while its cache bit is clear. -/
def hash_failure (G : globals) (tf file : Nat) (fs : Nat → file_t) : Prop :=
  ((fs tf).F_HASH_PARTIAL = false ∧ get_filehash G (fs tf) PARTIAL_HASH_SIZE = none) ∨
  (∃ fs1, partial_hash_step G fs tf = some fs1 ∧
    (fs1 file).F_HASH_PARTIAL = false ∧ get_filehash G (fs1 file) PARTIAL_HASH_SIZE = none) ∨
  (∃ fs1 fs2, partial_hash_step G fs tf = some fs1 ∧ partial_hash_step G fs1 file = some fs2 ∧
    ¬ (fs2 file).size ≤ (PARTIAL_HASH_SIZE : Int) ∧
    HASH_COMPARE ( file_t.filehash_partial (fs2 file)) ( file_t.filehash_partial (fs2 tf)) = 0 ∧
    (((fs2 tf).F_HASH_FULL = false ∧ get_filehash G (fs2 tf) 0 = none) ∨
     ∃ fs3, full_hash_step G fs2 tf = some fs3 ∧
       (fs3 file).F_HASH_FULL = false ∧ get_filehash G (fs3 file) 0 = none))

/-- Two candidates of three bytes; the file `gone` cannot be opened. -/
def sample_unreadable : List file_t :=
  [ { d_name := "gone", user_order := 1, size := 3, inode := 40, device := 1,
      F_VALID_STAT := true },
    { d_name := "a", user_order := 1, size := 3, inode := 10, device := 1,
      F_VALID_STAT := true } ]

/-- The state of the scan of `sample_unreadable` after the first pass of the main
loop: the tree is the one node of `gone`. -/
def sample_unreadable_state : scan_state :=
  { files := fun i => sample_unreadable.getD i default,
    checktree := filetree_t.node 0 filetree_t.nil filetree_t.nil,
    trace := [] }

/-- Root `X/` holds the two hard links `dup.bin` and `copy.bin` of one inode, root
`Y/` holds a copy `dup.bin` with the same bytes. The candidate list as the walker
leaves it for the command line `Y X`: the files of `X/`, scanned last, come first. -/
def sample_order_YX : List file_t :=
  [ { d_name := "X/dup.bin", user_order := 2, size := 3, inode := 20, device := 1, mtime := 1,
      F_VALID_STAT := true },
    { d_name := "X/copy.bin", user_order := 2, size := 3, inode := 20, device := 1, mtime := 2,
      F_VALID_STAT := true },
    { d_name := "Y/dup.bin", user_order := 1, size := 3, inode := 21, device := 1, mtime := 0,
      F_VALID_STAT := true } ]

/-- The same files for the command line `X Y`: the file of `Y/` comes first. -/
def sample_order_XY : List file_t :=
  [ { d_name := "Y/dup.bin", user_order := 2, size := 3, inode := 21, device := 1, mtime := 0,
      F_VALID_STAT := true },
    { d_name := "X/dup.bin", user_order := 1, size := 3, inode := 20, device := 1, mtime := 1,
      F_VALID_STAT := true },
    { d_name := "X/copy.bin", user_order := 1, size := 3, inode := 20, device := 1, mtime := 2,
      F_VALID_STAT := true } ]

/-- The groups of a finished scan as lists of paths. -/
def group_paths (cands : List file_t) (st : scan_state) : List (List String) :=
  (groups cands.length st.files).map (fun g => g.map (fun i => (st.files i).d_name))

/-! ## The path walker -/

/-- The fields of `struct stat` that the walker reads. -/
structure stat_t where
  st_ino : Nat := 0
  st_dev : Nat := 0
  st_size : Int := 0
  st_mtime : Int := 0
  st_mode : Nat := 0
  st_uid : Nat := 0
  st_gid : Nat := 0
  deriving DecidableEq, Repr

/-- The system interface of the walker, a parameter of the model: `stat` and `lstat`
(`none` when the call fails), the entry names `opendir`/`readdir` deliver for a
directory (`none` when `opendir` fails), and the file-type tests of `sys/stat.h`. -/
structure filesystem where
  stat : String → Option stat_t
  lstat : String → Option stat_t
  readdir : String → Option (List String)
  S_ISDIR : Nat → Bool
  S_ISREG : Nat → Bool
  S_ISLNK : Nat → Bool

/-- The `excludetype` enumeration of the source. -/
inductive excludetype_t where
  | SMALLERTHAN
  | LARGERTHAN
  deriving DecidableEq, Repr

/-- What the walker reads from its surroundings: the flag word, the `--xsize` statics
`excludetype` and `excludesize`, and the file system. -/
structure walk_env where
  flags : flags_t := {}
  excludetype : excludetype_t := excludetype_t.SMALLERTHAN
  excludesize : Nat := 0
  fs : filesystem

/-- The tree `struct travdone` of directories already traversed. -/
inductive travdone where
  | nil
  | node (inode device : Nat) (left right : travdone)
  deriving DecidableEq, Repr

/-- The state of the walker: the tree `travdone_head`, the candidate list `*filelistp`
(newest first), and a ghost log of the lookups in the tree: the pair looked up and
whether the answer was "already seen". -/
structure walk_state where
  travdone_head : travdone := travdone.nil
  files : List file_t := []
  lookups : List ((Nat × Nat) × Bool) := []

/-- The double-traversal check of `grokdir` (lines 574-605): `none` when the pair is
found in the tree ("already seen"), else the tree with the pair added where the
search ended. Allocation is taken to succeed. -/
def travdone_visit : travdone → Nat → Nat → Option travdone
  | travdone.nil, inode, device => some (travdone.node inode device travdone.nil travdone.nil)
  | travdone.node ti td l r, inode, device =>
    if inode = ti ∧ device = td then none
    else if inode > ti ∨ (inode = ti ∧ device > td) then
      (travdone_visit r inode device).map (fun r' => travdone.node ti td l r')
    else
      (travdone_visit l inode device).map (fun l' => travdone.node ti td l' r)

/-- The cast `(off_t)excludesize` from the unsigned 64-bit `uintmax_t` to the signed
64-bit `off_t`. -/
def off_t_cast (x : Nat) : Int :=
  if x % 2 ^ 64 < 2 ^ 63 then ((x % 2 ^ 64 : Nat) : Int) else ((x % 2 ^ 64 : Nat) : Int) - 2 ^ 64

/-- The size test of `grokdir` (lines 729-732). -/
def xsize_excluded (excludetype : excludetype_t) (excludesize : Nat) (size : Int) : Prop :=
  (excludetype = excludetype_t.SMALLERTHAN ∧ size < off_t_cast excludesize) ∨
  (excludetype = excludetype_t.LARGERTHAN ∧ size > off_t_cast excludesize)

instance (t : excludetype_t) (e : Nat) (s : Int) : Decidable (xsize_excluded t e s) := by
  unfold xsize_excluded; infer_instance

/-- The values the `case 'x'` of the option switch of `main` (lines 1652-1682)
computes, reached with `excludetype` at its initial value `SMALLERTHAN`. `plus` says
whether the argument starts with `+`, `N` is the value `strtoull` returns for the rest
and `endptr` the characters it leaves unread. The result is `excludetype` and
`excludesize`, computed in `uintmax_t`; `none` is the exit on an invalid value. The
stores into the statics of the walker, `SETFLAG(flags, F_EXCLUDESIZE)` among them,
are in `main_case_x`. -/
def xsize_option (plus : Bool) (N : Nat) (endptr : List Char) :
    Option (excludetype_t × Nat) :=
  let excludetype := if plus then excludetype_t.LARGERTHAN else excludetype_t.SMALLERTHAN
  match endptr with
  | [] => some (excludetype, N)
  | c :: rest =>
    if c = 'k' ∨ c = 'K' then
      if rest = [] then some (excludetype, N * 1024 % 2 ^ 64) else none
    else if c = 'm' ∨ c = 'M' then
      if rest = [] then some (excludetype, N * 1024 % 2 ^ 64 * 1024 % 2 ^ 64) else none
    else if c = 'g' ∨ c = 'G' then
      if rest = [] then
        some (excludetype, N * 1024 % 2 ^ 64 * 1024 % 2 ^ 64 * 1024 % 2 ^ 64)
      else none
    else none

/-- The function `getfilestats`: the return value and the record it leaves. -/
def getfilestats (fs : filesystem) (file : file_t) : Int × file_t :=
  if file.F_VALID_STAT then (0, file)
  else
    let file := { file with F_VALID_STAT := true }
    match fs.stat file.d_name with
    | none => (-1, file)
    | some s =>
      let file := { file with inode := s.st_ino, size := s.st_size, device := s.st_dev,
                              mtime := s.st_mtime, mode := s.st_mode, uid := s.st_uid,
                              gid := s.st_gid }
      match fs.lstat file.d_name with
      | none => (-1, file)
      | some l =>
        (0, if fs.S_ISLNK l.st_mode then { file with F_IS_SYMLINK := true } else file)

/-- The function `getdirstats`: `none` is the return value -1. -/
def getdirstats (fs : filesystem) (name : String) : Option (Nat × Nat) :=
  (fs.stat name).map (fun s => (s.st_ino, s.st_dev))

/-- The path `grokdir` assembles in `tempname` for an entry (lines 653-665), with `/`
as `dir_sep`. The path buffer is taken to be large enough. -/
def entry_path (dir name : String) : String :=
  if dir ≠ "" ∧ dir.back ≠ '/' then dir ++ "/" ++ name else dir ++ name

/-- The body of the `readdir` loop of `grokdir` for one entry `name` of the directory
`dir` on device `device` (lines 640-808). `grok` stands for the recursive call of
`grokdir`. `basename` of the assembled path is the entry name. -/
def grok_entry (E : walk_env) (user_dir_count device : Nat) (recurse : Bool)
    (grok : String → walk_state → Option walk_state) (dir name : String)
    (st : walk_state) : Option walk_state :=
  if name = "." ∨ name = ".." then some st
  else
    let newfile : file_t := { d_name := entry_path dir name, user_order := user_dir_count }
    if E.flags.F_EXCLUDEHIDDEN ∧ name.data.head? = some '.' then some st
    else
      let i := (getfilestats E.fs newfile).1
      let newfile := (getfilestats E.fs newfile).2
      if i ≠ 0 ∨ newfile.size = -1 then some st
      else if ¬ E.fs.S_ISDIR newfile.mode ∧ newfile.size = 0 ∧ ¬ E.flags.F_INCLUDEEMPTY then
        some st
      else if ¬ E.fs.S_ISDIR newfile.mode ∧ E.flags.F_EXCLUDESIZE ∧
          xsize_excluded E.excludetype E.excludesize newfile.size then some st
      else
        match E.fs.lstat newfile.d_name with
        | none => some st
        | some linfo =>
          if E.fs.S_ISDIR newfile.mode then
            if recurse then
              if E.flags.F_ONEFS ∧
                  (∃ n ∈ getdirstats E.fs newfile.d_name, device ≠ n.2) then some st
              else if ¬ E.fs.S_ISLNK linfo.st_mode then grok newfile.d_name st
              else some st
            else some st
          else if E.fs.S_ISREG linfo.st_mode ∨
              (E.fs.S_ISLNK linfo.st_mode ∧ E.flags.F_FOLLOWLINKS) then
            some { st with files := newfile :: st.files }
          else some st

/-- The `readdir` loop over the entries of a directory. -/
def grok_entries (step : String → walk_state → Option walk_state) :
    List String → walk_state → Option walk_state
  | [], st => some st
  | name :: rest, st =>
    match step name st with
    | none => none
    | some st' => grok_entries step rest st'

/-- The function `grokdir`. The fuel bounds the depth of the recursion; `none` means
it ran out. A directory whose `stat` or `opendir` fails is left with a warning. -/
def grokdir (E : walk_env) (user_dir_count : Nat) :
    Nat → String → Bool → walk_state → Option walk_state
  | 0, _, _, _ => none
  | fuel + 1, dir, recurse, st =>
    match getdirstats E.fs dir with
    | none => some st
    | some (inode, device) =>
      match travdone_visit st.travdone_head inode device with
      | none => some { st with lookups := st.lookups ++ [((inode, device), true)] }
      | some t =>
        let st := { st with travdone_head := t,
                            lookups := st.lookups ++ [((inode, device), false)] }
        match E.fs.readdir dir with
        | none => some st
        | some entries =>
          grok_entries
            (grok_entry E user_dir_count device recurse
              (fun d s => grokdir E user_dir_count fuel d recurse s) dir)
            entries st

/-- The loops of `main` over the roots (lines 1812-1833): each root comes with the
`recurse` argument `main` passes for it, and `user_dir_count` goes up by one per
root. -/
def grok_roots (E : walk_env) (fuel : Nat) :
    List (String × Bool) → Nat → walk_state → Option walk_state
  | [], _, st => some st
  | root :: rest, user_dir_count, st =>
    match grokdir E user_dir_count fuel root.1 root.2 st with
    | none => none
    | some st' => grok_roots E fuel rest (user_dir_count + 1) st'

/-- The pairs held by the tree of traversed directories, left to right. -/
def travdone.keys : travdone → List (Nat × Nat)
  | travdone.nil => []
  | travdone.node i d l r => l.keys ++ (i, d) :: r.keys

/-- The order in which the tree of traversed directories is searched: by inode, then
by device. -/
def travdone_lt (a b : Nat × Nat) : Prop :=
  a.1 < b.1 ∨ (a.1 = b.1 ∧ a.2 < b.2)

/-- The tree of traversed directories is a search tree. -/
def travdone.ordered : travdone → Prop
  | travdone.nil => True
  | travdone.node i d l r =>
    (∀ k ∈ l.keys, travdone_lt k (i, d)) ∧ (∀ k ∈ r.keys, travdone_lt (i, d) k) ∧
    l.ordered ∧ r.ordered

/-- The answers of the lookups are right: read from the start, with `seen` the pairs
recorded before, a lookup answers "already seen" exactly for a pair recorded
earlier, and every lookup leaves its pair recorded. -/
def lookups_ok : List (Nat × Nat) → List ((Nat × Nat) × Bool) → Prop
  | _, [] => True
  | seen, (k, b) :: rest => (b = true ↔ k ∈ seen) ∧ lookups_ok (k :: seen) rest

/-- The directories the walker went on to enumerate: the pairs of the lookups
answered "not seen", in order. -/
def enumerated (lookups : List ((Nat × Nat) × Bool)) : List (Nat × Nat) :=
  (lookups.filter (fun e => !e.2)).map Prod.fst

/-- The invariant of the walker for a set `S` of directory identities: the tree of
traversed directories is a search tree, holds pairs of `S` only, holds exactly the
pairs that were looked up, and every lookup was answered rightly. -/
def walk_inv (S : Finset (Nat × Nat)) (st : walk_state) : Prop :=
  st.travdone_head.ordered ∧ (∀ k ∈ st.travdone_head.keys, k ∈ S) ∧
  (∀ k, k ∈ st.travdone_head.keys ↔ k ∈ st.lookups.map Prod.fst) ∧
  lookups_ok [] st.lookups

/-- A sample file system with a loop: every directory has the entries `sub` and `f`,
every path that ends in `f` is a regular file of three bytes, and every other path is
one and the same directory (inode 1 on device 1), so `R/sub` is `R` again. -/
def sample_fs_loop : filesystem where
  stat := fun p =>
    if p.back = 'f' then some { st_ino := 5, st_dev := 1, st_size := 3, st_mode := 1 }
    else some { st_ino := 1, st_dev := 1, st_mode := 2 }
  lstat := fun p =>
    if p.back = 'f' then some { st_ino := 5, st_dev := 1, st_size := 3, st_mode := 1 }
    else some { st_ino := 1, st_dev := 1, st_mode := 2 }
  readdir := fun _ => some ["sub", "f"]
  S_ISDIR := fun m => m == 2
  S_ISREG := fun m => m == 1
  S_ISLNK := fun m => m == 3

/-- The walker on the sample file system with a loop, recursion on. -/
def sample_walk_loop : walk_env where
  flags := { F_RECURSE := true }
  fs := sample_fs_loop

/-- A sample file system with a symlinked directory: the root `R` holds the real
directory `R/dir` (inode 3) and the symlink `R/link` to another directory (inode 2);
each of the two directories holds one regular file `f`. -/
def sample_fs_link : filesystem where
  stat := fun p =>
    if p = "R" then some { st_ino := 1, st_dev := 1, st_mode := 2 }
    else if p = "R/dir" then some { st_ino := 3, st_dev := 1, st_mode := 2 }
    else if p = "R/link" then some { st_ino := 2, st_dev := 1, st_mode := 2 }
    else if p = "R/dir/f" then some { st_ino := 6, st_dev := 1, st_size := 3, st_mode := 1 }
    else if p = "R/link/f" then some { st_ino := 7, st_dev := 1, st_size := 3, st_mode := 1 }
    else none
  lstat := fun p =>
    if p = "R" then some { st_ino := 1, st_dev := 1, st_mode := 2 }
    else if p = "R/dir" then some { st_ino := 3, st_dev := 1, st_mode := 2 }
    else if p = "R/link" then some { st_ino := 8, st_dev := 1, st_mode := 3 }
    else if p = "R/dir/f" then some { st_ino := 6, st_dev := 1, st_size := 3, st_mode := 1 }
    else if p = "R/link/f" then some { st_ino := 7, st_dev := 1, st_size := 3, st_mode := 1 }
    else none
  readdir := fun p =>
    if p = "R" then some ["link", "dir"]
    else if p = "R/dir" then some ["f"]
    else if p = "R/link" then some ["f"]
    else none
  S_ISDIR := fun m => m == 2
  S_ISREG := fun m => m == 1
  S_ISLNK := fun m => m == 3

/-- The walker on the sample file system with a symlinked directory, with recursion
(`-r`) and follow-symlinks (`-s`) on. -/
def sample_walk_link : walk_env where
  flags := { F_RECURSE := true, F_FOLLOWLINKS := true }
  fs := sample_fs_link

/-- The factor the `--xsize` suffix stands for: none for 1, `K` for 1024, `M` for
1024², `G` for 1024³ (either case); `none` for any other rest of the argument. -/
def suffix_multiplier (endptr : List Char) : Option Nat :=
  match endptr with
  | [] => some 1
  | [c] =>
    if c = 'k' ∨ c = 'K' then some 1024
    else if c = 'm' ∨ c = 'M' then some (1024 * 1024)
    else if c = 'g' ∨ c = 'G' then some (1024 * 1024 * 1024)
    else none
  | _ => none

/-! ## Printing the groups (`act_printmatches.c`) -/

/-- What a consumer has written to the two output streams. -/
structure output_t where
  stdout : String := ""
  stderr : String := ""
  deriving DecidableEq, Repr

/-- Modelled from the spec: `fwprint` of `jody_win_unicode.h` is not among the
sources. It writes the string to the stream and, when `cr` is not 0, a newline after
it; `out` is what the stream holds so far. -/
def fwprint (out : String) (str : String) (cr : Bool) : String :=
  out ++ str ++ (if cr then "\n" else "")

/-- The `printf` of the size header of `printmatches` (lines 20-21). -/
def print_size_header (out : String) (size : Int) : String :=
  out ++ toString size ++ " byte" ++ (if size ≠ 1 then "s" else " ") ++ " each:\n"

/-- The `while (tmpfile != NULL)` loop of `printmatches`; `none` when the fuel runs
out before the chain ends. -/
def printmatches_chain (fs : Nat → file_t) : Nat → Option Nat → String → Option String
  | _, none, out => some out
  | 0, some _, _ => none
  | fuel + 1, some tmpfile, out =>
    printmatches_chain fs fuel (fs tmpfile).duplicates (fwprint out (fs tmpfile).d_name true)

/-- The `while (files != NULL)` loop of `printmatches` over the candidate list, given
as the list of the records from `files` on; the state is the text on `stdout` and
the variable `printed`. -/
def printmatches_loop (flags : flags_t) (n : Nat) (fs : Nat → file_t) :
    List Nat → String → Bool → Option (String × Bool)
  | [], out, printed => some (out, printed)
  | files :: next, out, printed =>
    if (fs files).F_HAS_DUPES then
      let out :=
        if ¬ flags.F_OMITFIRST then
          fwprint (if flags.F_SHOWSIZE then print_size_header out (fs files).size else out)
            (fs files).d_name true
        else out
      match printmatches_chain fs n (fs files).duplicates out with
      | none => none
      | some out =>
        printmatches_loop flags n fs next (if next ≠ [] then fwprint out "" true else out) true
    else printmatches_loop flags n fs next out printed

/-- The function `printmatches` on a candidate list of `n` records. -/
def printmatches (flags : flags_t) (n : Nat) (fs : Nat → file_t) : Option output_t :=
  (printmatches_loop flags n fs (List.range n) "" false).map (fun r =>
    { stdout := r.1,
      stderr := if r.2 = false then fwprint "" "No duplicates found." true else "" })

/-- The `while (tmpfile != NULL)` loop of `jsonoutput`. -/
def jsonoutput_chain (fs : Nat → file_t) : Nat → Option Nat → String → Option String
  | _, none, out => some out
  | 0, some _, _ => none
  | fuel + 1, some tmpfile, out =>
    jsonoutput_chain fs fuel (fs tmpfile).duplicates
      (fwprint (fwprint (fwprint out ",\"" false) (fs tmpfile).d_name false) "\"" false)

/-- The `while (files != NULL)` loop of `jsonoutput`. -/
def jsonoutput_loop (flags : flags_t) (n : Nat) (fs : Nat → file_t) :
    List Nat → String → Option String
  | [], out => some out
  | files :: next, out =>
    if (fs files).F_HAS_DUPES then
      let out := fwprint out "[" false
      let out :=
        if ¬ flags.F_OMITFIRST then
          fwprint (fwprint (fwprint out "\"" false) (fs files).d_name false) "\"" false
        else out
      match jsonoutput_chain fs n (fs files).duplicates out with
      | none => none
      | some out =>
        jsonoutput_loop flags n fs next (if next ≠ [] then fwprint out "]" true else out)
    else jsonoutput_loop flags n fs next out

/-- The function `jsonoutput` on a candidate list of `n` records: the text on
`stdout`. -/
def jsonoutput (flags : flags_t) (n : Nat) (fs : Nat → file_t) : Option String :=
  (jsonoutput_loop flags n fs (List.range n) (fwprint "" "[" true)).map (fun out =>
    fwprint out "]" true)

/-- Two candidates `a` and `b` with the same bytes, `a` the older one. -/
def sample_ab : List file_t :=
  [ { d_name := "a", user_order := 1, size := 3, inode := 10, device := 1, mtime := 1,
      F_VALID_STAT := true },
    { d_name := "b", user_order := 1, size := 3, inode := 11, device := 1, mtime := 2,
      F_VALID_STAT := true } ]

/-- The sample flag word with `--omitfirst`. -/
def sample_flags_omitfirst : flags_t := { F_OMITFIRST := true }

/-! ## Chunk sizing as the specification words it -/

/-- The chunk size as the specification words it, for a probed cache size `c`: half
of it, rounded up to a multiple of 4096, then clamped to `[4096, CHUNK_SIZE]`. -/
def chunk_size_spec (c : Nat) : Nat :=
  min (max ((c / 2 + 4095) / 4096 * 4096) 4096) CHUNK_SIZE

/-- A sample environment in which the probe reports 4096 bytes of L1 data cache. -/
def sample_globals_l1d : globals :=
  { sample_globals with l1d := 4096 }

/-- One of the three exclusions at the head of `check_conditions` applies to the pair:
isolation with equal `user_order`, one-file-system with different devices, or
permission matching with different mode, owner or group. -/
def exclusion_fires (flags : flags_t) (file1 file2 : file_t) : Prop :=
  (flags.F_ISOLATE = true ∧ file1.user_order = file2.user_order) ∨
  (flags.F_ONEFS = true ∧ file1.device ≠ file2.device) ∨
  (flags.F_PERMISSIONS = true ∧
    (file1.mode ≠ file2.mode ∨ file1.uid ≠ file2.uid ∨ file1.gid ≠ file2.gid))

instance (flags : flags_t) (file1 file2 : file_t) : Decidable (exclusion_fires flags file1 file2) := by
  unfold exclusion_fires; infer_instance

/-- The sample flag word with isolation on. -/
def sample_flags_isolate : flags_t := { F_ISOLATE := true }

/-- The sample flag word with isolation on and hard links counted as duplicates. -/
def sample_flags_isolate_H : flags_t := { F_ISOLATE := true, F_CONSIDERHARDLINKS := true }

/-- Two records of the same root with different inodes and sizes 3 and 5. -/
def sample_small : file_t := { d_name := "a", user_order := 1, size := 3, inode := 10, device := 1 }

/-- The larger of the two sample records. -/
def sample_large : file_t := { d_name := "e", user_order := 1, size := 5, inode := 14, device := 1 }


/-! ## The read loop with the chunk size as a parameter -/

/-- The read loop of `get_filehash` (lines 903-917) with the block mixer and the
value of the static `auto_chunk_size` as parameters. -/
def get_filehash_chunks (mix : List Nat → Nat → Nat) (chunk : Nat) :
    Nat → List Nat → Int → Nat → Option Nat
  | fuel, file, fsize, hash =>
    if fsize > 0 then
      let bytes_to_read : Nat := if fsize ≥ (chunk : Int) then chunk else fsize.toNat
      if bytes_to_read = 0 ∨ file.length < bytes_to_read then none
      else
        let hash := mix (file.take bytes_to_read) hash
        if (bytes_to_read : Int) > fsize then some hash
        else
          match fuel with
          | 0 => none
          | fuel + 1 =>
            get_filehash_chunks mix chunk fuel (file.drop bytes_to_read)
              (fsize - bytes_to_read) hash
    else some hash

/-- A record of 64 KiB whose path opens in the large sample environment. -/
def sample_p : file_t :=
  { d_name := "p", user_order := 1, size := 65536, inode := 30, device := 1,
    F_VALID_STAT := true }


/-! ## The rebalancing build (`USE_TREE_REBALANCE`) -/

/-- The search tree of the rebalancing build: a node also carries `left_weight` and
`right_weight`. The `parent` pointer of a node is read off the path from the root. -/
inductive USE_TREE_REBALANCE.filetree_t where
  | nil
  | node (file : Nat) (left_weight right_weight : Nat)
      (left right : USE_TREE_REBALANCE.filetree_t)
  deriving DecidableEq, Repr

/-- The number of nodes of a tree. -/
def USE_TREE_REBALANCE.filetree_t.count : USE_TREE_REBALANCE.filetree_t → Nat
  | .nil => 0
  | .node _ _ _ l r => l.count + r.count + 1

/-- The subtree hanging on side `d` of the node at the end of `path`. -/
def USE_TREE_REBALANCE.filetree_t.child : USE_TREE_REBALANCE.filetree_t →
    List tree_direction → tree_direction → Option USE_TREE_REBALANCE.filetree_t
  | .nil, _, _ => none
  | .node _ _ _ l _, [], tree_direction.LEFT => some l
  | .node _ _ _ _ r, [], tree_direction.RIGHT => some r
  | .node _ _ _ _ _, [], tree_direction.NONE => none
  | .node _ _ _ l _, tree_direction.LEFT :: p, d => l.child p d
  | .node _ _ _ _ r, tree_direction.RIGHT :: p, d => r.child p d
  | .node _ _ _ _ _, tree_direction.NONE :: _, _ => none

/-- The function `registerfile` of the rebalancing build (lines 946-987), on the whole
tree: `path` leads from the root to the node `*nodeptr`, and `none` is the abort on a
null `*nodeptr`. With direction `NONE` the new node becomes the tree. Otherwise the
node at the end of `path` takes the new node as its child on side `d` and the `switch`
increments its weight on that side; the loop that propagates weights then starts at
the new node, so its first pass increments that same weight once more, and each later
pass increments, in the next node up, the weight of the side the path came from. -/
def USE_TREE_REBALANCE.registerfile : USE_TREE_REBALANCE.filetree_t →
    List tree_direction → tree_direction → Nat → Option USE_TREE_REBALANCE.filetree_t
  | _, _, tree_direction.NONE, file => some (.node file 0 0 .nil .nil)
  | .nil, _, _, _ => none
  | .node f lw rw _ r, [], tree_direction.LEFT, file =>
    some (.node f (lw + 1 + 1) rw (.node file 0 0 .nil .nil) r)
  | .node f lw rw l _, [], tree_direction.RIGHT, file =>
    some (.node f lw (rw + 1 + 1) l (.node file 0 0 .nil .nil))
  | .node f lw rw l r, tree_direction.LEFT :: p, d, file =>
    (USE_TREE_REBALANCE.registerfile l p d file).map (fun l' => .node f (lw + 1) rw l' r)
  | .node f lw rw l r, tree_direction.RIGHT :: p, d, file =>
    (USE_TREE_REBALANCE.registerfile r p d file).map (fun r' => .node f lw (rw + 1) l r')
  | .node _ _ _ _ _, tree_direction.NONE :: _, _, _ => none

/-- Every node's `left_weight` is the number of nodes of its left subtree and its
`right_weight` the number of nodes of its right subtree. -/
def USE_TREE_REBALANCE.filetree_t.weights_are_counts : USE_TREE_REBALANCE.filetree_t → Bool
  | .nil => true
  | .node _ lw rw l r =>
    decide (lw = l.count) && decide (rw = r.count) &&
      l.weights_are_counts && r.weights_are_counts

/-- Every node's weight on a side is the number of nodes of the subtree on that side,
plus one when there is a subtree. -/
def USE_TREE_REBALANCE.filetree_t.weights_count_child_twice :
    USE_TREE_REBALANCE.filetree_t → Bool
  | .nil => true
  | .node _ lw rw l r =>
    decide (lw = l.count + (if l = .nil then 0 else 1)) &&
      decide (rw = r.count + (if r = .nil then 0 else 1)) &&
      l.weights_count_child_twice && r.weights_count_child_twice

/-- The trees that calls of `registerfile` build, made the way `main` and `checkmatch`
make them: the first call has direction `NONE`, a later one names a node and a side
on which that node has no child. -/
inductive USE_TREE_REBALANCE.built : USE_TREE_REBALANCE.filetree_t → Prop where
  | root (file : Nat) : USE_TREE_REBALANCE.built (.node file 0 0 .nil .nil)
  | branch (tree tree' : USE_TREE_REBALANCE.filetree_t) (path : List tree_direction)
      (d : tree_direction) (file : Nat) (h : USE_TREE_REBALANCE.built tree)
      (hfree : tree.child path d = some .nil)
      (hreg : USE_TREE_REBALANCE.registerfile tree path d file = some tree') :
      USE_TREE_REBALANCE.built tree'


/-- The tree of the rebalancing build after the first call of `registerfile`: the
record 0 alone. -/
def sample_weighted_root : USE_TREE_REBALANCE.filetree_t :=
  .node 0 0 0 .nil .nil

/-- The tree with the record 1 hung to the left of the record 0, with the weights
`registerfile` leaves. -/
def sample_weighted_pair : USE_TREE_REBALANCE.filetree_t :=
  .node 0 2 0 (.node 1 0 0 .nil .nil) .nil


/-! ## Chains as lists -/

/-- The list `L` is a whole chain of the heap: each record's `duplicates` is the next
record of the list, and the last one has none. -/
def is_chain (fs : Nat → file_t) : List Nat → Prop
  | [] => False
  | [x] => (fs x).duplicates = none
  | x :: y :: rest => (fs x).duplicates = some y ∧ is_chain fs (y :: rest)

/-- The list `L` with `nm` put immediately before its first element that satisfies
`p`, or at the end when there is none. -/
def insert_before_first (p : Nat → Bool) (nm : Nat) (L : List Nat) : List Nat :=
  L.takeWhile (fun e => !p e) ++ nm :: L.dropWhile (fun e => !p e)


/-- Three candidates of three bytes each: `d` and `a` carry the same inode but `d`
reads other bytes than `a`; `b` is a copy of `a` under another inode. -/
def sample_dab : List file_t :=
  [ { d_name := "d", user_order := 1, size := 3, inode := 10, device := 1, F_VALID_STAT := true },
    { d_name := "a", user_order := 1, size := 3, inode := 10, device := 1, F_VALID_STAT := true },
    { d_name := "b", user_order := 1, size := 3, inode := 11, device := 1, F_VALID_STAT := true } ]


/-- The state of the scan of `sample_links` after the first pass: the record 0 is the
root of the tree. -/
def sample_links_state : scan_state :=
  { files := (scan_init sample_links).files,
    checktree := registerfile filetree_t.nil tree_direction.NONE 0, trace := [] }


/-- The `case 'x'` of the option switch of `main` (lines 1652-1682) on the statics
the walker reads: `SETFLAG(flags, F_EXCLUDESIZE)`, `excludetype` set to `LARGERTHAN`
when the argument starts with `+` and left as it is otherwise, and `excludesize` as
`xsize_option` computes it; `none` is the exit on an invalid value. -/
def main_case_x (E : walk_env) (plus : Bool) (N : Nat) (endptr : List Char) :
    Option walk_env :=
  (xsize_option plus N endptr).map (fun r =>
    { E with flags := { E.flags with F_EXCLUDESIZE := true },
             excludetype := if plus then excludetype_t.LARGERTHAN else E.excludetype,
             excludesize := r.2 })

/-- A sample file system: the directory `R` holds the regular files `empty` (no
bytes), `ten` (10 bytes), `even` (2048 bytes) and `big` (3000 bytes). -/
def sample_fs_sizes : filesystem where
  stat := fun p =>
    if p = "R" then some { st_ino := 1, st_dev := 1, st_mode := 2 }
    else if p = "R/empty" then some { st_ino := 2, st_dev := 1, st_size := 0, st_mode := 1 }
    else if p = "R/ten" then some { st_ino := 3, st_dev := 1, st_size := 10, st_mode := 1 }
    else if p = "R/even" then some { st_ino := 4, st_dev := 1, st_size := 2048, st_mode := 1 }
    else if p = "R/big" then some { st_ino := 5, st_dev := 1, st_size := 3000, st_mode := 1 }
    else none
  lstat := fun p =>
    if p = "R" then some { st_ino := 1, st_dev := 1, st_mode := 2 }
    else if p = "R/empty" then some { st_ino := 2, st_dev := 1, st_size := 0, st_mode := 1 }
    else if p = "R/ten" then some { st_ino := 3, st_dev := 1, st_size := 10, st_mode := 1 }
    else if p = "R/even" then some { st_ino := 4, st_dev := 1, st_size := 2048, st_mode := 1 }
    else if p = "R/big" then some { st_ino := 5, st_dev := 1, st_size := 3000, st_mode := 1 }
    else none
  readdir := fun p => if p = "R" then some ["empty", "ten", "even", "big"] else none
  S_ISDIR := fun m => m == 2
  S_ISREG := fun m => m == 1
  S_ISLNK := fun m => m == 3

/-- The walker on the sample file system of files of four sizes, no option given. -/
def sample_walk_sizes : walk_env where
  fs := sample_fs_sizes

/-! # Properties -/

section heap_stores

variable (fs : Nat → file_t) (p i : Nat)

@[simp] theorem link_duplicates_duplicates (v : Option Nat) :
    (link_duplicates fs p v i).duplicates = if i = p then v else (fs i).duplicates := by
  unfold link_duplicates; by_cases h : i = p <;> simp [Function.update, h]

@[simp] theorem link_duplicates_has_dupes (v : Option Nat) :
    (link_duplicates fs p v i).F_HAS_DUPES = (fs i).F_HAS_DUPES := by
  unfold link_duplicates; by_cases h : i = p <;> simp [Function.update, h]

@[simp] theorem link_duplicates_hash_partial_flag (v : Option Nat) :
    (link_duplicates fs p v i).F_HASH_PARTIAL = (fs i).F_HASH_PARTIAL := by
  unfold link_duplicates; by_cases h : i = p <;> simp [Function.update, h]

@[simp] theorem link_duplicates_hash_full_flag (v : Option Nat) :
    (link_duplicates fs p v i).F_HASH_FULL = (fs i).F_HASH_FULL := by
  unfold link_duplicates; by_cases h : i = p <;> simp [Function.update, h]

@[simp] theorem link_duplicates_filehash (v : Option Nat) :
    (link_duplicates fs p v i).filehash = (fs i).filehash := by
  unfold link_duplicates; by_cases h : i = p <;> simp [Function.update, h]

@[simp] theorem link_duplicates_partial_value (v : Option Nat) :
    file_t.filehash_partial (link_duplicates fs p v i) = file_t.filehash_partial (fs i) := by
  unfold link_duplicates; by_cases h : i = p <;> simp [Function.update, h]

@[simp] theorem link_duplicates_stat (v : Option Nat) :
    stat_of (link_duplicates fs p v i) = stat_of (fs i) := by
  unfold link_duplicates stat_of; by_cases h : i = p <;> simp [Function.update, h]

@[simp] theorem mark_has_dupes_duplicates (b : Bool) :
    (mark_has_dupes fs p b i).duplicates = (fs i).duplicates := by
  unfold mark_has_dupes; by_cases h : i = p <;> simp [Function.update, h]

@[simp] theorem mark_has_dupes_has_dupes (b : Bool) :
    (mark_has_dupes fs p b i).F_HAS_DUPES = if i = p then b else (fs i).F_HAS_DUPES := by
  unfold mark_has_dupes; by_cases h : i = p <;> simp [Function.update, h]

@[simp] theorem mark_has_dupes_hash_partial_flag (b : Bool) :
    (mark_has_dupes fs p b i).F_HASH_PARTIAL = (fs i).F_HASH_PARTIAL := by
  unfold mark_has_dupes; by_cases h : i = p <;> simp [Function.update, h]

@[simp] theorem mark_has_dupes_hash_full_flag (b : Bool) :
    (mark_has_dupes fs p b i).F_HASH_FULL = (fs i).F_HASH_FULL := by
  unfold mark_has_dupes; by_cases h : i = p <;> simp [Function.update, h]

@[simp] theorem mark_has_dupes_filehash (b : Bool) :
    (mark_has_dupes fs p b i).filehash = (fs i).filehash := by
  unfold mark_has_dupes; by_cases h : i = p <;> simp [Function.update, h]

@[simp] theorem mark_has_dupes_partial_value (b : Bool) :
    file_t.filehash_partial (mark_has_dupes fs p b i) = file_t.filehash_partial (fs i) := by
  unfold mark_has_dupes; by_cases h : i = p <;> simp [Function.update, h]

@[simp] theorem mark_has_dupes_stat (b : Bool) :
    stat_of (mark_has_dupes fs p b i) = stat_of (fs i) := by
  unfold mark_has_dupes stat_of; by_cases h : i = p <;> simp [Function.update, h]

@[simp] theorem cache_partial_hash_duplicates (v : Nat) :
    (cache_partial_hash fs p v i).duplicates = (fs i).duplicates := by
  unfold cache_partial_hash; by_cases h : i = p <;> simp [Function.update, h]

@[simp] theorem cache_partial_hash_has_dupes (v : Nat) :
    (cache_partial_hash fs p v i).F_HAS_DUPES = (fs i).F_HAS_DUPES := by
  unfold cache_partial_hash; by_cases h : i = p <;> simp [Function.update, h]

@[simp] theorem cache_partial_hash_hash_partial_flag (v : Nat) :
    (cache_partial_hash fs p v i).F_HASH_PARTIAL =
      if i = p then true else (fs i).F_HASH_PARTIAL := by
  unfold cache_partial_hash; by_cases h : i = p <;> simp [Function.update, h]

@[simp] theorem cache_partial_hash_hash_full_flag (v : Nat) :
    (cache_partial_hash fs p v i).F_HASH_FULL = (fs i).F_HASH_FULL := by
  unfold cache_partial_hash; by_cases h : i = p <;> simp [Function.update, h]

@[simp] theorem cache_partial_hash_filehash (v : Nat) :
    (cache_partial_hash fs p v i).filehash = (fs i).filehash := by
  unfold cache_partial_hash; by_cases h : i = p <;> simp [Function.update, h]

@[simp] theorem cache_partial_hash_partial_value (v : Nat) :
    file_t.filehash_partial (cache_partial_hash fs p v i) =
      if i = p then v else file_t.filehash_partial (fs i) := by
  unfold cache_partial_hash; by_cases h : i = p <;> simp [Function.update, h]

@[simp] theorem cache_partial_hash_stat (v : Nat) :
    stat_of (cache_partial_hash fs p v i) = stat_of (fs i) := by
  unfold cache_partial_hash stat_of; by_cases h : i = p <;> simp [Function.update, h]

@[simp] theorem cache_full_hash_duplicates (v : Nat) :
    (cache_full_hash fs p v i).duplicates = (fs i).duplicates := by
  unfold cache_full_hash; by_cases h : i = p <;> simp [Function.update, h]

@[simp] theorem cache_full_hash_has_dupes (v : Nat) :
    (cache_full_hash fs p v i).F_HAS_DUPES = (fs i).F_HAS_DUPES := by
  unfold cache_full_hash; by_cases h : i = p <;> simp [Function.update, h]

@[simp] theorem cache_full_hash_hash_partial_flag (v : Nat) :
    (cache_full_hash fs p v i).F_HASH_PARTIAL = (fs i).F_HASH_PARTIAL := by
  unfold cache_full_hash; by_cases h : i = p <;> simp [Function.update, h]

@[simp] theorem cache_full_hash_hash_full_flag (v : Nat) :
    (cache_full_hash fs p v i).F_HASH_FULL = if i = p then true else (fs i).F_HASH_FULL := by
  unfold cache_full_hash; by_cases h : i = p <;> simp [Function.update, h]

@[simp] theorem cache_full_hash_filehash (v : Nat) :
    (cache_full_hash fs p v i).filehash = if i = p then v else (fs i).filehash := by
  unfold cache_full_hash; by_cases h : i = p <;> simp [Function.update, h]

@[simp] theorem cache_full_hash_partial_value (v : Nat) :
    file_t.filehash_partial (cache_full_hash fs p v i) = file_t.filehash_partial (fs i) := by
  unfold cache_full_hash; by_cases h : i = p <;> simp [Function.update, h]

@[simp] theorem cache_full_hash_stat (v : Nat) :
    stat_of (cache_full_hash fs p v i) = stat_of (fs i) := by
  unfold cache_full_hash stat_of; by_cases h : i = p <;> simp [Function.update, h]

end heap_stores

/-- The static fields can be read off the walker part. -/
theorem stat_of_fields (f g : file_t) (h : stat_of f = stat_of g) :
    f.d_name = g.d_name ∧ f.user_order = g.user_order ∧ f.size = g.size ∧
    f.device = g.device ∧ f.inode = g.inode ∧ f.mtime = g.mtime ∧ f.mode = g.mode ∧
    f.uid = g.uid ∧ f.gid = g.gid := by
  unfold stat_of at h
  injection h with h1 h2 h3 h4 h5 h6 h7 h8 h9
  exact ⟨h1, h2, h3, h4, h5, h6, h7, h8, h9⟩

theorem check_conditions_stat (fl : flags_t) (f g f' g' : file_t)
    (hf : stat_of f = stat_of f') (hg : stat_of g = stat_of g') :
    check_conditions fl f g = check_conditions fl f' g' := by
  obtain ⟨-, a2, a3, a4, a5, -, a7, a8, a9⟩ := stat_of_fields f f' hf
  obtain ⟨-, b2, b3, b4, b5, -, b7, b8, b9⟩ := stat_of_fields g g' hg
  unfold check_conditions
  rw [a2, a3, a4, a5, a7, a8, a9, b2, b3, b4, b5, b7, b8, b9]

/-! ## Hash steps -/

theorem hash_evolves_refl (f : file_t) : hash_evolves f f :=
  ⟨rfl, rfl, rfl, fun h => ⟨h, rfl⟩, fun h => ⟨h, rfl⟩⟩

theorem hash_evolves_trans {f g k : file_t} (h1 : hash_evolves f g) (h2 : hash_evolves g k) :
    hash_evolves f k := by
  obtain ⟨a1, a2, a3, a4, a5⟩ := h1
  obtain ⟨b1, b2, b3, b4, b5⟩ := h2
  refine ⟨b1.trans a1, b2.trans a2, b3.trans a3, fun h => ?_, fun h => ?_⟩
  · obtain ⟨x, y⟩ := a4 h
    obtain ⟨x', y'⟩ := b4 x
    exact ⟨x', y'.trans y⟩
  · obtain ⟨x, y⟩ := a5 h
    obtain ⟨x', y'⟩ := b5 x
    exact ⟨x', y'.trans y⟩

theorem partial_hash_step_spec (G : globals) (fs fs' : Nat → file_t) (p : Nat)
    (h : partial_hash_step G fs p = some fs') :
    (∀ i, hash_evolves (fs i) (fs' i)) ∧ (∀ i, i ≠ p → fs' i = fs i) ∧
    (fs' p).F_HASH_PARTIAL = true ∧ (fs' p).F_HASH_FULL = (fs p).F_HASH_FULL ∧
    (fs' p).filehash = (fs p).filehash := by
  unfold partial_hash_step at h
  by_cases hp : (fs p).F_HASH_PARTIAL = true
  · simp [hp] at h
    subst h
    exact ⟨fun i => hash_evolves_refl _, fun i _ => rfl, hp, rfl, rfl⟩
  · simp [hp] at h
    obtain ⟨v, -, rfl⟩ := h
    refine ⟨fun i => ?_, fun i hi => ?_, by simp, by simp, by simp⟩
    · unfold hash_evolves
      by_cases hi : i = p
      · subst hi; simp [hp]
      · simp [hi]
    · unfold cache_partial_hash; simp [Function.update, hi]

theorem full_hash_step_spec (G : globals) (fs fs' : Nat → file_t) (p : Nat)
    (h : full_hash_step G fs p = some fs') :
    (∀ i, hash_evolves (fs i) (fs' i)) ∧ (∀ i, i ≠ p → fs' i = fs i) ∧
    (fs' p).F_HASH_FULL = true ∧ (fs' p).F_HASH_PARTIAL = (fs p).F_HASH_PARTIAL ∧
    file_t.filehash_partial (fs' p) = file_t.filehash_partial (fs p) := by
  unfold full_hash_step at h
  by_cases hp : (fs p).F_HASH_FULL = true
  · simp [hp] at h
    subst h
    exact ⟨fun i => hash_evolves_refl _, fun i _ => rfl, hp, rfl, rfl⟩
  · simp [hp] at h
    obtain ⟨v, -, rfl⟩ := h
    refine ⟨fun i => ?_, fun i hi => ?_, by simp, by simp, by simp⟩
    · unfold hash_evolves
      by_cases hi : i = p
      · subst hi; simp [hp]
      · simp [hi]
    · unfold cache_full_hash; simp [Function.update, hi]

theorem small_file_step_spec (fs : Nat → file_t) (p : Nat) :
    (∀ i, hash_evolves (fs i) (small_file_step fs p i)) ∧
    (∀ i, i ≠ p → small_file_step fs p i = fs i) ∧
    (small_file_step fs p p).F_HASH_FULL = true ∧
    (small_file_step fs p p).F_HASH_PARTIAL = (fs p).F_HASH_PARTIAL ∧
    file_t.filehash_partial (small_file_step fs p p) = file_t.filehash_partial (fs p) ∧
    ((fs p).F_HASH_FULL = false →
      (small_file_step fs p p).filehash = file_t.filehash_partial (fs p)) := by
  unfold small_file_step
  by_cases hp : (fs p).F_HASH_FULL = true
  · simp [hp]
    exact fun i => hash_evolves_refl _
  · simp [hp]
    refine ⟨fun i => ?_, fun i hi => ?_⟩
    · unfold hash_evolves
      by_cases hi : i = p
      · subst hi; simp [hp]
      · simp [hi]
    · unfold cache_full_hash; simp [Function.update, hi]

theorem hash_evolves_size {f g : file_t} (h : hash_evolves f g) : g.size = f.size :=
  (stat_of_fields g f h.1).2.2.1

theorem partial_hash_step_ok (G : globals) (fs fs' : Nat → file_t) (p : Nat)
    (h : partial_hash_step G fs p = some fs') (hok : ∀ i, hash_cache_ok (fs i)) :
    ∀ i, hash_cache_ok (fs' i) := by
  obtain ⟨hev, hne, -, hfull, hval⟩ := partial_hash_step_spec G fs fs' p h
  intro i
  by_cases hi : i = p
  · subst hi
    obtain ⟨o1, o2⟩ := hok i
    obtain ⟨-, -, -, e1, -⟩ := hev i
    have hsz := hash_evolves_size (hev i)
    refine ⟨fun hf => ?_, fun hf hs => ?_⟩
    · rw [hfull] at hf
      exact (e1 (o1 hf)).1
    · rw [hfull] at hf
      rw [hsz] at hs
      rw [hval, (e1 (o1 hf)).2]
      exact o2 hf hs
  · rw [hne i hi]; exact hok i

theorem small_file_step_ok (fs : Nat → file_t) (p : Nat)
    (hp : (fs p).F_HASH_PARTIAL = true) (hok : ∀ i, hash_cache_ok (fs i)) :
    ∀ i, hash_cache_ok (small_file_step fs p i) := by
  obtain ⟨hev, hne, -, hpf, hpv, hnew⟩ := small_file_step_spec fs p
  intro i
  by_cases hi : i = p
  · subst hi
    refine ⟨fun _ => by rw [hpf]; exact hp, fun hf hs => ?_⟩
    by_cases hfull : (fs i).F_HASH_FULL = true
    · obtain ⟨-, -, -, -, e2⟩ := hev i
      rw [(e2 hfull).2, hpv]
      rw [hash_evolves_size (hev i)] at hs
      exact (hok i).2 hfull hs
    · rw [hnew (by simpa using hfull), hpv]
  · rw [hne i hi]; exact hok i

theorem full_hash_step_ok (G : globals) (fs fs' : Nat → file_t) (p : Nat)
    (h : full_hash_step G fs p = some fs') (hp : (fs p).F_HASH_PARTIAL = true)
    (hbig : ¬ (fs p).size ≤ (PARTIAL_HASH_SIZE : Int)) (hok : ∀ i, hash_cache_ok (fs i)) :
    ∀ i, hash_cache_ok (fs' i) := by
  obtain ⟨hev, hne, -, hpf, -⟩ := full_hash_step_spec G fs fs' p h
  intro i
  by_cases hi : i = p
  · subst hi
    refine ⟨fun _ => by rw [hpf]; exact hp, fun _ hs => ?_⟩
    rw [hash_evolves_size (hev i)] at hs
    exact absurd hs hbig
  · rw [hne i hi]; exact hok i

/-- What the hash block of `checkmatch` does to the records. -/
theorem checkmatch_hashes_spec (G : globals) (tf file : Nat) (fs : Nat → file_t)
    (tr : List event) :
    (∀ i, hash_evolves (fs i) ((checkmatch_hashes G tf file fs tr).1 i)) ∧
    (∀ i, i ≠ tf → i ≠ file → (checkmatch_hashes G tf file fs tr).1 i = fs i) ∧
    ((fs tf).size = (fs file).size → (∀ i, hash_cache_ok (fs i)) →
      ∀ i, hash_cache_ok ((checkmatch_hashes G tf file fs tr).1 i)) := by
  unfold checkmatch_hashes
  cases h1 : partial_hash_step G fs tf with
  | none => exact ⟨fun i => hash_evolves_refl _, fun _ _ _ => rfl, fun _ hok => hok⟩
  | some fs1 =>
    obtain ⟨ev1, ne1, pf1, -, -⟩ := partial_hash_step_spec G fs fs1 tf h1
    have ok1 := partial_hash_step_ok G fs fs1 tf h1
    dsimp only
    cases h2 : partial_hash_step G fs1 file with
    | none =>
      exact ⟨ev1, fun i hi _ => ne1 i hi, fun _ hok => ok1 hok⟩
    | some fs2 =>
      obtain ⟨ev2, ne2, pf2, -, -⟩ := partial_hash_step_spec G fs1 fs2 file h2
      have ok2 := partial_hash_step_ok G fs1 fs2 file h2
      have ev12 : ∀ i, hash_evolves (fs i) (fs2 i) := fun i => hash_evolves_trans (ev1 i) (ev2 i)
      have ne12 : ∀ i, i ≠ tf → i ≠ file → fs2 i = fs i := fun i a b => by
        rw [ne2 i b, ne1 i a]
      have ptf2 : (fs2 tf).F_HASH_PARTIAL = true := ((ev2 tf).2.2.2.1 pf1).1
      have hsz2 : ∀ i, (fs2 i).size = (fs i).size := fun i => hash_evolves_size (ev12 i)
      dsimp only
      by_cases hsmall : (fs2 file).size ≤ (PARTIAL_HASH_SIZE : Int)
      · rw [if_pos hsmall]
        obtain ⟨ev3, ne3, -, pf3, -, -⟩ := small_file_step_spec fs2 file
        obtain ⟨ev4, ne4, -, -, -, -⟩ := small_file_step_spec (small_file_step fs2 file) tf
        have ptf3 : (small_file_step fs2 file tf).F_HASH_PARTIAL = true :=
          ((ev3 tf).2.2.2.1 ptf2).1
        refine ⟨fun i => hash_evolves_trans (ev12 i) (hash_evolves_trans (ev3 i) (ev4 i)),
          fun i a b => by show small_file_step _ tf i = fs i; rw [ne4 i a, ne3 i b, ne12 i a b],
          fun _ hok => ?_⟩
        exact small_file_step_ok _ tf ptf3 (small_file_step_ok fs2 file pf2 (ok2 (ok1 hok)))
      · rw [if_neg hsmall]
        by_cases hc : HASH_COMPARE ( file_t.filehash_partial (fs2 file))
            ( file_t.filehash_partial (fs2 tf)) = 0
        · rw [if_pos hc]
          cases h3 : full_hash_step G fs2 tf with
          | none => exact ⟨ev12, ne12, fun _ hok => ok2 (ok1 hok)⟩
          | some fs3 =>
            dsimp only
            obtain ⟨ev3, ne3, -, -, -⟩ := full_hash_step_spec G fs2 fs3 tf h3
            have ev13 : ∀ i, hash_evolves (fs i) (fs3 i) :=
              fun i => hash_evolves_trans (ev12 i) (ev3 i)
            have ne13 : ∀ i, i ≠ tf → i ≠ file → fs3 i = fs i := fun i a b => by
              rw [ne3 i a, ne12 i a b]
            have ok3 : (fs tf).size = (fs file).size → (∀ i, hash_cache_ok (fs i)) →
                ∀ i, hash_cache_ok (fs3 i) := fun hs hok =>
              full_hash_step_ok G fs2 fs3 tf h3 ptf2
                (by rw [hsz2 tf, hs, ← hsz2 file]; exact hsmall) (ok2 (ok1 hok))
            cases h4 : full_hash_step G fs3 file with
            | none => exact ⟨ev13, ne13, ok3⟩
            | some fs4 =>
              obtain ⟨ev4, ne4, -, -, -⟩ := full_hash_step_spec G fs3 fs4 file h4
              refine ⟨fun i => hash_evolves_trans (ev13 i) (ev4 i),
                fun i a b => by show fs4 i = fs i; rw [ne4 i b, ne13 i a b], fun hs hok => ?_⟩
              refine full_hash_step_ok G fs3 fs4 file h4 ((ev3 file).2.2.2.1 pf2).1 ?_ (ok3 hs hok)
              rw [hash_evolves_size (ev3 file)]; exact hsmall
        · rw [if_neg hc]
          exact ⟨ev12, ne12, fun _ hok => ok2 (ok1 hok)⟩

/-! ## The tree search -/

theorem check_conditions_zero_size (fl : flags_t) (f g : file_t)
    (h : check_conditions fl f g = 0) : f.size = g.size := by
  unfold check_conditions at h
  split_ifs at h <;> omega

theorem check_conditions_two (fl : flags_t) (f g : file_t)
    (h : check_conditions fl f g = 2) :
    linked f g ∧ fl.F_CONSIDERHARDLINKS = true := by
  unfold check_conditions at h
  unfold linked
  split_ifs at h <;> simp_all

/-- What one call of `checkmatch` does: records change only in their hash caches,
only records of tree nodes and the incoming one change, the hash-cache invariant is
kept, a non-`NULL` result points to a node of the unchanged tree whose record passed
`check_conditions` with 2 or 0, and on `NULL` the tree is unchanged or has the
incoming record as one more node. -/
theorem checkmatch_spec (G : globals) (file : Nat) (tree : filetree_t) :
    ∀ (fs : Nat → file_t) (tr : List event),
    (∀ i, hash_evolves (fs i) ((checkmatch G tree file fs tr).files i)) ∧
    (∀ i, i ∉ tree.nodefiles → i ≠ file → (checkmatch G tree file fs tr).files i = fs i) ∧
    ((∀ i, hash_cache_ok (fs i)) → ∀ i, hash_cache_ok ((checkmatch G tree file fs tr).files i)) ∧
    (∀ p, (checkmatch G tree file fs tr).ret = some p →
      (checkmatch G tree file fs tr).tree = tree ∧
      ∃ m, tree.slot p = some m ∧
        (check_conditions G.flags (fs m) (fs file) = 2 ∨
         check_conditions G.flags (fs m) (fs file) = 0)) ∧
    ((checkmatch G tree file fs tr).ret = none →
      (checkmatch G tree file fs tr).tree.nodefiles = tree.nodefiles ∨
      List.Perm (checkmatch G tree file fs tr).tree.nodefiles (file :: tree.nodefiles)) := by
  induction tree with
  | nil =>
    intro fs tr
    simp [checkmatch, hash_evolves_refl]
  | node tf l r ihl ihr =>
    intro fs tr
    rw [checkmatch]
    dsimp only
    by_cases hc2 : check_conditions G.flags (fs tf) (fs file) = 2
    · rw [if_pos hc2]
      refine ⟨fun i => hash_evolves_refl _, fun _ _ _ => rfl, fun h => h, ?_, ?_⟩
      · intro p hp
        simp only [Option.some.injEq] at hp
        subst hp
        exact ⟨rfl, tf, rfl, Or.inl hc2⟩
      · intro h; simp at h
    rw [if_neg hc2]
    by_cases hcm : check_conditions G.flags (fs tf) (fs file) = -2
    · rw [if_pos hcm]
      exact ⟨fun i => hash_evolves_refl _, fun _ _ _ => rfl, fun h => h,
        fun p hp => by simp at hp, fun _ => Or.inl rfl⟩
    rw [if_neg hcm]
    -- the records after the hash block
    have hpre : ∀ X : (Nat → file_t) × List event × Option Int,
        X = (if check_conditions G.flags (fs tf) (fs file) = 0
              then checkmatch_hashes G tf file fs tr
              else (fs, tr, some (check_conditions G.flags (fs tf) (fs file)))) →
        (∀ i, hash_evolves (fs i) (X.1 i)) ∧ (∀ i, i ≠ tf → i ≠ file → X.1 i = fs i) ∧
        ((∀ i, hash_cache_ok (fs i)) → ∀ i, hash_cache_ok (X.1 i)) ∧
        (X.2.2 = some 0 → check_conditions G.flags (fs tf) (fs file) = 0) := by
      intro X hX
      by_cases hc0 : check_conditions G.flags (fs tf) (fs file) = 0
      · rw [if_pos hc0] at hX
        subst hX
        obtain ⟨a, b, c⟩ := checkmatch_hashes_spec G tf file fs tr
        exact ⟨a, b, c (check_conditions_zero_size _ _ _ hc0), fun _ => hc0⟩
      · rw [if_neg hc0] at hX
        subst hX
        refine ⟨fun i => hash_evolves_refl _, fun _ _ _ => rfl, fun h => h, fun h => ?_⟩
        simp only [Option.some.injEq] at h
        exact h
    generalize hX : (if check_conditions G.flags (fs tf) (fs file) = 0
              then checkmatch_hashes G tf file fs tr
              else (fs, tr, some (check_conditions G.flags (fs tf) (fs file)))) = X
    obtain ⟨ev1, ne1, ok1, hz⟩ := hpre X hX.symm
    obtain ⟨fs1, tr1, o⟩ := X
    dsimp only at ev1 ne1 ok1 hz
    cases o with
    | none =>
      exact ⟨ev1, fun i hi hf => ne1 i (by intro h; apply hi; simp [filetree_t.nodefiles, h]) hf,
        ok1, fun p hp => by simp at hp, fun _ => Or.inl rfl⟩
    | some cmpresult =>
      dsimp only
      have hnot : ∀ i, i ∉ (filetree_t.node tf l r).nodefiles →
          i ≠ tf ∧ i ∉ l.nodefiles ∧ i ∉ r.nodefiles := by
        intro i hi
        simp only [filetree_t.nodefiles, List.mem_append, List.mem_cons, not_or] at hi
        exact ⟨hi.2.1, hi.1, hi.2.2⟩
      have hcheck : ∀ m, check_conditions G.flags (fs1 m) (fs1 file) =
          check_conditions G.flags (fs m) (fs file) := fun m =>
        check_conditions_stat _ _ _ _ _ (ev1 m).1 (ev1 file).1
      by_cases hlt : cmpresult < 0
      · rw [if_pos hlt]
        cases l with
        | nil =>
          refine ⟨ev1, fun i hi hf => ne1 i (hnot i hi).1 hf, ok1, fun p hp => by simp at hp,
            fun _ => Or.inr ?_⟩
          simp [registerfile, filetree_t.nodefiles]
        | node lf ll lr =>
          dsimp only
          obtain ⟨ev2, ne2, ok2, hs2, hn2⟩ := ihl fs1 tr1
          refine ⟨fun i => hash_evolves_trans (ev1 i) (ev2 i), fun i hi hf => ?_,
            fun h => ok2 (ok1 h), fun p hp => ?_, fun hp => ?_⟩
          · rw [ne2 i (hnot i hi).2.1 hf, ne1 i (hnot i hi).1 hf]
          · simp only [Option.map_eq_some'] at hp
            obtain ⟨q, hq, rfl⟩ := hp
            obtain ⟨ht, m, hm, hmc⟩ := hs2 q hq
            refine ⟨by rw [ht], m, by simpa [filetree_t.slot] using hm, ?_⟩
            rw [hcheck] at hmc; exact hmc
          · simp only [Option.map_eq_none'] at hp
            rcases hn2 hp with h | h
            · left
              show _ ++ tf :: r.nodefiles = (filetree_t.node lf ll lr).nodefiles ++ tf :: r.nodefiles
              rw [h]
            · right
              show List.Perm (_ ++ tf :: r.nodefiles)
                (file :: ((filetree_t.node lf ll lr).nodefiles ++ tf :: r.nodefiles))
              exact List.Perm.append_right _ h
      · rw [if_neg hlt]
        by_cases hgt : cmpresult > 0
        · rw [if_pos hgt]
          cases r with
          | nil =>
            refine ⟨ev1, fun i hi hf => ne1 i (hnot i hi).1 hf, ok1, fun p hp => by simp at hp,
              fun _ => Or.inr ?_⟩
            show List.Perm (l.nodefiles ++ tf :: [file]) (file :: (l.nodefiles ++ tf :: []))
            exact (List.Perm.append_left _ (List.Perm.swap _ _ _)).trans List.perm_middle
          | node rf rl rr =>
            dsimp only
            obtain ⟨ev2, ne2, ok2, hs2, hn2⟩ := ihr fs1 tr1
            refine ⟨fun i => hash_evolves_trans (ev1 i) (ev2 i), fun i hi hf => ?_,
              fun h => ok2 (ok1 h), fun p hp => ?_, fun hp => ?_⟩
            · rw [ne2 i (hnot i hi).2.2 hf, ne1 i (hnot i hi).1 hf]
            · simp only [Option.map_eq_some'] at hp
              obtain ⟨q, hq, rfl⟩ := hp
              obtain ⟨ht, m, hm, hmc⟩ := hs2 q hq
              refine ⟨by rw [ht], m, by simpa [filetree_t.slot] using hm, ?_⟩
              rw [hcheck] at hmc; exact hmc
            · simp only [Option.map_eq_none'] at hp
              rcases hn2 hp with h | h
              · left
                show l.nodefiles ++ tf :: _ = l.nodefiles ++ tf :: (filetree_t.node rf rl rr).nodefiles
                rw [h]
              · right
                show List.Perm (l.nodefiles ++ tf :: _)
                  (file :: (l.nodefiles ++ tf :: (filetree_t.node rf rl rr).nodefiles))
                have h' : List.Perm (tf :: (checkmatch G (filetree_t.node rf rl rr) file fs1 tr1).tree.nodefiles)
                    (file :: tf :: (filetree_t.node rf rl rr).nodefiles) :=
                  (List.Perm.cons tf h).trans (List.Perm.swap _ _ _)
                exact (List.Perm.append_left _ h').trans (List.perm_middle)
        · rw [if_neg hgt]
          have h0 : cmpresult = 0 := by omega
          subst h0
          refine ⟨ev1, fun i hi hf => ne1 i (hnot i hi).1 hf, ok1, fun p hp => ?_,
            fun h => by simp at h⟩
          simp only [Option.some.injEq] at hp
          subst hp
          exact ⟨rfl, tf, rfl, Or.inr (hz rfl)⟩

/-! ## Paths into the tree -/

theorem slot_mem (tree : filetree_t) :
    ∀ (p : List tree_direction) (m : Nat), tree.slot p = some m → m ∈ tree.nodefiles := by
  induction tree with
  | nil => intro p m h; simp [filetree_t.slot] at h
  | node f l r ihl ihr =>
    intro p m h
    cases p with
    | nil =>
      simp only [filetree_t.slot, Option.some.injEq] at h
      subst h
      simp [filetree_t.nodefiles]
    | cons d p =>
      cases d with
      | NONE => simp [filetree_t.slot] at h
      | LEFT =>
        simp only [filetree_t.slot] at h
        simp [filetree_t.nodefiles, ihl p m h]
      | RIGHT =>
        simp only [filetree_t.slot] at h
        simp [filetree_t.nodefiles, ihr p m h]

theorem setslot_nodefiles (v : Nat) (tree : filetree_t) :
    ∀ (p : List tree_direction) (m : Nat), tree.slot p = some m →
    ∃ A B, tree.nodefiles = A ++ m :: B ∧ (tree.setslot p v).nodefiles = A ++ v :: B := by
  induction tree with
  | nil => intro p m h; simp [filetree_t.slot] at h
  | node f l r ihl ihr =>
    intro p m h
    cases p with
    | nil =>
      simp only [filetree_t.slot, Option.some.injEq] at h
      subst h
      exact ⟨l.nodefiles, r.nodefiles, rfl, rfl⟩
    | cons d p =>
      cases d with
      | NONE => simp [filetree_t.slot] at h
      | LEFT =>
        simp only [filetree_t.slot] at h
        obtain ⟨A, B, h1, h2⟩ := ihl p m h
        refine ⟨A, B ++ f :: r.nodefiles, ?_, ?_⟩
        · show l.nodefiles ++ f :: r.nodefiles = _
          rw [h1]; simp
        · show (l.setslot p v).nodefiles ++ f :: r.nodefiles = _
          rw [h2]; simp
      | RIGHT =>
        simp only [filetree_t.slot] at h
        obtain ⟨A, B, h1, h2⟩ := ihr p m h
        refine ⟨l.nodefiles ++ f :: A, B, ?_, ?_⟩
        · show l.nodefiles ++ f :: r.nodefiles = _
          rw [h1]; simp
        · show l.nodefiles ++ f :: (r.setslot p v).nodefiles = _
          rw [h2]; simp

theorem setslot_same (tree : filetree_t) :
    ∀ (p : List tree_direction) (m : Nat), tree.slot p = some m → tree.setslot p m = tree := by
  induction tree with
  | nil => intro p m h; simp [filetree_t.slot] at h
  | node f l r ihl ihr =>
    intro p m h
    cases p with
    | nil =>
      simp only [filetree_t.slot, Option.some.injEq] at h
      subst h
      rfl
    | cons d p =>
      cases d with
      | NONE => simp [filetree_t.slot] at h
      | LEFT =>
        simp only [filetree_t.slot] at h
        simp [filetree_t.setslot, ihl p m h]
      | RIGHT =>
        simp only [filetree_t.slot] at h
        simp [filetree_t.setslot, ihr p m h]

/-! ## Chains -/

theorem reach_step {fs : Nat → file_t} {a b c : Nat} (h : reach fs a b)
    (hc : (fs b).duplicates = some c) : reach fs a c :=
  Relation.ReflTransGen.tail h hc

theorem reach_target {fs : Nat → file_t} {a b : Nat} (h : reach fs a b) :
    b = a ∨ ∃ i, (fs i).duplicates = some b := by
  rcases Relation.ReflTransGen.cases_tail h with h | ⟨c, -, hc⟩
  · exact Or.inl h
  · exact Or.inr ⟨c, hc⟩

theorem reach_source {fs : Nat → file_t} {a b : Nat} (h : reach fs a b) :
    b = a ∨ (fs a).duplicates ≠ none := by
  rcases Relation.ReflTransGen.cases_head h with h | ⟨c, hc, -⟩
  · exact Or.inl h.symm
  · right; rw [hc]; simp

theorem reach_rank {fs : Nat → file_t} {k : Nat} {rk : Nat → ℚ}
    (hrk : ∀ i j, (fs i).duplicates = some j → j < k ∧ rk j < rk i) {a b : Nat}
    (h : reach fs a b) : rk b ≤ rk a := by
  induction h with
  | refl => exact le_refl _
  | tail _ hc ih => exact le_trans (le_of_lt (hrk _ _ hc).2) ih

/-- The walk of `registerpair` down a chain ends within the fuel when ranks fall
along `duplicates`, and it leaves the heap in one of the three registered shapes. -/
theorem registerpair_loop_spec (cmp : file_t → file_t → Int) (nm h0 k : Nat)
    (rk : Nat → ℚ) (fs : Nat → file_t)
    (hrk : ∀ i j, (fs i).duplicates = some j → j < k ∧ rk j < rk i) :
    ∀ (fuel : Nat) (back : Option Nat) (t : Nat), t < k →
      ((Finset.range k).filter (fun i => rk i ≤ rk t)).card ≤ fuel →
      reach fs h0 t →
      ((back = none ∧ t = h0) ∨ ∃ b, back = some b ∧ reach fs h0 b ∧ (fs b).duplicates = some t) →
      ∃ fs' h', registerpair_loop cmp nm fuel fs h0 back (some t) = some (fs', h') ∧
        (∀ i, link_evolves (fs i) (fs' i)) ∧
        ((h' = nm ∧ back = none ∧ ∀ i,
            (fs' i).duplicates = (if i = nm then some h0 else (fs i).duplicates) ∧
            (fs' i).F_HAS_DUPES =
              (if i = h0 then false else if i = nm then true else (fs i).F_HAS_DUPES)) ∨
         (h' = h0 ∧ ∃ b t', reach fs h0 b ∧ (fs b).duplicates = some t' ∧ ∀ i,
            (fs' i).duplicates =
              (if i = b then some nm else if i = nm then some t' else (fs i).duplicates) ∧
            (fs' i).F_HAS_DUPES = (fs i).F_HAS_DUPES) ∨
         (h' = h0 ∧ ∃ t', reach fs h0 t' ∧ (fs t').duplicates = none ∧ ∀ i,
            (fs' i).duplicates = (if i = t' then some nm else (fs i).duplicates) ∧
            (fs' i).F_HAS_DUPES = (if i = h0 ∧ t' = h0 then true else (fs i).F_HAS_DUPES))) := by
  intro fuel
  induction fuel with
  | zero =>
    intro back t ht hcard
    exfalso
    have hmem : t ∈ (Finset.range k).filter (fun i => rk i ≤ rk t) := by
      simp [ht]
    have := Finset.card_pos.mpr ⟨t, hmem⟩
    omega
  | succ fuel ih =>
    intro back t ht hcard hreach hback
    rw [registerpair_loop]
    by_cases hcmp : cmp (fs nm) (fs t) ≤ 0
    · rw [if_pos hcmp]
      rcases hback with ⟨hb, hth⟩ | ⟨b, hb, hrb, hbt⟩
      · subst hb; subst hth
        refine ⟨_, _, rfl, fun i => ?_, Or.inl ⟨rfl, rfl, fun i => ?_⟩⟩
        · simp [link_evolves]
        · simp
      · subst hb
        refine ⟨_, _, rfl, fun i => ?_, Or.inr (Or.inl ⟨rfl, b, t, hrb, hbt, fun i => ?_⟩)⟩
        · simp [link_evolves]
        · simp
    · rw [if_neg hcmp]
      by_cases hlast : (fs t).duplicates = none
      · rw [if_pos hlast]
        refine ⟨_, _, rfl, fun i => ?_, Or.inr (Or.inr ⟨rfl, t, hreach, hlast, fun i => ?_⟩)⟩
        · by_cases hb : back = none <;> simp [link_evolves, hb]
        · rcases hback with ⟨hb, hth⟩ | ⟨b, hb, hrb, hbt⟩
          · subst hb; subst hth
            by_cases hi : i = t <;> simp [hi]
          · subst hb
            have hne : t ≠ h0 := by
              intro h
              subst h
              have h1 := reach_rank hrk hrb
              have h2 := (hrk b t hbt).2
              exact absurd (lt_of_lt_of_le h2 h1) (lt_irrefl _)
            simp [hne]
      · rw [if_neg hlast]
        obtain ⟨t', ht'⟩ := Option.ne_none_iff_exists'.mp hlast
        obtain ⟨ht'k, hrk'⟩ := hrk t t' ht'
        rw [ht']
        have hcard' : ((Finset.range k).filter (fun i => rk i ≤ rk t')).card ≤ fuel := by
          have hsub : (Finset.range k).filter (fun i => rk i ≤ rk t') ⊂
              (Finset.range k).filter (fun i => rk i ≤ rk t) := by
            rw [Finset.ssubset_iff_of_subset]
            · refine ⟨t, by simp [ht], ?_⟩
              simp only [Finset.mem_filter, Finset.mem_range, not_and, not_le]
              intro _; exact hrk'
            · intro i hi
              simp only [Finset.mem_filter, Finset.mem_range] at hi ⊢
              exact ⟨hi.1, le_trans hi.2 (le_of_lt hrk')⟩
          have := Finset.card_lt_card hsub
          omega
        obtain ⟨fs', h', e, hev, hpost⟩ :=
          ih (some t) t' ht'k hcard' (reach_step hreach ht') (Or.inr ⟨t, rfl, hreach, ht'⟩)
        refine ⟨fs', h', e, hev, ?_⟩
        rcases hpost with ⟨_, hb, _⟩ | h | h
        · simp at hb
        · exact Or.inr (Or.inl h)
        · exact Or.inr (Or.inr h)

theorem reach_congr {fs fs' : Nat → file_t}
    (h : ∀ i, (fs' i).duplicates = (fs i).duplicates) (a b : Nat) :
    reach fs' a b ↔ reach fs a b := by
  have e : (fun i j => (fs' i).duplicates = some j) = (fun i j => (fs i).duplicates = some j) := by
    funext i j; rw [h i]
  unfold reach; rw [e]

/-- The function `registerpair` ends within the fuel `k ≤ fuel` and leaves the heap
in one of the three registered shapes. -/
theorem registerpair_spec (cmp : file_t → file_t → Int) (nm h0 k fuel : Nat)
    (rk : Nat → ℚ) (fs : Nat → file_t)
    (hrk : ∀ i j, (fs i).duplicates = some j → j < k ∧ rk j < rk i)
    (hh : h0 < k) (hfuel : k ≤ fuel) :
    ∃ fs' h', registerpair cmp fuel fs h0 nm = some (fs', h') ∧
      pair_registered fs h0 nm fs' h' := by
  have hd : ∀ i, (mark_has_dupes fs h0 true i).duplicates = (fs i).duplicates := fun i => by simp
  have hrk1 : ∀ i j, (mark_has_dupes fs h0 true i).duplicates = some j → j < k ∧ rk j < rk i := by
    intro i j h; rw [hd] at h; exact hrk i j h
  have hcard : ((Finset.range k).filter (fun i => rk i ≤ rk h0)).card ≤ fuel := by
    have := Finset.card_filter_le (Finset.range k) (fun i => rk i ≤ rk h0)
    simp only [Finset.card_range] at this
    omega
  obtain ⟨fs', h', e, hev, hpost⟩ :=
    registerpair_loop_spec cmp nm h0 k rk (mark_has_dupes fs h0 true) hrk1 fuel none h0 hh hcard
      Relation.ReflTransGen.refl (Or.inl ⟨rfl, rfl⟩)
  refine ⟨fs', h', e, fun i => ?_, ?_⟩
  · obtain ⟨a1, a2, a3, a4, a5⟩ := hev i
    refine ⟨?_, ?_, ?_, ?_, ?_⟩
    · rw [a1]; simp
    · rw [a2]; simp
    · rw [a3]; simp
    · rw [a4]; simp
    · rw [a5]; simp
  · rcases hpost with ⟨e1, -, hp⟩ | ⟨e1, b, t, hb, hbt, hp⟩ | ⟨e1, t, ht, htn, hp⟩
    · refine Or.inl ⟨e1, fun i => ?_⟩
      obtain ⟨p1, p2⟩ := hp i
      refine ⟨by rw [p1, hd], ?_⟩
      rw [p2]
      by_cases hi : i = h0 <;> simp [hi]
    · refine Or.inr (Or.inl ⟨e1, b, t, (reach_congr hd _ _).mp hb, by rw [← hd]; exact hbt,
        fun i => ?_⟩)
      obtain ⟨p1, p2⟩ := hp i
      refine ⟨by rw [p1, hd], ?_⟩
      rw [p2]; simp
    · refine Or.inr (Or.inr ⟨e1, t, (reach_congr hd _ _).mp ht, by rw [← hd]; exact htn,
        fun i => ?_⟩)
      obtain ⟨p1, p2⟩ := hp i
      refine ⟨by rw [p1, hd], ?_⟩
      rw [p2]
      by_cases hi : i = h0 <;> simp [hi]

/-! ## The chain invariant along the scan -/

theorem chain_inv_congr {k : Nat} {fs fs' : Nat → file_t} {nf : List Nat} {rk : Nat → ℚ}
    (h : chain_inv k fs nf rk)
    (hd : ∀ i, (fs' i).duplicates = (fs i).duplicates)
    (hf : ∀ i, (fs' i).F_HAS_DUPES = (fs i).F_HAS_DUPES) :
    chain_inv k fs' nf rk := by
  refine ⟨?_, ?_, ?_, ?_, ?_, h.nodup, ?_⟩
  · intro i j e; rw [hd] at e; exact h.edges i j e
  · intro i j x e1 e2; rw [hd] at e1 e2; exact h.inj i j x e1 e2
  · intro x hx
    refine ⟨(h.nodes x hx).1, fun i => ?_⟩
    rw [hd]; exact (h.nodes x hx).2 i
  · intro i e; rw [hf] at e; rw [hd]; exact h.heads i e
  · intro x hx e; rw [hd] at e; rw [hf]; exact h.flagged x hx e
  · intro i hi; rw [hd, hf]; exact h.fresh i hi

theorem chain_inv_skip {k : Nat} {fs : Nat → file_t} {nf : List Nat} {rk : Nat → ℚ}
    (h : chain_inv k fs nf rk) : chain_inv (k + 1) fs nf rk := by
  refine ⟨?_, h.inj, ?_, h.heads, h.flagged, h.nodup, ?_⟩
  · intro i j e
    obtain ⟨a, b, c⟩ := h.edges i j e
    exact ⟨by omega, by omega, c⟩
  · intro x hx
    exact ⟨by have := (h.nodes x hx).1; omega, (h.nodes x hx).2⟩
  · intro i hi; exact h.fresh i (by omega)

theorem chain_inv_insert {k : Nat} {fs : Nat → file_t} {nf nf' : List Nat}
    {rk : Nat → ℚ} (h : chain_inv k fs nf rk)
    (hp : List.Perm nf' (k :: nf)) :
    chain_inv (k + 1) fs nf' rk := by
  have hk : k ∉ nf := fun hx => by have := (h.nodes k hx).1; omega
  refine ⟨(chain_inv_skip h).edges, h.inj, ?_, ?_, ?_, ?_, (chain_inv_skip h).fresh⟩
  · intro x hx
    rcases List.mem_cons.mp (hp.mem_iff.mp hx) with hx | hx
    · subst hx
      refine ⟨by omega, fun i e => ?_⟩
      have := (h.edges i x e).2.1
      omega
    · exact (chain_inv_skip h).nodes x hx
  · intro i e
    exact ⟨hp.mem_iff.mpr (List.mem_cons_of_mem _ (h.heads i e).1), (h.heads i e).2⟩
  · intro x hx e
    rcases List.mem_cons.mp (hp.mem_iff.mp hx) with hx | hx
    · subst hx
      exact absurd (h.fresh x (le_refl _)).1 e
    · exact h.flagged x hx e
  · exact hp.nodup_iff.mpr (List.nodup_cons.mpr ⟨hk, h.nodup⟩)

theorem nodup_replace {A B : List Nat} {a v : Nat} (h : (A ++ a :: B).Nodup)
    (hv : v ∉ A ++ a :: B) : (A ++ v :: B).Nodup ∧
      ∀ x, x ∈ A ++ v :: B ↔ x = v ∨ (x ∈ A ++ a :: B ∧ x ≠ a) := by
  have h' := h
  rw [List.nodup_append] at h
  obtain ⟨hA, hB, hAB⟩ := h
  rw [List.nodup_cons] at hB
  simp only [List.mem_append, List.mem_cons, not_or] at hv
  constructor
  · rw [List.nodup_append]
    refine ⟨hA, List.nodup_cons.mpr ⟨hv.2.2, hB.2⟩, ?_⟩
    intro x hx hx'
    rcases List.mem_cons.mp hx' with e | e
    · subst e; exact hv.1 hx
    · exact hAB hx (List.mem_cons_of_mem _ e)
  · intro x
    simp only [List.mem_append, List.mem_cons]
    constructor
    · rintro (hx | hx | hx)
      · right
        refine ⟨Or.inl hx, fun e => ?_⟩
        subst e
        exact hAB hx (List.mem_cons_self _ _)
      · exact Or.inl hx
      · right
        refine ⟨Or.inr (Or.inr hx), fun e => ?_⟩
        subst e
        exact hB.1 hx
    · rintro (hx | ⟨hx | hx | hx, hne⟩)
      · exact Or.inr (Or.inl hx)
      · exact Or.inl hx
      · exact absurd hx hne
      · exact Or.inr (Or.inr hx)

/-- Registering the record `k` against the record of a tree node keeps the chain
invariant. -/
theorem chain_inv_register {k h0 h' : Nat} {fs fs' : Nat → file_t} {tree : filetree_t}
    {rk : Nat → ℚ} {p : List tree_direction} (h : chain_inv k fs tree.nodefiles rk)
    (hs : tree.slot p = some h0) (hr : pair_registered fs h0 k fs' h') :
    ∃ rk', chain_inv (k + 1) fs' (tree.setslot p h').nodefiles rk' := by
  have hmem : h0 ∈ tree.nodefiles := slot_mem tree p h0 hs
  obtain ⟨hh0, hnp⟩ := h.nodes h0 hmem
  obtain ⟨hkd, hkf⟩ := h.fresh k (le_refl _)
  have hkn : k ∉ tree.nodefiles := fun hx => by have := (h.nodes k hx).1; omega
  have hkt : ∀ i, (fs i).duplicates ≠ some k := fun i e => by
    have := (h.edges i k e).2.1; omega
  have hh0k : h0 ≠ k := by omega
  obtain ⟨A, B, hA, hA'⟩ := setslot_nodefiles h' tree p h0 hs
  obtain ⟨-, hshape⟩ := hr
  rcases hshape with ⟨e1, hp⟩ | ⟨e1, b, t, hb, hbt, hp⟩ | ⟨e1, t, ht, htn, hp⟩
  · -- the newcomer is the new head
    have e1' : k = h' := e1.symm
    subst e1'
    have hnd := h.nodup
    rw [hA] at hnd hkn
    obtain ⟨hnd', hmem'⟩ := nodup_replace hnd hkn
    have hd : ∀ i, (fs' i).duplicates = if i = k then some h0 else (fs i).duplicates :=
      fun i => (hp i).1
    have hf : ∀ i, (fs' i).F_HAS_DUPES =
        if i = h0 then false else if i = k then true else (fs i).F_HAS_DUPES := fun i => (hp i).2
    refine ⟨Function.update rk k (rk h0 + 1), ?_, ?_, ?_, ?_, ?_, ?_, ?_⟩
    · intro i j e
      rw [hd] at e
      by_cases hi : i = k
      · subst hi
        simp only [if_true, Option.some.injEq] at e
        subst e
        refine ⟨by omega, by omega, ?_⟩
        rw [Function.update_same, Function.update_noteq hh0k]
        linarith
      · rw [if_neg hi] at e
        obtain ⟨a, b, c⟩ := h.edges i j e
        refine ⟨by omega, by omega, ?_⟩
        have hj : j ≠ k := by omega
        rw [Function.update_noteq hi, Function.update_noteq hj]
        exact c
    · intro i j x e1 e2
      rw [hd] at e1 e2
      by_cases hi : i = k <;> by_cases hj : j = k
      · rw [hi, hj]
      · rw [if_pos hi] at e1; rw [if_neg hj] at e2
        simp only [Option.some.injEq] at e1
        subst e1
        exact absurd e2 (hnp j)
      · rw [if_neg hi] at e1; rw [if_pos hj] at e2
        simp only [Option.some.injEq] at e2
        subst e2
        exact absurd e1 (hnp i)
      · rw [if_neg hi] at e1; rw [if_neg hj] at e2
        exact h.inj i j x e1 e2
    · intro x hx
      rw [hA', hmem' x] at hx
      rcases hx with hx | ⟨hx, hne⟩
      · subst hx
        refine ⟨by omega, fun i e => ?_⟩
        rw [hd] at e
        by_cases hi : i = x
        · rw [if_pos hi] at e
          simp only [Option.some.injEq] at e
          exact hh0k e
        · rw [if_neg hi] at e
          exact hkt i e
      · rw [← hA] at hx
        refine ⟨by have := (h.nodes x hx).1; omega, fun i e => ?_⟩
        rw [hd] at e
        by_cases hi : i = k
        · rw [if_pos hi] at e
          simp only [Option.some.injEq] at e
          exact hne e.symm
        · rw [if_neg hi] at e
          exact (h.nodes x hx).2 i e
    · intro i e
      rw [hf] at e
      by_cases hi0 : i = h0
      · rw [if_pos hi0] at e; exact absurd e (by simp)
      · rw [if_neg hi0] at e
        rw [hA', hmem' i, hd]
        by_cases hi : i = k
        · exact ⟨Or.inl hi, by rw [if_pos hi]; simp⟩
        · rw [if_neg hi] at e
          rw [if_neg hi]
          obtain ⟨a, b⟩ := h.heads i e
          rw [hA] at a
          exact ⟨Or.inr ⟨a, hi0⟩, b⟩
    · intro x hx e
      rw [hA', hmem' x] at hx
      rw [hf]
      rcases hx with hx | ⟨hx, hne⟩
      · subst hx
        rw [if_neg (Ne.symm hh0k), if_pos rfl]
      · rw [← hA] at hx
        have hxk : x ≠ k := fun e' => by subst e'; exact absurd hx (by rw [hA]; exact hkn)
        rw [if_neg hne, if_neg hxk]
        rw [hd, if_neg hxk] at e
        exact h.flagged x hx e
    · rw [hA']; exact hnd'
    · intro i hi
      have hik : i ≠ k := by omega
      have hih : i ≠ h0 := by omega
      rw [hd, hf, if_neg hik, if_neg hih, if_neg hik]
      exact h.fresh i (by omega)
  · -- the newcomer is linked between b and t
    subst e1
    rw [setslot_same tree p h' hs]
    obtain ⟨hbk, htk, hrbt⟩ := h.edges b t hbt
    have hd : ∀ i, (fs' i).duplicates =
        if i = b then some k else if i = k then some t else (fs i).duplicates :=
      fun i => (hp i).1
    have hf : ∀ i, (fs' i).F_HAS_DUPES = if i = h' then true else (fs i).F_HAS_DUPES :=
      fun i => (hp i).2
    have hbne : b ≠ k := by omega
    have htne : t ≠ k := by omega
    have htn : t ∉ tree.nodefiles := fun hx => (h.nodes t hx).2 b hbt
    refine ⟨Function.update rk k ((rk b + rk t) / 2), ?_, ?_, ?_, ?_, ?_, h.nodup, ?_⟩
    · intro i j e
      rw [hd] at e
      by_cases hi : i = b
      · subst hi
        simp only [if_true, Option.some.injEq] at e
        subst e
        refine ⟨by omega, by omega, ?_⟩
        rw [Function.update_same, Function.update_noteq hbne]
        linarith
      · rw [if_neg hi] at e
        by_cases hik : i = k
        · subst hik
          simp only [if_true, Option.some.injEq] at e
          subst e
          refine ⟨by omega, by omega, ?_⟩
          rw [Function.update_same, Function.update_noteq htne]
          linarith
        · rw [if_neg hik] at e
          obtain ⟨a, b', c⟩ := h.edges i j e
          refine ⟨by omega, by omega, ?_⟩
          have hj : j ≠ k := by omega
          rw [Function.update_noteq hik, Function.update_noteq hj]
          exact c
    · intro i j x e1 e2
      rw [hd] at e1 e2
      by_cases hi : i = b
      · rw [if_pos hi] at e1
        simp only [Option.some.injEq] at e1
        subst e1
        by_cases hj : j = b
        · rw [hi, hj]
        · rw [if_neg hj] at e2
          by_cases hjk : j = k
          · rw [if_pos hjk] at e2
            simp only [Option.some.injEq] at e2
            exact absurd e2 htne
          · rw [if_neg hjk] at e2
            exact absurd e2 (hkt j)
      · rw [if_neg hi] at e1
        by_cases hik : i = k
        · rw [if_pos hik] at e1
          simp only [Option.some.injEq] at e1
          subst e1
          by_cases hj : j = b
          · rw [if_pos hj] at e2
            simp only [Option.some.injEq] at e2
            exact absurd e2.symm htne
          · rw [if_neg hj] at e2
            by_cases hjk : j = k
            · rw [hik, hjk]
            · rw [if_neg hjk] at e2
              exact absurd (h.inj j b t e2 hbt) hj
        · rw [if_neg hik] at e1
          by_cases hj : j = b
          · rw [if_pos hj] at e2
            simp only [Option.some.injEq] at e2
            subst e2
            exact absurd e1 (hkt i)
          · rw [if_neg hj] at e2
            by_cases hjk : j = k
            · rw [if_pos hjk] at e2
              simp only [Option.some.injEq] at e2
              subst e2
              exact absurd (h.inj i b t e1 hbt) hi
            · rw [if_neg hjk] at e2
              exact h.inj i j x e1 e2
    · intro x hx
      refine ⟨by have := (h.nodes x hx).1; omega, fun i e => ?_⟩
      have hxk : x ≠ k := fun e' => by subst e'; exact hkn hx
      rw [hd] at e
      by_cases hi : i = b
      · rw [if_pos hi] at e
        simp only [Option.some.injEq] at e
        exact hxk e.symm
      · rw [if_neg hi] at e
        by_cases hik : i = k
        · rw [if_pos hik] at e
          simp only [Option.some.injEq] at e
          subst e
          exact htn hx
        · rw [if_neg hik] at e
          exact (h.nodes x hx).2 i e
    · intro i e
      rw [hf] at e
      rw [hd]
      by_cases hi0 : i = h'
      · subst hi0
        refine ⟨hmem, ?_⟩
        by_cases hi : i = b
        · rw [if_pos hi]; simp
        · rw [if_neg hi, if_neg hh0k]
          rcases reach_source hb with e' | e'
          · exact absurd e'.symm hi
          · exact e'
      · rw [if_neg hi0] at e
        obtain ⟨a, c⟩ := h.heads i e
        refine ⟨a, ?_⟩
        by_cases hi : i = b
        · rw [if_pos hi]; simp
        · rw [if_neg hi]
          have hik : i ≠ k := fun e' => by subst e'; exact hkn a
          rw [if_neg hik]; exact c
    · intro x hx e
      rw [hf]
      by_cases hx0 : x = h'
      · rw [if_pos hx0]
      · rw [if_neg hx0]
        have hxk : x ≠ k := fun e' => by subst e'; exact hkn hx
        have hxb : x ≠ b := by
          intro e'
          subst e'
          rcases reach_target hb with e'' | ⟨i, hi⟩
          · exact hx0 e''
          · exact (h.nodes x hx).2 i hi
        rw [hd, if_neg hxb, if_neg hxk] at e
        exact h.flagged x hx e
    · intro i hi
      have hik : i ≠ k := by omega
      have hih : i ≠ h' := by omega
      have hib : i ≠ b := by omega
      rw [hd, hf, if_neg hib, if_neg hik, if_neg hih]
      exact h.fresh i (by omega)
  · -- the newcomer is linked behind the last record t
    subst e1
    rw [setslot_same tree p h' hs]
    have hd : ∀ i, (fs' i).duplicates = if i = t then some k else (fs i).duplicates :=
      fun i => (hp i).1
    have hf : ∀ i, (fs' i).F_HAS_DUPES = if i = h' then true else (fs i).F_HAS_DUPES :=
      fun i => (hp i).2
    have htk : t < k := by
      rcases reach_target ht with e | ⟨i, hi⟩
      · omega
      · exact (h.edges i t hi).2.1
    have htne : t ≠ k := by omega
    refine ⟨Function.update rk k (rk t - 1), ?_, ?_, ?_, ?_, ?_, h.nodup, ?_⟩
    · intro i j e
      rw [hd] at e
      by_cases hi : i = t
      · subst hi
        simp only [if_true, Option.some.injEq] at e
        subst e
        refine ⟨by omega, by omega, ?_⟩
        rw [Function.update_same, Function.update_noteq htne]
        linarith
      · rw [if_neg hi] at e
        obtain ⟨a, b', c⟩ := h.edges i j e
        refine ⟨by omega, by omega, ?_⟩
        have hj : j ≠ k := by omega
        have hik : i ≠ k := by omega
        rw [Function.update_noteq hik, Function.update_noteq hj]
        exact c
    · intro i j x e1 e2
      rw [hd] at e1 e2
      by_cases hi : i = t <;> by_cases hj : j = t
      · rw [hi, hj]
      · rw [if_pos hi] at e1; rw [if_neg hj] at e2
        simp only [Option.some.injEq] at e1
        subst e1
        exact absurd e2 (hkt j)
      · rw [if_neg hi] at e1; rw [if_pos hj] at e2
        simp only [Option.some.injEq] at e2
        subst e2
        exact absurd e1 (hkt i)
      · rw [if_neg hi] at e1; rw [if_neg hj] at e2
        exact h.inj i j x e1 e2
    · intro x hx
      refine ⟨by have := (h.nodes x hx).1; omega, fun i e => ?_⟩
      have hxk : x ≠ k := fun e' => by subst e'; exact hkn hx
      rw [hd] at e
      by_cases hi : i = t
      · rw [if_pos hi] at e
        simp only [Option.some.injEq] at e
        exact hxk e.symm
      · rw [if_neg hi] at e
        exact (h.nodes x hx).2 i e
    · intro i e
      rw [hf] at e
      rw [hd]
      by_cases hi0 : i = h'
      · subst hi0
        refine ⟨hmem, ?_⟩
        by_cases hi : i = t
        · rw [if_pos hi]; simp
        · rw [if_neg hi]
          rcases reach_source ht with e' | e'
          · exact absurd e'.symm hi
          · exact e'
      · rw [if_neg hi0] at e
        obtain ⟨a, c⟩ := h.heads i e
        refine ⟨a, ?_⟩
        by_cases hi : i = t
        · rw [if_pos hi]; simp
        · rw [if_neg hi]; exact c
    · intro x hx e
      rw [hf]
      by_cases hx0 : x = h'
      · rw [if_pos hx0]
      · rw [if_neg hx0]
        have hxt : x ≠ t := by
          intro e'
          subst e'
          rcases reach_target ht with e'' | ⟨i, hi⟩
          · exact hx0 e''
          · exact (h.nodes x hx).2 i hi
        rw [hd, if_neg hxt] at e
        exact h.flagged x hx e
    · intro i hi
      have hih : i ≠ h' := by omega
      have hit : i ≠ t := by omega
      rw [hd, hf, if_neg hit, if_neg hih]
      exact h.fresh i (by omega)

/-! ## One pass of the main loop -/

/-- The tail of the loop body after a match: it ends, and either registers the pair
or leaves the state alone. -/
theorem main_match_spec (G : globals) (n k : Nat) (st : scan_state) (rk : Nat → ℚ)
    (p : List tree_direction) (m : Nat)
    (hinv : chain_inv k st.files st.checktree.nodefiles rk) (hk : k < n)
    (hs : st.checktree.slot p = some m)
    (hc : check_conditions G.flags (st.files m) (st.files k) = 2 ∨
          check_conditions G.flags (st.files m) (st.files k) = 0) :
    ∃ st', main_match G n st k p = some st' ∧
      ((st'.files = st.files ∧ st'.checktree = st.checktree) ∨
       (∃ h', st'.checktree = st.checktree.setslot p h' ∧
          pair_registered st.files m k st'.files h' ∧ match_ok G st.files m k)) := by
  have hm : m < k := (hinv.nodes m (slot_mem _ p m hs)).1
  obtain ⟨fs', h', e, hreg⟩ := registerpair_spec (comparef G) k m k n rk st.files
    (fun i j h => (hinv.edges i j h).2) hm (by omega)
  unfold main_match
  rw [hs]
  dsimp only
  by_cases hq : G.flags.F_QUICKCOMPARE = true ∨
      (G.flags.F_CONSIDERHARDLINKS = true ∧ (st.files k).inode = (st.files m).inode ∧
        (st.files k).device = (st.files m).device)
  · rw [if_pos hq, e]
    refine ⟨_, rfl, Or.inr ⟨h', rfl, hreg, hc, ?_⟩⟩
    rcases hq with hq | hq
    · exact Or.inl hq
    · exact Or.inr (Or.inl hq)
  · rw [if_neg hq]
    cases h1 : G.fopen (st.files k).d_name with
    | none => exact ⟨st, rfl, Or.inl ⟨rfl, rfl⟩⟩
    | some file1 =>
      dsimp only
      cases h2 : G.fopen (st.files m).d_name with
      | none => exact ⟨st, rfl, Or.inl ⟨rfl, rfl⟩⟩
      | some file2 =>
        dsimp only
        by_cases hcm : confirmmatch G file1 file2 ≠ 0
        · rw [if_pos hcm, e]
          exact ⟨_, rfl, Or.inr ⟨h', rfl, hreg, hc, Or.inr (Or.inr ⟨file1, file2, h1, h2, hcm⟩)⟩⟩
        · rw [if_neg hcm]
          exact ⟨_, rfl, Or.inl ⟨rfl, rfl⟩⟩

/-- One pass of the main loop ends and is a `scan_step`. -/
theorem main_body_spec (G : globals) (n k : Nat) (st : scan_state) (rk : Nat → ℚ)
    (hinv : chain_inv k st.files st.checktree.nodefiles rk) (hk : k < n) :
    ∃ st', main_body G n st k = some st' ∧ scan_step G k st st' := by
  obtain ⟨files, tree, trace⟩ := st
  dsimp only at hinv
  unfold main_body
  cases tree with
  | nil =>
    refine ⟨_, rfl, files, fun i => hash_evolves_refl _, fun _ _ _ => rfl, fun h => h,
      Or.inl ⟨rfl, Or.inr ?_⟩⟩
    simp [registerfile, filetree_t.nodefiles]
  | node f l r =>
    dsimp only
    obtain ⟨ev, ne, ok, hsome, hnone⟩ := checkmatch_spec G k (filetree_t.node f l r) files trace
    cases hret : (checkmatch G (filetree_t.node f l r) k files trace).ret with
    | none =>
      exact ⟨_, rfl, _, ev, ne, ok, Or.inl ⟨rfl, hnone hret⟩⟩
    | some p =>
      dsimp only
      obtain ⟨htree, m, hm, hc⟩ := hsome p hret
      have hinv1 : chain_inv k (checkmatch G (filetree_t.node f l r) k files trace).files
          (checkmatch G (filetree_t.node f l r) k files trace).tree.nodefiles rk := by
        rw [htree]
        exact chain_inv_congr hinv (fun i => (ev i).2.1) (fun i => (ev i).2.2.1)
      have hc1 : ∀ x, check_conditions G.flags
          ((checkmatch G (filetree_t.node f l r) k files trace).files m)
          ((checkmatch G (filetree_t.node f l r) k files trace).files k) = x ↔
          check_conditions G.flags (files m) (files k) = x := fun x => by
        rw [check_conditions_stat _ _ _ _ _ (ev m).1 (ev k).1]
      obtain ⟨st', e, hpost⟩ := main_match_spec G n k
        { files := (checkmatch G (filetree_t.node f l r) k files trace).files,
          checktree := (checkmatch G (filetree_t.node f l r) k files trace).tree,
          trace := (checkmatch G (filetree_t.node f l r) k files trace).trace }
        rk p m hinv1 hk (by rw [htree]; exact hm)
        (by rcases hc with hc | hc
            · exact Or.inl ((hc1 2).mpr hc)
            · exact Or.inr ((hc1 0).mpr hc))
      refine ⟨st', e, _, ev, ne, ok, ?_⟩
      rcases hpost with ⟨e1, e2⟩ | ⟨h', e1, e2, e3⟩
      · refine Or.inl ⟨e1, Or.inl ?_⟩
        rw [e2]; dsimp only; rw [htree]
      · refine Or.inr ⟨p, m, h', hm, ?_, e2, e3⟩
        rw [e1]; dsimp only; rw [htree]

/-! ## The scan as a sequence of steps -/

theorem link_evolves_of_registered {fs fs' : Nat → file_t} {m c h' : Nat}
    (h : pair_registered fs m c fs' h') (i : Nat) : link_evolves (fs i) (fs' i) :=
  h.1 i

theorem scan_step_chain_inv {G : globals} {k : Nat} {st st' : scan_state} {rk : Nat → ℚ}
    (hinv : chain_inv k st.files st.checktree.nodefiles rk) (hstep : scan_step G k st st') :
    ∃ rk', chain_inv (k + 1) st'.files st'.checktree.nodefiles rk' := by
  obtain ⟨fs1, ev, -, -, hcase⟩ := hstep
  have hinv1 : chain_inv k fs1 st.checktree.nodefiles rk :=
    chain_inv_congr hinv (fun i => (ev i).2.1) (fun i => (ev i).2.2.1)
  rcases hcase with ⟨e, hn | hn⟩ | ⟨p, m, h', hs, ht, hreg, -⟩
  · rw [e, hn]; exact ⟨rk, chain_inv_skip hinv1⟩
  · rw [e]; exact ⟨rk, chain_inv_insert hinv1 hn⟩
  · rw [ht]; exact chain_inv_register hinv1 hs hreg

theorem scan_step_stat {G : globals} {k : Nat} {st st' : scan_state}
    (hstep : scan_step G k st st') (i : Nat) :
    stat_of (st'.files i) = stat_of (st.files i) := by
  obtain ⟨fs1, ev, -, -, hcase⟩ := hstep
  rcases hcase with ⟨e, -⟩ | ⟨p, m, h', -, -, hreg, -⟩
  · rw [e]; exact (ev i).1
  · rw [(hreg.1 i).1]; exact (ev i).1

theorem scan_init_chain_inv (cands : List file_t) (hfresh : ∀ f ∈ cands, walker_fresh f) :
    chain_inv 0 (scan_init cands).files (scan_init cands).checktree.nodefiles (fun _ => 0) := by
  have hf : ∀ i, walker_fresh ((scan_init cands).files i) := by
    intro i
    show walker_fresh (cands.getD i default)
    by_cases hi : i < cands.length
    · rw [List.getD_eq_getElem _ _ hi]
      exact hfresh _ (List.getElem_mem hi)
    · rw [List.getD_eq_default _ _ (by omega)]
      exact ⟨rfl, rfl, rfl, rfl⟩
  refine ⟨?_, ?_, ?_, ?_, ?_, ?_, ?_⟩
  · intro i j e; rw [(hf i).2.2.2] at e; exact absurd e (by simp)
  · intro i j x e; rw [(hf i).2.2.2] at e; exact absurd e (by simp)
  · intro h hh; simp [scan_init, filetree_t.nodefiles] at hh
  · intro i e; rw [(hf i).2.2.1] at e; exact absurd e (by simp)
  · intro h hh; simp [scan_init, filetree_t.nodefiles] at hh
  · simp [scan_init, filetree_t.nodefiles]
  · intro i _; exact ⟨(hf i).2.2.2, (hf i).2.2.1⟩

/-- Induction along the scan: the main loop ends on every list of fresh candidates,
and a property that holds at the start and is kept by every `scan_step` holds after
each pass. -/
theorem scan_upto_spec (G : globals) (cands : List file_t)
    (hfresh : ∀ f ∈ cands, walker_fresh f) (Inv : Nat → scan_state → Prop)
    (h0 : Inv 0 (scan_init cands))
    (hstep : ∀ k st st' rk, k < cands.length → scan_upto G cands k = some st →
      scan_upto G cands (k + 1) = some st' →
      chain_inv k st.files st.checktree.nodefiles rk → Inv k st → scan_step G k st st' →
      Inv (k + 1) st') :
    ∀ k, k ≤ cands.length → ∃ st rk, scan_upto G cands k = some st ∧
      chain_inv k st.files st.checktree.nodefiles rk ∧ Inv k st := by
  intro k
  induction k with
  | zero =>
    intro _
    exact ⟨_, _, rfl, scan_init_chain_inv cands hfresh, h0⟩
  | succ k ih =>
    intro hk
    obtain ⟨st, rk, e, hinv, hI⟩ := ih (by omega)
    obtain ⟨st', e', hs⟩ := main_body_spec G cands.length k st rk hinv (by omega)
    obtain ⟨rk', hinv'⟩ := scan_step_chain_inv hinv hs
    have e2 : scan_upto G cands (k + 1) = some st' := by
      rw [scan_upto, e]; exact e'
    exact ⟨st', rk', e2, hinv', hstep k st st' rk (by omega) e e2 hinv hI hs⟩

/-- The scan ends on every list of fresh candidates, with the chain invariant. -/
theorem scan_total (G : globals) (cands : List file_t)
    (hfresh : ∀ f ∈ cands, walker_fresh f) (k : Nat) (hk : k ≤ cands.length) :
    ∃ st rk, scan_upto G cands k = some st ∧
      chain_inv k st.files st.checktree.nodefiles rk :=
  let ⟨st, rk, e, h, _⟩ := scan_upto_spec G cands hfresh (fun _ _ => True) trivial
    (fun _ _ _ _ _ _ _ _ _ _ => trivial) k hk
  ⟨st, rk, e, h⟩

/-! ## Relations kept along the chains -/

theorem reach_rel {R : Nat → Nat → Prop} (hR : Equivalence R) {fs : Nat → file_t}
    (hinv : ∀ i j, (fs i).duplicates = some j → R i j) {a b : Nat} (h : reach fs a b) :
    R a b := by
  induction h with
  | refl => exact hR.refl _
  | tail _ hc ih => exact hR.trans ih (hinv _ _ hc)

theorem mem_dupchain_reach (fs : Nat → file_t) :
    ∀ (fuel h x : Nat), x ∈ dupchain fs fuel h → reach fs h x := by
  intro fuel
  induction fuel with
  | zero =>
    intro h x hx
    simp only [dupchain, List.mem_singleton] at hx
    subst hx
    exact Relation.ReflTransGen.refl
  | succ fuel ih =>
    intro h x hx
    rw [dupchain] at hx
    rcases List.mem_cons.mp hx with e | e
    · subst e; exact Relation.ReflTransGen.refl
    · cases hd : (fs h).duplicates with
      | none => rw [hd] at e; simp at e
      | some y =>
        rw [hd] at e
        exact Relation.ReflTransGen.head hd (ih y x e)

/-- An equivalence that holds between the two records of every registered pair
holds along every pointer that `registerpair` leaves. -/
theorem rel_registered {R : Nat → Nat → Prop} (hR : Equivalence R) {fs fs' : Nat → file_t}
    {m c h' : Nat} (hinv : ∀ i j, (fs i).duplicates = some j → R i j)
    (hreg : pair_registered fs m c fs' h') (hmc : R m c) :
    ∀ i j, (fs' i).duplicates = some j → R i j := by
  obtain ⟨-, hshape⟩ := hreg
  intro i j e
  rcases hshape with ⟨-, hp⟩ | ⟨-, b, t, hb, hbt, hp⟩ | ⟨-, t, ht, -, hp⟩
  · rw [(hp i).1] at e
    by_cases hi : i = c
    · rw [if_pos hi] at e
      simp only [Option.some.injEq] at e
      subst e; subst hi
      exact hR.symm hmc
    · rw [if_neg hi] at e; exact hinv i j e
  · rw [(hp i).1] at e
    have hmb : R m b := reach_rel hR hinv hb
    by_cases hi : i = b
    · rw [if_pos hi] at e
      simp only [Option.some.injEq] at e
      subst e; subst hi
      exact hR.trans (hR.symm hmb) hmc
    · rw [if_neg hi] at e
      by_cases hic : i = c
      · rw [if_pos hic] at e
        simp only [Option.some.injEq] at e
        subst e; subst hic
        exact hR.trans (hR.symm hmc) (hR.trans hmb (hinv b _ hbt))
      · rw [if_neg hic] at e; exact hinv i j e
  · rw [(hp i).1] at e
    by_cases hi : i = t
    · rw [if_pos hi] at e
      simp only [Option.some.injEq] at e
      subst e; subst hi
      exact hR.trans (hR.symm (reach_rel hR hinv ht)) hmc
    · rw [if_neg hi] at e; exact hinv i j e

theorem scan_init_getD (cands : List file_t) (i : Nat) :
    (scan_init cands).files i = cands.getD i default := rfl

theorem mem_groups {n : Nat} {fs : Nat → file_t} {g : List Nat} (hg : g ∈ groups n fs) :
    ∃ h, h < n ∧ (fs h).F_HAS_DUPES = true ∧ g = dupchain fs n h := by
  unfold groups at hg
  simp only [List.mem_map, List.mem_filter, List.mem_range] at hg
  obtain ⟨h, ⟨h1, h2⟩, h3⟩ := hg
  exact ⟨h, h1, h2, h3.symm⟩

/-- Soundness scheme: an equivalence `Q` on the walker part of the records that
holds for every pair the main loop registers holds between any two members of any
group, after each pass of the main loop. -/
theorem scan_rel (G : globals) (cands : List file_t)
    (hfresh : ∀ f ∈ cands, walker_fresh f) (Q : file_t → file_t → Prop)
    (hQ : Equivalence Q)
    (hmatch : ∀ (fs : Nat → file_t) (m c : Nat),
      (∀ i, stat_of (fs i) = stat_of (cands.getD i default)) →
      m < cands.length → c < cands.length → match_ok G fs m c →
      Q (stat_of (cands.getD m default)) (stat_of (cands.getD c default))) :
    ∀ k, k ≤ cands.length → ∃ st rk, scan_upto G cands k = some st ∧
      chain_inv k st.files st.checktree.nodefiles rk ∧
      (∀ i, stat_of (st.files i) = stat_of (cands.getD i default)) ∧
      ∀ g ∈ groups cands.length st.files, ∀ a ∈ g, ∀ b ∈ g,
        Q (stat_of (cands.getD a default)) (stat_of (cands.getD b default)) := by
  intro k hk
  have hR : Equivalence (fun i j : Nat =>
      Q (stat_of (cands.getD i default)) (stat_of (cands.getD j default))) :=
    ⟨fun _ => hQ.refl _, fun h => hQ.symm h, fun h1 h2 => hQ.trans h1 h2⟩
  obtain ⟨st, rk, e, hinv, hstat, hrel⟩ := scan_upto_spec G cands hfresh
    (fun _ st => (∀ i, stat_of (st.files i) = stat_of (cands.getD i default)) ∧
      ∀ i j, (st.files i).duplicates = some j →
        Q (stat_of (cands.getD i default)) (stat_of (cands.getD j default)))
    ⟨fun _ => rfl, fun i j h => by
      have := (scan_init_chain_inv cands hfresh).edges i j h
      omega⟩
    (fun k st st' rk hkn _ _ hinv hI hs => by
      obtain ⟨hstat, hrel⟩ := hI
      refine ⟨fun i => by rw [scan_step_stat hs i, hstat i], ?_⟩
      obtain ⟨fs1, ev, -, -, hcase⟩ := hs
      have hrel1 : ∀ i j, (fs1 i).duplicates = some j →
          Q (stat_of (cands.getD i default)) (stat_of (cands.getD j default)) := by
        intro i j h
        rw [(ev i).2.1] at h
        exact hrel i j h
      rcases hcase with ⟨e, -⟩ | ⟨p, m, h', hsl, -, hreg, hok⟩
      · rw [e]; exact hrel1
      · have hm : m < k := (hinv.nodes m (slot_mem _ p m hsl)).1
        exact rel_registered hR hrel1 hreg
          (hmatch fs1 m k (fun i => by rw [(ev i).1, hstat i]) (by omega) hkn hok))
    k hk
  refine ⟨st, rk, e, hinv, hstat, ?_⟩
  intro g hg a ha b hb
  obtain ⟨h, -, -, rfl⟩ := mem_groups hg
  have ra := reach_rel hR hrel (mem_dupchain_reach _ _ _ _ ha)
  have rb := reach_rel hR hrel (mem_dupchain_reach _ _ _ _ hb)
  exact hQ.trans (hQ.symm ra) rb

/-! ## Chunk size and byte confirmation -/

theorem land_ff000 (x : Nat) : x &&& 0x000ff000 = 4096 * (x / 4096 % 256) := by
  have e1 : (0x000ff000 : Nat) = 2 ^ 12 * (2 ^ 8 - 1) := by norm_num
  have e2 : 4096 * (x / 4096 % 256) = 2 ^ 12 * ((x >>> 12) % 2 ^ 8) := by
    rw [Nat.shiftRight_eq_div_pow]; norm_num
  rw [e1, e2]
  apply Nat.eq_of_testBit_eq
  intro i
  rw [Nat.testBit_and, Nat.testBit_mul_pow_two, Nat.testBit_mul_pow_two, Nat.testBit_mod_two_pow,
    Nat.testBit_shiftRight, Nat.testBit_two_pow_sub_one]
  by_cases h : i ≥ 12
  · have : 12 + (i - 12) = i := by omega
    rw [this]
    cases Nat.testBit x i <;> simp [h]
  · simp [h]

theorem land_fff (x : Nat) : x &&& 0x00000fff = x % 4096 := by
  have e1 : (0x00000fff : Nat) = 2 ^ 12 - 1 := by norm_num
  rw [e1, Nat.and_pow_two_sub_one_eq_mod]

/-- The chunk size `main` computes lies in `[4096, CHUNK_SIZE]` and is a multiple of
4096, whatever the probe returned. -/
theorem auto_chunk_size_bounds (G : globals) :
    4096 ≤ auto_chunk_size G ∧ auto_chunk_size G ≤ CHUNK_SIZE ∧ auto_chunk_size G % 4096 = 0 := by
  unfold auto_chunk_size CHUNK_SIZE
  generalize (if G.l1 ≠ 0 then G.l1 / 2 else if G.l1d ≠ 0 then G.l1d / 2 else 0) = a
  dsimp only
  have h2 : 4096 ≤ (if a < 4096 ∨ a > 32768 then 32768 else a) ∧
      (if a < 4096 ∨ a > 32768 then 32768 else a) ≤ 32768 := by
    split_ifs with h <;> omega
  generalize (if a < 4096 ∨ a > 32768 then 32768 else a) = b at h2
  rw [land_fff, land_ff000]
  split_ifs with h <;> omega

theorem auto_chunk_size_pos (G : globals) : 0 < auto_chunk_size G := by
  have := (auto_chunk_size_bounds G).1
  omega

/-- A non-zero result of the compare loop means the two streams hold the same
bytes. -/
theorem confirmmatch_loop_sound (G : globals) :
    ∀ (fuel : Nat) (file1 file2 : List Nat),
      confirmmatch_loop G fuel file1 file2 ≠ 0 → file1 = file2 := by
  intro fuel
  induction fuel with
  | zero =>
    intro file1 file2 h
    rw [confirmmatch_loop] at h
    split_ifs at h with h1 h2 h3
    · exact absurd rfl h
    · exact absurd rfl h
    · exact absurd rfl h
    · have hpos := auto_chunk_size_pos G
      have e2 : file2 = [] := by
        simp only [ne_eq, List.length_eq_zero, not_not] at h3
        rcases List.take_eq_nil_iff.mp h3 with h3 | h3
        · omega
        · exact h3
      have e1 : file1 = [] := by
        simp only [ne_eq, not_not] at h2
        rw [e2] at h2
        simp only [List.take_nil] at h2
        rcases List.take_eq_nil_iff.mp h2 with h2 | h2
        · omega
        · exact h2
      rw [e1, e2]
  | succ fuel ih =>
    intro file1 file2 h
    rw [confirmmatch_loop] at h
    split_ifs at h with h1 h2 h3
    · exact absurd rfl h
    · exact absurd rfl h
    · simp only [ne_eq, not_not] at h2
      have hd := ih _ _ h
      rw [← List.take_append_drop (auto_chunk_size G) file1,
        ← List.take_append_drop (auto_chunk_size G) file2, h2, hd]
    · have hpos := auto_chunk_size_pos G
      have e2 : file2 = [] := by
        simp only [ne_eq, List.length_eq_zero, not_not] at h3
        rcases List.take_eq_nil_iff.mp h3 with h3 | h3
        · omega
        · exact h3
      have e1 : file1 = [] := by
        simp only [ne_eq, not_not] at h2
        rw [e2] at h2
        simp only [List.take_nil] at h2
        rcases List.take_eq_nil_iff.mp h2 with h2 | h2
        · omega
        · exact h2
      rw [e1, e2]

theorem confirmmatch_sound (G : globals) (file1 file2 : List Nat)
    (h : confirmmatch G file1 file2 ≠ 0) : file1 = file2 :=
  confirmmatch_loop_sound G _ _ _ h

/-! ## What a passed condition check says -/

theorem check_conditions_pass (fl : flags_t) (f g : file_t)
    (h : check_conditions fl f g = 2 ∨ check_conditions fl f g = 0) :
    (fl.F_ISOLATE = true → f.user_order ≠ g.user_order) ∧
    (fl.F_ONEFS = true → f.device = g.device) ∧
    (fl.F_PERMISSIONS = true → f.mode = g.mode ∧ f.uid = g.uid ∧ f.gid = g.gid) := by
  unfold check_conditions at h
  split_ifs at h with h1 h2 h3 h4 h5 h6 h7
  all_goals first
    | (exfalso; rcases h with h | h <;> revert h <;> decide)
    | skip
  all_goals
    refine ⟨fun hi ho => h1 ⟨hi, ho⟩, fun ho => ?_, fun hp => ?_⟩
    · by_contra hne; exact h2 ⟨ho, hne⟩
    · by_contra hne
      apply h3
      refine ⟨hp, ?_⟩
      by_contra hall
      apply hne
      simp only [not_or, not_not] at hall
      exact hall

theorem match_ok_link_or_size (G : globals) (fs : Nat → file_t) (m c : Nat)
    (h : match_ok G fs m c) :
    (linked (fs m) (fs c) ∧ G.flags.F_CONSIDERHARDLINKS = true) ∨ (fs m).size = (fs c).size := by
  rcases h.1 with h2 | h0
  · exact Or.inl (check_conditions_two _ _ _ h2)
  · exact Or.inr (check_conditions_zero_size _ _ _ h0)

/-! # The claims -/

/-- C3: after a scan over any list of fresh candidates, in any processing order, no
group holds two candidates on different devices when one-file-system is on, and none
holds two candidates whose mode, uid or gid differ when permission matching is on
(groups whose head `registerpair` replaced included). -/
theorem filter_conformance_device_permissions (G : globals) (cands : List file_t)
    (hfresh : ∀ f ∈ cands, walker_fresh f) :
    ∃ st, scan G cands = some st ∧
      ∀ g ∈ groups cands.length st.files, ∀ a ∈ g, ∀ b ∈ g,
        (G.flags.F_ONEFS = true →
          (cands.getD a default).device = (cands.getD b default).device) ∧
        (G.flags.F_PERMISSIONS = true →
          (cands.getD a default).mode = (cands.getD b default).mode ∧
          (cands.getD a default).uid = (cands.getD b default).uid ∧
          (cands.getD a default).gid = (cands.getD b default).gid) := by
  obtain ⟨st, rk, e, -, -, h⟩ := scan_rel G cands hfresh
    (fun f g => (G.flags.F_ONEFS = true → f.device = g.device) ∧
      (G.flags.F_PERMISSIONS = true → f.mode = g.mode ∧ f.uid = g.uid ∧ f.gid = g.gid))
    ⟨fun _ => ⟨fun _ => rfl, fun _ => ⟨rfl, rfl, rfl⟩⟩,
     fun h => ⟨fun a => (h.1 a).symm, fun a => ⟨(h.2 a).1.symm, (h.2 a).2.1.symm, (h.2 a).2.2.symm⟩⟩,
     fun h1 h2 => ⟨fun a => (h1.1 a).trans (h2.1 a),
       fun a => ⟨(h1.2 a).1.trans (h2.2 a).1, (h1.2 a).2.1.trans (h2.2 a).2.1,
         (h1.2 a).2.2.trans (h2.2 a).2.2⟩⟩⟩
    (fun fs m c hstat _ _ hok => by
      have hc := hok.1
      rw [check_conditions_stat G.flags (fs m) (fs c) (stat_of (cands.getD m default))
        (stat_of (cands.getD c default)) (hstat m) (hstat c)] at hc
      obtain ⟨-, h1, h2⟩ := check_conditions_pass _ _ _ hc
      exact ⟨h1, h2⟩)
    cands.length (le_refl _)
  exact ⟨st, e, h⟩

/-- C3, run on four candidates with one-file-system and permission matching on. -/
theorem filter_conformance_device_permissions_witness :
    (∀ f ∈ sample_mixed, walker_fresh f) ∧
    ∃ st, scan sample_globals_1p sample_mixed = some st ∧
      ∀ g ∈ groups sample_mixed.length st.files, ∀ a ∈ g, ∀ b ∈ g,
        (sample_globals_1p.flags.F_ONEFS = true →
          (sample_mixed.getD a default).device = (sample_mixed.getD b default).device) ∧
        (sample_globals_1p.flags.F_PERMISSIONS = true →
          (sample_mixed.getD a default).mode = (sample_mixed.getD b default).mode ∧
          (sample_mixed.getD a default).uid = (sample_mixed.getD b default).uid ∧
          (sample_mixed.getD a default).gid = (sample_mixed.getD b default).gid) :=
  ⟨by decide, filter_conformance_device_permissions sample_globals_1p sample_mixed (by decide)⟩

theorem getD_mem (cands : List file_t) (i : Nat) (h : i < cands.length) :
    cands.getD i default ∈ cands := by
  rw [List.getD_eq_getElem _ _ h]
  exact List.getElem_mem h

/-- C1 as the code has it: soundness of grouping. Let the candidates with the same
inode and device have the same size and read the same bytes whenever hard links count
as duplicates. Then after a scan over any list of fresh candidates any two
candidates `a`, `b` of one group have the same size, and they read the same bytes, or
they are linked and hard links count as duplicates, or quick mode is on. -/
theorem grouping_sound (G : globals) (cands : List file_t)
    (hfresh : ∀ f ∈ cands, walker_fresh f)
    (hlink : G.flags.F_CONSIDERHARDLINKS = true → ∀ f ∈ cands, ∀ g ∈ cands, linked f g →
      f.size = g.size ∧ G.fopen f.d_name = G.fopen g.d_name) :
    ∃ st, scan G cands = some st ∧
      ∀ g ∈ groups cands.length st.files, ∀ a ∈ g, ∀ b ∈ g,
        (cands.getD a default).size = (cands.getD b default).size ∧
        (G.fopen (cands.getD a default).d_name = G.fopen (cands.getD b default).d_name ∨
         (linked (cands.getD a default) (cands.getD b default) ∧
           G.flags.F_CONSIDERHARDLINKS = true) ∨
         G.flags.F_QUICKCOMPARE = true) := by
  obtain ⟨st, rk, e, -, -, h⟩ := scan_rel G cands hfresh
    (fun f g => f.size = g.size ∧
      (G.flags.F_QUICKCOMPARE = true ∨ G.fopen f.d_name = G.fopen g.d_name))
    ⟨fun _ => ⟨rfl, Or.inr rfl⟩,
     fun h => ⟨h.1.symm, h.2.imp id Eq.symm⟩,
     fun h1 h2 => ⟨h1.1.trans h2.1, by
       rcases h1.2 with q | c1
       · exact Or.inl q
       · rcases h2.2 with q | c2
         · exact Or.inl q
         · exact Or.inr (c1.trans c2)⟩⟩
    (fun fs m c hstat hm hc hok => by
      obtain ⟨-, -, sm, dm, im, -, -, -, -⟩ := stat_of_fields _ _ (hstat m)
      obtain ⟨nc, -, sc, dc, ic, -, -, -, -⟩ := stat_of_fields _ _ (hstat c)
      obtain ⟨nm, -, -, -, -, -, -, -, -⟩ := stat_of_fields _ _ (hstat m)
      have hlk : linked (fs m) (fs c) → G.flags.F_CONSIDERHARDLINKS = true →
          (cands.getD m default).size = (cands.getD c default).size ∧
          G.fopen (cands.getD m default).d_name = G.fopen (cands.getD c default).d_name := by
        intro hl hH
        refine hlink hH _ (getD_mem cands m hm) _ (getD_mem cands c hc) ?_
        unfold linked at hl ⊢
        rw [← im, ← ic, ← dm, ← dc]
        exact hl
      show (cands.getD m default).size = (cands.getD c default).size ∧
        (G.flags.F_QUICKCOMPARE = true ∨
          G.fopen (cands.getD m default).d_name = G.fopen (cands.getD c default).d_name)
      rcases match_ok_link_or_size G fs m c hok with ⟨hl, hH⟩ | hsz
      · exact ⟨(hlk hl hH).1, Or.inr (hlk hl hH).2⟩
      · refine ⟨by rw [← sm, ← sc]; exact hsz, ?_⟩
        rcases hok.2 with q | ⟨hH, hl⟩ | ⟨f1, f2, o1, o2, hcm⟩
        · exact Or.inl q
        · exact Or.inr (hlk ⟨hl.1.symm, hl.2.symm⟩ hH).2
        · right
          rw [← nm, ← nc, o1, o2, confirmmatch_sound G f1 f2 hcm])
    cands.length (le_refl _)
  refine ⟨st, e, fun g hg a ha b hb => ?_⟩
  obtain ⟨h1, h2⟩ := h g hg a ha b hb
  refine ⟨h1, ?_⟩
  rcases h2 with q | c
  · exact Or.inr (Or.inr q)
  · exact Or.inl c

/-- C1 as the code has it, run on two hard links and a copy with hard links counted as
duplicates. -/
theorem grouping_sound_witness :
    (∀ f ∈ sample_links, walker_fresh f) ∧
    (sample_globals_H.flags.F_CONSIDERHARDLINKS = true →
      ∀ f ∈ sample_links, ∀ g ∈ sample_links, linked f g →
        f.size = g.size ∧ sample_globals_H.fopen f.d_name = sample_globals_H.fopen g.d_name) ∧
    ∃ st, scan sample_globals_H sample_links = some st ∧
      ∀ g ∈ groups sample_links.length st.files, ∀ a ∈ g, ∀ b ∈ g,
        (sample_links.getD a default).size = (sample_links.getD b default).size ∧
        (sample_globals_H.fopen (sample_links.getD a default).d_name =
            sample_globals_H.fopen (sample_links.getD b default).d_name ∨
         (linked (sample_links.getD a default) (sample_links.getD b default) ∧
           sample_globals_H.flags.F_CONSIDERHARDLINKS = true) ∨
         sample_globals_H.flags.F_QUICKCOMPARE = true) :=
  ⟨by decide, by decide,
    grouping_sound sample_globals_H sample_links (by decide) (by decide)⟩

theorem hash_cache_ok_link {f g : file_t} (h : link_evolves f g) (hf : hash_cache_ok f) :
    hash_cache_ok g := by
  obtain ⟨a1, a2, a3, a4, a5⟩ := h
  have hs : g.size = f.size := (stat_of_fields g f a1).2.2.1
  unfold hash_cache_ok
  rw [a2, a3, a4, a5, hs]
  exact hf

theorem scan_step_hash_cache_ok {G : globals} {k : Nat} {st st' : scan_state}
    (hs : scan_step G k st st') (h : ∀ i, hash_cache_ok (st.files i)) :
    ∀ i, hash_cache_ok (st'.files i) := by
  obtain ⟨fs1, -, -, ok, hcase⟩ := hs
  rcases hcase with ⟨e, -⟩ | ⟨p, m, h', -, -, hreg, -⟩
  · rw [e]; exact ok h
  · exact fun i => hash_cache_ok_link (hreg.1 i) (ok h i)

theorem scan_step_hash_kept {G : globals} {k : Nat} {st st' : scan_state}
    (hs : scan_step G k st st') (i : Nat) :
    ((st.files i).F_HASH_PARTIAL = true → (st'.files i).F_HASH_PARTIAL = true ∧
      file_t.filehash_partial (st'.files i) = file_t.filehash_partial (st.files i)) ∧
    ((st.files i).F_HASH_FULL = true → (st'.files i).F_HASH_FULL = true ∧
      (st'.files i).filehash = (st.files i).filehash) := by
  obtain ⟨fs1, ev, -, -, hcase⟩ := hs
  obtain ⟨-, -, -, e4, e5⟩ := ev i
  rcases hcase with ⟨e, -⟩ | ⟨p, m, h', -, -, hreg, -⟩
  · rw [e]; exact ⟨e4, e5⟩
  · obtain ⟨-, a2, a3, a4, a5⟩ := hreg.1 i
    rw [a2, a3, a4, a5]
    exact ⟨e4, e5⟩

/-- C9: the hash-cache invariant. After any number of passes of the main loop over
fresh candidates, every record whose full hash is marked computed has its partial
hash marked computed, and if its size is at most `PARTIAL_HASH_SIZE` the cached full
hash equals the cached partial hash. -/
theorem hash_cache_invariant (G : globals) (cands : List file_t)
    (hfresh : ∀ f ∈ cands, walker_fresh f) (k : Nat) (hk : k ≤ cands.length) :
    ∃ st, scan_upto G cands k = some st ∧ ∀ i,
      ((st.files i).F_HASH_FULL = true → (st.files i).F_HASH_PARTIAL = true) ∧
      ((st.files i).F_HASH_FULL = true → (st.files i).size ≤ (PARTIAL_HASH_SIZE : Int) →
        (st.files i).filehash = file_t.filehash_partial (st.files i)) := by
  obtain ⟨st, rk, e, -, h⟩ := scan_upto_spec G cands hfresh
    (fun _ st => ∀ i, hash_cache_ok (st.files i))
    (fun i => by
      have hf : walker_fresh ((scan_init cands).files i) := by
        have := (scan_init_chain_inv cands hfresh).fresh i (Nat.zero_le _)
        show walker_fresh (cands.getD i default)
        by_cases hi : i < cands.length
        · exact hfresh _ (getD_mem cands i hi)
        · rw [List.getD_eq_default _ _ (by omega)]
          exact ⟨rfl, rfl, rfl, rfl⟩
      refine ⟨fun hfull => ?_, fun hfull => ?_⟩
      · rw [hf.2.1] at hfull; exact absurd hfull (by simp)
      · rw [hf.2.1] at hfull; exact absurd hfull (by simp))
    (fun k st st' rk _ _ _ _ hI hs => scan_step_hash_cache_ok hs hI)
    k hk
  exact ⟨st, e, h⟩

/-- C9, run for two passes over four candidates. -/
theorem hash_cache_invariant_witness :
    (∀ f ∈ sample_mixed, walker_fresh f) ∧ 2 ≤ sample_mixed.length ∧
    ∃ st, scan_upto sample_globals sample_mixed 2 = some st ∧ ∀ i,
      ((st.files i).F_HASH_FULL = true → (st.files i).F_HASH_PARTIAL = true) ∧
      ((st.files i).F_HASH_FULL = true → (st.files i).size ≤ (PARTIAL_HASH_SIZE : Int) →
        (st.files i).filehash = file_t.filehash_partial (st.files i)) :=
  ⟨by decide, by decide, hash_cache_invariant sample_globals sample_mixed (by decide) 2 (by decide)⟩

/-- C10: hash caches are filled monotonically. If after `j` passes of the main loop
a record has its partial (full) hash marked computed, then after any later number `k`
of passes, whatever `checkmatch` and `registerpair` did in between, the bit is still
set and the cached value is the same. -/
theorem hash_caches_monotone (G : globals) (cands : List file_t)
    (hfresh : ∀ f ∈ cands, walker_fresh f) (j k : Nat) (hjk : j ≤ k)
    (hk : k ≤ cands.length) :
    ∃ stj stk, scan_upto G cands j = some stj ∧ scan_upto G cands k = some stk ∧ ∀ i,
      ((stj.files i).F_HASH_PARTIAL = true → (stk.files i).F_HASH_PARTIAL = true ∧
        file_t.filehash_partial (stk.files i) = file_t.filehash_partial (stj.files i)) ∧
      ((stj.files i).F_HASH_FULL = true → (stk.files i).F_HASH_FULL = true ∧
        (stk.files i).filehash = (stj.files i).filehash) := by
  obtain ⟨stj, -, ej, -⟩ := scan_total G cands hfresh j (by omega)
  obtain ⟨stk, rk, ek, -, h⟩ := scan_upto_spec G cands hfresh
    (fun k st => ∀ j stj, j ≤ k → scan_upto G cands j = some stj → ∀ i,
      ((stj.files i).F_HASH_PARTIAL = true → (st.files i).F_HASH_PARTIAL = true ∧
        file_t.filehash_partial (st.files i) = file_t.filehash_partial (stj.files i)) ∧
      ((stj.files i).F_HASH_FULL = true → (st.files i).F_HASH_FULL = true ∧
        (st.files i).filehash = (stj.files i).filehash))
    (fun j stj hj e i => by
      have hj0 : j = 0 := by omega
      subst hj0
      simp only [scan_upto, Option.some.injEq] at e
      subst e
      exact ⟨fun h => ⟨h, rfl⟩, fun h => ⟨h, rfl⟩⟩)
    (fun k st st' rk _ e e' _ hI hs j stj hj ej i => by
      by_cases hjk : j = k + 1
      · subst hjk
        rw [e'] at ej
        simp only [Option.some.injEq] at ej
        subst ej
        exact ⟨fun h => ⟨h, rfl⟩, fun h => ⟨h, rfl⟩⟩
      · obtain ⟨a1, a2⟩ := hI j stj (by omega) ej i
        obtain ⟨b1, b2⟩ := scan_step_hash_kept hs i
        refine ⟨fun h => ?_, fun h => ?_⟩
        · obtain ⟨x, y⟩ := a1 h
          obtain ⟨x', y'⟩ := b1 x
          exact ⟨x', y'.trans y⟩
        · obtain ⟨x, y⟩ := a2 h
          obtain ⟨x', y'⟩ := b2 x
          exact ⟨x', y'.trans y⟩)
    k hk
  exact ⟨stj, stk, ej, ek, h j stj hjk ej⟩

/-- C10, run between the second and the fourth pass over four candidates. -/
theorem hash_caches_monotone_witness :
    (∀ f ∈ sample_mixed, walker_fresh f) ∧ 2 ≤ 4 ∧ 4 ≤ sample_mixed.length ∧
    ∃ stj stk, scan_upto sample_globals sample_mixed 2 = some stj ∧
      scan_upto sample_globals sample_mixed 4 = some stk ∧ ∀ i,
      ((stj.files i).F_HASH_PARTIAL = true → (stk.files i).F_HASH_PARTIAL = true ∧
        file_t.filehash_partial (stk.files i) = file_t.filehash_partial (stj.files i)) ∧
      ((stj.files i).F_HASH_FULL = true → (stk.files i).F_HASH_FULL = true ∧
        (stk.files i).filehash = (stj.files i).filehash) :=
  ⟨by decide, by decide, by decide,
    hash_caches_monotone sample_globals sample_mixed (by decide) 2 4 (by decide) (by decide)⟩

/-! ## Whole chains -/

theorem rank_card_pos (k : Nat) (rk : Nat → ℚ) (t : Nat) (ht : t < k) :
    1 ≤ ((Finset.range k).filter (fun i => rk i ≤ rk t)).card := by
  have hmem : t ∈ (Finset.range k).filter (fun i => rk i ≤ rk t) := by simp [ht]
  exact Finset.card_pos.mpr ⟨t, hmem⟩

theorem rank_card_lt (k : Nat) (rk : Nat → ℚ) (t t' : Nat) (ht : t < k) (h : rk t' < rk t) :
    ((Finset.range k).filter (fun i => rk i ≤ rk t')).card <
      ((Finset.range k).filter (fun i => rk i ≤ rk t)).card := by
  apply Finset.card_lt_card
  rw [Finset.ssubset_iff_of_subset]
  · refine ⟨t, by simp [ht], ?_⟩
    simp only [Finset.mem_filter, Finset.mem_range, not_and, not_le]
    intro _; exact h
  · intro i hi
    simp only [Finset.mem_filter, Finset.mem_range] at hi ⊢
    exact ⟨hi.1, le_trans hi.2 (le_of_lt h)⟩

theorem dupchain_head (fs : Nat → file_t) (fuel h : Nat) :
    dupchain fs fuel h = h :: (dupchain fs fuel h).tail := by
  cases fuel <;> simp [dupchain]

/-- With enough fuel the walk `dupchain` reaches every record of the chain. -/
theorem reach_mem_dupchain {fs : Nat → file_t} {k : Nat} {rk : Nat → ℚ}
    (hrk : ∀ i j, (fs i).duplicates = some j → j < k ∧ rk j < rk i) :
    ∀ (fuel t x : Nat), t < k →
      ((Finset.range k).filter (fun i => rk i ≤ rk t)).card ≤ fuel + 1 →
      reach fs t x → x ∈ dupchain fs fuel t := by
  intro fuel
  induction fuel with
  | zero =>
    intro t x ht hc hr
    rcases Relation.ReflTransGen.cases_head hr with e | ⟨t', hd, -⟩
    · subst e; simp [dupchain]
    · exfalso
      have h1 := rank_card_lt k rk t t' ht (hrk t t' hd).2
      have h2 := rank_card_pos k rk t' (hrk t t' hd).1
      omega
  | succ fuel ih =>
    intro t x ht hc hr
    rw [dupchain]
    rcases Relation.ReflTransGen.cases_head hr with e | ⟨t', hd, hr'⟩
    · subst e; simp
    · rw [hd]
      have h1 := rank_card_lt k rk t t' ht (hrk t t' hd).2
      exact List.mem_cons_of_mem _ (ih t' x (hrk t t' hd).1 (by omega) hr')

/-- With enough fuel the walk `dupchain` ends at a record without successor. -/
theorem dupchain_last {fs : Nat → file_t} {k : Nat} {rk : Nat → ℚ}
    (hrk : ∀ i j, (fs i).duplicates = some j → j < k ∧ rk j < rk i) :
    ∀ (fuel t x : Nat), t < k →
      ((Finset.range k).filter (fun i => rk i ≤ rk t)).card ≤ fuel + 1 →
      (dupchain fs fuel t).getLast? = some x → (fs x).duplicates = none := by
  intro fuel
  induction fuel with
  | zero =>
    intro t x ht hc hl
    simp only [dupchain, List.getLast?_singleton, Option.some.injEq] at hl
    subst hl
    cases hd : (fs t).duplicates with
    | none => rfl
    | some t' =>
      exfalso
      have h1 := rank_card_lt k rk t t' ht (hrk t t' hd).2
      have h2 := rank_card_pos k rk t' (hrk t t' hd).1
      omega
  | succ fuel ih =>
    intro t x ht hc hl
    rw [dupchain] at hl
    cases hd : (fs t).duplicates with
    | none =>
      rw [hd] at hl
      simp only [List.getLast?_singleton, Option.some.injEq] at hl
      subst hl; exact hd
    | some t' =>
      rw [hd] at hl
      have h1 := rank_card_lt k rk t t' ht (hrk t t' hd).2
      have hl' : (dupchain fs fuel t').getLast? = some x := by
        have e : (t :: dupchain fs fuel t').getLast? = some x := hl
        rw [dupchain_head fs fuel t', List.getLast?_cons_cons] at e
        rw [dupchain_head fs fuel t']
        exact e
      exact ih t' x (hrk t t' hd).1 (by omega) hl'

theorem dupchain_tail_pred (fs : Nat → file_t) :
    ∀ (fuel h x : Nat), x ∈ (dupchain fs fuel h).tail → ∃ p, (fs p).duplicates = some x := by
  intro fuel
  induction fuel with
  | zero => intro h x hx; simp [dupchain] at hx
  | succ fuel ih =>
    intro h x hx
    rw [dupchain] at hx
    simp only [List.tail_cons] at hx
    cases hd : (fs h).duplicates with
    | none => rw [hd] at hx; simp at hx
    | some y =>
      rw [hd] at hx
      dsimp only at hx
      rw [dupchain_head fs fuel y] at hx
      rcases List.mem_cons.mp hx with e | e
      · subst e; exact ⟨h, hd⟩
      · exact ih y x e

theorem dupchain_nodup {fs : Nat → file_t} {k : Nat} {rk : Nat → ℚ}
    (hrk : ∀ i j, (fs i).duplicates = some j → j < k ∧ rk j < rk i) :
    ∀ (fuel h : Nat), (dupchain fs fuel h).Nodup := by
  have hp : ∀ (fuel h : Nat), (dupchain fs fuel h).Pairwise (fun x y => rk y < rk x) := by
    intro fuel
    induction fuel with
    | zero => intro h; simp [dupchain]
    | succ fuel ih =>
      intro h
      rw [dupchain]
      cases hd : (fs h).duplicates with
      | none => simp
      | some y =>
        dsimp only
        rw [List.pairwise_cons]
        refine ⟨fun z hz => ?_, ih y⟩
        have := reach_rank hrk (mem_dupchain_reach fs fuel y z hz)
        exact lt_of_le_of_lt this (hrk h y hd).2
  intro fuel h
  exact (hp fuel h).imp (fun hlt e => by rw [e] at hlt; exact lt_irrefl _ hlt)

/-- A record is reached from at most one record without predecessor. -/
theorem reach_same_head {fs : Nat → file_t}
    (hinj : ∀ i j x, (fs i).duplicates = some x → (fs j).duplicates = some x → i = j)
    {a b : Nat} (ha : ∀ i, (fs i).duplicates ≠ some a) (hb : ∀ i, (fs i).duplicates ≠ some b)
    {x : Nat} (h1 : reach fs a x) : reach fs b x → a = b := by
  induction h1 with
  | refl =>
    intro h2
    rcases reach_target h2 with e | ⟨i, hi⟩
    · exact e
    · exact absurd hi (ha i)
  | tail _ hc ih =>
    intro h2
    rcases Relation.ReflTransGen.cases_tail h2 with e | ⟨c', hr', hc'⟩
    · subst e; exact absurd hc (hb _)
    · have := hinj _ _ _ hc hc'
      subst this
      exact ih hr'

/-- Registering a fresh record keeps every old path and puts the old head and the
newcomer on the chain of the new head. -/
theorem reach_registered {fs fs' : Nat → file_t} {m c h' : Nat}
    (hc : (fs c).duplicates = none) (hreg : pair_registered fs m c fs' h') :
    (∀ a b, reach fs a b → reach fs' a b) ∧ reach fs' h' m ∧ reach fs' h' c := by
  obtain ⟨-, hshape⟩ := hreg
  have step : (∀ i j, (fs i).duplicates = some j → reach fs' i j) →
      ∀ a b, reach fs a b → reach fs' a b := by
    intro hs a b h
    induction h with
    | refl => exact Relation.ReflTransGen.refl
    | tail _ hcb ih => exact Relation.ReflTransGen.trans ih (hs _ _ hcb)
  rcases hshape with ⟨e, hp⟩ | ⟨e, b, t, hb, hbt, hp⟩ | ⟨e, t, ht, htn, hp⟩
  · have old : ∀ a b, reach fs a b → reach fs' a b := step (fun i j hij => by
      have hic : i ≠ c := fun e' => by rw [e', hc] at hij; exact absurd hij (by simp)
      exact Relation.ReflTransGen.single (by rw [(hp i).1, if_neg hic]; exact hij))
    subst e
    refine ⟨old, Relation.ReflTransGen.single (by rw [(hp h').1, if_pos rfl]),
      Relation.ReflTransGen.refl⟩
  · have hbc : reach fs' b c := Relation.ReflTransGen.single (by rw [(hp b).1, if_pos rfl])
    have hbne : b ≠ c := fun e' => by rw [e', hc] at hbt; exact absurd hbt (by simp)
    have hct : reach fs' c t :=
      Relation.ReflTransGen.single (by rw [(hp c).1, if_neg (Ne.symm hbne), if_pos rfl])
    have old : ∀ a b, reach fs a b → reach fs' a b := step (fun i j hij => by
      have hic : i ≠ c := fun e' => by rw [e', hc] at hij; exact absurd hij (by simp)
      by_cases hib : i = b
      · subst hib
        rw [hbt] at hij
        simp only [Option.some.injEq] at hij
        subst hij
        exact Relation.ReflTransGen.trans hbc hct
      · exact Relation.ReflTransGen.single (by rw [(hp i).1, if_neg hib, if_neg hic]; exact hij))
    subst e
    exact ⟨old, Relation.ReflTransGen.refl, Relation.ReflTransGen.trans (old _ _ hb) hbc⟩
  · have old : ∀ a b, reach fs a b → reach fs' a b := step (fun i j hij => by
      have hit : i ≠ t := fun e' => by rw [e', htn] at hij; exact absurd hij (by simp)
      exact Relation.ReflTransGen.single (by rw [(hp i).1, if_neg hit]; exact hij))
    subst e
    exact ⟨old, Relation.ReflTransGen.refl, Relation.ReflTransGen.trans (old _ _ ht)
      (Relation.ReflTransGen.single (by rw [(hp t).1, if_pos rfl]))⟩

theorem mem_replaced {A B : List Nat} {m v x : Nat} (h : x ∈ A ++ m :: B) (hx : x ≠ m) :
    x ∈ A ++ v :: B := by
  simp only [List.mem_append, List.mem_cons] at h ⊢
  rcases h with h | h | h
  · exact Or.inl h
  · exact absurd h hx
  · exact Or.inr (Or.inr h)

/-- Every record with a successor lies on the chain of the record of a tree node,
after each pass of the main loop. -/
theorem scan_links_reached (G : globals) (cands : List file_t)
    (hfresh : ∀ f ∈ cands, walker_fresh f) (k : Nat) (hk : k ≤ cands.length) :
    ∃ st rk, scan_upto G cands k = some st ∧
      chain_inv k st.files st.checktree.nodefiles rk ∧
      ∀ i j, (st.files i).duplicates = some j →
        ∃ h ∈ st.checktree.nodefiles, reach st.files h i := by
  refine scan_upto_spec G cands hfresh
    (fun _ st => ∀ i j, (st.files i).duplicates = some j →
        ∃ h ∈ st.checktree.nodefiles, reach st.files h i)
    (fun i j h => by
      have := (scan_init_chain_inv cands hfresh).edges i j h
      omega)
    (fun k st st' rk _ _ _ hinv hI hs => ?_) k hk
  obtain ⟨fs1, ev, -, -, hcase⟩ := hs
  have hd1 : ∀ i, (fs1 i).duplicates = (st.files i).duplicates := fun i => (ev i).2.1
  have hI1 : ∀ i j, (fs1 i).duplicates = some j →
      ∃ h ∈ st.checktree.nodefiles, reach fs1 h i := by
    intro i j h
    rw [hd1] at h
    obtain ⟨x, hx, hr⟩ := hI i j h
    exact ⟨x, hx, (reach_congr hd1 _ _).mpr hr⟩
  rcases hcase with ⟨e, hn | hn⟩ | ⟨p, m, h', hsl, ht, hreg, -⟩
  · rw [e, hn]; exact hI1
  · rw [e]
    intro i j h
    obtain ⟨x, hx, hr⟩ := hI1 i j h
    exact ⟨x, hn.mem_iff.mpr (List.mem_cons_of_mem _ hx), hr⟩
  · have hkd : (fs1 k).duplicates = none := by
      rw [hd1]; exact (hinv.fresh k (le_refl _)).1
    obtain ⟨old, hm, hc⟩ := reach_registered hkd hreg
    obtain ⟨A, B, hA, hA'⟩ := setslot_nodefiles h' st.checktree p m hsl
    have hmem : m ∈ st.checktree.nodefiles := slot_mem _ p m hsl
    have hh' : h' ∈ st'.checktree.nodefiles := by
      rw [ht, hA']; simp
    -- every record of an old chain is on a chain of the new tree
    have lift : ∀ x i, x ∈ st.checktree.nodefiles → reach fs1 x i →
        ∃ h ∈ st'.checktree.nodefiles, reach st'.files h i := by
      intro x i hx hr
      by_cases hxm : x = m
      · subst hxm
        exact ⟨h', hh', Relation.ReflTransGen.trans hm (old _ _ hr)⟩
      · refine ⟨x, ?_, old _ _ hr⟩
        rw [ht, hA']
        rw [hA] at hx
        exact mem_replaced hx hxm
    intro i j hij
    have hcases : (∃ j', (fs1 i).duplicates = some j') ∨ reach fs1 m i ∨ i = k := by
      obtain ⟨-, hshape⟩ := hreg
      rcases hshape with ⟨-, hp⟩ | ⟨-, b, t, hb, hbt, hp⟩ | ⟨-, t, htr, -, hp⟩
      · rw [(hp i).1] at hij
        by_cases hi : i = k
        · exact Or.inr (Or.inr hi)
        · rw [if_neg hi] at hij; exact Or.inl ⟨j, hij⟩
      · rw [(hp i).1] at hij
        by_cases hi : i = b
        · subst hi; exact Or.inl ⟨t, hbt⟩
        · rw [if_neg hi] at hij
          by_cases hik : i = k
          · exact Or.inr (Or.inr hik)
          · rw [if_neg hik] at hij; exact Or.inl ⟨j, hij⟩
      · rw [(hp i).1] at hij
        by_cases hi : i = t
        · subst hi; exact Or.inr (Or.inl htr)
        · rw [if_neg hi] at hij; exact Or.inl ⟨j, hij⟩
    rcases hcases with ⟨j', hj'⟩ | hr | hik
    · obtain ⟨x, hx, hr⟩ := hI1 i j' hj'
      exact lift x i hx hr
    · exact lift m i hmem hr
    · subst hik
      exact ⟨h', hh', hc⟩

/-- C8: single head. After a scan over any list of fresh candidates, every group (the
chain of a record with `F_HAS_DUPES`) starts with its head, has at least one more
member, holds no other record with `F_HAS_DUPES`, and is a whole chain (its last
record has no successor); no record occurs twice in the groups, and every
`duplicates` pointer joins two records of one group. -/
theorem single_head (G : globals) (cands : List file_t)
    (hfresh : ∀ f ∈ cands, walker_fresh f) :
    ∃ st, scan G cands = some st ∧
      (∀ g ∈ groups cands.length st.files, ∃ h t, g = h :: t ∧ t ≠ [] ∧
        (st.files h).F_HAS_DUPES = true ∧ (∀ x ∈ t, (st.files x).F_HAS_DUPES = false) ∧
        ∀ x, g.getLast? = some x → (st.files x).duplicates = none) ∧
      (groups cands.length st.files).flatten.Nodup ∧
      ∀ i j, (st.files i).duplicates = some j →
        ∃ g ∈ groups cands.length st.files, i ∈ g ∧ j ∈ g := by
  obtain ⟨st, rk, e, hinv, hJ⟩ := scan_links_reached G cands hfresh cands.length (le_refl _)
  have hrk : ∀ i j, (st.files i).duplicates = some j → j < cands.length ∧ rk j < rk i :=
    fun i j h => (hinv.edges i j h).2
  have hcard : ∀ t, ((Finset.range cands.length).filter (fun i => rk i ≤ rk t)).card ≤
      cands.length + 1 := by
    intro t
    have := Finset.card_filter_le (Finset.range cands.length) (fun i => rk i ≤ rk t)
    simp only [Finset.card_range] at this
    omega
  refine ⟨st, e, ?_, ?_, ?_⟩
  · intro g hg
    obtain ⟨h, hn, hflag, rfl⟩ := mem_groups hg
    obtain ⟨hnode, hdup⟩ := hinv.heads h hflag
    refine ⟨h, (dupchain st.files cands.length h).tail, dupchain_head _ _ _, ?_, hflag, ?_, ?_⟩
    · obtain ⟨y, hy⟩ := Option.ne_none_iff_exists'.mp hdup
      obtain ⟨n', hn'⟩ : ∃ n', cands.length = n' + 1 := ⟨cands.length - 1, by omega⟩
      rw [hn', dupchain, hy]
      simp only [List.tail_cons]
      rw [dupchain_head]
      simp
    · intro x hx
      obtain ⟨p, hp⟩ := dupchain_tail_pred _ _ _ _ hx
      by_contra hf
      have hf' : (st.files x).F_HAS_DUPES = true := by simpa using hf
      exact (hinv.nodes x (hinv.heads x hf').1).2 p hp
    · intro x hx
      exact dupchain_last hrk _ h x hn (hcard h) hx
  · rw [List.nodup_flatten]
    constructor
    · intro g hg
      obtain ⟨h, -, -, rfl⟩ := mem_groups hg
      exact dupchain_nodup hrk _ _
    · unfold groups
      rw [List.pairwise_map]
      apply List.Nodup.pairwise_of_forall_ne
      · exact List.Nodup.filter _ (List.nodup_range _)
      · intro a ha b hb hab
        simp only [List.mem_filter, List.mem_range, decide_eq_true_eq] at ha hb
        intro x hxa hxb
        apply hab
        have na := (hinv.nodes a (hinv.heads a ha.2).1).2
        have nb := (hinv.nodes b (hinv.heads b hb.2).1).2
        exact reach_same_head hinv.inj na nb (mem_dupchain_reach _ _ _ _ hxa)
          (mem_dupchain_reach _ _ _ _ hxb)
  · intro i j hij
    obtain ⟨h, hnode, hr⟩ := hJ i j hij
    have hh : h < cands.length := (hinv.nodes h hnode).1
    have hdup : (st.files h).duplicates ≠ none := by
      rcases reach_source hr with e' | e'
      · subst e'; rw [hij]; simp
      · exact e'
    have hflag := hinv.flagged h hnode hdup
    refine ⟨dupchain st.files cands.length h, ?_, ?_, ?_⟩
    · unfold groups
      simp only [List.mem_map, List.mem_filter, List.mem_range]
      exact ⟨h, ⟨hh, hflag⟩, rfl⟩
    · exact reach_mem_dupchain hrk _ h i hh (hcard h) hr
    · exact reach_mem_dupchain hrk _ h j hh (hcard h) (reach_step hr hij)

/-- C8, run on four candidates of which three have the same bytes. -/
theorem single_head_witness :
    (∀ f ∈ sample_mixed, walker_fresh f) ∧
    ∃ st, scan sample_globals sample_mixed = some st ∧
      (∀ g ∈ groups sample_mixed.length st.files, ∃ h t, g = h :: t ∧ t ≠ [] ∧
        (st.files h).F_HAS_DUPES = true ∧ (∀ x ∈ t, (st.files x).F_HAS_DUPES = false) ∧
        ∀ x, g.getLast? = some x → (st.files x).duplicates = none) ∧
      (groups sample_mixed.length st.files).flatten.Nodup ∧
      ∀ i j, (st.files i).duplicates = some j →
        ∃ g ∈ groups sample_mixed.length st.files, i ∈ g ∧ j ∈ g :=
  ⟨by decide, single_head sample_globals sample_mixed (by decide)⟩

/-- With isolation on, every group holds two candidates of different roots, after
each pass of the main loop: a group starts with a registered pair, whose two records
passed the isolation check, and both stay in the group. -/
theorem scan_isolated_groups (G : globals) (cands : List file_t)
    (hfresh : ∀ f ∈ cands, walker_fresh f) (hI : G.flags.F_ISOLATE = true)
    (k : Nat) (hk : k ≤ cands.length) :
    ∃ st rk, scan_upto G cands k = some st ∧
      chain_inv k st.files st.checktree.nodefiles rk ∧
      ((∀ i, stat_of (st.files i) = stat_of (cands.getD i default)) ∧
       ∀ h ∈ st.checktree.nodefiles, (st.files h).duplicates ≠ none →
        ∃ a b, reach st.files h a ∧ reach st.files h b ∧
          (cands.getD a default).user_order ≠ (cands.getD b default).user_order) := by
  refine scan_upto_spec G cands hfresh
    (fun _ st => (∀ i, stat_of (st.files i) = stat_of (cands.getD i default)) ∧
      ∀ h ∈ st.checktree.nodefiles, (st.files h).duplicates ≠ none →
        ∃ a b, reach st.files h a ∧ reach st.files h b ∧
          (cands.getD a default).user_order ≠ (cands.getD b default).user_order)
    ⟨fun _ => rfl, fun h hh => by simp [scan_init, filetree_t.nodefiles] at hh⟩
    (fun k st st' rk _ _ _ hinv hI' hs => ?_) k hk
  obtain ⟨hstat, hpair⟩ := hI'
  refine ⟨fun i => by rw [scan_step_stat hs i, hstat i], ?_⟩
  obtain ⟨fs1, ev, -, -, hcase⟩ := hs
  have hd1 : ∀ i, (fs1 i).duplicates = (st.files i).duplicates := fun i => (ev i).2.1
  have hinv1 : chain_inv k fs1 st.checktree.nodefiles rk :=
    chain_inv_congr hinv hd1 (fun i => (ev i).2.2.1)
  have hpair1 : ∀ h ∈ st.checktree.nodefiles, (fs1 h).duplicates ≠ none →
      ∃ a b, reach fs1 h a ∧ reach fs1 h b ∧
        (cands.getD a default).user_order ≠ (cands.getD b default).user_order := by
    intro h hh hd
    rw [hd1] at hd
    obtain ⟨a, b, ra, rb, hab⟩ := hpair h hh hd
    exact ⟨a, b, (reach_congr hd1 _ _).mpr ra, (reach_congr hd1 _ _).mpr rb, hab⟩
  rcases hcase with ⟨e, hn | hn⟩ | ⟨p, m, h', hsl, ht, hreg, hok⟩
  · rw [e, hn]; exact hpair1
  · rw [e]
    intro h hh hd
    rcases List.mem_cons.mp (hn.mem_iff.mp hh) with e' | e'
    · subst e'
      exact absurd (hinv1.fresh h (le_refl _)).1 hd
    · exact hpair1 h e' hd
  · have hkd : (fs1 k).duplicates = none := (hinv1.fresh k (le_refl _)).1
    obtain ⟨old, hm, hc⟩ := reach_registered hkd hreg
    obtain ⟨A, B, hA, hA'⟩ := setslot_nodefiles h' st.checktree p m hsl
    have hmem : m ∈ st.checktree.nodefiles := slot_mem _ p m hsl
    have hmk : m < k := (hinv1.nodes m hmem).1
    have hord : (cands.getD m default).user_order ≠ (cands.getD k default).user_order := by
      have hc' := hok.1
      rw [check_conditions_stat G.flags (fs1 m) (fs1 k) (stat_of (cands.getD m default))
        (stat_of (cands.getD k default)) (by rw [(ev m).1, hstat m]; rfl)
        (by rw [(ev k).1, hstat k]; rfl)] at hc'
      exact (check_conditions_pass _ _ _ hc').1 hI
    -- the group of the new head
    have hhead : ∃ a b, reach st'.files h' a ∧ reach st'.files h' b ∧
        (cands.getD a default).user_order ≠ (cands.getD b default).user_order := by
      by_cases hmd : (fs1 m).duplicates = none
      · exact ⟨m, k, hm, hc, hord⟩
      · obtain ⟨a, b, ra, rb, hab⟩ := hpair1 m hmem hmd
        exact ⟨a, b, Relation.ReflTransGen.trans hm (old _ _ ra),
          Relation.ReflTransGen.trans hm (old _ _ rb), hab⟩
    intro h hh hd
    rw [ht, hA'] at hh
    by_cases hh' : h = h'
    · subst hh'; exact hhead
    · have hhn : h ∈ st.checktree.nodefiles ∧ h ≠ m := by
        simp only [List.mem_append, List.mem_cons] at hh
        have hnd := hinv1.nodup
        rw [hA] at hnd ⊢
        rw [List.nodup_append, List.nodup_cons] at hnd
        rcases hh with hh | hh | hh
        · refine ⟨by simp [hh], fun e' => ?_⟩
          subst e'
          exact hnd.2.2 hh (List.mem_cons_self _ _)
        · exact absurd hh hh'
        · refine ⟨by simp [hh], fun e' => ?_⟩
          subst e'
          exact hnd.2.1.1 hh
      obtain ⟨hhn1, hhm⟩ := hhn
      have hnp := (hinv1.nodes h hhn1).2
      have hhk : h ≠ k := by have := (hinv1.nodes h hhn1).1; omega
      -- the link of h is as before
      have hsame : (st'.files h).duplicates = (fs1 h).duplicates := by
        obtain ⟨-, hshape⟩ := hreg
        rcases hshape with ⟨-, hp⟩ | ⟨e1, b, t, hb, hbt, hp⟩ | ⟨e1, t, htr, -, hp⟩
        · rw [(hp h).1, if_neg hhk]
        · have hb' : h ≠ b := fun e' => by
            subst e'
            rcases reach_target hb with e'' | ⟨i, hi⟩
            · exact hhm e''
            · exact hnp i hi
          rw [(hp h).1, if_neg hb', if_neg hhk]
        · have ht' : h ≠ t := fun e' => by
            subst e'
            rcases reach_target htr with e'' | ⟨i, hi⟩
            · exact hhm e''
            · exact hnp i hi
          rw [(hp h).1, if_neg ht']
      rw [hsame] at hd
      obtain ⟨a, b, ra, rb, hab⟩ := hpair1 h hhn1 hd
      exact ⟨a, b, old _ _ ra, old _ _ rb, hab⟩

/-- C4 as the code has it: with isolation on, every group of a scan over any list of
fresh candidates holds two candidates with different `user_order`; and for the two
roots `X/` and `Y/` with one identical `dup.bin` each, the scan yields one group of
the two files without isolation and the same one group with isolation. -/
theorem isolation_groups_span_roots (G : globals) (cands : List file_t)
    (hfresh : ∀ f ∈ cands, walker_fresh f) (hI : G.flags.F_ISOLATE = true) :
    (∃ st, scan G cands = some st ∧
      ∀ g ∈ groups cands.length st.files, ∃ a ∈ g, ∃ b ∈ g,
        (cands.getD a default).user_order ≠ (cands.getD b default).user_order) ∧
    (scan sample_globals sample_roots).map (fun st => groups 2 st.files) = some [[1, 0]] ∧
    (scan sample_globals_I sample_roots).map (fun st => groups 2 st.files) = some [[1, 0]] := by
  refine ⟨?_, by decide, by decide⟩
  obtain ⟨st, rk, e, hinv, -, hpair⟩ :=
    scan_isolated_groups G cands hfresh hI cands.length (le_refl _)
  refine ⟨st, e, fun g hg => ?_⟩
  obtain ⟨h, hn, hflag, rfl⟩ := mem_groups hg
  obtain ⟨hnode, hdup⟩ := hinv.heads h hflag
  obtain ⟨a, b, ra, rb, hab⟩ := hpair h hnode hdup
  have hrk : ∀ i j, (st.files i).duplicates = some j → j < cands.length ∧ rk j < rk i :=
    fun i j h => (hinv.edges i j h).2
  have hcard : ((Finset.range cands.length).filter (fun i => rk i ≤ rk h)).card ≤
      cands.length + 1 := by
    have := Finset.card_filter_le (Finset.range cands.length) (fun i => rk i ≤ rk h)
    simp only [Finset.card_range] at this
    omega
  exact ⟨a, reach_mem_dupchain hrk _ h a hn hcard ra, b,
    reach_mem_dupchain hrk _ h b hn hcard rb, hab⟩

/-- C4 as the code has it, run on three files of two roots with isolation on. -/
theorem isolation_groups_span_roots_witness :
    (∀ f ∈ sample_isolated, walker_fresh f) ∧ sample_globals_I.flags.F_ISOLATE = true ∧
    (∃ st, scan sample_globals_I sample_isolated = some st ∧
      ∀ g ∈ groups sample_isolated.length st.files, ∃ a ∈ g, ∃ b ∈ g,
        (sample_isolated.getD a default).user_order ≠
          (sample_isolated.getD b default).user_order) ∧
    (scan sample_globals sample_roots).map (fun st => groups 2 st.files) = some [[1, 0]] ∧
    (scan sample_globals_I sample_roots).map (fun st => groups 2 st.files) = some [[1, 0]] :=
  ⟨by decide, by decide,
    isolation_groups_span_roots sample_globals_I sample_isolated (by decide) (by decide)⟩

/-- C4 fails as stated: with isolation on, the scan of the two roots `X/` and `Y/`
with one identical `dup.bin` each yields a group, and its two members have different
`user_order`. -/
theorem isolation_two_roots_grouped :
    sample_globals_I.flags.F_ISOLATE = true ∧
    (scan sample_globals_I sample_roots).map (fun st => groups 2 st.files) = some [[1, 0]] ∧
    (sample_roots.getD 1 default).user_order ≠ (sample_roots.getD 0 default).user_order := by
  decide

/-- C5 fails on the code: with isolation on, `Y/dup.bin` (second root) heads the list
and both files of the first root match it in turn, so the one group holds
`X/dup.bin` and `X/copy.bin`, two files of the same root. -/
theorem isolation_same_root_grouped :
    sample_globals_I.flags.F_ISOLATE = true ∧
    (scan sample_globals_I sample_isolated).map (fun st => groups 3 st.files) =
      some [[0, 1, 2]] ∧
    (sample_isolated.getD 1 default).user_order = (sample_isolated.getD 2 default).user_order := by
  decide

/-- C6 fails on the code: without hard links counted as duplicates, the copy `c` is
the tree node and the hard links `a` and `b` match it in turn, so the one group holds
`a` and `b`, two paths of the same inode; the two links alone give no group. -/
theorem hard_links_grouped_through_copy :
    sample_globals_time.flags.F_CONSIDERHARDLINKS = false ∧
    (scan sample_globals_time sample_copy_links).map (fun st => groups 3 st.files) =
      some [[0, 1, 2]] ∧
    linked (sample_copy_links.getD 1 default) (sample_copy_links.getD 2 default) ∧
    (scan sample_globals_time sample_two_links).map (fun st => groups 2 st.files) = some [] := by
  decide

/-! ## Hashes of readable files -/

theorem get_filehash_congr (G : globals) (f g : file_t) (r : Nat)
    (hs : f.size = g.size) (hn : G.fopen f.d_name = G.fopen g.d_name)
    (hp : f.F_HASH_PARTIAL = g.F_HASH_PARTIAL)
    (hv : f.F_HASH_PARTIAL = true → file_t.filehash_partial f = file_t.filehash_partial g) :
    get_filehash G f r = get_filehash G g r := by
  unfold get_filehash
  rw [← hs, ← hn, ← hp]
  by_cases hf : f.F_HASH_PARTIAL = true
  · rw [← hv hf]
  · simp [hf]

/-- The read loop of `get_filehash` succeeds when the stream holds the bytes asked
for. -/
theorem get_filehash_loop_some (G : globals) :
    ∀ (fuel : Nat) (file : List Nat) (fsize : Int) (hash : Nat),
      fsize ≤ (file.length : Int) → file.length ≤ fuel →
      ∃ v, get_filehash_loop G fuel file fsize hash = some v := by
  have hpos := auto_chunk_size_pos G
  intro fuel
  induction fuel with
  | zero =>
    intro file fsize hash h1 h2
    rw [get_filehash_loop]
    have : ¬ fsize > 0 := by omega
    rw [if_neg this]
    exact ⟨_, rfl⟩
  | succ fuel ih =>
    intro file fsize hash h1 h2
    rw [get_filehash_loop]
    by_cases hf : fsize > 0
    · rw [if_pos hf]
      dsimp only
      generalize hb : (if fsize ≥ (auto_chunk_size G : Int) then auto_chunk_size G
        else fsize.toNat) = btr
      have hb1 : 1 ≤ btr ∧ (btr : Int) ≤ fsize := by
        rw [← hb]
        split_ifs with h <;> omega
      rw [if_neg (by omega), if_neg (by omega)]
      apply ih
      · rw [List.length_drop]; omega
      · rw [List.length_drop]; omega
    · rw [if_neg hf]
      exact ⟨_, rfl⟩

theorem partial_hash_of_some (G : globals) (f : file_t) (h : readable G f) :
    ∃ v, partial_hash_of G f = some v := by
  obtain ⟨h0, bytes, hb, hl⟩ := h
  unfold partial_hash_of get_filehash
  have e1 : (stat_of f).size = f.size := rfl
  have e2 : (stat_of f).d_name = f.d_name := rfl
  have e3 : (stat_of f).F_HASH_PARTIAL = false := rfl
  rw [e1, e2, e3]
  rw [if_neg (by omega)]
  simp only [Bool.false_eq_true, false_and, if_false]
  rw [Option.mem_def.mp hb]
  dsimp only
  apply get_filehash_loop_some
  · split_ifs with h <;> omega
  · exact le_refl _

theorem full_hash_of_some (G : globals) (f : file_t) (h : readable G f) :
    ∃ v, full_hash_of G f = some v := by
  unfold full_hash_of
  by_cases hs : f.size ≤ (PARTIAL_HASH_SIZE : Int)
  · rw [if_pos hs]; exact partial_hash_of_some G f h
  · rw [if_neg hs]
    obtain ⟨v, hv⟩ := partial_hash_of_some G f h
    rw [hv]
    obtain ⟨h0, bytes, hb, hl⟩ := h
    simp only [Option.some_bind]
    unfold get_filehash
    dsimp only
    have e1 : (stat_of f).size = f.size := rfl
    have e2 : (stat_of f).d_name = f.d_name := rfl
    rw [e1, e2]
    rw [if_neg (by omega)]
    simp only [ne_eq, not_true_eq_false, false_and, and_false, if_false, if_true]
    rw [Option.mem_def.mp hb]
    dsimp only
    unfold PARTIAL_HASH_SIZE at hs ⊢
    apply get_filehash_loop_some
    · rw [List.length_drop]
      simp only [gt_iff_lt, lt_self_iff_false, false_and, if_false]
      omega
    · rw [List.length_drop]; omega

theorem partial_hash_of_stat (G : globals) {f g : file_t} (h : stat_of f = stat_of g) :
    partial_hash_of G f = partial_hash_of G g := by
  unfold partial_hash_of; rw [h]

theorem full_hash_of_stat (G : globals) {f g : file_t} (h : stat_of f = stat_of g) :
    full_hash_of G f = full_hash_of G g := by
  unfold full_hash_of
  rw [partial_hash_of_stat G h, h, (stat_of_fields f g h).2.2.1]

theorem scan_key_stat (G : globals) {f g : file_t} (h : stat_of f = stat_of g) :
    scan_key G f = scan_key G g := by
  unfold scan_key
  rw [partial_hash_of_stat G h, full_hash_of_stat G h, (stat_of_fields f g h).2.2.1]

theorem readable_stat (G : globals) {f g : file_t} (h : stat_of f = stat_of g)
    (hr : readable G f) : readable G g := by
  unfold readable at hr ⊢
  rw [← (stat_of_fields f g h).2.2.1, ← (stat_of_fields f g h).1]
  exact hr

theorem hash_cache_true_evolves (G : globals) {f g : file_t} (h : link_evolves f g)
    (hf : hash_cache_true G f) : hash_cache_true G g := by
  obtain ⟨a1, a2, a3, a4, a5⟩ := h
  unfold hash_cache_true
  rw [a2, a3, a4, a5, partial_hash_of_stat G a1, full_hash_of_stat G a1]
  exact hf

theorem HASH_COMPARE_neg (a b : Nat) : HASH_COMPARE a b < 0 ↔ a < b := by
  unfold HASH_COMPARE
  split_ifs with h1 h2 <;> constructor <;> intro h <;> omega

theorem HASH_COMPARE_pos (a b : Nat) : 0 < HASH_COMPARE a b ↔ b < a := by
  unfold HASH_COMPARE
  split_ifs with h1 h2 <;> constructor <;> intro h <;> omega

theorem HASH_COMPARE_zero (a b : Nat) : HASH_COMPARE a b = 0 ↔ a = b := by
  unfold HASH_COMPARE
  split_ifs with h1 h2
  · constructor <;> intro h <;> omega
  · constructor <;> intro h <;> omega
  · constructor
    · intro h; exact absurd h (by decide)
    · intro h; exact absurd h h2

theorem scan_key_lt_iff (G : globals) (f g : file_t) :
    scan_key G f < scan_key G g ↔
      f.size < g.size ∨ (f.size = g.size ∧
        ((partial_hash_of G f).getD 0 < (partial_hash_of G g).getD 0 ∨
         ((partial_hash_of G f).getD 0 = (partial_hash_of G g).getD 0 ∧
          (if f.size ≤ (PARTIAL_HASH_SIZE : Int) then 0 else (full_hash_of G f).getD 0) <
          (if g.size ≤ (PARTIAL_HASH_SIZE : Int) then 0 else (full_hash_of G g).getD 0)))) := by
  unfold scan_key
  rw [Prod.Lex.lt_iff]
  dsimp only
  rw [Prod.Lex.lt_iff]

theorem partial_hash_step_true (G : globals) (fs : Nat → file_t) (p : Nat)
    (hr : readable G (fs p)) (hK : ∀ i, hash_cache_true G (fs i)) :
    ∃ fs', partial_hash_step G fs p = some fs' ∧ ∀ i, hash_cache_true G (fs' i) := by
  by_cases hp : (fs p).F_HASH_PARTIAL = true
  · exact ⟨fs, by unfold partial_hash_step; rw [if_pos hp], hK⟩
  · have hp' : (fs p).F_HASH_PARTIAL = false := by simpa using hp
    obtain ⟨v, hv⟩ := partial_hash_of_some G (fs p) hr
    have e : get_filehash G (fs p) PARTIAL_HASH_SIZE = some v := by
      rw [← hv]
      unfold partial_hash_of
      exact get_filehash_congr G _ _ _ rfl rfl (by rw [hp']; rfl) (fun h => absurd h hp)
    refine ⟨cache_partial_hash fs p v, ?_, fun i => ?_⟩
    · unfold partial_hash_step
      rw [if_neg hp, e]; rfl
    · by_cases hi : i = p
      · subst hi
        have hst : stat_of (cache_partial_hash fs i v i) = stat_of (fs i) := by simp
        unfold hash_cache_true
        rw [partial_hash_of_stat G hst, full_hash_of_stat G hst]
        refine ⟨fun _ => by rw [hv]; simp, fun hf => ?_⟩
        simp only [cache_partial_hash_hash_full_flag, cache_partial_hash_filehash] at hf ⊢
        exact (hK i).2 hf
      · have : cache_partial_hash fs p v i = fs i := by
          unfold cache_partial_hash; simp [Function.update, hi]
        rw [this]; exact hK i

theorem small_file_step_true (G : globals) (fs : Nat → file_t) (p : Nat)
    (hp : (fs p).F_HASH_PARTIAL = true) (hs : (fs p).size ≤ (PARTIAL_HASH_SIZE : Int))
    (hK : ∀ i, hash_cache_true G (fs i)) :
    ∀ i, hash_cache_true G (small_file_step fs p i) := by
  unfold small_file_step
  by_cases hf : (fs p).F_HASH_FULL = true
  · rw [if_pos hf]; exact hK
  · rw [if_neg hf]
    intro i
    by_cases hi : i = p
    · subst hi
      have hst : stat_of (cache_full_hash fs i ( file_t.filehash_partial (fs i)) i) =
          stat_of (fs i) := by simp
      unfold hash_cache_true
      rw [partial_hash_of_stat G hst, full_hash_of_stat G hst]
      refine ⟨fun h => ?_, fun _ => ?_⟩
      · simp only [cache_full_hash_hash_partial_flag, cache_full_hash_partial_value] at h ⊢
        exact (hK i).1 h
      · simp only [cache_full_hash_filehash, if_true]
        unfold full_hash_of
        rw [if_pos hs]
        exact (hK i).1 hp
    · have : cache_full_hash fs p ( file_t.filehash_partial (fs p)) i = fs i := by
        unfold cache_full_hash; simp [Function.update, hi]
      rw [this]; exact hK i

theorem full_hash_step_true (G : globals) (fs : Nat → file_t) (p : Nat)
    (hr : readable G (fs p)) (hp : (fs p).F_HASH_PARTIAL = true)
    (hbig : ¬ (fs p).size ≤ (PARTIAL_HASH_SIZE : Int))
    (hK : ∀ i, hash_cache_true G (fs i)) :
    ∃ fs', full_hash_step G fs p = some fs' ∧ ∀ i, hash_cache_true G (fs' i) := by
  by_cases hf : (fs p).F_HASH_FULL = true
  · exact ⟨fs, by unfold full_hash_step; rw [if_pos hf], hK⟩
  · obtain ⟨v, hv⟩ := full_hash_of_some G (fs p) hr
    have e : get_filehash G (fs p) 0 = some v := by
      rw [← hv]
      unfold full_hash_of
      rw [if_neg hbig, (hK p).1 hp]
      simp only [Option.some_bind]
      exact get_filehash_congr G _ _ _ rfl rfl hp (fun _ => rfl)
    refine ⟨cache_full_hash fs p v, ?_, fun i => ?_⟩
    · unfold full_hash_step
      rw [if_neg hf, e]; rfl
    · by_cases hi : i = p
      · subst hi
        have hst : stat_of (cache_full_hash fs i v i) = stat_of (fs i) := by simp
        unfold hash_cache_true
        rw [partial_hash_of_stat G hst, full_hash_of_stat G hst]
        refine ⟨fun h => ?_, fun _ => by rw [hv]; simp⟩
        simp only [cache_full_hash_hash_partial_flag, cache_full_hash_partial_value] at h ⊢
        exact (hK i).1 h
      · have : cache_full_hash fs p v i = fs i := by
          unfold cache_full_hash; simp [Function.update, hi]
        rw [this]; exact hK i

theorem scan_key_lt_same_size (G : globals) (f g : file_t) (hs : f.size = g.size) :
    scan_key G f < scan_key G g ↔
      ((partial_hash_of G f).getD 0 < (partial_hash_of G g).getD 0 ∨
       ((partial_hash_of G f).getD 0 = (partial_hash_of G g).getD 0 ∧
        (if f.size ≤ (PARTIAL_HASH_SIZE : Int) then 0 else (full_hash_of G f).getD 0) <
        (if g.size ≤ (PARTIAL_HASH_SIZE : Int) then 0 else (full_hash_of G g).getD 0))) := by
  rw [scan_key_lt_iff]
  constructor
  · rintro (h | ⟨-, h⟩)
    · omega
    · exact h
  · intro h; exact Or.inr ⟨hs, h⟩

/-- On two readable files of the same size whose caches are true, the hash block of
`checkmatch` gets through and its result compares the keys of the two records. -/
theorem checkmatch_hashes_complete (G : globals) (tf c : Nat) (fs : Nat → file_t)
    (tr : List event) (hrt : readable G (fs tf)) (hrc : readable G (fs c))
    (hK : ∀ i, hash_cache_true G (fs i)) (hsz : (fs tf).size = (fs c).size) :
    ∃ fs1 tr1 r, checkmatch_hashes G tf c fs tr = (fs1, tr1, some r) ∧
      (∀ i, hash_cache_true G (fs1 i)) ∧
      (r < 0 ↔ scan_key G (fs c) < scan_key G (fs tf)) ∧
      (0 < r ↔ scan_key G (fs tf) < scan_key G (fs c)) := by
  obtain ⟨fs1, h1, K1⟩ := partial_hash_step_true G fs tf hrt hK
  obtain ⟨ev1, -, pf1, -, -⟩ := partial_hash_step_spec G fs fs1 tf h1
  obtain ⟨fs2, h2, K2⟩ := partial_hash_step_true G fs1 c
    (readable_stat G (ev1 c).1.symm hrc) K1
  obtain ⟨ev2, -, pf2, -, -⟩ := partial_hash_step_spec G fs1 fs2 c h2
  have ev12 : ∀ i, hash_evolves (fs i) (fs2 i) := fun i => hash_evolves_trans (ev1 i) (ev2 i)
  have ptf2 : (fs2 tf).F_HASH_PARTIAL = true := ((ev2 tf).2.2.2.1 pf1).1
  have hsz2 : ∀ i, (fs2 i).size = (fs i).size := fun i => hash_evolves_size (ev12 i)
  -- the cached partial hashes are the partial hashes of the keys
  have hP : ∀ i, (fs2 i).F_HASH_PARTIAL = true →
      (partial_hash_of G (fs i)).getD 0 = file_t.filehash_partial (fs2 i) := by
    intro i hi
    rw [← partial_hash_of_stat G (ev12 i).1, (K2 i).1 hi]
    rfl
  have hPc := hP c pf2
  have hPt := hP tf ptf2
  unfold checkmatch_hashes
  rw [h1]
  dsimp only
  rw [h2]
  dsimp only
  by_cases hsmall : (fs2 c).size ≤ (PARTIAL_HASH_SIZE : Int)
  · rw [if_pos hsmall]
    have hsc : (fs c).size ≤ (PARTIAL_HASH_SIZE : Int) := by rw [← hsz2 c]; exact hsmall
    have hst : (fs tf).size ≤ (PARTIAL_HASH_SIZE : Int) := by rw [hsz]; exact hsc
    obtain ⟨ev3, -, -, -, -, -⟩ := small_file_step_spec fs2 c
    refine ⟨_, _, _, rfl, ?_, ?_, ?_⟩
    · apply small_file_step_true G _ tf ((ev3 tf).2.2.2.1 ptf2).1
      · rw [hash_evolves_size (ev3 tf), hsz2 tf]; exact hst
      · exact small_file_step_true G fs2 c pf2 hsmall K2
    · rw [HASH_COMPARE_neg, scan_key_lt_same_size G _ _ hsz.symm, if_pos hsc, if_pos hst,
        hPc, hPt]
      simp
    · rw [HASH_COMPARE_pos, scan_key_lt_same_size G _ _ hsz, if_pos hsc, if_pos hst,
        hPc, hPt]
      simp
  · rw [if_neg hsmall]
    have hsc : ¬ (fs c).size ≤ (PARTIAL_HASH_SIZE : Int) := by rw [← hsz2 c]; exact hsmall
    have hst : ¬ (fs tf).size ≤ (PARTIAL_HASH_SIZE : Int) := by rw [hsz]; exact hsc
    by_cases hc : HASH_COMPARE ( file_t.filehash_partial (fs2 c))
        ( file_t.filehash_partial (fs2 tf)) = 0
    · rw [if_pos hc]
      have hPeq := (HASH_COMPARE_zero _ _).mp hc
      obtain ⟨fs3, h3, K3⟩ := full_hash_step_true G fs2 tf
        (readable_stat G (ev12 tf).1.symm hrt) ptf2 (by rw [hsz2 tf]; exact hst) K2
      obtain ⟨ev3, -, ff3, -, -⟩ := full_hash_step_spec G fs2 fs3 tf h3
      obtain ⟨fs4, h4, K4⟩ := full_hash_step_true G fs3 c
        (readable_stat G ((ev3 c).1.trans (ev12 c).1).symm hrc) ((ev3 c).2.2.2.1 pf2).1
        (by rw [hash_evolves_size (ev3 c), hsz2 c]; exact hsc) K3
      obtain ⟨ev4, -, ff4, -, -⟩ := full_hash_step_spec G fs3 fs4 c h4
      have ftf4 : (fs4 tf).F_HASH_FULL = true := ((ev4 tf).2.2.2.2 ff3).1
      have ev14 : ∀ i, hash_evolves (fs i) (fs4 i) := fun i =>
        hash_evolves_trans (ev12 i) (hash_evolves_trans (ev3 i) (ev4 i))
      have hF : ∀ i, (fs4 i).F_HASH_FULL = true →
          (full_hash_of G (fs i)).getD 0 = (fs4 i).filehash := by
        intro i hi
        rw [← full_hash_of_stat G (ev14 i).1, (K4 i).2 hi]
        rfl
      rw [h3]
      dsimp only
      rw [h4]
      refine ⟨_, _, _, rfl, K4, ?_, ?_⟩
      · rw [HASH_COMPARE_neg, scan_key_lt_same_size G _ _ hsz.symm, if_neg hsc, if_neg hst,
          hPc, hPt, hF c ff4, hF tf ftf4]
        constructor
        · intro h; exact Or.inr ⟨hPeq, h⟩
        · rintro (h | ⟨-, h⟩)
          · omega
          · exact h
      · rw [HASH_COMPARE_pos, scan_key_lt_same_size G _ _ hsz, if_neg hsc, if_neg hst,
          hPc, hPt, hF c ff4, hF tf ftf4]
        constructor
        · intro h; exact Or.inr ⟨hPeq.symm, h⟩
        · rintro (h | ⟨-, h⟩)
          · omega
          · exact h
    · rw [if_neg hc]
      have hne : file_t.filehash_partial (fs2 c) ≠ file_t.filehash_partial (fs2 tf) :=
        fun e => hc ((HASH_COMPARE_zero _ _).mpr e)
      refine ⟨_, _, _, rfl, K2, ?_, ?_⟩
      · rw [HASH_COMPARE_neg, scan_key_lt_same_size G _ _ hsz.symm, hPc, hPt]
        constructor
        · intro h; exact Or.inl h
        · rintro (h | ⟨h, -⟩)
          · exact h
          · exact absurd h hne
      · rw [HASH_COMPARE_pos, scan_key_lt_same_size G _ _ hsz, hPc, hPt]
        constructor
        · intro h; exact Or.inl h
        · rintro (h | ⟨h, -⟩)
          · exact h
          · exact absurd h.symm hne

/-! ## The tree as a search tree -/

theorem check_conditions_plain (fl : flags_t) (f g : file_t)
    (hI : fl.F_ISOLATE = false) (h1 : fl.F_ONEFS = false) (hp : fl.F_PERMISSIONS = false)
    (hl : ¬ linked f g) :
    check_conditions fl f g =
      if f.size > g.size then -1 else if f.size < g.size then 1 else 0 := by
  unfold check_conditions
  unfold linked at hl
  rw [hI, h1, hp]
  simp only [Bool.false_eq_true, false_and, if_false]
  rw [if_neg hl]

/-- With the exclusions off, on two readable unlinked files with true caches, the
comparison `checkmatch` makes at a node gets through and orders the two records by
their keys. -/
theorem checkmatch_compare_complete (G : globals) (tf c : Nat) (fs : Nat → file_t)
    (tr : List event)
    (hI : G.flags.F_ISOLATE = false) (h1 : G.flags.F_ONEFS = false)
    (hp : G.flags.F_PERMISSIONS = false) (hl : ¬ linked (fs tf) (fs c))
    (hrt : readable G (fs tf)) (hrc : readable G (fs c))
    (hK : ∀ i, hash_cache_true G (fs i)) :
    check_conditions G.flags (fs tf) (fs c) ≠ 2 ∧
    check_conditions G.flags (fs tf) (fs c) ≠ -2 ∧
    ∃ fs1 tr1 r,
      (if check_conditions G.flags (fs tf) (fs c) = 0 then checkmatch_hashes G tf c fs tr
        else (fs, tr, some (check_conditions G.flags (fs tf) (fs c)))) = (fs1, tr1, some r) ∧
      (∀ i, hash_evolves (fs i) (fs1 i)) ∧ (∀ i, hash_cache_true G (fs1 i)) ∧
      (r < 0 ↔ scan_key G (fs c) < scan_key G (fs tf)) ∧
      (0 < r ↔ scan_key G (fs tf) < scan_key G (fs c)) := by
  have hplain := check_conditions_plain G.flags (fs tf) (fs c) hI h1 hp hl
  rw [hplain]
  by_cases hgt : (fs tf).size > (fs c).size
  · rw [if_pos hgt]
    refine ⟨by decide, by decide, fs, tr, -1, by simp, fun i => hash_evolves_refl _, hK, ?_, ?_⟩
    · simp only [Left.neg_neg_iff, zero_lt_one, true_iff]
      rw [scan_key_lt_iff]; exact Or.inl hgt
    · constructor
      · intro h; exact absurd h (by decide)
      · intro h
        rw [scan_key_lt_iff] at h
        rcases h with h | ⟨h, -⟩ <;> omega
  · rw [if_neg hgt]
    by_cases hlt : (fs tf).size < (fs c).size
    · rw [if_pos hlt]
      refine ⟨by decide, by decide, fs, tr, 1, by simp, fun i => hash_evolves_refl _, hK, ?_, ?_⟩
      · constructor
        · intro h; exact absurd h (by decide)
        · intro h
          rw [scan_key_lt_iff] at h
          rcases h with h | ⟨h, -⟩ <;> omega
      · simp only [zero_lt_one, true_iff]
        rw [scan_key_lt_iff]; exact Or.inl hlt
    · rw [if_neg hlt]
      have hsz : (fs tf).size = (fs c).size := by omega
      obtain ⟨fs1, tr1, r, e, K1, s1, s2⟩ :=
        checkmatch_hashes_complete G tf c fs tr hrt hrc hK hsz
      refine ⟨by decide, by decide, fs1, tr1, r, by simp [e], fun i => ?_, K1, s1, s2⟩
      have := (checkmatch_hashes_spec G tf c fs tr).1 i
      rw [e] at this
      exact this

theorem linked_stat {f g f' g' : file_t} (hf : stat_of f = stat_of f')
    (hg : stat_of g = stat_of g') : linked f g ↔ linked f' g' := by
  unfold linked
  rw [(stat_of_fields f f' hf).2.2.2.2.1, (stat_of_fields f f' hf).2.2.2.1,
    (stat_of_fields g g' hg).2.2.2.2.1, (stat_of_fields g g' hg).2.2.2.1]

/-- With the exclusions off, on a search tree of readable records unlinked with the
incoming one, `checkmatch` either returns the node with the key of the incoming
record, or finds none and hangs the incoming record into the search tree. -/
theorem checkmatch_complete (G : globals) (c : Nat) (key : Nat → ℤ ×ₗ ℕ ×ₗ ℕ)
    (hI : G.flags.F_ISOLATE = false) (h1 : G.flags.F_ONEFS = false)
    (hp : G.flags.F_PERMISSIONS = false) (tree : filetree_t) :
    ∀ (fs : Nat → file_t) (tr : List event),
      (∀ i, key i = scan_key G (fs i)) →
      (∀ x ∈ tree.nodefiles, ¬ linked (fs x) (fs c) ∧ readable G (fs x)) →
      readable G (fs c) → (∀ i, hash_cache_true G (fs i)) → bst key tree →
      tree ≠ filetree_t.nil →
      (∀ i, hash_cache_true G ((checkmatch G tree c fs tr).files i)) ∧
      ((∃ p m, (checkmatch G tree c fs tr).ret = some p ∧ tree.slot p = some m ∧
          key m = key c ∧ (checkmatch G tree c fs tr).tree = tree) ∨
       ((checkmatch G tree c fs tr).ret = none ∧ bst key (checkmatch G tree c fs tr).tree ∧
          List.Perm (checkmatch G tree c fs tr).tree.nodefiles (c :: tree.nodefiles) ∧
          ∀ x ∈ tree.nodefiles, key x ≠ key c)) := by
  induction tree with
  | nil => intro fs tr _ _ _ _ _ h; exact absurd rfl h
  | node tf l r ihl ihr =>
    intro fs tr hkey hnodes hrc hK hbst _
    obtain ⟨bl, br, bstl, bstr⟩ := hbst
    have htf : tf ∈ (filetree_t.node tf l r).nodefiles := by simp [filetree_t.nodefiles]
    have hml : ∀ x ∈ l.nodefiles, x ∈ (filetree_t.node tf l r).nodefiles := fun x hx => by
      simp [filetree_t.nodefiles, hx]
    have hmr : ∀ x ∈ r.nodefiles, x ∈ (filetree_t.node tf l r).nodefiles := fun x hx => by
      simp [filetree_t.nodefiles, hx]
    obtain ⟨n2, nm2, fs1, tr1, res, hX, ev1, K1, s1, s2⟩ :=
      checkmatch_compare_complete G tf c fs tr hI h1 hp (hnodes tf htf).1 (hnodes tf htf).2 hrc hK
    rw [← hkey c, ← hkey tf] at s1 s2
    have hkey1 : ∀ i, key i = scan_key G (fs1 i) := fun i => by
      rw [hkey i]; exact (scan_key_stat G (ev1 i).1).symm
    have hnodes1 : ∀ x ∈ (filetree_t.node tf l r).nodefiles,
        ¬ linked (fs1 x) (fs1 c) ∧ readable G (fs1 x) := fun x hx =>
      ⟨fun h => (hnodes x hx).1 ((linked_stat (ev1 x).1 (ev1 c).1).mp h),
        readable_stat G (ev1 x).1.symm (hnodes x hx).2⟩
    have hrc1 : readable G (fs1 c) := readable_stat G (ev1 c).1.symm hrc
    rw [checkmatch]
    dsimp only
    rw [if_neg n2, if_neg nm2, hX]
    dsimp only
    by_cases hlt : res < 0
    · rw [if_pos hlt]
      have hk : key c < key tf := s1.mp hlt
      have hnokey : ∀ x ∈ (filetree_t.node tf l r).nodefiles, x ∉ l.nodefiles →
          key x ≠ key c := by
        intro x hx hxl
        simp only [filetree_t.nodefiles, List.mem_append, List.mem_cons] at hx
        rcases hx with hx | hx | hx
        · exact absurd hx hxl
        · subst hx; exact ne_of_gt hk
        · exact ne_of_gt (lt_trans hk (br x hx))
      cases l with
      | nil =>
        refine ⟨K1, Or.inr ⟨rfl, ?_, ?_, fun x hx => hnokey x hx (by simp [filetree_t.nodefiles])⟩⟩
        · refine ⟨fun x hx => ?_, br, ⟨by simp [filetree_t.nodefiles],
            by simp [filetree_t.nodefiles], trivial, trivial⟩, bstr⟩
          simp only [filetree_t.nodefiles, List.nil_append, List.mem_singleton] at hx
          subst hx; exact hk
        · simp [registerfile, filetree_t.nodefiles]
      | node lf ll lr =>
        dsimp only
        obtain ⟨K2, hcase⟩ := ihl fs1 tr1 hkey1 (fun x hx => hnodes1 x (hml x hx)) hrc1 K1 bstl
          (by simp)
        refine ⟨K2, ?_⟩
        rcases hcase with ⟨p, m, e1, e2, e3, e4⟩ | ⟨e1, e2, e3, e4⟩
        · left
          refine ⟨tree_direction.LEFT :: p, m, by rw [e1]; rfl, by simpa [filetree_t.slot] using e2,
            e3, by rw [e4]⟩
        · right
          refine ⟨by rw [e1]; rfl, ⟨fun x hx => ?_, br, e2, bstr⟩, ?_, fun x hx => ?_⟩
          · rcases List.mem_cons.mp (e3.mem_iff.mp hx) with h | h
            · subst h; exact hk
            · exact bl x h
          · show List.Perm (_ ++ tf :: r.nodefiles)
              (c :: ((filetree_t.node lf ll lr).nodefiles ++ tf :: r.nodefiles))
            exact List.Perm.append_right _ e3
          · by_cases hxl : x ∈ (filetree_t.node lf ll lr).nodefiles
            · exact e4 x hxl
            · exact hnokey x hx hxl
    · rw [if_neg hlt]
      by_cases hgt : res > 0
      · rw [if_pos hgt]
        have hk : key tf < key c := s2.mp hgt
        have hnokey : ∀ x ∈ (filetree_t.node tf l r).nodefiles, x ∉ r.nodefiles →
            key x ≠ key c := by
          intro x hx hxr
          simp only [filetree_t.nodefiles, List.mem_append, List.mem_cons] at hx
          rcases hx with hx | hx | hx
          · exact ne_of_lt (lt_trans (bl x hx) hk)
          · subst hx; exact ne_of_lt hk
          · exact absurd hx hxr
        cases r with
        | nil =>
          refine ⟨K1, Or.inr ⟨rfl, ?_, ?_,
            fun x hx => hnokey x hx (by simp [filetree_t.nodefiles])⟩⟩
          · refine ⟨bl, fun x hx => ?_, bstl, ⟨by simp [filetree_t.nodefiles],
              by simp [filetree_t.nodefiles], trivial, trivial⟩⟩
            simp only [filetree_t.nodefiles, List.nil_append, List.mem_singleton] at hx
            subst hx; exact hk
          · show List.Perm (l.nodefiles ++ tf :: [c]) (c :: (l.nodefiles ++ tf :: []))
            exact (List.Perm.append_left _ (List.Perm.swap _ _ _)).trans List.perm_middle
        | node rf rl rr =>
          dsimp only
          obtain ⟨K2, hcase⟩ := ihr fs1 tr1 hkey1 (fun x hx => hnodes1 x (hmr x hx)) hrc1 K1 bstr
            (by simp)
          refine ⟨K2, ?_⟩
          rcases hcase with ⟨p, m, e1, e2, e3, e4⟩ | ⟨e1, e2, e3, e4⟩
          · left
            refine ⟨tree_direction.RIGHT :: p, m, by rw [e1]; rfl,
              by simpa [filetree_t.slot] using e2, e3, by rw [e4]⟩
          · right
            refine ⟨by rw [e1]; rfl, ⟨bl, fun x hx => ?_, bstl, e2⟩, ?_, fun x hx => ?_⟩
            · rcases List.mem_cons.mp (e3.mem_iff.mp hx) with h | h
              · subst h; exact hk
              · exact br x h
            · show List.Perm (l.nodefiles ++ tf :: _)
                (c :: (l.nodefiles ++ tf :: (filetree_t.node rf rl rr).nodefiles))
              have h' : List.Perm
                  (tf :: (checkmatch G (filetree_t.node rf rl rr) c fs1 tr1).tree.nodefiles)
                  (c :: tf :: (filetree_t.node rf rl rr).nodefiles) :=
                (List.Perm.cons tf e3).trans (List.Perm.swap _ _ _)
              exact (List.Perm.append_left _ h').trans (List.perm_middle)
            · by_cases hxr : x ∈ (filetree_t.node rf rl rr).nodefiles
              · exact e4 x hxr
              · exact hnokey x hx hxr
      · rw [if_neg hgt]
        refine ⟨K1, Or.inl ⟨[], tf, rfl, rfl, ?_, rfl⟩⟩
        rcases lt_trichotomy (key tf) (key c) with h | h | h
        · exact absurd (s2.mpr h) hgt
        · exact h
        · exact absurd (s1.mpr h) hlt

theorem confirmmatch_loop_same (G : globals) :
    ∀ (fuel : Nat) (file : List Nat), file.length ≤ fuel →
      confirmmatch_loop G fuel file file = 1 := by
  have hpos := auto_chunk_size_pos G
  intro fuel
  induction fuel with
  | zero =>
    intro file h
    have : file = [] := List.length_eq_zero.mp (by omega)
    subst this
    rw [confirmmatch_loop]
    simp
  | succ fuel ih =>
    intro file h
    rw [confirmmatch_loop]
    simp only [ne_eq, not_true_eq_false, if_false]
    split_ifs with h3
    · rfl
    · apply ih
      rw [List.length_drop]
      have : file ≠ [] := by
        intro e; subst e; simp at h3
      have := List.length_pos.mpr this
      omega

/-- Two streams with the same bytes pass `confirmmatch`. -/
theorem confirmmatch_same (G : globals) (file : List Nat) : confirmmatch G file file ≠ 0 := by
  unfold confirmmatch
  rw [confirmmatch_loop_same G _ _ (le_refl _)]
  decide

theorem bst_setslot (key : Nat → ℤ ×ₗ ℕ ×ₗ ℕ) (v : Nat) (tree : filetree_t) :
    ∀ (p : List tree_direction) (m : Nat), tree.slot p = some m → key v = key m →
      bst key tree → bst key (tree.setslot p v) := by
  induction tree with
  | nil => intro p m h; simp [filetree_t.slot] at h
  | node f l r ihl ihr =>
    intro p m hs hk hb
    obtain ⟨bl, br, bstl, bstr⟩ := hb
    cases p with
    | nil =>
      simp only [filetree_t.slot, Option.some.injEq] at hs
      subst hs
      exact ⟨fun x hx => by rw [hk]; exact bl x hx, fun x hx => by rw [hk]; exact br x hx,
        bstl, bstr⟩
    | cons d p =>
      cases d with
      | NONE => simp [filetree_t.slot] at hs
      | LEFT =>
        simp only [filetree_t.slot] at hs
        obtain ⟨A, B, hA, hA'⟩ := setslot_nodefiles v l p m hs
        refine ⟨fun x hx => ?_, br, ihl p m hs hk bstl, bstr⟩
        rw [hA'] at hx
        simp only [List.mem_append, List.mem_cons] at hx
        rcases hx with hx | hx | hx
        · exact bl x (by rw [hA]; simp [hx])
        · subst hx; rw [hk]; exact bl m (slot_mem l p m hs)
        · exact bl x (by rw [hA]; simp [hx])
      | RIGHT =>
        simp only [filetree_t.slot] at hs
        obtain ⟨A, B, hA, hA'⟩ := setslot_nodefiles v r p m hs
        refine ⟨bl, fun x hx => ?_, bstl, ihr p m hs hk bstr⟩
        rw [hA'] at hx
        simp only [List.mem_append, List.mem_cons] at hx
        rcases hx with hx | hx | hx
        · exact br x (by rw [hA]; simp [hx])
        · subst hx; rw [hk]; exact br m (slot_mem r p m hs)
        · exact br x (by rw [hA]; simp [hx])

/-- In a search tree no two nodes hold records with the same key. -/
theorem bst_key_inj (key : Nat → ℤ ×ₗ ℕ ×ₗ ℕ) (tree : filetree_t) :
    bst key tree → ∀ x ∈ tree.nodefiles, ∀ y ∈ tree.nodefiles, key x = key y → x = y := by
  induction tree with
  | nil => intro _ x hx; simp [filetree_t.nodefiles] at hx
  | node f l r ihl ihr =>
    intro hb x hx y hy hxy
    obtain ⟨bl, br, bstl, bstr⟩ := hb
    simp only [filetree_t.nodefiles, List.mem_append, List.mem_cons] at hx hy
    rcases hx with hx | hx | hx <;> rcases hy with hy | hy | hy
    · exact ihl bstl x hx y hy hxy
    · subst hy; exact absurd hxy (ne_of_lt (bl x hx))
    · exact absurd hxy (ne_of_lt (lt_trans (bl x hx) (br y hy)))
    · subst hx; exact absurd hxy (ne_of_gt (bl y hy))
    · rw [hx, hy]
    · subst hx; exact absurd hxy (ne_of_lt (br y hy))
    · exact absurd hxy (ne_of_gt (lt_trans (bl y hy) (br x hx)))
    · subst hy; exact absurd hxy (ne_of_gt (br x hx))
    · exact ihr bstr x hx y hy hxy

theorem scan_key_eq_iff (G : globals) (f g : file_t) :
    scan_key G f = scan_key G g ↔
      f.size = g.size ∧ (partial_hash_of G f).getD 0 = (partial_hash_of G g).getD 0 ∧
      (if f.size ≤ (PARTIAL_HASH_SIZE : Int) then 0 else (full_hash_of G f).getD 0) =
      (if g.size ≤ (PARTIAL_HASH_SIZE : Int) then 0 else (full_hash_of G g).getD 0) := by
  unfold scan_key
  constructor
  · intro h
    have h1 := congrArg (fun z => (ofLex z).1) h
    have h2 := congrArg (fun z => (ofLex (ofLex z).2).1) h
    have h3 := congrArg (fun z => (ofLex (ofLex z).2).2) h
    exact ⟨h1, h2, h3⟩
  · rintro ⟨h1, h2, h3⟩
    rw [h1] at h3
    rw [h1, h2, h3]

/-- Readable files with the same size and the same bytes have the same key. -/
theorem scan_key_same_file (G : globals) (f g : file_t) (hs : f.size = g.size)
    (hb : G.fopen f.d_name = G.fopen g.d_name) : scan_key G f = scan_key G g := by
  have hp : partial_hash_of G f = partial_hash_of G g := by
    unfold partial_hash_of
    exact get_filehash_congr G _ _ _ hs hb rfl (fun _ => rfl)
  have hf : full_hash_of G f = full_hash_of G g := by
    unfold full_hash_of
    rw [hp, hs]
    split_ifs
    · rfl
    · cases partial_hash_of G g with
      | none => rfl
      | some v =>
        simp only [Option.some_bind]
        exact get_filehash_congr G _ _ _ hs hb rfl (fun _ => rfl)
  unfold scan_key
  rw [hp, hf, hs]

/-- Readable files with the same key have the same size and the same hashes. -/
theorem scan_key_hashes (G : globals) (f g : file_t) (hf : readable G f) (hg : readable G g)
    (h : scan_key G f = scan_key G g) :
    f.size = g.size ∧ partial_hash_of G f = partial_hash_of G g ∧
      full_hash_of G f = full_hash_of G g := by
  obtain ⟨h1, h2, h3⟩ := (scan_key_eq_iff G f g).mp h
  obtain ⟨v, hv⟩ := partial_hash_of_some G f hf
  obtain ⟨w, hw⟩ := partial_hash_of_some G g hg
  obtain ⟨v', hv'⟩ := full_hash_of_some G f hf
  obtain ⟨w', hw'⟩ := full_hash_of_some G g hg
  have hp : partial_hash_of G f = partial_hash_of G g := by
    rw [hv, hw] at h2 ⊢
    simpa using h2
  refine ⟨h1, hp, ?_⟩
  by_cases hs : f.size ≤ (PARTIAL_HASH_SIZE : Int)
  · unfold full_hash_of
    rw [if_pos hs, if_pos (by rw [← h1]; exact hs), hp]
  · rw [if_neg hs, if_neg (by rw [← h1]; exact hs), hv', hw'] at h3
    rw [hv', hw']
    simpa using h3

/-- When both files open and hold the same bytes, the tail of the loop body
registers the pair. -/
theorem main_match_registers (G : globals) (n k : Nat) (st : scan_state) (rk : Nat → ℚ)
    (p : List tree_direction) (m : Nat) (bytes : List Nat)
    (hinv : chain_inv k st.files st.checktree.nodefiles rk) (hk : k < n)
    (hs : st.checktree.slot p = some m)
    (h1 : G.fopen (st.files k).d_name = some bytes)
    (h2 : G.fopen (st.files m).d_name = some bytes) :
    ∃ st' h', main_match G n st k p = some st' ∧
      st'.checktree = st.checktree.setslot p h' ∧
      pair_registered st.files m k st'.files h' := by
  have hm : m < k := (hinv.nodes m (slot_mem _ p m hs)).1
  obtain ⟨fs', h', e, hreg⟩ := registerpair_spec (comparef G) k m k n rk st.files
    (fun i j h => (hinv.edges i j h).2) hm (by omega)
  unfold main_match
  rw [hs]
  dsimp only
  rw [e, h1, h2]
  dsimp only
  rw [if_pos (confirmmatch_same G bytes)]
  split_ifs
  · exact ⟨_, h', rfl, rfl, hreg⟩
  · exact ⟨_, h', rfl, rfl, hreg⟩

theorem registered_head {fs fs' : Nat → file_t} {m c h' : Nat}
    (h : pair_registered fs m c fs' h') : h' = c ∨ h' = m := by
  rcases h.2 with ⟨e, -⟩ | ⟨e, -⟩ | ⟨e, -⟩
  · exact Or.inl e
  · exact Or.inr e
  · exact Or.inr e

/-- Completeness scheme: with the exclusions off, on unlinked readable candidates
without hash collision, after each pass of the main loop the tree is a search tree
for the keys and every processed record lies on the chain of the tree node with its
key. -/
theorem scan_complete (G : globals) (cands : List file_t)
    (hfresh : ∀ f ∈ cands, walker_fresh f)
    (hI : G.flags.F_ISOLATE = false) (h1 : G.flags.F_ONEFS = false)
    (hp : G.flags.F_PERMISSIONS = false)
    (hunl : cands.Pairwise (fun f g => ¬ linked f g))
    (hread : ∀ f ∈ cands, readable G f)
    (hcoll : ∀ f ∈ cands, ∀ g ∈ cands, f.size = g.size →
      partial_hash_of G f = partial_hash_of G g → full_hash_of G f = full_hash_of G g →
      G.fopen f.d_name = G.fopen g.d_name)
    (k : Nat) (hk : k ≤ cands.length) :
    ∃ st rk, scan_upto G cands k = some st ∧
      chain_inv k st.files st.checktree.nodefiles rk ∧
      ((∀ i, stat_of (st.files i) = stat_of (cands.getD i default)) ∧
       (∀ i, hash_cache_true G (st.files i)) ∧
       bst (fun i => scan_key G (cands.getD i default)) st.checktree ∧
       ∀ i, i < k → ∃ h ∈ st.checktree.nodefiles,
         scan_key G (cands.getD h default) = scan_key G (cands.getD i default) ∧
         reach st.files h i) := by
  refine scan_upto_spec G cands hfresh
    (fun k st => (∀ i, stat_of (st.files i) = stat_of (cands.getD i default)) ∧
       (∀ i, hash_cache_true G (st.files i)) ∧
       bst (fun i => scan_key G (cands.getD i default)) st.checktree ∧
       ∀ i, i < k → ∃ h ∈ st.checktree.nodefiles,
         scan_key G (cands.getD h default) = scan_key G (cands.getD i default) ∧
         reach st.files h i)
    ⟨fun _ => rfl, fun i => ?_, trivial, fun i hi => absurd hi (by omega)⟩
    (fun k st st' rk hkn e e' hinv hInv _ => ?_) k hk
  · -- at the start no hash is cached
    have hf : walker_fresh ((scan_init cands).files i) := by
      show walker_fresh (cands.getD i default)
      by_cases hi : i < cands.length
      · exact hfresh _ (getD_mem cands i hi)
      · rw [List.getD_eq_default _ _ (by omega)]
        exact ⟨rfl, rfl, rfl, rfl⟩
    refine ⟨fun h => ?_, fun h => ?_⟩
    · rw [hf.1] at h; exact absurd h (by simp)
    · rw [hf.2.1] at h; exact absurd h (by simp)
  · obtain ⟨hstat, hK, hbst, hmem⟩ := hInv
    have emain : main_body G cands.length st k = some st' := by
      rw [scan_upto, e] at e'; exact e'
    obtain ⟨files, tree, trace⟩ := st
    dsimp only at hstat hK hbst hmem hinv
    have hkey : ∀ i, (fun i => scan_key G (cands.getD i default)) i = scan_key G (files i) :=
      fun i => (scan_key_stat G (hstat i)).symm
    have hrd : ∀ i, i < cands.length → readable G (files i) := fun i hi =>
      readable_stat G (hstat i).symm (hread _ (getD_mem cands i hi))
    cases tree with
    | nil =>
      simp only [main_body, Option.some.injEq] at emain
      subst emain
      refine ⟨hstat, hK, ?_, fun i hi => ?_⟩
      · exact ⟨by simp [filetree_t.nodefiles], by simp [filetree_t.nodefiles], trivial, trivial⟩
      · have hk0 : k = 0 := by
          by_contra hne
          obtain ⟨h, hh, -⟩ := hmem 0 (by omega)
          simp [filetree_t.nodefiles] at hh
        have hi0 : i = k := by omega
        subst hi0
        exact ⟨i, by simp [registerfile, filetree_t.nodefiles], rfl, Relation.ReflTransGen.refl⟩
    | node f l r =>
      have hnodes : ∀ x ∈ (filetree_t.node f l r).nodefiles,
          ¬ linked (files x) (files k) ∧ readable G (files x) := by
        intro x hx
        have hxk : x < k := (hinv.nodes x hx).1
        refine ⟨fun hl => ?_, hrd x (by omega)⟩
        have := (List.pairwise_iff_getElem.mp hunl) x k (by omega) hkn hxk
        apply this
        have hl' := (linked_stat (hstat x) (hstat k)).mp hl
        rw [List.getD_eq_getElem _ _ (by omega : x < cands.length),
          List.getD_eq_getElem _ _ hkn] at hl'
        exact hl'
      obtain ⟨K1, hcase⟩ := checkmatch_complete G k (fun i => scan_key G (cands.getD i default))
        hI h1 hp (filetree_t.node f l r) files trace hkey hnodes (hrd k hkn) hK hbst (by simp)
      obtain ⟨ev, -, -, -, -⟩ := checkmatch_spec G k (filetree_t.node f l r) files trace
      have hd1 : ∀ i, ((checkmatch G (filetree_t.node f l r) k files trace).files i).duplicates =
          (files i).duplicates := fun i => (ev i).2.1
      have hstat1 : ∀ i, stat_of ((checkmatch G (filetree_t.node f l r) k files trace).files i) =
          stat_of (cands.getD i default) := fun i => by rw [(ev i).1, hstat i]
      unfold main_body at emain
      dsimp only at emain
      rcases hcase with ⟨p, m, e1, e2, e3, e4⟩ | ⟨e1, e2, e3, e4⟩
      · -- a node with the key of the incoming record: the pair is registered
        rw [e1] at emain
        dsimp only at emain
        have hmk : m < k := (hinv.nodes m (slot_mem _ p m e2)).1
        have hinv1 : chain_inv k (checkmatch G (filetree_t.node f l r) k files trace).files
            (checkmatch G (filetree_t.node f l r) k files trace).tree.nodefiles rk := by
          rw [e4]
          exact chain_inv_congr hinv hd1 (fun i => (ev i).2.2.1)
        -- the two files hold the same bytes
        have hrm := hread _ (getD_mem cands m (by omega))
        have hrk := hread _ (getD_mem cands k hkn)
        obtain ⟨s1, s2, s3⟩ := scan_key_hashes G _ _ hrm hrk e3
        have hsame := hcoll _ (getD_mem cands m (by omega)) _ (getD_mem cands k hkn) s1 s2 s3
        obtain ⟨-, bytes, hb, -⟩ := hrk
        have hbk : G.fopen ((checkmatch G (filetree_t.node f l r) k files trace).files k).d_name =
            some bytes := by
          rw [(stat_of_fields _ _ (hstat1 k)).1]; exact Option.mem_def.mp hb
        have hbm : G.fopen ((checkmatch G (filetree_t.node f l r) k files trace).files m).d_name =
            some bytes := by
          rw [(stat_of_fields _ _ (hstat1 m)).1, hsame]; exact Option.mem_def.mp hb
        obtain ⟨st'', h', em, et, hreg⟩ := main_match_registers G cands.length k
          { files := (checkmatch G (filetree_t.node f l r) k files trace).files,
            checktree := (checkmatch G (filetree_t.node f l r) k files trace).tree,
            trace := (checkmatch G (filetree_t.node f l r) k files trace).trace }
          rk p m bytes hinv1 hkn (by rw [e4]; exact e2) hbk hbm
        rw [em] at emain
        simp only [Option.some.injEq] at emain
        subst emain
        dsimp only at et hreg
        rw [e4] at et
        have hkd : ((checkmatch G (filetree_t.node f l r) k files trace).files k).duplicates =
            none := by rw [hd1]; exact (hinv.fresh k (le_refl _)).1
        obtain ⟨old, hm', hc'⟩ := reach_registered hkd hreg
        have hkey' : scan_key G (cands.getD h' default) = scan_key G (cands.getD m default) := by
          rcases registered_head hreg with e' | e'
          · rw [e']; exact e3.symm
          · rw [e']
        obtain ⟨A, B, hA, hA'⟩ := setslot_nodefiles h' (filetree_t.node f l r) p m e2
        have hh' : h' ∈ st''.checktree.nodefiles := by rw [et, hA']; simp
        refine ⟨fun i => by rw [(hreg.1 i).1, hstat1 i],
          fun i => hash_cache_true_evolves G (hreg.1 i) (K1 i), ?_, fun i hi => ?_⟩
        · rw [et]
          exact bst_setslot _ h' _ p m e2 hkey' hbst
        · by_cases hik : i = k
          · subst hik
            exact ⟨h', hh', hkey'.trans e3, hc'⟩
          · obtain ⟨h, hh, hkh, hr⟩ := hmem i (by omega)
            have hr1 := old _ _ ((reach_congr hd1 _ _).mpr hr)
            by_cases hhm : h = m
            · subst hhm
              exact ⟨h', hh', hkey'.trans hkh, Relation.ReflTransGen.trans hm' hr1⟩
            · refine ⟨h, ?_, hkh, hr1⟩
              rw [et, hA']
              rw [hA] at hh
              exact mem_replaced hh hhm
      · -- no node with that key: the incoming record is a new node
        rw [e1] at emain
        simp only [Option.some.injEq] at emain
        subst emain
        refine ⟨hstat1, K1, e2, fun i hi => ?_⟩
        by_cases hik : i = k
        · subst hik
          exact ⟨i, e3.mem_iff.mpr (List.mem_cons_self _ _), rfl, Relation.ReflTransGen.refl⟩
        · obtain ⟨h, hh, hkh, hr⟩ := hmem i (by omega)
          exact ⟨h, e3.mem_iff.mpr (List.mem_cons_of_mem _ hh), hkh, (reach_congr hd1 _ _).mpr hr⟩

/-- C2 as the code has it: completeness of grouping. With isolation, one-file-system
and permission matching off, for every list of fresh candidates that are pairwise
unlinked, readable over their whole size and free of hash collisions (candidates of
the same size with the same partial and full hash hold the same bytes), every two
candidates with equal size and equal bytes end up in the same group. -/
theorem grouping_complete (G : globals) (cands : List file_t)
    (hfresh : ∀ f ∈ cands, walker_fresh f)
    (hI : G.flags.F_ISOLATE = false) (h1 : G.flags.F_ONEFS = false)
    (hp : G.flags.F_PERMISSIONS = false)
    (hunl : cands.Pairwise (fun f g => ¬ linked f g))
    (hread : ∀ f ∈ cands, readable G f)
    (hcoll : ∀ f ∈ cands, ∀ g ∈ cands, f.size = g.size →
      partial_hash_of G f = partial_hash_of G g → full_hash_of G f = full_hash_of G g →
      G.fopen f.d_name = G.fopen g.d_name) :
    ∃ st, scan G cands = some st ∧
      ∀ a b, a < cands.length → b < cands.length → a ≠ b →
        (cands.getD a default).size = (cands.getD b default).size →
        G.fopen (cands.getD a default).d_name = G.fopen (cands.getD b default).d_name →
        ∃ g ∈ groups cands.length st.files, a ∈ g ∧ b ∈ g := by
  obtain ⟨st, rk, e, hinv, -, -, hbst, hmem⟩ :=
    scan_complete G cands hfresh hI h1 hp hunl hread hcoll cands.length (le_refl _)
  refine ⟨st, e, fun a b ha hb hab hs hbytes => ?_⟩
  have hkey := scan_key_same_file G _ _ hs hbytes
  obtain ⟨h, hh, hka, hra⟩ := hmem a ha
  obtain ⟨h2, hh2, hkb, hrb⟩ := hmem b hb
  have heq : h2 = h := bst_key_inj _ _ hbst h2 hh2 h hh (by
    show scan_key G (cands.getD h2 default) = scan_key G (cands.getD h default)
    rw [hkb, hka, hkey])
  subst heq
  have hn : h2 < cands.length := (hinv.nodes h2 hh).1
  have hdup : (st.files h2).duplicates ≠ none := by
    rcases reach_source hra with e1 | e1
    · rcases reach_source hrb with e2 | e2
      · exact absurd (e1.trans e2.symm) hab
      · exact e2
    · exact e1
  have hflag := hinv.flagged h2 hh hdup
  have hrk : ∀ i j, (st.files i).duplicates = some j → j < cands.length ∧ rk j < rk i :=
    fun i j h => (hinv.edges i j h).2
  have hcard : ((Finset.range cands.length).filter (fun i => rk i ≤ rk h2)).card ≤
      cands.length + 1 := by
    have := Finset.card_filter_le (Finset.range cands.length) (fun i => rk i ≤ rk h2)
    simp only [Finset.card_range] at this
    omega
  refine ⟨dupchain st.files cands.length h2, ?_, ?_, ?_⟩
  · unfold groups
    simp only [List.mem_map, List.mem_filter, List.mem_range]
    exact ⟨h2, ⟨hn, hflag⟩, rfl⟩
  · exact reach_mem_dupchain hrk _ h2 a hn hcard hra
  · exact reach_mem_dupchain hrk _ h2 b hn hcard hrb

/-- C2 as the code has it, run on four unlinked candidates of which three have the
same bytes. -/
theorem grouping_complete_witness :
    (∀ f ∈ sample_mixed, walker_fresh f) ∧
    sample_globals.flags.F_ISOLATE = false ∧ sample_globals.flags.F_ONEFS = false ∧
    sample_globals.flags.F_PERMISSIONS = false ∧
    sample_mixed.Pairwise (fun f g => ¬ linked f g) ∧
    (∀ f ∈ sample_mixed, readable sample_globals f) ∧
    (∀ f ∈ sample_mixed, ∀ g ∈ sample_mixed, f.size = g.size →
      partial_hash_of sample_globals f = partial_hash_of sample_globals g →
      full_hash_of sample_globals f = full_hash_of sample_globals g →
      sample_globals.fopen f.d_name = sample_globals.fopen g.d_name) ∧
    ∃ st, scan sample_globals sample_mixed = some st ∧
      ∀ a b, a < sample_mixed.length → b < sample_mixed.length → a ≠ b →
        (sample_mixed.getD a default).size = (sample_mixed.getD b default).size →
        sample_globals.fopen (sample_mixed.getD a default).d_name =
          sample_globals.fopen (sample_mixed.getD b default).d_name →
        ∃ g ∈ groups sample_mixed.length st.files, a ∈ g ∧ b ∈ g :=
  ⟨by decide, by decide, by decide, by decide, by decide, by decide, by decide,
    grouping_complete sample_globals sample_mixed (by decide) (by decide) (by decide)
      (by decide) (by decide) (by decide) (by decide)⟩

/-- C2 fails as stated: with quick mode and isolation off, the two hard links `a` and
`b` have the same size and the same bytes, and the scan puts them in no group. -/
theorem hard_links_not_grouped :
    sample_globals.flags.F_QUICKCOMPARE = false ∧ sample_globals.flags.F_ISOLATE = false ∧
    (sample_two_links.getD 0 default).size = (sample_two_links.getD 1 default).size ∧
    sample_globals.fopen (sample_two_links.getD 0 default).d_name =
      sample_globals.fopen (sample_two_links.getD 1 default).d_name ∧
    (scan sample_globals sample_two_links).map (fun st => groups 2 st.files) = some [] := by
  decide

/-! ## The work done on identical files -/

theorem log_hash_count (tr : List event) (b : Bool) (p m : Nat) (e : event) :
    (log_hash tr b p m).count e =
      tr.count e + (if b = false ∧ e = event.hash p m then 1 else 0) := by
  unfold log_hash
  cases b
  · by_cases he : e = event.hash p m
    · subst he; simp
    · have : ¬ (event.hash p m = e) := fun h => he h.symm
      simp [he, List.count_cons, this]
  · simp

theorem log_hash_confirms (tr : List event) (b : Bool) (p m : Nat) :
    (log_hash tr b p m).countP event.is_confirm = tr.countP event.is_confirm := by
  unfold log_hash
  cases b <;> simp [event.is_confirm]

theorem log_hash_length (tr : List event) (b : Bool) (p m : Nat) :
    (log_hash tr b p m).length = tr.length + (if b = false then 1 else 0) := by
  unfold log_hash
  cases b <;> simp

/-- The hash block of `checkmatch` on two distinct records whose files hold the same
bytes, more than `PARTIAL_HASH_SIZE` of them: all four caches end up filled, the
comparison is a tie, and the log grows by one entry per cache that was empty. -/
theorem checkmatch_hashes_identical (G : globals) (tf c : Nat) (fs : Nat → file_t)
    (tr : List event) (hne : tf ≠ c) (hrt : readable G (fs tf)) (hrc : readable G (fs c))
    (hK : ∀ i, hash_cache_true G (fs i)) (hsz : (fs tf).size = (fs c).size)
    (hb : G.fopen (fs tf).d_name = G.fopen (fs c).d_name)
    (hbig : ¬ (fs c).size ≤ (PARTIAL_HASH_SIZE : Int)) :
    ∃ fs4, checkmatch_hashes G tf c fs tr =
        (fs4,
         log_hash (log_hash (log_hash (log_hash tr (fs tf).F_HASH_PARTIAL tf PARTIAL_HASH_SIZE)
           (fs c).F_HASH_PARTIAL c PARTIAL_HASH_SIZE) (fs tf).F_HASH_FULL tf 0)
           (fs c).F_HASH_FULL c 0,
         some 0) ∧
      (∀ i, hash_cache_true G (fs4 i)) ∧ (∀ i, hash_evolves (fs i) (fs4 i)) ∧
      (∀ i, i ≠ tf → i ≠ c → fs4 i = fs i) ∧
      (fs4 tf).F_HASH_PARTIAL = true ∧ (fs4 tf).F_HASH_FULL = true ∧
      (fs4 c).F_HASH_PARTIAL = true ∧ (fs4 c).F_HASH_FULL = true := by
  obtain ⟨fs1, h1, K1⟩ := partial_hash_step_true G fs tf hrt hK
  obtain ⟨ev1, ne1, pf1, fl1, -⟩ := partial_hash_step_spec G fs fs1 tf h1
  obtain ⟨fs2, h2, K2⟩ := partial_hash_step_true G fs1 c
    (readable_stat G (ev1 c).1.symm hrc) K1
  obtain ⟨ev2, ne2, pf2, fl2, -⟩ := partial_hash_step_spec G fs1 fs2 c h2
  have ev12 : ∀ i, hash_evolves (fs i) (fs2 i) := fun i => hash_evolves_trans (ev1 i) (ev2 i)
  have ptf2 : (fs2 tf).F_HASH_PARTIAL = true := ((ev2 tf).2.2.2.1 pf1).1
  have hsz2 : ∀ i, (fs2 i).size = (fs i).size := fun i => hash_evolves_size (ev12 i)
  have hst : ¬ (fs tf).size ≤ (PARTIAL_HASH_SIZE : Int) := by rw [hsz]; exact hbig
  obtain ⟨s1, s2, s3⟩ := scan_key_hashes G _ _ hrt hrc (scan_key_same_file G _ _ hsz hb)
  -- the cached partial hashes agree
  have hP : ∀ i, (fs2 i).F_HASH_PARTIAL = true →
      partial_hash_of G (fs i) = some ( file_t.filehash_partial (fs2 i)) := by
    intro i hi
    rw [← partial_hash_of_stat G (ev12 i).1]
    exact (K2 i).1 hi
  have hPeq : file_t.filehash_partial (fs2 c) = file_t.filehash_partial (fs2 tf) := by
    have a := hP c pf2
    have b := hP tf ptf2
    rw [← s2, b] at a
    exact (Option.some.inj a).symm
  have hc : HASH_COMPARE ( file_t.filehash_partial (fs2 c))
      ( file_t.filehash_partial (fs2 tf)) = 0 := (HASH_COMPARE_zero _ _).mpr hPeq
  obtain ⟨fs3, h3, K3⟩ := full_hash_step_true G fs2 tf
    (readable_stat G (ev12 tf).1.symm hrt) ptf2 (by rw [hsz2 tf]; exact hst) K2
  obtain ⟨ev3, ne3, ff3, pk3, -⟩ := full_hash_step_spec G fs2 fs3 tf h3
  obtain ⟨fs4, h4, K4⟩ := full_hash_step_true G fs3 c
    (readable_stat G ((ev3 c).1.trans (ev12 c).1).symm hrc) ((ev3 c).2.2.2.1 pf2).1
    (by rw [hash_evolves_size (ev3 c), hsz2 c]; exact hbig) K3
  obtain ⟨ev4, ne4, ff4, pk4, -⟩ := full_hash_step_spec G fs3 fs4 c h4
  have ftf4 : (fs4 tf).F_HASH_FULL = true := ((ev4 tf).2.2.2.2 ff3).1
  have ev14 : ∀ i, hash_evolves (fs i) (fs4 i) := fun i =>
    hash_evolves_trans (ev12 i) (hash_evolves_trans (ev3 i) (ev4 i))
  have hF : ∀ i, (fs4 i).F_HASH_FULL = true →
      full_hash_of G (fs i) = some (fs4 i).filehash := by
    intro i hi
    rw [← full_hash_of_stat G (ev14 i).1]
    exact (K4 i).2 hi
  have hFeq : (fs4 c).filehash = (fs4 tf).filehash := by
    have a := hF c ff4
    have b := hF tf ftf4
    rw [← s3, b] at a
    exact (Option.some.inj a).symm
  -- the flags the log entries depend on are those of the records on entry
  have g1 : (fs1 c).F_HASH_PARTIAL = (fs c).F_HASH_PARTIAL := by rw [ne1 c (Ne.symm hne)]
  have g2 : (fs2 tf).F_HASH_FULL = (fs tf).F_HASH_FULL := by rw [ne2 tf hne, fl1]
  have g3 : (fs3 c).F_HASH_FULL = (fs c).F_HASH_FULL := by
    rw [ne3 c (Ne.symm hne), fl2, ne1 c (Ne.symm hne)]
  refine ⟨fs4, ?_, K4, ev14, fun i hi hi' => ?_, ?_, ftf4, ?_, ff4⟩
  · unfold checkmatch_hashes
    rw [h1]
    dsimp only
    rw [h2]
    dsimp only
    rw [if_neg (by rw [hsz2 c]; exact hbig), if_pos hc, h3]
    dsimp only
    rw [h4]
    dsimp only
    rw [(HASH_COMPARE_zero _ _).mpr hFeq, g1, g2, g3]
  · rw [ne4 i hi', ne3 i hi, ne2 i hi', ne1 i hi]
  · exact ((ev4 tf).2.2.2.1 (((ev3 tf).2.2.2.1 ptf2).1)).1
  · exact ((ev4 c).2.2.2.1 (((ev3 c).2.2.2.1 pf2).1)).1

/-- The call of `checkmatch` on a tree whose root holds a record with the same bytes
as the incoming one: the root's slot is returned and the tree is unchanged. -/
theorem checkmatch_identical (G : globals) (tf c : Nat) (l r : filetree_t)
    (fs : Nat → file_t) (tr : List event)
    (hI : G.flags.F_ISOLATE = false) (h1 : G.flags.F_ONEFS = false)
    (hp : G.flags.F_PERMISSIONS = false) (hl : ¬ linked (fs tf) (fs c))
    (hne : tf ≠ c) (hrt : readable G (fs tf)) (hrc : readable G (fs c))
    (hK : ∀ i, hash_cache_true G (fs i)) (hsz : (fs tf).size = (fs c).size)
    (hb : G.fopen (fs tf).d_name = G.fopen (fs c).d_name)
    (hbig : ¬ (fs c).size ≤ (PARTIAL_HASH_SIZE : Int)) :
    ∃ fs4, checkmatch G (filetree_t.node tf l r) c fs tr =
        ⟨fs4,
         log_hash (log_hash (log_hash (log_hash tr (fs tf).F_HASH_PARTIAL tf PARTIAL_HASH_SIZE)
           (fs c).F_HASH_PARTIAL c PARTIAL_HASH_SIZE) (fs tf).F_HASH_FULL tf 0)
           (fs c).F_HASH_FULL c 0,
         filetree_t.node tf l r, some []⟩ ∧
      (∀ i, hash_cache_true G (fs4 i)) ∧ (∀ i, hash_evolves (fs i) (fs4 i)) ∧
      (∀ i, i ≠ tf → i ≠ c → fs4 i = fs i) ∧
      (fs4 tf).F_HASH_PARTIAL = true ∧ (fs4 tf).F_HASH_FULL = true ∧
      (fs4 c).F_HASH_PARTIAL = true ∧ (fs4 c).F_HASH_FULL = true := by
  obtain ⟨fs4, e, rest⟩ := checkmatch_hashes_identical G tf c fs tr hne hrt hrc hK hsz hb hbig
  have hc0 : check_conditions G.flags (fs tf) (fs c) = 0 := by
    rw [check_conditions_plain G.flags _ _ hI h1 hp hl, hsz]
    simp
  refine ⟨fs4, ?_, rest⟩
  rw [checkmatch]
  simp only [hc0, e]
  simp

/-- The part of the main loop after `checkmatch` when neither quick mode nor the
linked short cut applies and both files open to the same bytes: `confirmmatch` runs
once and the pair is registered. -/
theorem main_match_confirms (G : globals) (n k : Nat) (st : scan_state) (rk : Nat → ℚ)
    (p : List tree_direction) (m : Nat) (bytes : List Nat)
    (hinv : chain_inv k st.files st.checktree.nodefiles rk) (hk : k < n)
    (hs : st.checktree.slot p = some m)
    (hQ : G.flags.F_QUICKCOMPARE = false)
    (hino : (st.files k).inode ≠ (st.files m).inode)
    (h1 : G.fopen (st.files k).d_name = some bytes)
    (h2 : G.fopen (st.files m).d_name = some bytes) :
    ∃ st' h', main_match G n st k p = some st' ∧
      st'.checktree = st.checktree.setslot p h' ∧
      st'.trace = st.trace ++ [event.confirm k m] ∧
      pair_registered st.files m k st'.files h' := by
  have hm : m < k := (hinv.nodes m (slot_mem _ p m hs)).1
  obtain ⟨fs', h', e, hreg⟩ := registerpair_spec (comparef G) k m k n rk st.files
    (fun i j h => (hinv.edges i j h).2) hm (by omega)
  unfold main_match
  rw [hs]
  dsimp only
  rw [e, h1, h2]
  dsimp only
  rw [if_pos (confirmmatch_same G bytes), if_neg (by simp [hQ, hino])]
  exact ⟨_, h', rfl, rfl, rfl, hreg⟩

/-- Work scheme for identical files: after `k` passes of the main loop over
candidates with distinct inodes that all hold the same bytes, more than
`PARTIAL_HASH_SIZE` of them, the tree is one node whose chain holds every processed
record; from the second pass on every processed record has both hashes cached, each
logged once, and `confirmmatch` has run `k - 1` times. -/
theorem scan_identical (G : globals) (cands : List file_t)
    (hfresh : ∀ f ∈ cands, walker_fresh f)
    (hI : G.flags.F_ISOLATE = false) (h1 : G.flags.F_ONEFS = false)
    (hp : G.flags.F_PERMISSIONS = false) (hQ : G.flags.F_QUICKCOMPARE = false)
    (hino : cands.Pairwise (fun f g => f.inode ≠ g.inode))
    (bytes : List Nat) (hbig : PARTIAL_HASH_SIZE < bytes.length)
    (hsame : ∀ f ∈ cands, G.fopen f.d_name = some bytes ∧ f.size = (bytes.length : Int))
    (k : Nat) (hk : k ≤ cands.length) :
    ∃ st rk, scan_upto G cands k = some st ∧
      chain_inv k st.files st.checktree.nodefiles rk ∧
      ((∀ i, stat_of (st.files i) = stat_of (cands.getD i default)) ∧
       (∀ i, hash_cache_true G (st.files i)) ∧
       (k = 0 → st.checktree = filetree_t.nil) ∧
       (0 < k → ∃ h, h < k ∧ st.checktree = filetree_t.node h filetree_t.nil filetree_t.nil ∧
          ∀ i, i < k → reach st.files h i) ∧
       (∀ i, (st.files i).F_HASH_PARTIAL = decide (i < k ∧ 2 ≤ k)) ∧
       (∀ i, (st.files i).F_HASH_FULL = decide (i < k ∧ 2 ≤ k)) ∧
       (∀ i, st.trace.count (event.hash i PARTIAL_HASH_SIZE) = if i < k ∧ 2 ≤ k then 1 else 0) ∧
       (∀ i, st.trace.count (event.hash i 0) = if i < k ∧ 2 ≤ k then 1 else 0) ∧
       st.trace.countP event.is_confirm = k - 1 ∧
       st.trace.length = if 2 ≤ k then 3 * k - 1 else 0) := by
  have hfr : ∀ i, walker_fresh ((scan_init cands).files i) := by
    intro i
    show walker_fresh (cands.getD i default)
    by_cases hi : i < cands.length
    · exact hfresh _ (getD_mem cands i hi)
    · rw [List.getD_eq_default _ _ (by omega)]
      exact ⟨rfl, rfl, rfl, rfl⟩
  refine scan_upto_spec G cands hfresh
    (fun k st => (∀ i, stat_of (st.files i) = stat_of (cands.getD i default)) ∧
       (∀ i, hash_cache_true G (st.files i)) ∧
       (k = 0 → st.checktree = filetree_t.nil) ∧
       (0 < k → ∃ h, h < k ∧ st.checktree = filetree_t.node h filetree_t.nil filetree_t.nil ∧
          ∀ i, i < k → reach st.files h i) ∧
       (∀ i, (st.files i).F_HASH_PARTIAL = decide (i < k ∧ 2 ≤ k)) ∧
       (∀ i, (st.files i).F_HASH_FULL = decide (i < k ∧ 2 ≤ k)) ∧
       (∀ i, st.trace.count (event.hash i PARTIAL_HASH_SIZE) = if i < k ∧ 2 ≤ k then 1 else 0) ∧
       (∀ i, st.trace.count (event.hash i 0) = if i < k ∧ 2 ≤ k then 1 else 0) ∧
       st.trace.countP event.is_confirm = k - 1 ∧
       st.trace.length = if 2 ≤ k then 3 * k - 1 else 0)
    ⟨fun _ => rfl, fun i => ?_, fun _ => rfl, fun h => absurd h (by omega),
      fun i => by simpa using (hfr i).1, fun i => by simpa using (hfr i).2.1,
      fun i => by simp [scan_init], fun i => by simp [scan_init], by simp [scan_init],
      by simp [scan_init]⟩
    (fun k st st' rk hkn e e' hinv hInv _ => ?_) k hk
  · refine ⟨fun h => ?_, fun h => ?_⟩
    · rw [(hfr i).1] at h; exact absurd h (by simp)
    · rw [(hfr i).2.1] at h; exact absurd h (by simp)
  · obtain ⟨hstat, hK, ht0, ht1, hfp, hff, hcp, hcf, hcc, hlen⟩ := hInv
    have emain : main_body G cands.length st k = some st' := by
      rw [scan_upto, e] at e'; exact e'
    obtain ⟨files, tree, trace⟩ := st
    dsimp only at hstat hK ht0 ht1 hfp hff hcp hcf hcc hlen hinv
    rcases Nat.eq_zero_or_pos k with hk0 | hkpos
    · -- the first record seeds the tree
      subst hk0
      rw [ht0 rfl] at emain
      simp only [main_body, Option.some.injEq] at emain
      subst emain
      refine ⟨hstat, hK, fun h => absurd h (by omega), fun _ => ⟨0, by omega, rfl, ?_⟩,
        ?_, ?_, ?_, ?_, ?_, ?_⟩
      · intro i hi
        have : i = 0 := by omega
        subst this
        exact Relation.ReflTransGen.refl
      · intro i; rw [hfp i]; simp
      · intro i; rw [hff i]; simp
      · intro i; rw [hcp i]; simp
      · intro i; rw [hcf i]; simp
      · rw [hcc]
      · rw [hlen]; simp
    · obtain ⟨h, hhk, htree, hreach⟩ := ht1 hkpos
      subst htree
      have hmemk := getD_mem cands k hkn
      have hmemh := getD_mem cands h (by omega)
      have hnm : ∀ i, (files i).d_name = (cands.getD i default).d_name := fun i =>
        (stat_of_fields _ _ (hstat i)).1
      have hsize : ∀ i, (files i).size = (cands.getD i default).size := fun i =>
        (stat_of_fields _ _ (hstat i)).2.2.1
      have hinode : ∀ i, (files i).inode = (cands.getD i default).inode := fun i =>
        (stat_of_fields _ _ (hstat i)).2.2.2.2.1
      have hrd : ∀ i, i < cands.length → readable G (files i) := by
        intro i hi
        obtain ⟨a, b⟩ := hsame _ (getD_mem cands i hi)
        refine ⟨by rw [hsize, b]; omega, bytes, ?_, by rw [hsize, b]⟩
        rw [hnm, a]; rfl
      have hinohk : (cands.getD h default).inode ≠ (cands.getD k default).inode := by
        have := (List.pairwise_iff_getElem.mp hino) h k (by omega) hkn hhk
        rw [List.getD_eq_getElem _ _ (by omega : h < cands.length),
          List.getD_eq_getElem _ _ hkn]
        exact this
      obtain ⟨fs4, ec, K4, ev, hoth, p4h, f4h, p4k, f4k⟩ :=
        checkmatch_identical G h k filetree_t.nil filetree_t.nil files trace hI h1 hp
          (fun hl => hinohk (by rw [← hinode h, ← hinode k]; exact hl.1))
          (by omega) (hrd h (by omega)) (hrd k hkn) hK
          (by rw [hsize, hsize, (hsame _ hmemh).2, (hsame _ hmemk).2])
          (by rw [hnm, hnm, (hsame _ hmemh).1, (hsame _ hmemk).1])
          (by rw [hsize, (hsame _ hmemk).2]; unfold PARTIAL_HASH_SIZE at hbig ⊢; omega)
      have hd1 : ∀ i, (fs4 i).duplicates = (files i).duplicates := fun i => (ev i).2.1
      have hstat4 : ∀ i, stat_of (fs4 i) = stat_of (cands.getD i default) := fun i => by
        rw [(ev i).1, hstat i]
      have hinv1 : chain_inv k fs4
          (filetree_t.node h filetree_t.nil filetree_t.nil).nodefiles rk :=
        chain_inv_congr hinv hd1 (fun i => (ev i).2.2.1)
      obtain ⟨st'', h', em, et, etr, hreg⟩ := main_match_confirms G cands.length k
        { files := fs4, checktree := filetree_t.node h filetree_t.nil filetree_t.nil,
          trace := log_hash (log_hash (log_hash (log_hash trace (files h).F_HASH_PARTIAL h
            PARTIAL_HASH_SIZE) (files k).F_HASH_PARTIAL k PARTIAL_HASH_SIZE)
            (files h).F_HASH_FULL h 0) (files k).F_HASH_FULL k 0 }
        rk [] h bytes hinv1 hkn rfl hQ
        (by
          show (fs4 k).inode ≠ (fs4 h).inode
          rw [(stat_of_fields _ _ (hstat4 k)).2.2.2.2.1, (stat_of_fields _ _ (hstat4 h)).2.2.2.2.1]
          exact fun e => hinohk e.symm)
        (by
          show G.fopen (fs4 k).d_name = some bytes
          rw [(stat_of_fields _ _ (hstat4 k)).1]; exact (hsame _ hmemk).1)
        (by
          show G.fopen (fs4 h).d_name = some bytes
          rw [(stat_of_fields _ _ (hstat4 h)).1]; exact (hsame _ hmemh).1)
      unfold main_body at emain
      dsimp only at emain
      rw [ec] at emain
      dsimp only at emain
      rw [em] at emain
      simp only [Option.some.injEq] at emain
      subst emain
      dsimp only at et etr hreg
      have hkd : (fs4 k).duplicates = none := by rw [hd1]; exact (hinv.fresh k (le_refl _)).1
      obtain ⟨old, hm', hc'⟩ := reach_registered hkd hreg
      have hh' : h' < k + 1 := by
        rcases registered_head hreg with e' | e' <;> omega
      have hPk : (files k).F_HASH_PARTIAL = false := by rw [hfp k]; simp
      have hFk : (files k).F_HASH_FULL = false := by rw [hff k]; simp
      have hPh : (files h).F_HASH_PARTIAL = decide (2 ≤ k) := by rw [hfp h]; simp [hhk]
      have hFh : (files h).F_HASH_FULL = decide (2 ≤ k) := by rw [hff h]; simp [hhk]
      have hother : ∀ i, i ≠ h → i < k → 2 ≤ k := by intro i _ _; omega
      refine ⟨fun i => by rw [(hreg.1 i).1, hstat4 i],
        fun i => hash_cache_true_evolves G (hreg.1 i) (K4 i),
        fun h0 => absurd h0 (by omega), fun _ => ⟨h', hh', ?_, ?_⟩, ?_, ?_, ?_, ?_, ?_, ?_⟩
      · rw [et]; rfl
      · intro i hi
        by_cases hik : i = k
        · subst hik; exact hc'
        · exact Relation.ReflTransGen.trans hm'
            (old _ _ ((reach_congr hd1 _ _).mpr (hreach i (by omega))))
      · intro i
        rw [(hreg.1 i).2.1]
        by_cases hih : i = h
        · subst hih; rw [p4h]; simp; omega
        · by_cases hik : i = k
          · subst hik; rw [p4k]; simp; omega
          · rw [hoth i hih hik, hfp i]
            have := hother i hih
            simp only [decide_eq_decide]
            omega
      · intro i
        rw [(hreg.1 i).2.2.2.1]
        by_cases hih : i = h
        · subst hih; rw [f4h]; simp; omega
        · by_cases hik : i = k
          · subst hik; rw [f4k]; simp; omega
          · rw [hoth i hih hik, hff i]
            have := hother i hih
            simp only [decide_eq_decide]
            omega
      · intro i
        rw [etr, List.count_append, log_hash_count, log_hash_count, log_hash_count,
          log_hash_count, hcp i, hPk, hFk, hPh, hFh]
        have e1 : ∀ m, [event.confirm k h].count (event.hash i m) = 0 := fun m => by
          simp [List.count_cons]
        rw [e1]
        have z1 : ((0 : Nat) = 4096) = False := by simp
        have z2 : ((4096 : Nat) = 0) = False := by simp
        simp only [event.hash.injEq, decide_eq_false_iff_not, PARTIAL_HASH_SIZE, z1, z2,
          and_true, true_and, and_false, if_false, add_zero]
        split_ifs <;> omega
      · intro i
        rw [etr, List.count_append, log_hash_count, log_hash_count, log_hash_count,
          log_hash_count, hcf i, hPk, hFk, hPh, hFh]
        have e1 : ∀ m, [event.confirm k h].count (event.hash i m) = 0 := fun m => by
          simp [List.count_cons]
        rw [e1]
        have z1 : ((0 : Nat) = 4096) = False := by simp
        have z2 : ((4096 : Nat) = 0) = False := by simp
        simp only [event.hash.injEq, decide_eq_false_iff_not, PARTIAL_HASH_SIZE, z1, z2,
          and_true, true_and, and_false, if_false, add_zero]
        split_ifs <;> omega
      · rw [etr, List.countP_append, log_hash_confirms, log_hash_confirms, log_hash_confirms,
          log_hash_confirms, hcc]
        have e1 : List.countP event.is_confirm [event.confirm k h] = 1 := rfl
        rw [e1, Nat.sub_add_cancel hkpos, Nat.add_sub_cancel]
      · rw [etr, List.length_append, log_hash_length, log_hash_length, log_hash_length,
          log_hash_length, hlen, hPk, hFk, hPh, hFh]
        simp only [decide_eq_false_iff_not, List.length_singleton]
        split_ifs <;> omega

/-- C11: work bound for identical files. For every list of at least two fresh
candidates with pairwise distinct inodes whose files all hold the same bytes, more
than `PARTIAL_HASH_SIZE` of them, with no filter flag set and quick mode off, the
scan ends with exactly one group, which holds every candidate once; the log shows one
partial hash and one full hash per file, `n - 1` calls of `confirmmatch`, and nothing
else. -/
theorem identical_files_work (G : globals) (cands : List file_t)
    (hn : 2 ≤ cands.length)
    (hfresh : ∀ f ∈ cands, walker_fresh f)
    (hI : G.flags.F_ISOLATE = false) (h1 : G.flags.F_ONEFS = false)
    (hp : G.flags.F_PERMISSIONS = false) (hQ : G.flags.F_QUICKCOMPARE = false)
    (hino : cands.Pairwise (fun f g => f.inode ≠ g.inode))
    (bytes : List Nat) (hbig : PARTIAL_HASH_SIZE < bytes.length)
    (hsame : ∀ f ∈ cands, G.fopen f.d_name = some bytes ∧ f.size = (bytes.length : Int)) :
    ∃ st, scan G cands = some st ∧
      (∃ g, groups cands.length st.files = [g] ∧ List.Perm g (List.range cands.length)) ∧
      (∀ i, i < cands.length →
        st.trace.count (event.hash i PARTIAL_HASH_SIZE) = 1 ∧
        st.trace.count (event.hash i 0) = 1) ∧
      st.trace.countP event.is_confirm = cands.length - 1 ∧
      st.trace.length = 3 * cands.length - 1 := by
  obtain ⟨st, rk, e, hinv, -, -, -, ht, -, -, hcp, hcf, hcc, hlen⟩ :=
    scan_identical G cands hfresh hI h1 hp hQ hino bytes hbig hsame cands.length (le_refl _)
  obtain ⟨h, hh, htree, hreach⟩ := ht (by omega)
  rw [htree] at hinv
  have hnf : ∀ x, x ∈ (filetree_t.node h filetree_t.nil filetree_t.nil).nodefiles ↔ x = h := by
    intro x; simp [filetree_t.nodefiles]
  have hrk : ∀ i j, (st.files i).duplicates = some j → j < cands.length ∧ rk j < rk i :=
    fun i j hij => (hinv.edges i j hij).2
  have hcard : ((Finset.range cands.length).filter (fun i => rk i ≤ rk h)).card ≤
      cands.length + 1 := by
    have := Finset.card_filter_le (Finset.range cands.length) (fun i => rk i ≤ rk h)
    simp only [Finset.card_range] at this
    omega
  -- the head of the one chain is the only record with the group-head bit
  have hdup : (st.files h).duplicates ≠ none := by
    have hx : ∃ x, x < cands.length ∧ x ≠ h := by
      by_cases h0 : h = 0
      · exact ⟨1, by omega, by omega⟩
      · exact ⟨0, by omega, fun e0 => h0 e0.symm⟩
    obtain ⟨x, hx, hxh⟩ := hx
    rcases reach_source (hreach x hx) with e1 | e1
    · exact absurd e1 hxh
    · exact e1
  have hflag : ∀ x, (st.files x).F_HAS_DUPES = true ↔ x = h := by
    intro x
    constructor
    · intro hx; exact (hnf x).mp (hinv.heads x hx).1
    · intro hx; subst hx; exact hinv.flagged x ((hnf x).mpr rfl) hdup
  have hfilter : (List.range cands.length).filter (fun x => (st.files x).F_HAS_DUPES) = [h] := by
    apply List.perm_singleton.mp
    apply (List.perm_ext_iff_of_nodup ((List.nodup_range _).filter _)
      (List.nodup_singleton h)).mpr
    intro x
    simp only [List.mem_filter, List.mem_range, List.mem_singleton, hflag]
    constructor
    · exact fun hx => hx.2
    · intro hx; subst hx; exact ⟨hh, rfl⟩
  refine ⟨st, e, ⟨dupchain st.files cands.length h, ?_, ?_⟩, fun i hi => ?_, hcc, ?_⟩
  · unfold groups
    rw [hfilter]
    rfl
  · apply (List.perm_ext_iff_of_nodup (dupchain_nodup hrk _ _) (List.nodup_range _)).mpr
    intro x
    rw [List.mem_range]
    constructor
    · intro hx
      rcases reach_target (mem_dupchain_reach _ _ _ _ hx) with e1 | ⟨i, e1⟩
      · rw [e1]; exact hh
      · exact (hinv.edges i x e1).2.1
    · intro hx
      exact reach_mem_dupchain hrk _ h x hh hcard (hreach x hx)
  · rw [hcp i, hcf i]
    simp [hi, hn]
  · rw [hlen]
    simp [hn]

theorem sample_bytes_length : sample_bytes.length = 65536 :=
  List.length_replicate _ _

/-- C11 on the three files `p`, `q`, `r` of 64 KiB each: one group of three, one
partial and one full hash per file, `confirmmatch` run twice. -/
theorem identical_files_work_witness :
    2 ≤ sample_pqr.length ∧
    (∀ f ∈ sample_pqr, walker_fresh f) ∧
    sample_globals_big.flags.F_ISOLATE = false ∧ sample_globals_big.flags.F_ONEFS = false ∧
    sample_globals_big.flags.F_PERMISSIONS = false ∧
    sample_globals_big.flags.F_QUICKCOMPARE = false ∧
    sample_pqr.Pairwise (fun f g => f.inode ≠ g.inode) ∧
    PARTIAL_HASH_SIZE < sample_bytes.length ∧
    (∀ f ∈ sample_pqr, sample_globals_big.fopen f.d_name = some sample_bytes ∧
      f.size = (sample_bytes.length : Int)) ∧
    ∃ st, scan sample_globals_big sample_pqr = some st ∧
      (∃ g, groups sample_pqr.length st.files = [g] ∧
        List.Perm g (List.range sample_pqr.length)) ∧
      (∀ i, i < sample_pqr.length →
        st.trace.count (event.hash i PARTIAL_HASH_SIZE) = 1 ∧
        st.trace.count (event.hash i 0) = 1) ∧
      st.trace.countP event.is_confirm = sample_pqr.length - 1 ∧
      st.trace.length = 3 * sample_pqr.length - 1 :=
  have hlen : PARTIAL_HASH_SIZE < sample_bytes.length := by
    rw [sample_bytes_length]; decide
  have hsame : ∀ f ∈ sample_pqr,
      sample_globals_big.fopen f.d_name = some sample_bytes ∧
      f.size = (sample_bytes.length : Int) := by
    intro f hf
    rw [sample_bytes_length]
    simp only [sample_pqr, List.mem_cons, List.mem_singleton, List.not_mem_nil, or_false] at hf
    rcases hf with rfl | rfl | rfl <;> exact ⟨rfl, rfl⟩
  ⟨by decide, by decide, by decide, by decide, by decide, by decide, by decide, hlen, hsame,
    identical_files_work sample_globals_big sample_pqr (by decide) (by decide) (by decide)
      (by decide) (by decide) (by decide) (by decide) sample_bytes hlen hsame⟩

/-! ## Byte confirmation over streams -/

theorem fread_ok (n : Nat) (x : List Nat) :
    fread n ⟨x, []⟩ = (x.take n, ⟨x.drop n, []⟩) := rfl

/-- Without read failure the compare loop ends within as many passes as the second
stream has bytes, and tells whether the two streams hold the same bytes. -/
theorem confirmmatch_reads_spec (chunk : Nat) (hc : 1 ≤ chunk) :
    ∀ (fuel : Nat) (x y : List Nat), y.length ≤ fuel →
      confirmmatch_reads chunk fuel ⟨x, []⟩ ⟨y, []⟩ = some (if x = y then 1 else 0) := by
  intro fuel
  induction fuel with
  | zero =>
    intro x y h
    have hy : y = [] := List.length_eq_zero.mp (by omega)
    subst hy
    rw [confirmmatch_reads]
    simp only [fread_ok, List.take_nil, List.length_nil]
    by_cases hx : x = []
    · subst hx; simp
    · have : (List.take chunk x).length ≠ 0 := by
        rw [List.length_take]
        have := List.length_pos.mpr hx
        omega
      rw [if_pos this, if_neg hx]
  | succ fuel ih =>
    intro x y h
    rw [confirmmatch_reads]
    simp only [fread_ok]
    by_cases h1 : (List.take chunk x).length = (List.take chunk y).length
    · rw [if_neg (not_not.mpr h1)]
      by_cases h3 : List.take chunk x = List.take chunk y
      · rw [if_neg (not_not.mpr h3)]
        by_cases h5 : (List.take chunk y).length = 0
        · rw [if_neg (not_not.mpr h5)]
          have ey : y = [] := by
            rcases List.take_eq_nil_iff.mp (List.length_eq_zero.mp h5) with h0 | h0
            · omega
            · exact h0
          have ex : x = [] := by
            rw [h5] at h1
            rcases List.take_eq_nil_iff.mp (List.length_eq_zero.mp h1) with h0 | h0
            · omega
            · exact h0
          rw [if_pos (by rw [ex, ey])]
        · rw [if_pos h5]
          have hy : y ≠ [] := by
            intro e; subst e; simp at h5
          have hpos := List.length_pos.mpr hy
          rw [ih _ _ (by rw [List.length_drop]; omega)]
          have hiff : List.drop chunk x = List.drop chunk y ↔ x = y := by
            constructor
            · intro hd
              rw [← List.take_append_drop chunk x, ← List.take_append_drop chunk y, h3, hd]
            · intro e; rw [e]
          simp only [hiff]
      · rw [if_pos h3, if_neg (fun e => h3 (by rw [e]))]
    · rw [if_pos h1, if_neg (fun e => h1 (by rw [e]))]

/-- The compare loop of the scan is the loop over streams without read failure, run
with the chunk size `main` has set. -/
theorem confirmmatch_loop_reads (G : globals) :
    ∀ (fuel : Nat) (x y : List Nat),
      confirmmatch_loop G fuel x y =
        (confirmmatch_reads (auto_chunk_size G) fuel ⟨x, []⟩ ⟨y, []⟩).getD 0 := by
  intro fuel
  induction fuel with
  | zero =>
    intro x y
    rw [confirmmatch_loop, confirmmatch_reads]
    simp only [fread_ok]
    split_ifs <;> rfl
  | succ fuel ih =>
    intro x y
    rw [confirmmatch_loop, confirmmatch_reads]
    simp only [fread_ok]
    split_ifs
    · rfl
    · rfl
    · exact ih _ _
    · rfl

/-- C12: byte confirmation is exact. For all byte sequences `x` and `y` and every
chunk size of at least 1, without read failure, `confirmmatch` over streams holding
`x` and `y` ends (within as many passes as `y` has bytes) and returns 1 if and only
if `x = y`; the `confirmmatch` of the scan, which reads with the chunk size `main`
has set, returns 1 if and only if `x = y`. -/
theorem confirmmatch_exact (chunk : Nat) (hc : 1 ≤ chunk) (x y : List Nat) :
    (∃ r, confirmmatch_reads chunk y.length ⟨x, []⟩ ⟨y, []⟩ = some r ∧ (r = 1 ↔ x = y)) ∧
    ∀ G : globals, confirmmatch G x y = 1 ↔ x = y := by
  constructor
  · refine ⟨_, confirmmatch_reads_spec chunk hc _ x y (le_refl _), ?_⟩
    by_cases h : x = y <;> simp [h]
  · intro G
    unfold confirmmatch
    rw [confirmmatch_loop_reads, confirmmatch_reads_spec _ (auto_chunk_size_pos G) _ x y (le_refl _)]
    by_cases h : x = y <;> simp [h]

/-- C12 with a chunk of two bytes on the stream `1, 2, 3` against itself. -/
theorem confirmmatch_exact_witness :
    1 ≤ 2 ∧
    (∃ r, confirmmatch_reads 2 [1, 2, 3].length ⟨[1, 2, 3], []⟩ ⟨[1, 2, 3], []⟩ = some r ∧
      (r = 1 ↔ [1, 2, 3] = [1, 2, 3])) ∧
    ∀ G : globals, confirmmatch G [1, 2, 3] [1, 2, 3] = 1 ↔ [1, 2, 3] = [1, 2, 3] :=
  ⟨by decide, confirmmatch_exact 2 (by decide) [1, 2, 3] [1, 2, 3]⟩

/-- C13 fails: when the first `fread` of each of the two streams fails at once and
returns no byte (fewer than the three bytes available), the two counts agree, nothing
is compared, the loop ends and `confirmmatch` returns 1, for equal streams and for
streams that differ alike; a failure of one stream alone is caught by the counts. -/
theorem confirmmatch_both_reads_fail :
    (fread 4096 ⟨[1, 2, 3], [some 0]⟩).1.length < ([1, 2, 3].take 4096).length ∧
    confirmmatch_reads 4096 3 ⟨[1, 2, 3], [some 0]⟩ ⟨[1, 2, 3], [some 0]⟩ = some 1 ∧
    confirmmatch_reads 4096 3 ⟨[1, 2, 3], [some 0]⟩ ⟨[1, 2, 4], [some 0]⟩ = some 1 ∧
    confirmmatch_reads 4096 3 ⟨[1, 2, 3], [some 0]⟩ ⟨[1, 2, 3], []⟩ = some 0 := by
  decide

/-! ## Hash failures -/

theorem partial_hash_step_none (G : globals) (fs : Nat → file_t) (p : Nat)
    (hf : (fs p).F_HASH_PARTIAL = false) (hg : get_filehash G (fs p) PARTIAL_HASH_SIZE = none) :
    partial_hash_step G fs p = none := by
  unfold partial_hash_step
  simp [hf, hg]

theorem full_hash_step_none (G : globals) (fs : Nat → file_t) (p : Nat)
    (hf : (fs p).F_HASH_FULL = false) (hg : get_filehash G (fs p) 0 = none) :
    full_hash_step G fs p = none := by
  unfold full_hash_step
  simp [hf, hg]

/-- A failing call of `get_filehash` makes the hash block return `NULL`. -/
theorem checkmatch_hashes_failure (G : globals) (tf file : Nat) (fs : Nat → file_t)
    (tr : List event) (h : hash_failure G tf file fs) :
    (checkmatch_hashes G tf file fs tr).2.2 = none := by
  unfold checkmatch_hashes
  rcases h with ⟨hf, hg⟩ | ⟨fs1, e1, hf, hg⟩ | ⟨fs1, fs2, e1, e2, hbig, hc, h⟩
  · rw [partial_hash_step_none G fs tf hf hg]
  · rw [e1]
    dsimp only
    rw [partial_hash_step_none G fs1 file hf hg]
  · rw [e1]
    dsimp only
    rw [e2]
    dsimp only
    rw [if_neg hbig, if_pos hc]
    rcases h with ⟨hf, hg⟩ | ⟨fs3, e3, hf, hg⟩
    · rw [full_hash_step_none G fs2 tf hf hg]
    · rw [e3]
      dsimp only
      rw [full_hash_step_none G fs3 file hf hg]

/-- A call of `checkmatch` that reaches a node where the comparison is a tie and the
hash block returns `NULL` returns `NULL` itself and leaves the tree as it was. -/
theorem checkmatch_hash_failure (G : globals) (file : Nat) {tree sub : filetree_t}
    {fs fs' : Nat → file_t} {tr tr' : List event}
    (hv : checkmatch_visits G file tree fs tr sub fs' tr') :
    ∀ (tf : Nat) (l r : filetree_t), sub = filetree_t.node tf l r →
      check_conditions G.flags (fs' tf) (fs' file) = 0 →
      (checkmatch_hashes G tf file fs' tr').2.2 = none →
      (checkmatch G tree file fs tr).ret = none ∧ (checkmatch G tree file fs tr).tree = tree := by
  induction hv with
  | here t fs tr =>
    intro tf l r ht hc hn
    subst ht
    rw [checkmatch]
    simp only [hc]
    rcases hx : checkmatch_hashes G tf file fs tr with ⟨a, b, c⟩
    rw [hx] at hn
    dsimp only at hn
    subst hn
    simp
  | left tf l r fs fs1 tr tr1 cmpresult sub fs' tr' h2 hm2 he hlt hl _ ih =>
    intro tf' l' r' ht hc hn
    obtain ⟨i1, i2⟩ := ih tf' l' r' ht hc hn
    rw [checkmatch]
    simp only [h2, hm2, if_false, he, hlt, if_true]
    cases l with
    | nil => exact absurd rfl hl
    | node a b c =>
      dsimp only
      rw [i1, i2]
      exact ⟨rfl, rfl⟩
  | right tf l r fs fs1 tr tr1 cmpresult sub fs' tr' h2 hm2 he hnlt hgt hr _ ih =>
    intro tf' l' r' ht hc hn
    obtain ⟨i1, i2⟩ := ih tf' l' r' ht hc hn
    rw [checkmatch]
    simp only [h2, hm2, if_false, he, hnlt, hgt, if_true]
    cases r with
    | nil => exact absurd rfl hr
    | node a b c =>
      dsimp only
      rw [i1, i2]
      exact ⟨rfl, rfl⟩

theorem dupchain_congr {fs fs' : Nat → file_t}
    (hd : ∀ i, (fs' i).duplicates = (fs i).duplicates) :
    ∀ (fuel h : Nat), dupchain fs' fuel h = dupchain fs fuel h := by
  intro fuel
  induction fuel with
  | zero => intro h; rfl
  | succ fuel ih =>
    intro h
    rw [dupchain, dupchain, hd h]
    cases (fs h).duplicates with
    | none => rfl
    | some x => dsimp only; rw [ih x]

theorem groups_congr {fs fs' : Nat → file_t} (n : Nat)
    (hd : ∀ i, (fs' i).duplicates = (fs i).duplicates)
    (hf : ∀ i, (fs' i).F_HAS_DUPES = (fs i).F_HAS_DUPES) :
    groups n fs' = groups n fs := by
  unfold groups
  have e1 : (fun h => (fs' h).F_HAS_DUPES) = (fun h => (fs h).F_HAS_DUPES) := funext hf
  have e2 : dupchain fs' n = dupchain fs n := funext (dupchain_congr hd n)
  rw [e1, e2]

/-- C14: a hash failure causes no match and no insertion. If the call of `checkmatch`
for the incoming record reaches a node where `check_conditions` yields a tie and one
of the calls of `get_filehash` for the node's record or the incoming record, partial
or full, returns `NULL`, then `checkmatch` returns `NULL`, the tree is left as it was
(no node is added anywhere), and the pass of the main loop ends with the same tree,
the same chain links and head bits, hence the same groups. -/
theorem hash_failure_no_insert (G : globals) (n : Nat) (st : scan_state) (curfile tf : Nat)
    (l r : filetree_t) (fs' : Nat → file_t) (tr' : List event)
    (hv : checkmatch_visits G curfile st.checktree st.files st.trace
      (filetree_t.node tf l r) fs' tr')
    (hc : check_conditions G.flags (fs' tf) (fs' curfile) = 0)
    (hf : hash_failure G tf curfile fs') :
    (checkmatch G st.checktree curfile st.files st.trace).ret = none ∧
    (checkmatch G st.checktree curfile st.files st.trace).tree = st.checktree ∧
    ∃ st', main_body G n st curfile = some st' ∧ st'.checktree = st.checktree ∧
      (∀ i, (st'.files i).duplicates = (st.files i).duplicates ∧
        (st'.files i).F_HAS_DUPES = (st.files i).F_HAS_DUPES) ∧
      groups n st'.files = groups n st.files := by
  obtain ⟨e1, e2⟩ := checkmatch_hash_failure G curfile hv tf l r rfl hc
    (checkmatch_hashes_failure G tf curfile fs' tr' hf)
  refine ⟨e1, e2, ?_⟩
  obtain ⟨ev, -, -, -, -⟩ := checkmatch_spec G curfile st.checktree st.files st.trace
  obtain ⟨files, tree, trace⟩ := st
  dsimp only at e1 e2 ev hv ⊢
  cases tree with
  | nil =>
    exfalso
    cases hv
  | node f a b =>
    refine ⟨{ files := (checkmatch G (filetree_t.node f a b) curfile files trace).files,
              checktree := (checkmatch G (filetree_t.node f a b) curfile files trace).tree,
              trace := (checkmatch G (filetree_t.node f a b) curfile files trace).trace },
      ?_, e2, fun i => ⟨(ev i).2.1, (ev i).2.2.1⟩,
      groups_congr n (fun i => (ev i).2.1) (fun i => (ev i).2.2.1)⟩
    unfold main_body
    dsimp only
    rw [e1]

/-- C14 on the tree that holds the unreadable file `gone`, with `a` coming in. -/
theorem hash_failure_no_insert_witness :
    checkmatch_visits sample_globals 1 sample_unreadable_state.checktree
      sample_unreadable_state.files sample_unreadable_state.trace
      (filetree_t.node 0 filetree_t.nil filetree_t.nil) sample_unreadable_state.files
      sample_unreadable_state.trace ∧
    check_conditions sample_globals.flags (sample_unreadable_state.files 0)
      (sample_unreadable_state.files 1) = 0 ∧
    hash_failure sample_globals 0 1 sample_unreadable_state.files ∧
    (checkmatch sample_globals sample_unreadable_state.checktree 1
      sample_unreadable_state.files sample_unreadable_state.trace).ret = none ∧
    (checkmatch sample_globals sample_unreadable_state.checktree 1
      sample_unreadable_state.files sample_unreadable_state.trace).tree =
      sample_unreadable_state.checktree ∧
    ∃ st', main_body sample_globals 2 sample_unreadable_state 1 = some st' ∧
      st'.checktree = sample_unreadable_state.checktree ∧
      (∀ i, (st'.files i).duplicates = (sample_unreadable_state.files i).duplicates ∧
        (st'.files i).F_HAS_DUPES = (sample_unreadable_state.files i).F_HAS_DUPES) ∧
      groups 2 st'.files = groups 2 sample_unreadable_state.files :=
  ⟨checkmatch_visits.here _ _ _, by decide, Or.inl ⟨by decide, by decide⟩,
    hash_failure_no_insert sample_globals 2 sample_unreadable_state 1 0 filetree_t.nil
      filetree_t.nil sample_unreadable_state.files sample_unreadable_state.trace
      (checkmatch_visits.here _ _ _) (by decide) (Or.inl ⟨by decide, by decide⟩)⟩

/-- C15 fails: with the roots given as `Y X` the scan groups the copy with one of the
two hard links, with the roots given as `X Y` it groups all three files; the flags
(`-o time`) and the files are the same. -/
theorem root_order_changes_groups :
    (scan sample_globals_time sample_order_YX).map (group_paths sample_order_YX) =
      some [["Y/dup.bin", "X/dup.bin"]] ∧
    (scan sample_globals_time sample_order_XY).map (group_paths sample_order_XY) =
      some [["Y/dup.bin", "X/dup.bin", "X/copy.bin"]] := by
  decide

/-! ## The tree of traversed directories -/

theorem travdone_visit_spec (inode device : Nat) (t : travdone) (ho : t.ordered) :
    (travdone_visit t inode device = none ↔ (inode, device) ∈ t.keys) ∧
    ∀ t', travdone_visit t inode device = some t' →
      t'.ordered ∧ ∀ k, k ∈ t'.keys ↔ (k = (inode, device) ∨ k ∈ t.keys) := by
  induction t with
  | nil =>
    refine ⟨by simp [travdone_visit, travdone.keys], fun t' h => ?_⟩
    simp only [travdone_visit, Option.some.injEq] at h
    subst h
    refine ⟨⟨by simp [travdone.keys], by simp [travdone.keys], trivial, trivial⟩, fun k => ?_⟩
    simp [travdone.keys]
  | node ti td l r ihl ihr =>
    obtain ⟨hl, hr, ol, or'⟩ := ho
    obtain ⟨l1, l2⟩ := ihl ol
    obtain ⟨r1, r2⟩ := ihr or'
    rw [travdone_visit]
    by_cases heq : inode = ti ∧ device = td
    · rw [if_pos heq]
      obtain ⟨rfl, rfl⟩ := heq
      refine ⟨by simp [travdone.keys], fun t' h => by simp at h⟩
    · rw [if_neg heq]
      by_cases hgt : inode > ti ∨ (inode = ti ∧ device > td)
      · rw [if_pos hgt]
        have hnl : (inode, device) ∉ l.keys := by
          intro hm
          have := hl _ hm
          unfold travdone_lt at this
          dsimp only at this
          omega
        constructor
        · rw [Option.map_eq_none', r1]
          simp only [travdone.keys, List.mem_append, List.mem_cons, Prod.mk.injEq]
          constructor
          · intro h; exact Or.inr (Or.inr h)
          · rintro (h | h | h)
            · exact absurd h hnl
            · exact absurd h heq
            · exact h
        · intro t' h
          rw [Option.map_eq_some'] at h
          obtain ⟨r', hr', rfl⟩ := h
          obtain ⟨or2, hk⟩ := r2 r' hr'
          refine ⟨⟨hl, fun k hk' => ?_, ol, or2⟩, fun k => ?_⟩
          · rcases (hk k).mp hk' with rfl | h
            · unfold travdone_lt
              dsimp only
              omega
            · exact hr k h
          · simp only [travdone.keys, List.mem_append, List.mem_cons, hk]
            tauto
      · rw [if_neg hgt]
        have hlt : travdone_lt (inode, device) (ti, td) := by
          unfold travdone_lt
          dsimp only
          omega
        have hnr : (inode, device) ∉ r.keys := by
          intro hm
          have := hr _ hm
          unfold travdone_lt at this hlt
          dsimp only at this hlt
          omega
        constructor
        · rw [Option.map_eq_none', l1]
          simp only [travdone.keys, List.mem_append, List.mem_cons, Prod.mk.injEq]
          constructor
          · intro h; exact Or.inl h
          · rintro (h | h | h)
            · exact h
            · exact absurd h heq
            · exact absurd h hnr
        · intro t' h
          rw [Option.map_eq_some'] at h
          obtain ⟨l', hl', rfl⟩ := h
          obtain ⟨ol2, hk⟩ := l2 l' hl'
          refine ⟨⟨fun k hk' => ?_, hr, ol2, or'⟩, fun k => ?_⟩
          · rcases (hk k).mp hk' with rfl | h
            · exact hlt
            · exact hl k h
          · simp only [travdone.keys, List.mem_append, List.mem_cons, hk]
            rw [or_assoc]

theorem lookups_ok_append (k : Nat × Nat) (b : Bool) :
    ∀ (log : List ((Nat × Nat) × Bool)) (seen : List (Nat × Nat)),
      lookups_ok seen (log ++ [(k, b)]) ↔
        lookups_ok seen log ∧ (b = true ↔ (k ∈ log.map Prod.fst ∨ k ∈ seen)) := by
  intro log
  induction log with
  | nil =>
    intro seen
    simp [lookups_ok]
  | cons e rest ih =>
    intro seen
    obtain ⟨k', b'⟩ := e
    show ((b' = true ↔ k' ∈ seen) ∧ lookups_ok (k' :: seen) (rest ++ [(k, b)])) ↔
      ((b' = true ↔ k' ∈ seen) ∧ lookups_ok (k' :: seen) rest) ∧
        (b = true ↔ (k ∈ k' :: rest.map Prod.fst ∨ k ∈ seen))
    rw [ih]
    simp only [List.mem_cons]
    constructor
    · rintro ⟨h1, h2, h3⟩
      exact ⟨⟨h1, h2⟩, by rw [h3]; tauto⟩
    · rintro ⟨⟨h1, h2⟩, h3⟩
      exact ⟨h1, h2, by rw [h3]; tauto⟩

theorem enumerated_nodup :
    ∀ (log : List ((Nat × Nat) × Bool)) (seen : List (Nat × Nat)), lookups_ok seen log →
      (enumerated log).Nodup ∧ ∀ k ∈ enumerated log, k ∉ seen := by
  intro log
  induction log with
  | nil => intro seen _; simp [enumerated]
  | cons e rest ih =>
    intro seen h
    obtain ⟨k, b⟩ := e
    obtain ⟨h1, h2⟩ := h
    obtain ⟨n1, n2⟩ := ih (k :: seen) h2
    cases b with
    | true =>
      have e1 : enumerated ((k, true) :: rest) = enumerated rest := by
        simp [enumerated]
      rw [e1]
      exact ⟨n1, fun x hx hs => n2 x hx (List.mem_cons_of_mem _ hs)⟩
    | false =>
      have e1 : enumerated ((k, false) :: rest) = k :: enumerated rest := by
        simp [enumerated]
      rw [e1]
      refine ⟨List.nodup_cons.mpr ⟨fun hm => n2 k hm (List.mem_cons_self _ _), n1⟩, ?_⟩
      intro x hx hs
      rcases List.mem_cons.mp hx with rfl | hx
      · have := h1.mpr hs
        simp at this
      · exact n2 x hx (List.mem_cons_of_mem _ hs)

/-! ## Termination of the traversal -/

/-- The body of the `readdir` loop leaves the state as it is, or adds one candidate,
or is what the recursive call of `grokdir` on some path makes of the state. -/
theorem grok_entry_cases (E : walk_env) (user_dir_count device : Nat) (recurse : Bool)
    (grok : String → walk_state → Option walk_state) (dir name : String) (st : walk_state) :
    grok_entry E user_dir_count device recurse grok dir name st = some st ∨
    (∃ f, grok_entry E user_dir_count device recurse grok dir name st =
      some { st with files := f :: st.files }) ∨
    (∃ d, grok_entry E user_dir_count device recurse grok dir name st = grok d st) := by
  generalize hv : grok_entry E user_dir_count device recurse grok dir name st = v
  unfold grok_entry at hv
  dsimp only at hv
  generalize getfilestats E.fs
    { d_name := entry_path dir name, user_order := user_dir_count } = gs at hv
  by_cases h1 : name = "." ∨ name = ".."
  · rw [if_pos h1] at hv; exact Or.inl hv.symm
  rw [if_neg h1] at hv
  by_cases h2 : E.flags.F_EXCLUDEHIDDEN = true ∧ name.data.head? = some '.'
  · rw [if_pos h2] at hv; exact Or.inl hv.symm
  rw [if_neg h2] at hv
  by_cases h3 : gs.1 ≠ 0 ∨ gs.2.size = -1
  · rw [if_pos h3] at hv; exact Or.inl hv.symm
  rw [if_neg h3] at hv
  by_cases h4 : ¬ E.fs.S_ISDIR gs.2.mode = true ∧ gs.2.size = 0 ∧
      ¬ E.flags.F_INCLUDEEMPTY = true
  · rw [if_pos h4] at hv; exact Or.inl hv.symm
  rw [if_neg h4] at hv
  by_cases h5 : ¬ E.fs.S_ISDIR gs.2.mode = true ∧ E.flags.F_EXCLUDESIZE = true ∧
      xsize_excluded E.excludetype E.excludesize gs.2.size
  · rw [if_pos h5] at hv; exact Or.inl hv.symm
  rw [if_neg h5] at hv
  cases hl : E.fs.lstat gs.2.d_name with
  | none => rw [hl] at hv; exact Or.inl hv.symm
  | some linfo =>
    rw [hl] at hv
    dsimp only at hv
    split_ifs at hv
    all_goals first
      | exact Or.inl hv.symm
      | exact Or.inr (Or.inr ⟨_, hv.symm⟩)
      | exact Or.inr (Or.inl ⟨_, hv.symm⟩)

theorem walk_measure_mono (S : Finset (Nat × Nat)) {a b : List (Nat × Nat)}
    (h : a.toFinset ⊆ b.toFinset) : (S \ b.toFinset).card ≤ (S \ a.toFinset).card :=
  Finset.card_le_card (Finset.sdiff_subset_sdiff (Finset.Subset.refl S) h)

theorem walk_measure_lt (S : Finset (Nat × Nat)) {a b : List (Nat × Nat)} (k : Nat × Nat)
    (hk : k ∈ S) (hka : k ∉ a) (hb : ∀ x, x ∈ b ↔ (x = k ∨ x ∈ a)) :
    (S \ b.toFinset).card < (S \ a.toFinset).card := by
  apply Finset.card_lt_card
  rw [Finset.ssubset_iff_of_subset]
  · refine ⟨k, ?_, ?_⟩
    · simp [hk, hka]
    · simp [hb]
  · apply Finset.sdiff_subset_sdiff (Finset.Subset.refl S)
    intro x hx
    simp only [List.mem_toFinset] at hx ⊢
    exact (hb x).mpr (Or.inr hx)

/-- The read loop over the entries of a directory ends when every recursive call of
`grokdir` on a state that satisfies the invariant does. -/
theorem grok_entries_total (E : walk_env) (user_dir_count device fuel : Nat) (recurse : Bool)
    (grok : String → walk_state → Option walk_state) (dir : String) (S : Finset (Nat × Nat))
    (hgrok : ∀ d st, walk_inv S st → (S \ st.travdone_head.keys.toFinset).card < fuel →
      ∃ st', grok d st = some st' ∧ walk_inv S st' ∧
        st.travdone_head.keys.toFinset ⊆ st'.travdone_head.keys.toFinset) :
    ∀ (entries : List String) (st : walk_state), walk_inv S st →
      (S \ st.travdone_head.keys.toFinset).card < fuel →
      ∃ st', grok_entries (grok_entry E user_dir_count device recurse grok dir) entries st =
          some st' ∧ walk_inv S st' ∧
        st.travdone_head.keys.toFinset ⊆ st'.travdone_head.keys.toFinset := by
  intro entries
  induction entries with
  | nil => intro st hinv _; exact ⟨st, rfl, hinv, Finset.Subset.refl _⟩
  | cons name rest ih =>
    intro st hinv hm
    rw [grok_entries]
    rcases grok_entry_cases E user_dir_count device recurse grok dir name st with
      e | ⟨f, e⟩ | ⟨d, e⟩
    · rw [e]
      exact ih st hinv hm
    · rw [e]
      exact ih { st with files := f :: st.files } hinv hm
    · obtain ⟨st1, e1, hinv1, hsub1⟩ := hgrok d st hinv hm
      rw [e, e1]
      obtain ⟨st2, e2, hinv2, hsub2⟩ := ih st1 hinv1
        (lt_of_le_of_lt (walk_measure_mono S hsub1) hm)
      exact ⟨st2, e2, hinv2, hsub1.trans hsub2⟩

/-- The recursion of `grokdir` ends: with more fuel than there are identities of `S`
not yet in the tree of traversed directories, `grokdir` returns, and it keeps the
invariant. -/
theorem grokdir_total (E : walk_env) (user_dir_count : Nat) (S : Finset (Nat × Nat))
    (hS : ∀ p s, E.fs.stat p = some s → (s.st_ino, s.st_dev) ∈ S) :
    ∀ (fuel : Nat) (dir : String) (recurse : Bool) (st : walk_state), walk_inv S st →
      (S \ st.travdone_head.keys.toFinset).card < fuel →
      ∃ st', grokdir E user_dir_count fuel dir recurse st = some st' ∧ walk_inv S st' ∧
        st.travdone_head.keys.toFinset ⊆ st'.travdone_head.keys.toFinset := by
  intro fuel
  induction fuel with
  | zero => intro dir recurse st _ hm; exact absurd hm (by omega)
  | succ fuel ih =>
    intro dir recurse st hinv hm
    obtain ⟨ho, hin, hlog, hok⟩ := hinv
    rw [grokdir]
    cases hg : getdirstats E.fs dir with
    | none => exact ⟨st, rfl, ⟨ho, hin, hlog, hok⟩, Finset.Subset.refl _⟩
    | some key =>
      obtain ⟨inode, device⟩ := key
      have hk : (inode, device) ∈ S := by
        unfold getdirstats at hg
        rw [Option.map_eq_some'] at hg
        obtain ⟨s, hs, e⟩ := hg
        rw [← e]
        exact hS dir s hs
      obtain ⟨v1, v2⟩ := travdone_visit_spec inode device st.travdone_head ho
      dsimp only
      cases hv : travdone_visit st.travdone_head inode device with
      | none =>
        have hmem := v1.mp hv
        refine ⟨_, rfl, ⟨ho, hin, fun k => ?_, ?_⟩, Finset.Subset.refl _⟩
        · simp only [List.map_append, List.map_cons, List.map_nil, List.mem_append,
            List.mem_singleton]
          constructor
          · intro h; exact Or.inl ((hlog k).mp h)
          · rintro (h | h)
            · exact (hlog k).mpr h
            · rw [h]; exact hmem
        · rw [lookups_ok_append]
          refine ⟨hok, ?_⟩
          simp only [List.not_mem_nil, or_false, true_iff]
          exact (hlog _).mp hmem
      | some t =>
        obtain ⟨ot, hkeys⟩ := v2 t hv
        have hnew : (inode, device) ∉ st.travdone_head.keys := by
          intro h
          rw [v1.mpr h] at hv
          exact absurd hv (by simp)
        have hinv1 : walk_inv S
            { st with travdone_head := t, lookups := st.lookups ++ [((inode, device), false)] } := by
          refine ⟨ot, fun k hk' => ?_, fun k => ?_, ?_⟩
          · rcases (hkeys k).mp hk' with rfl | h
            · exact hk
            · exact hin k h
          · simp only [List.map_append, List.map_cons, List.map_nil, List.mem_append,
              List.mem_singleton]
            rw [hkeys k, hlog k]
            tauto
          · rw [lookups_ok_append]
            refine ⟨hok, ?_⟩
            simp only [List.not_mem_nil, or_false, Bool.false_eq_true, false_iff]
            exact fun h => hnew ((hlog _).mpr h)
        have hsub1 : st.travdone_head.keys.toFinset ⊆ t.keys.toFinset := by
          intro x hx
          simp only [List.mem_toFinset] at hx ⊢
          exact (hkeys x).mpr (Or.inr hx)
        have hm1 : (S \ t.keys.toFinset).card < fuel := by
          have := walk_measure_lt S (inode, device) hk hnew hkeys
          omega
        dsimp only
        cases hr : E.fs.readdir dir with
        | none => exact ⟨_, rfl, hinv1, hsub1⟩
        | some entries =>
          dsimp only
          obtain ⟨st2, e2, hinv2, hsub2⟩ := grok_entries_total E user_dir_count device fuel recurse
            (fun d s => grokdir E user_dir_count fuel d recurse s) dir S
            (fun d s hs hms => ih d recurse s hs hms) entries
            { st with travdone_head := t, lookups := st.lookups ++ [((inode, device), false)] }
            hinv1 hm1
          exact ⟨st2, e2, hinv2, hsub1.trans hsub2⟩

/-- The loops of `main` over the roots end. -/
theorem grok_roots_total (E : walk_env) (S : Finset (Nat × Nat))
    (hS : ∀ p s, E.fs.stat p = some s → (s.st_ino, s.st_dev) ∈ S) :
    ∀ (roots : List (String × Bool)) (user_dir_count : Nat) (st : walk_state), walk_inv S st →
      ∃ st', grok_roots E (S.card + 1) roots user_dir_count st = some st' ∧ walk_inv S st' := by
  intro roots
  induction roots with
  | nil => intro _ st hinv; exact ⟨st, rfl, hinv⟩
  | cons root rest ih =>
    intro user_dir_count st hinv
    have hm : (S \ st.travdone_head.keys.toFinset).card < S.card + 1 :=
      Nat.lt_succ_of_le (Finset.card_le_card Finset.sdiff_subset)
    obtain ⟨st1, e1, hinv1, -⟩ := grokdir_total E user_dir_count S hS _ root.1 root.2 st hinv hm
    rw [grok_roots, e1]
    exact ih _ st1 hinv1

/-- C16: the traversal terminates and visits each directory identity once. For every
file system whose directories have their `(inode, device)` pairs in a finite set `S`
(a finite directory graph, loops included) and every list of roots (repeats
included), the loops of `main` over the roots end, with a recursion depth of at most
one more than the size of `S`; every lookup in the tree of traversed directories
answered "already seen" exactly when the pair had been recorded earlier in the scan;
and no pair was enumerated twice. -/
theorem traversal_terminates (E : walk_env) (S : Finset (Nat × Nat))
    (hS : ∀ p s, E.fs.stat p = some s → (s.st_ino, s.st_dev) ∈ S)
    (roots : List (String × Bool)) :
    ∃ st, grok_roots E (S.card + 1) roots 1 {} = some st ∧
      lookups_ok [] st.lookups ∧ (enumerated st.lookups).Nodup := by
  have h0 : walk_inv S {} :=
    ⟨trivial, fun k hk => by simp [travdone.keys] at hk, fun k => by simp [travdone.keys],
      trivial⟩
  obtain ⟨st, e, hinv⟩ := grok_roots_total E S hS roots 1 {} h0
  exact ⟨st, e, hinv.2.2.2, (enumerated_nodup _ _ hinv.2.2.2).1⟩

/-- C16 on the sample file system with a loop, with the root `R` given twice. -/
theorem traversal_terminates_witness :
    (∀ p s, sample_walk_loop.fs.stat p = some s →
      (s.st_ino, s.st_dev) ∈ ({(1, 1), (5, 1)} : Finset (Nat × Nat))) ∧
    ∃ st, grok_roots sample_walk_loop (({(1, 1), (5, 1)} : Finset (Nat × Nat)).card + 1)
        [("R", true), ("R", true)] 1 {} = some st ∧
      lookups_ok [] st.lookups ∧ (enumerated st.lookups).Nodup :=
  have hS : ∀ p s, sample_walk_loop.fs.stat p = some s →
      (s.st_ino, s.st_dev) ∈ ({(1, 1), (5, 1)} : Finset (Nat × Nat)) := by
    intro p s h
    simp only [sample_walk_loop, sample_fs_loop] at h
    split_ifs at h <;> (simp only [Option.some.injEq] at h; subst h; decide)
  ⟨hS, traversal_terminates sample_walk_loop {(1, 1), (5, 1)} hS [("R", true), ("R", true)]⟩

/-! ## Size exclusion -/

theorem off_t_cast_small (x : Nat) (h : x < 2 ^ 63) : off_t_cast x = (x : Int) := by
  unfold off_t_cast
  have h1 : x % 2 ^ 64 = x := Nat.mod_eq_of_lt (by omega)
  rw [h1, if_pos h]

/-- The option switch on a valid `--xsize` argument: the type follows the sign, and
the size is the number times the factor of the suffix, cut to 64 bits. -/
theorem xsize_option_value (plus : Bool) (N : Nat) (endptr : List Char) (mult : Nat)
    (hm : suffix_multiplier endptr = some mult) :
    xsize_option plus N endptr =
      some (if plus then excludetype_t.LARGERTHAN else excludetype_t.SMALLERTHAN,
        if mult = 1 then N else N * mult % 2 ^ 64) := by
  unfold suffix_multiplier at hm
  split at hm
  · simp only [Option.some.injEq] at hm
    subst hm
    simp [xsize_option]
  · rename_i c
    unfold xsize_option
    dsimp only
    split_ifs at hm with h1 h2 h3
    · simp only [Option.some.injEq] at hm
      subst hm
      rw [if_pos h1]
      simp
    · simp only [Option.some.injEq] at hm
      subst hm
      rw [if_neg h1, if_pos h2]
      simp only [if_true]
      have hne : ¬ (1024 * 1024 = 1) := by norm_num
      have e : N * 1024 % 2 ^ 64 * 1024 % 2 ^ 64 = N * (1024 * 1024) % 2 ^ 64 := by omega
      rw [if_neg hne, e]
    · simp only [Option.some.injEq] at hm
      subst hm
      rw [if_neg h1, if_neg h2, if_pos h3]
      simp only [if_true]
      have hne : ¬ (1024 * 1024 * 1024 = 1) := by norm_num
      have e : N * 1024 % 2 ^ 64 * 1024 % 2 ^ 64 * 1024 % 2 ^ 64 =
          N * (1024 * 1024 * 1024) % 2 ^ 64 := by omega
      rw [if_neg hne, e]
  · exact absurd hm (by simp)

/-- The walker drops an entry that is not a directory when `--xsize` is on and the
size test fires, whatever the other filters say. -/
theorem grok_entry_xsize (E : walk_env) (user_dir_count device : Nat) (recurse : Bool)
    (grok : String → walk_state → Option walk_state) (dir name : String) (st : walk_state)
    (h : ¬ E.fs.S_ISDIR (getfilestats E.fs
          { d_name := entry_path dir name, user_order := user_dir_count }).2.mode = true ∧
        E.flags.F_EXCLUDESIZE = true ∧
        xsize_excluded E.excludetype E.excludesize (getfilestats E.fs
          { d_name := entry_path dir name, user_order := user_dir_count }).2.size) :
    grok_entry E user_dir_count device recurse grok dir name st = some st := by
  unfold grok_entry
  dsimp only
  generalize getfilestats E.fs
    { d_name := entry_path dir name, user_order := user_dir_count } = gs at h ⊢
  rw [if_pos h]
  split_ifs <;> rfl

/-- The size test against the threshold of a valid `--xsize` argument. For every sign,
number `N` and suffix (none, `K`, `M` or `G`, either case) whose threshold, `N` times
the factor of the suffix, is below 2⁶³ (fits the signed 64-bit `off_t`), the option
switch accepts the argument, and for every size `s` the size test fires iff `s` is
below the threshold without `+`, iff `s` is above it with `+`; it never fires for a
size equal to the threshold. -/
theorem xsize_excluded_threshold (plus : Bool) (N : Nat) (endptr : List Char) (mult : Nat) (s : Int)
    (hm : suffix_multiplier endptr = some mult) (hT : N * mult < 2 ^ 63) :
    ∃ ty e, xsize_option plus N endptr = some (ty, e) ∧
      (xsize_excluded ty e s ↔ (if plus then s > ((N * mult : Nat) : Int)
        else s < ((N * mult : Nat) : Int))) ∧
      ¬ xsize_excluded ty e ((N * mult : Nat) : Int) := by
  have he : (if mult = 1 then N else N * mult % 2 ^ 64) = N * mult := by
    by_cases h1 : mult = 1
    · rw [if_pos h1, h1, Nat.mul_one]
    · rw [if_neg h1]
      exact Nat.mod_eq_of_lt (by omega)
  refine ⟨_, _, xsize_option_value plus N endptr mult hm, ?_, ?_⟩
  · rw [he]
    unfold xsize_excluded
    rw [off_t_cast_small _ hT]
    cases plus <;> simp
  · rw [he]
    unfold xsize_excluded
    rw [off_t_cast_small _ hT]
    simp

/-! ## The walker and the printers on the samples -/

/-- C18 fails: with recursion (`-r`) and follow-symlinks (`-s`) both on, the walker
enters the real directory `R/dir` but not the symlinked directory `R/link`: the file
`R/link/f` is no candidate and the directory behind the link is never enumerated. -/
theorem symlinked_directory_not_recursed :
    sample_walk_link.flags.F_RECURSE = true ∧ sample_walk_link.flags.F_FOLLOWLINKS = true ∧
    sample_walk_link.flags.F_ONEFS = false ∧
    (sample_walk_link.fs.stat "R/link").map
      (fun s => sample_walk_link.fs.S_ISDIR s.st_mode) = some true ∧
    (sample_walk_link.fs.lstat "R/link").map
      (fun s => sample_walk_link.fs.S_ISLNK s.st_mode) = some true ∧
    (grok_roots sample_walk_link 9 [("R", true)] 1 {}).map
      (fun st => (st.files.map (fun f => f.d_name), enumerated st.lookups)) =
      some (["R/dir/f"], [(1, 1), (3, 1)]) := by
  decide

/-- C19 fails: for the one group of `sample_roots`, whose head is the last record of
the candidate list, `jsonoutput` leaves the inner array open (two `[`, one `]`); and
under `--omitfirst` the inner array of the group of `sample_ab` starts with a
comma. -/
theorem jsonoutput_malformed :
    (scan sample_globals sample_roots).bind (fun st => jsonoutput {} 2 st.files) =
      some "[\n[\"X/dup.bin\",\"Y/dup.bin\"]\n" ∧
    ("[\n[\"X/dup.bin\",\"Y/dup.bin\"]\n".data.count '[' = 2 ∧
      "[\n[\"X/dup.bin\",\"Y/dup.bin\"]\n".data.count ']' = 1) ∧
    (scan sample_globals_time sample_ab).bind
      (fun st => jsonoutput sample_flags_omitfirst 2 st.files) = some "[\n[,\"b\"]\n]\n" := by
  decide

/-- C20 fails: for the one group of `sample_ab`, whose head `a` is not the last record
of the candidate list, `printmatches` prints a blank line after the group: one group,
one blank line. For the one group of `sample_roots`, whose head is the last record,
it prints none. -/
theorem printmatches_trailing_blank_line :
    (scan sample_globals_time sample_ab).map (group_paths sample_ab) = some [["a", "b"]] ∧
    (scan sample_globals_time sample_ab).bind (fun st => printmatches {} 2 st.files) =
      some { stdout := "a\nb\n\n", stderr := "" } ∧
    (scan sample_globals sample_roots).bind (fun st => printmatches {} 2 st.files) =
      some { stdout := "X/dup.bin\nY/dup.bin\n", stderr := "" } := by
  decide

/-! ## Chunk sizing -/

/-- C21 as the code has it: chunk sizing. For every probed cache size `c > 0` (the
value of `l1`, or of `l1d` when `l1` is 0), the chunk size chosen at startup is
`CHUNK_SIZE` = 32768 when the half-cache `c / 2` is below 4096 or above 32768, and
else `c / 2` rounded up to a multiple of 4096; for a half-cache of at least 4096 this
is the value the specification words. -/
theorem chunk_sizing (G : globals) (c : Nat)
    (hc : c = if G.l1 ≠ 0 then G.l1 else G.l1d) (hpos : 0 < c) :
    auto_chunk_size G =
      (if c / 2 < 4096 ∨ c / 2 > 32768 then 32768 else (c / 2 + 4095) / 4096 * 4096) ∧
    (4096 ≤ c / 2 → auto_chunk_size G = chunk_size_spec c) := by
  have ha : (if G.l1 ≠ 0 then G.l1 / 2 else if G.l1d ≠ 0 then G.l1d / 2 else 0) = c / 2 := by
    subst hc
    split_ifs at hpos ⊢ <;> first | rfl | omega
  have key : auto_chunk_size G =
      (if c / 2 < 4096 ∨ c / 2 > 32768 then 32768 else (c / 2 + 4095) / 4096 * 4096) := by
    unfold auto_chunk_size CHUNK_SIZE
    rw [ha]
    generalize c / 2 = a
    dsimp only
    by_cases h : a < 4096 ∨ a > 32768
    · rw [if_pos h, if_pos h, land_fff, land_ff000]
      norm_num
    · rw [if_neg h, if_neg h, land_fff, land_ff000]
      split_ifs with h2 <;> omega
  refine ⟨key, fun h4 => ?_⟩
  rw [key]
  unfold chunk_size_spec CHUNK_SIZE
  generalize c / 2 = a at h4 ⊢
  split_ifs with h <;> omega

/-- C21 as the code has it, for a probe that reports 32768 bytes of L1 data cache. -/
theorem chunk_sizing_witness :
    (32768 : Nat) = (if ({ sample_globals with l1d := 32768 } : globals).l1 ≠ 0
      then ({ sample_globals with l1d := 32768 } : globals).l1
      else ({ sample_globals with l1d := 32768 } : globals).l1d) ∧
    0 < 32768 ∧
    auto_chunk_size { sample_globals with l1d := 32768 } =
      (if 32768 / 2 < 4096 ∨ 32768 / 2 > 32768 then 32768
        else (32768 / 2 + 4095) / 4096 * 4096) ∧
    (4096 ≤ 32768 / 2 →
      auto_chunk_size { sample_globals with l1d := 32768 } = chunk_size_spec 32768) :=
  ⟨by decide, by decide,
    chunk_sizing { sample_globals with l1d := 32768 } 32768 (by decide) (by decide)⟩

/-- C21 fails as stated: for a probed L1 data cache of 4096 bytes the half-cache is
2048, below 4096; the chunk size chosen is 32768, where the specification's formula
gives 4096. -/
theorem small_cache_gets_full_chunk :
    sample_globals_l1d.l1 = 0 ∧ sample_globals_l1d.l1d = 4096 ∧
    auto_chunk_size sample_globals_l1d = 32768 ∧ chunk_size_spec 4096 = 4096 := by
  decide


/-! ## The comparators -/

theorem sort_direction_cases (G : globals) : sort_direction G = 1 ∨ sort_direction G = -1 := by
  unfold sort_direction
  split_ifs
  · exact Or.inr rfl
  · exact Or.inl rfl

theorem sort_pairs_by_mtime_eq (G : globals) (a b : file_t) :
    sort_pairs_by_mtime G a b =
      (if G.flags.F_USEPARAMORDER = true ∧ a.user_order ≠ b.user_order then
        (if a.user_order < b.user_order then - sort_direction G else sort_direction G)
       else if a.mtime < b.mtime then - sort_direction G
       else if a.mtime > b.mtime then sort_direction G
       else 0) := by
  unfold sort_pairs_by_mtime sort_pairs_by_param_order
  have hd := sort_direction_cases G
  generalize sort_direction G = d at hd ⊢
  by_cases hp : G.flags.F_USEPARAMORDER = true
  · simp only [hp, not_true_eq_false, if_false, true_and]
    by_cases h1 : a.user_order < b.user_order
    · have hne : a.user_order ≠ b.user_order := by omega
      have hd0 : -d ≠ 0 := by rcases hd with e | e <;> rw [e] <;> decide
      simp only [h1, if_true, hne, ne_eq, not_false_eq_true, hd0]
    · by_cases h2 : a.user_order > b.user_order
      · have hne : a.user_order ≠ b.user_order := by omega
        have hd0 : d ≠ 0 := by rcases hd with e | e <;> rw [e] <;> decide
        simp only [h1, if_false, h2, if_true, hne, ne_eq, not_false_eq_true, hd0]
      · have he : a.user_order = b.user_order := by omega
        rw [he]
        simp
  · simp only [hp, not_false_eq_true, if_true, false_and, if_false, ne_eq, not_true_eq_false]
    simp


theorem sort_pairs_by_mtime_reverse (G : globals) (a b : file_t) :
    sort_pairs_by_mtime { G with flags := { G.flags with F_REVERSESORT := true } } a b =
      - sort_pairs_by_mtime { G with flags := { G.flags with F_REVERSESORT := false } } a b := by
  rw [sort_pairs_by_mtime_eq, sort_pairs_by_mtime_eq]
  have e1 : sort_direction { G with flags := { G.flags with F_REVERSESORT := true } } = -1 := rfl
  have e2 : sort_direction { G with flags := { G.flags with F_REVERSESORT := false } } = 1 := rfl
  rw [e1, e2]
  dsimp only
  split_ifs <;> rfl

theorem sort_pairs_by_mtime_antisymm (G : globals) (a b : file_t) :
    sort_pairs_by_mtime G a b = - sort_pairs_by_mtime G b a := by
  rw [sort_pairs_by_mtime_eq, sort_pairs_by_mtime_eq]
  generalize sort_direction G = d
  by_cases hp : G.flags.F_USEPARAMORDER = true
  · simp only [hp, true_and, ne_eq]
    split_ifs <;> (try simp only [not_not] at *) <;> omega
  · have hf : G.flags.F_USEPARAMORDER = false := by simpa using hp
    simp only [hf, Bool.false_eq_true, false_and, if_false]
    split_ifs <;> omega

/-- C23: comparator stabilisation. With `--paramorder` set and different `user_order`
the by-mtime comparator is decided by `user_order` alone: minus the sort direction
(negative, or positive under the reverse-sort flag) when the first record has the
smaller `user_order`, and the sort direction otherwise. With equal `user_order`, or
with `--paramorder` unset, it is the signed comparison of the modification times. The
comparator under the reverse-sort flag is the negation of the comparator without it,
and `cmp(a, b) = -cmp(b, a)`. -/
theorem comparator_stabilisation (G : globals) (a b : file_t) :
    sort_pairs_by_mtime G a b =
      (if G.flags.F_USEPARAMORDER = true ∧ a.user_order ≠ b.user_order then
        (if a.user_order < b.user_order then - sort_direction G else sort_direction G)
       else if a.mtime < b.mtime then - sort_direction G
       else if a.mtime > b.mtime then sort_direction G
       else 0) ∧
    sort_direction G = (if G.flags.F_REVERSESORT = true then -1 else 1) ∧
    sort_pairs_by_mtime { G with flags := { G.flags with F_REVERSESORT := true } } a b =
      - sort_pairs_by_mtime { G with flags := { G.flags with F_REVERSESORT := false } } a b ∧
    sort_pairs_by_mtime G a b = - sort_pairs_by_mtime G b a :=
  ⟨sort_pairs_by_mtime_eq G a b, rfl, sort_pairs_by_mtime_reverse G a b,
    sort_pairs_by_mtime_antisymm G a b⟩

/-- C23 on two records of the roots 2 and 1 under `--paramorder`. -/
theorem comparator_stabilisation_witness :
    sort_pairs_by_mtime { sample_globals with flags := { F_USEPARAMORDER := true } }
      { user_order := 2, mtime := 5 } { user_order := 1, mtime := 9 } = 1 ∧
    sort_pairs_by_mtime { sample_globals with flags := { F_USEPARAMORDER := true } }
      { user_order := 2, mtime := 5 } { user_order := 1, mtime := 9 } =
    - sort_pairs_by_mtime { sample_globals with flags := { F_USEPARAMORDER := true } }
      { user_order := 1, mtime := 9 } { user_order := 2, mtime := 5 } :=
  ⟨by decide,
    (comparator_stabilisation { sample_globals with flags := { F_USEPARAMORDER := true } }
      { user_order := 2, mtime := 5 } { user_order := 1, mtime := 9 }).2.2.2⟩

/-! ## The decision list of the condition filter -/

theorem check_conditions_excluded (fl : flags_t) (a b : file_t) (h : exclusion_fires fl a b) :
    check_conditions fl a b = -1 := by
  unfold check_conditions
  rcases h with h | h | h
  · rw [if_pos h]
  · by_cases h1 : fl.F_ISOLATE = true ∧ a.user_order = b.user_order
    · rw [if_pos h1]
    · rw [if_neg h1, if_pos h]
  · by_cases h1 : fl.F_ISOLATE = true ∧ a.user_order = b.user_order
    · rw [if_pos h1]
    · by_cases h2 : fl.F_ONEFS = true ∧ a.device ≠ b.device
      · rw [if_neg h1, if_pos h2]
      · rw [if_neg h1, if_neg h2, if_pos h]

theorem check_conditions_not_excluded (fl : flags_t) (a b : file_t)
    (h : ¬ exclusion_fires fl a b) :
    check_conditions fl a b =
      if a.inode = b.inode ∧ a.device = b.device then
        (if fl.F_CONSIDERHARDLINKS = true then 2 else -2)
      else if a.size > b.size then -1
      else if a.size < b.size then 1
      else 0 := by
  unfold exclusion_fires at h
  unfold check_conditions
  rw [if_neg (fun h1 => h (Or.inl h1)), if_neg (fun h1 => h (Or.inr (Or.inl h1))),
    if_neg (fun h1 => h (Or.inr (Or.inr h1)))]

theorem exclusion_fires_symm (fl : flags_t) (a b : file_t) :
    exclusion_fires fl a b ↔ exclusion_fires fl b a := by
  unfold exclusion_fires
  constructor <;> rintro (⟨h1, h2⟩ | ⟨h1, h2⟩ | ⟨h1, h2⟩)
  · exact Or.inl ⟨h1, h2.symm⟩
  · exact Or.inr (Or.inl ⟨h1, fun e => h2 e.symm⟩)
  · refine Or.inr (Or.inr ⟨h1, ?_⟩)
    rcases h2 with h | h | h
    · exact Or.inl (fun e => h e.symm)
    · exact Or.inr (Or.inl (fun e => h e.symm))
    · exact Or.inr (Or.inr (fun e => h e.symm))
  · exact Or.inl ⟨h1, h2.symm⟩
  · exact Or.inr (Or.inl ⟨h1, fun e => h2 e.symm⟩)
  · refine Or.inr (Or.inr ⟨h1, ?_⟩)
    rcases h2 with h | h | h
    · exact Or.inl (fun e => h e.symm)
    · exact Or.inr (Or.inl (fun e => h e.symm))
    · exact Or.inr (Or.inr (fun e => h e.symm))

/-- C25: `check_conditions` follows the decision list of the condition filter. The
isolation, one-file-system and permission exclusions come first, in that order, and
each yields the directional verdict -1, also for linked files under `-H`; only if
none fires, equal `(inode, device)` yields 2 (match) when hard links count as
duplicates and -2 (reject) otherwise; only if the files are not linked are the sizes
compared, a smaller first size yielding 1, a larger one the opposite verdict -1, and
equal sizes 0 (tie). -/
theorem check_decision_list (fl : flags_t) (a b : file_t) :
    (fl.F_ISOLATE = true ∧ a.user_order = b.user_order → check_conditions fl a b = -1) ∧
    (¬ (fl.F_ISOLATE = true ∧ a.user_order = b.user_order) →
      fl.F_ONEFS = true ∧ a.device ≠ b.device → check_conditions fl a b = -1) ∧
    (¬ (fl.F_ISOLATE = true ∧ a.user_order = b.user_order) →
      ¬ (fl.F_ONEFS = true ∧ a.device ≠ b.device) →
      fl.F_PERMISSIONS = true ∧ (a.mode ≠ b.mode ∨ a.uid ≠ b.uid ∨ a.gid ≠ b.gid) →
      check_conditions fl a b = -1) ∧
    (¬ exclusion_fires fl a b → linked a b →
      check_conditions fl a b = if fl.F_CONSIDERHARDLINKS = true then 2 else -2) ∧
    (¬ exclusion_fires fl a b → ¬ linked a b →
      (a.size < b.size → check_conditions fl a b = 1) ∧
      (a.size > b.size → check_conditions fl a b = -1) ∧
      (a.size = b.size → check_conditions fl a b = 0)) := by
  refine ⟨fun h => check_conditions_excluded fl a b (Or.inl h),
    fun _ h => check_conditions_excluded fl a b (Or.inr (Or.inl h)),
    fun _ _ h => check_conditions_excluded fl a b (Or.inr (Or.inr h)),
    fun hex hl => ?_, fun hex hl => ?_⟩
  · unfold linked at hl
    rw [check_conditions_not_excluded fl a b hex, if_pos hl]
  · unfold linked at hl
    rw [check_conditions_not_excluded fl a b hex, if_neg hl]
    refine ⟨fun h => ?_, fun h => ?_, fun h => ?_⟩
    · rw [if_neg (by omega), if_pos h]
    · rw [if_pos h]
    · rw [if_neg (by omega), if_neg (by omega)]

/-- C25 on a record and itself under isolation and `-H`: the exclusion comes before
the link test. -/
theorem check_decision_list_witness :
    sample_flags_isolate_H.F_ISOLATE = true ∧ sample_flags_isolate_H.F_CONSIDERHARDLINKS = true ∧
    linked sample_small sample_small ∧
    check_conditions sample_flags_isolate_H sample_small sample_small = -1 :=
  ⟨by decide, by decide, by decide,
    (check_decision_list sample_flags_isolate_H sample_small sample_small).1
      ⟨by decide, by decide⟩⟩

/-- C26 as the code has it: direction of a filter exclusion. When an exclusion fires
for the node's record `n` and the incoming record `c` (isolation with equal
`user_order`, a one-file-system or a permission mismatch), `check_conditions` yields
-1, the verdict it yields for an unlinked pair whose first size is the larger; so
`checkmatch` attaches `c` as the left child when there is none, and descends to the
left child otherwise. -/
theorem exclusion_direction (G : globals) (tf c : Nat) (l r : filetree_t)
    (fs : Nat → file_t) (tr : List event)
    (hex : exclusion_fires G.flags (fs tf) (fs c)) :
    check_conditions G.flags (fs tf) (fs c) = -1 ∧
    (∀ (fl : flags_t) (a b : file_t), ¬ exclusion_fires fl a b → ¬ linked a b →
      a.size > b.size → check_conditions fl a b = -1) ∧
    (l = filetree_t.nil → checkmatch G (filetree_t.node tf l r) c fs tr =
      ⟨fs, tr, filetree_t.node tf (filetree_t.node c filetree_t.nil filetree_t.nil) r, none⟩) ∧
    (l ≠ filetree_t.nil →
      (checkmatch G (filetree_t.node tf l r) c fs tr).tree =
        filetree_t.node tf (checkmatch G l c fs tr).tree r ∧
      (checkmatch G (filetree_t.node tf l r) c fs tr).ret =
        (checkmatch G l c fs tr).ret.map (fun p => tree_direction.LEFT :: p)) := by
  have hc := check_conditions_excluded G.flags (fs tf) (fs c) hex
  refine ⟨hc, fun fl a b h1 h2 h3 => ((check_decision_list fl a b).2.2.2.2 h1 h2).2.1 h3,
    fun hl => ?_, fun hl => ?_⟩
  · subst hl
    rw [checkmatch]
    simp [hc, registerfile]
  · cases l with
    | nil => exact absurd rfl hl
    | node a b d =>
      rw [checkmatch]
      simp [hc]

/-- C26 as the code has it, on the node of `a` with `b` of the same root coming in
under isolation. -/
theorem exclusion_direction_witness :
    exclusion_fires sample_globals_I.flags (sample_ab.getD 0 default) (sample_ab.getD 1 default) ∧
    check_conditions sample_globals_I.flags (sample_ab.getD 0 default)
      (sample_ab.getD 1 default) = -1 ∧
    checkmatch sample_globals_I (filetree_t.node 0 filetree_t.nil filetree_t.nil) 1
        (fun i => sample_ab.getD i default) [] =
      ⟨fun i => sample_ab.getD i default, [],
        filetree_t.node 0 (filetree_t.node 1 filetree_t.nil filetree_t.nil) filetree_t.nil,
        none⟩ :=
  ⟨by decide,
    (exclusion_direction sample_globals_I 0 1 filetree_t.nil filetree_t.nil
      (fun i => sample_ab.getD i default) [] (by decide)).1,
    (exclusion_direction sample_globals_I 0 1 filetree_t.nil filetree_t.nil
      (fun i => sample_ab.getD i default) [] (by decide)).2.2.1 rfl⟩

/-- C26 fails as stated: under isolation two records of the same root get the verdict
-1, while an unlinked pair whose first size is the smaller gets 1; and the incoming
record is attached as the left child of the node, not the right one. -/
theorem exclusion_goes_left :
    check_conditions sample_flags_isolate (sample_ab.getD 0 default)
      (sample_ab.getD 1 default) = -1 ∧
    sample_small.size < sample_large.size ∧ ¬ linked sample_small sample_large ∧
    check_conditions {} sample_small sample_large = 1 ∧
    (checkmatch sample_globals_I (filetree_t.node 0 filetree_t.nil filetree_t.nil) 1
        (fun i => sample_ab.getD i default) []).tree =
      filetree_t.node 0 (filetree_t.node 1 filetree_t.nil filetree_t.nil) filetree_t.nil := by
  decide

/-- C27 as the code has it: for every pair for which no exclusion fires (so for every
pair when the isolation, one-file-system and permission flags are off) and every
setting of the hard-link flag, `check_conditions` yields 1 for `(a, b)` if and only
if it yields -1 for `(b, a)`, and the other way round; tie (0), match (2) and reject
(-2) are symmetric. Whether an exclusion fires does not depend on the argument
order, and when one fires both orders yield -1. -/
theorem check_antisymmetric (fl : flags_t) (a b : file_t) (hex : ¬ exclusion_fires fl a b) :
    (check_conditions fl a b = 1 ↔ check_conditions fl b a = -1) ∧
    (check_conditions fl a b = -1 ↔ check_conditions fl b a = 1) ∧
    (check_conditions fl a b = 0 ↔ check_conditions fl b a = 0) ∧
    (check_conditions fl a b = 2 ↔ check_conditions fl b a = 2) ∧
    (check_conditions fl a b = -2 ↔ check_conditions fl b a = -2) ∧
    (∀ x y : file_t, exclusion_fires fl x y →
      exclusion_fires fl y x ∧ check_conditions fl x y = -1 ∧ check_conditions fl y x = -1) := by
  have hex' : ¬ exclusion_fires fl b a := fun h => hex ((exclusion_fires_symm fl b a).mp h)
  have key : ∀ v w : Int,
      ((if a.inode = b.inode ∧ a.device = b.device then
          (if fl.F_CONSIDERHARDLINKS = true then (2 : Int) else -2)
        else if a.size > b.size then -1 else if a.size < b.size then 1 else 0) = v ↔
       (if b.inode = a.inode ∧ b.device = a.device then
          (if fl.F_CONSIDERHARDLINKS = true then (2 : Int) else -2)
        else if b.size > a.size then -1 else if b.size < a.size then 1 else 0) = w) ↔
      ((if a.inode = b.inode ∧ a.device = b.device then
          (if fl.F_CONSIDERHARDLINKS = true then (2 : Int) else -2)
        else if a.size > b.size then -1 else if a.size < b.size then 1 else 0) = v ↔
       (if a.inode = b.inode ∧ a.device = b.device then
          (if fl.F_CONSIDERHARDLINKS = true then (2 : Int) else -2)
        else if a.size < b.size then -1 else if a.size > b.size then 1 else 0) = w) := by
    intro v w
    have e : (b.inode = a.inode ∧ b.device = a.device) ↔ (a.inode = b.inode ∧ a.device = b.device) :=
      ⟨fun h => ⟨h.1.symm, h.2.symm⟩, fun h => ⟨h.1.symm, h.2.symm⟩⟩
    simp only [e, gt_iff_lt]
  rw [check_conditions_not_excluded fl a b hex, check_conditions_not_excluded fl b a hex']
  refine ⟨?_, ?_, ?_, ?_, ?_, fun x y h => ⟨(exclusion_fires_symm fl x y).mp h,
    check_conditions_excluded fl x y h,
    check_conditions_excluded fl y x ((exclusion_fires_symm fl x y).mp h)⟩⟩
  all_goals
    rw [key]
    by_cases hl : a.inode = b.inode ∧ a.device = b.device
    · rw [if_pos hl, if_pos hl] <;> (split_ifs <;> simp)
    · rw [if_neg hl, if_neg hl]
      split_ifs <;> first | omega | simp

/-- C27 as the code has it, on two unlinked records of sizes 3 and 5 without flags. -/
theorem check_antisymmetric_witness :
    ¬ exclusion_fires {} sample_small sample_large ∧
    (check_conditions {} sample_small sample_large = 1 ↔
      check_conditions {} sample_large sample_small = -1) ∧
    check_conditions {} sample_small sample_large = 1 :=
  ⟨by decide, (check_antisymmetric {} sample_small sample_large (by decide)).1, by decide⟩

/-- C27 fails as stated: under isolation two records of the same root get the verdict
-1 in both argument orders. -/
theorem exclusion_same_both_ways :
    check_conditions sample_flags_isolate sample_small sample_large = -1 ∧
    check_conditions sample_flags_isolate sample_large sample_small = -1 := by
  decide

/-- C30: the I/O chunk size never exceeds the static buffers. For every pair of probed
cache values `(l1, l1d)`, 0 for a failed probe included, the chunk size `main`
computes is a multiple of 4096 with `4096 ≤ auto_chunk_size ≤ CHUNK_SIZE` = 32768; so
each `fread` of `confirmmatch` asks for and gets at most `CHUNK_SIZE` bytes, and
`bytes_to_read` of `get_filehash` is at most `CHUNK_SIZE`. -/
theorem chunk_fits_buffers (G : globals) (l1 l1d : Nat) :
    4096 ∣ auto_chunk_size { G with l1 := l1, l1d := l1d } ∧
    4096 ≤ auto_chunk_size { G with l1 := l1, l1d := l1d } ∧
    auto_chunk_size { G with l1 := l1, l1d := l1d } ≤ CHUNK_SIZE ∧ CHUNK_SIZE = 32768 ∧
    (∀ file : List Nat,
      (file.take (auto_chunk_size { G with l1 := l1, l1d := l1d })).length ≤ CHUNK_SIZE) ∧
    (∀ fsize : Int,
      (if fsize ≥ (auto_chunk_size { G with l1 := l1, l1d := l1d } : Int)
        then auto_chunk_size { G with l1 := l1, l1d := l1d } else fsize.toNat) ≤ CHUNK_SIZE) := by
  obtain ⟨h1, h2, h3⟩ := auto_chunk_size_bounds { G with l1 := l1, l1d := l1d }
  refine ⟨Nat.dvd_of_mod_eq_zero h3, h1, h2, rfl, fun file => ?_, fun fsize => ?_⟩
  · rw [List.length_take]
    exact le_trans (min_le_left _ _) h2
  · split_ifs with h
    · exact h2
    · omega

/-- C30 for a failed probe: both cache values 0. -/
theorem chunk_fits_buffers_witness :
    auto_chunk_size { sample_globals with l1 := 0, l1d := 0 } = 32768 ∧
    4096 ∣ auto_chunk_size { sample_globals with l1 := 0, l1d := 0 } :=
  ⟨by decide, (chunk_fits_buffers sample_globals 0 0).1⟩

/-! ## Tree nodes and chain heads -/

/-- Once the walk of `registerpair` has passed the head, `*matchlist` stays as it
is. -/
theorem registerpair_loop_head (cmp : file_t → file_t → Int) (nm : Nat) :
    ∀ (fuel : Nat) (fs : Nat → file_t) (head b : Nat) (tr : Option Nat)
      (r : (Nat → file_t) × Nat),
      registerpair_loop cmp nm fuel fs head (some b) tr = some r → r.2 = head := by
  intro fuel
  induction fuel with
  | zero =>
    intro fs head b tr r h
    cases tr with
    | none => simp only [registerpair_loop, Option.some.injEq] at h; rw [← h]
    | some t => simp [registerpair_loop] at h
  | succ fuel ih =>
    intro fs head b tr r h
    cases tr with
    | none => simp only [registerpair_loop, Option.some.injEq] at h; rw [← h]
    | some t =>
      rw [registerpair_loop] at h
      split_ifs at h
      all_goals first
        | exact ih _ _ _ _ _ h
        | (simp only [Option.some.injEq] at h; rw [← h])

/-- What `registerpair` does to `*matchlist`: the newcomer becomes the head, with the
old head as its successor, exactly when it compares at most equal to the old head;
otherwise the head stays. -/
theorem registerpair_head (cmp : file_t → file_t → Int) (fuel : Nat) (fs : Nat → file_t)
    (h0 nm : Nat) (r : (Nat → file_t) × Nat) (h : registerpair cmp fuel fs h0 nm = some r) :
    (cmp (mark_has_dupes fs h0 true nm) (mark_has_dupes fs h0 true h0) ≤ 0 →
      r.2 = nm ∧ (r.1 nm).duplicates = some h0) ∧
    (¬ cmp (mark_has_dupes fs h0 true nm) (mark_has_dupes fs h0 true h0) ≤ 0 → r.2 = h0) := by
  unfold registerpair at h
  dsimp only at h
  cases fuel with
  | zero => simp [registerpair_loop] at h
  | succ fuel =>
    rw [registerpair_loop] at h
    by_cases hc : cmp (mark_has_dupes fs h0 true nm) (mark_has_dupes fs h0 true h0) ≤ 0
    · rw [if_pos hc] at h
      simp only [Option.some.injEq] at h
      refine ⟨fun _ => ?_, fun hn => absurd hc hn⟩
      rw [← h]
      simp
    · rw [if_neg hc] at h
      refine ⟨fun hp => absurd hp hc, fun _ => ?_⟩
      split_ifs at h
      all_goals first
        | exact registerpair_loop_head cmp nm _ _ _ _ _ _ h
        | (simp only [Option.some.injEq] at h; rw [← h])

/-- The part of the main loop after a match: nothing is registered and the tree stays,
or `registerpair` runs on the chain of the record in the returned slot and the slot
takes the head it leaves. -/
theorem main_match_cases (G : globals) (n : Nat) (st st' : scan_state) (curfile : Nat)
    (p : List tree_direction) (h : main_match G n st curfile p = some st') :
    (st'.files = st.files ∧ st'.checktree = st.checktree) ∨
    ∃ m r, st.checktree.slot p = some m ∧
      registerpair (comparef G) n st.files m curfile = some r ∧
      st'.files = r.1 ∧ st'.checktree = st.checktree.setslot p r.2 := by
  unfold main_match at h
  cases hs : st.checktree.slot p with
  | none => rw [hs] at h; simp at h
  | some m =>
    rw [hs] at h
    dsimp only at h
    cases hr : registerpair (comparef G) n st.files m curfile with
    | none =>
      rw [hr] at h
      simp only [Option.map_none'] at h
      split at h
      · simp at h
      · split at h
        · simp only [Option.some.injEq] at h; subst h; exact Or.inl ⟨rfl, rfl⟩
        · split at h
          · simp only [Option.some.injEq] at h; subst h; exact Or.inl ⟨rfl, rfl⟩
          · split at h
            · simp at h
            · simp only [Option.some.injEq] at h; subst h; exact Or.inl ⟨rfl, rfl⟩
    | some r =>
      rw [hr] at h
      simp only [Option.map_some'] at h
      split at h
      · simp only [Option.some.injEq] at h; subst h; exact Or.inr ⟨m, r, rfl, hr, rfl, rfl⟩
      · split at h
        · simp only [Option.some.injEq] at h; subst h; exact Or.inl ⟨rfl, rfl⟩
        · split at h
          · simp only [Option.some.injEq] at h; subst h; exact Or.inl ⟨rfl, rfl⟩
          · split at h
            · simp only [Option.some.injEq] at h; subst h
              exact Or.inr ⟨m, r, rfl, hr, rfl, rfl⟩
            · simp only [Option.some.injEq] at h; subst h; exact Or.inl ⟨rfl, rfl⟩


/-- C29: every tree node holds the head of its group. After any number of passes of
the main loop over fresh candidates the scan has a state in which no `duplicates`
pointer leads to the record of a tree node; and whenever the main loop then handles a
match at the slot `p`, either nothing is registered, or `registerpair` runs on the
chain that starts at the record `m` of that slot and the slot takes the head it
leaves: the newcomer, with `m` as its successor, when the newcomer compares at most
equal to `m`, and `m` itself otherwise. -/
theorem tree_node_holds_head (G : globals) (cands : List file_t)
    (hfresh : ∀ f ∈ cands, walker_fresh f) (k : Nat) (hk : k ≤ cands.length) :
    ∃ st, scan_upto G cands k = some st ∧
      (∀ h ∈ st.checktree.nodefiles, ∀ i, (st.files i).duplicates ≠ some h) ∧
      ∀ (curfile : Nat) (p : List tree_direction) (st' : scan_state),
        main_match G cands.length st curfile p = some st' →
        (st'.files = st.files ∧ st'.checktree = st.checktree) ∨
        ∃ m r, st.checktree.slot p = some m ∧
          registerpair (comparef G) cands.length st.files m curfile = some r ∧
          st'.files = r.1 ∧ st'.checktree = st.checktree.setslot p r.2 ∧
          (comparef G (mark_has_dupes st.files m true curfile)
              (mark_has_dupes st.files m true m) ≤ 0 →
            r.2 = curfile ∧ (st'.files curfile).duplicates = some m) ∧
          (¬ comparef G (mark_has_dupes st.files m true curfile)
              (mark_has_dupes st.files m true m) ≤ 0 → r.2 = m) := by
  obtain ⟨st, rk, e, hinv⟩ := scan_total G cands hfresh k hk
  refine ⟨st, e, fun h hh => (hinv.nodes h hh).2, ?_⟩
  intro curfile p st' hm
  rcases main_match_cases G cands.length st st' curfile p hm with h | ⟨m, r, hs, hr, hf, ht⟩
  · exact Or.inl h
  · have hh := registerpair_head (comparef G) cands.length st.files m curfile r hr
    refine Or.inr ⟨m, r, hs, hr, hf, ht, ?_, hh.2⟩
    intro hc
    rw [hf]
    exact hh.1 hc

/-- C29, run on the two sample files after the first pass of the main loop. -/
theorem tree_node_holds_head_witness :
    (∀ f ∈ sample_ab, walker_fresh f) ∧ 1 ≤ sample_ab.length ∧
    ∃ st, scan_upto sample_globals_time sample_ab 1 = some st ∧
      (∀ h ∈ st.checktree.nodefiles, ∀ i, (st.files i).duplicates ≠ some h) ∧
      ∀ (curfile : Nat) (p : List tree_direction) (st' : scan_state),
        main_match sample_globals_time sample_ab.length st curfile p = some st' →
        (st'.files = st.files ∧ st'.checktree = st.checktree) ∨
        ∃ m r, st.checktree.slot p = some m ∧
          registerpair (comparef sample_globals_time) sample_ab.length st.files m curfile =
            some r ∧
          st'.files = r.1 ∧ st'.checktree = st.checktree.setslot p r.2 ∧
          (comparef sample_globals_time (mark_has_dupes st.files m true curfile)
              (mark_has_dupes st.files m true m) ≤ 0 →
            r.2 = curfile ∧ (st'.files curfile).duplicates = some m) ∧
          (¬ comparef sample_globals_time (mark_has_dupes st.files m true curfile)
              (mark_has_dupes st.files m true m) ≤ 0 → r.2 = m) :=
  ⟨by decide, by decide,
    tree_node_holds_head sample_globals_time sample_ab (by decide) 1 (by decide)⟩


/-! ## The resumed full hash -/

/-- The read loop of `get_filehash` is the parametric loop at the mixer and the chunk
size of the run. -/
theorem get_filehash_loop_chunks (G : globals) :
    ∀ (fuel : Nat) (file : List Nat) (fsize : Int) (hash : Nat),
      get_filehash_loop G fuel file fsize hash =
        get_filehash_chunks G.jody_block_hash (auto_chunk_size G) fuel file fsize hash := by
  intro fuel
  induction fuel with
  | zero =>
    intro file fsize hash
    rw [get_filehash_loop, get_filehash_chunks]
  | succ fuel ih =>
    intro file fsize hash
    rw [get_filehash_loop, get_filehash_chunks]
    simp only [ih]

/-- With a mixer that is associative over concatenation and a positive chunk size, the
read loop over `fsize > 0` bytes that the stream holds returns the mix of these bytes
into the seed, whatever the chunk size. -/
theorem get_filehash_chunks_spec (mix : List Nat → Nat → Nat)
    (hmix : ∀ (h : Nat) (a b : List Nat), mix b (mix a h) = mix (a ++ b) h)
    (chunk : Nat) (hc : 0 < chunk) :
    ∀ (fuel : Nat) (file : List Nat) (fsize : Int) (hash : Nat),
      0 < fsize → fsize ≤ (file.length : Int) → file.length ≤ fuel →
      get_filehash_chunks mix chunk fuel file fsize hash =
        some (mix (file.take fsize.toNat) hash) := by
  intro fuel
  induction fuel with
  | zero =>
    intro file fsize hash h0 h1 h2
    omega
  | succ fuel ih =>
    intro file fsize hash h0 h1 h2
    rw [get_filehash_chunks]
    rw [if_pos h0]
    dsimp only
    generalize hb : (if fsize ≥ (chunk : Int) then chunk else fsize.toNat) = btr
    have hb1 : 1 ≤ btr ∧ (btr : Int) ≤ fsize := by
      rw [← hb]
      split_ifs with h <;> omega
    rw [if_neg (by omega), if_neg (by omega)]
    by_cases hrest : fsize - (btr : Int) > 0
    · rw [ih _ _ _ hrest (by rw [List.length_drop]; omega) (by rw [List.length_drop]; omega)]
      rw [hmix]
      have e : fsize.toNat = btr + (fsize - (btr : Int)).toNat := by omega
      rw [e, List.take_add]
    · have e : fsize.toNat = btr := by omega
      rw [get_filehash_chunks, if_neg hrest, e]


/-- C24: the resumed full hash equals the hash of the whole file. Assume the block
mixer is associative over concatenation, and let a record of size above
`PARTIAL_HASH_SIZE` name a file that opens and holds at least `size` bytes. Then the
partial hash is the mix of the first `PARTIAL_HASH_SIZE` bytes into 0; `get_filehash`
with `max_read = 0` on the record with that partial hash cached (seeded with it,
reading from offset `PARTIAL_HASH_SIZE`) and `get_filehash` with `max_read = 0` on the
record without a cached hash both return the mix of the first `size` bytes into 0,
and so does the full hash the scan caches; and the read loop gives these two equal
values for every positive chunk size, the multiples of 4096 among them. -/
theorem resumed_full_hash (G : globals)
    (hmix : ∀ (h : Nat) (a b : List Nat),
      G.jody_block_hash b (G.jody_block_hash a h) = G.jody_block_hash (a ++ b) h)
    (f : file_t) (bytes : List Nat) (hopen : G.fopen f.d_name = some bytes)
    (hsize : (PARTIAL_HASH_SIZE : Int) < f.size) (hlen : f.size ≤ (bytes.length : Int)) :
    partial_hash_of G f = some (G.jody_block_hash (bytes.take PARTIAL_HASH_SIZE) 0) ∧
    get_filehash G { stat_of f with
        filehash_partial := G.jody_block_hash (bytes.take PARTIAL_HASH_SIZE) 0,
        F_HASH_PARTIAL := true } 0 = some (G.jody_block_hash (bytes.take f.size.toNat) 0) ∧
    get_filehash G (stat_of f) 0 = some (G.jody_block_hash (bytes.take f.size.toNat) 0) ∧
    full_hash_of G f = some (G.jody_block_hash (bytes.take f.size.toNat) 0) ∧
    ∀ chunk : Nat, 0 < chunk →
      get_filehash_chunks G.jody_block_hash chunk bytes.length (bytes.drop PARTIAL_HASH_SIZE)
          (f.size - PARTIAL_HASH_SIZE) (G.jody_block_hash (bytes.take PARTIAL_HASH_SIZE) 0) =
        some (G.jody_block_hash (bytes.take f.size.toNat) 0) ∧
      get_filehash_chunks G.jody_block_hash chunk bytes.length bytes f.size 0 =
        some (G.jody_block_hash (bytes.take f.size.toNat) 0) := by
  have hpos := auto_chunk_size_pos G
  unfold PARTIAL_HASH_SIZE at hsize ⊢
  have e1 : (stat_of f).size = f.size := rfl
  have e2 : (stat_of f).d_name = f.d_name := rfl
  have e3 : (stat_of f).F_HASH_PARTIAL = false := rfl
  have hresume : ∀ chunk : Nat, 0 < chunk →
      get_filehash_chunks G.jody_block_hash chunk bytes.length (bytes.drop 4096)
          (f.size - 4096) (G.jody_block_hash (bytes.take 4096) 0) =
        some (G.jody_block_hash (bytes.take f.size.toNat) 0) := by
    intro chunk hc
    rw [get_filehash_chunks_spec G.jody_block_hash hmix chunk hc _ _ _ _ (by omega)
      (by rw [List.length_drop]; omega) (by rw [List.length_drop]; omega)]
    rw [hmix]
    have e : f.size.toNat = 4096 + (f.size - 4096).toNat := by omega
    rw [e, List.take_add]
  have hscratch : ∀ chunk : Nat, 0 < chunk →
      get_filehash_chunks G.jody_block_hash chunk bytes.length bytes f.size 0 =
        some (G.jody_block_hash (bytes.take f.size.toNat) 0) := fun chunk hc =>
    get_filehash_chunks_spec G.jody_block_hash hmix chunk hc _ _ _ _ (by omega) hlen (le_refl _)
  have hpart : partial_hash_of G f = some (G.jody_block_hash (bytes.take 4096) 0) := by
    unfold partial_hash_of get_filehash
    rw [e1, e2, e3, if_neg (by omega)]
    simp only [Bool.false_eq_true, false_and, if_false]
    rw [hopen]
    dsimp only
    unfold PARTIAL_HASH_SIZE
    rw [if_pos ⟨by decide, hsize⟩, get_filehash_loop_chunks,
      get_filehash_chunks_spec G.jody_block_hash hmix _ hpos _ _ _ _ (by decide) (by omega)
        (le_refl _)]
    rfl
  have hcached : get_filehash G { stat_of f with
        filehash_partial := G.jody_block_hash (bytes.take 4096) 0,
        F_HASH_PARTIAL := true } 0 = some (G.jody_block_hash (bytes.take f.size.toNat) 0) := by
    unfold get_filehash
    dsimp only
    rw [e1, e2, if_neg (by omega)]
    simp only [ne_eq, not_true_eq_false, false_and, and_false, if_false, if_true,
      gt_iff_lt, lt_self_iff_false]
    rw [hopen]
    dsimp only
    unfold PARTIAL_HASH_SIZE
    rw [get_filehash_loop_chunks]
    exact hresume _ hpos
  refine ⟨hpart, hcached, ?_, ?_, fun chunk hc => ⟨hresume chunk hc, hscratch chunk hc⟩⟩
  · unfold get_filehash
    rw [e1, e2, e3, if_neg (by omega)]
    simp only [Bool.false_eq_true, false_and, if_false, gt_iff_lt, lt_self_iff_false]
    rw [hopen]
    dsimp only
    rw [get_filehash_loop_chunks]
    exact hscratch _ hpos
  · unfold full_hash_of
    unfold PARTIAL_HASH_SIZE
    rw [if_neg (by omega), hpart]
    exact hcached


/-- C24, run on a file of 64 KiB with the polynomial sample mixer. -/
theorem resumed_full_hash_witness :
    (∀ (h : Nat) (a b : List Nat), sample_globals_big.jody_block_hash b
      (sample_globals_big.jody_block_hash a h) = sample_globals_big.jody_block_hash (a ++ b) h) ∧
    sample_globals_big.fopen sample_p.d_name = some sample_bytes ∧
    (PARTIAL_HASH_SIZE : Int) < sample_p.size ∧
    sample_p.size ≤ (sample_bytes.length : Int) ∧
    partial_hash_of sample_globals_big sample_p =
      some (sample_globals_big.jody_block_hash (sample_bytes.take PARTIAL_HASH_SIZE) 0) ∧
    get_filehash sample_globals_big { stat_of sample_p with
        filehash_partial :=
          sample_globals_big.jody_block_hash (sample_bytes.take PARTIAL_HASH_SIZE) 0,
        F_HASH_PARTIAL := true } 0 =
      some (sample_globals_big.jody_block_hash (sample_bytes.take sample_p.size.toNat) 0) ∧
    get_filehash sample_globals_big (stat_of sample_p) 0 =
      some (sample_globals_big.jody_block_hash (sample_bytes.take sample_p.size.toNat) 0) ∧
    full_hash_of sample_globals_big sample_p =
      some (sample_globals_big.jody_block_hash (sample_bytes.take sample_p.size.toNat) 0) ∧
    ∀ chunk : Nat, 0 < chunk →
      get_filehash_chunks sample_globals_big.jody_block_hash chunk sample_bytes.length
          (sample_bytes.drop PARTIAL_HASH_SIZE) (sample_p.size - PARTIAL_HASH_SIZE)
          (sample_globals_big.jody_block_hash (sample_bytes.take PARTIAL_HASH_SIZE) 0) =
        some (sample_globals_big.jody_block_hash (sample_bytes.take sample_p.size.toNat) 0) ∧
      get_filehash_chunks sample_globals_big.jody_block_hash chunk sample_bytes.length
          sample_bytes sample_p.size 0 =
        some (sample_globals_big.jody_block_hash (sample_bytes.take sample_p.size.toNat) 0) :=
  have hmix : ∀ (h : Nat) (a b : List Nat), sample_globals_big.jody_block_hash b
      (sample_globals_big.jody_block_hash a h) =
        sample_globals_big.jody_block_hash (a ++ b) h :=
    fun h a b => (List.foldl_append _ h a b).symm
  have hlen : sample_p.size ≤ (sample_bytes.length : Int) := by
    rw [sample_bytes_length]; decide
  ⟨hmix, rfl, by decide, hlen,
    resumed_full_hash sample_globals_big hmix sample_p sample_bytes rfl (by decide) hlen⟩


/-! ## Subtree weights in the rebalancing build -/

/-- No node has a child on side `NONE`. -/
theorem child_NONE (tree : USE_TREE_REBALANCE.filetree_t) :
    ∀ path : List tree_direction, tree.child path tree_direction.NONE = none := by
  induction tree with
  | nil => intro path; simp [USE_TREE_REBALANCE.filetree_t.child]
  | node f lw rw l r ihl ihr =>
    intro path
    cases path with
    | nil => simp [USE_TREE_REBALANCE.filetree_t.child]
    | cons s p =>
      cases s with
      | NONE => simp [USE_TREE_REBALANCE.filetree_t.child]
      | LEFT => simp [USE_TREE_REBALANCE.filetree_t.child, ihl]
      | RIGHT => simp [USE_TREE_REBALANCE.filetree_t.child, ihr]

/-- One call of `registerfile` on a free side of a node adds one node to the tree and
keeps every weight at the node count of its side plus one. -/
theorem registerfile_weights_step (file : Nat) :
    ∀ (tree tree' : USE_TREE_REBALANCE.filetree_t) (path : List tree_direction)
      (d : tree_direction),
      tree.weights_count_child_twice = true → tree.child path d = some .nil →
      USE_TREE_REBALANCE.registerfile tree path d file = some tree' →
      tree'.weights_count_child_twice = true ∧ tree'.count = tree.count + 1 ∧
        tree' ≠ .nil := by
  intro tree
  induction tree with
  | nil =>
    intro tree' path d _ hc _
    simp [USE_TREE_REBALANCE.filetree_t.child] at hc
  | node f lw rw l r ihl ihr =>
    intro tree' path d hw hc hr
    simp only [USE_TREE_REBALANCE.filetree_t.weights_count_child_twice, Bool.and_eq_true,
      decide_eq_true_eq] at hw
    obtain ⟨⟨⟨hlw, hrw⟩, hl⟩, hr'⟩ := hw
    cases path with
    | nil =>
      cases d with
      | NONE => simp [USE_TREE_REBALANCE.filetree_t.child] at hc
      | LEFT =>
        simp only [USE_TREE_REBALANCE.filetree_t.child, Option.some.injEq] at hc
        subst hc
        simp only [USE_TREE_REBALANCE.registerfile, Option.some.injEq] at hr
        subst hr
        simp only [USE_TREE_REBALANCE.filetree_t.count, if_true] at hlw
        simp [USE_TREE_REBALANCE.filetree_t.weights_count_child_twice,
          USE_TREE_REBALANCE.filetree_t.count, hlw, hrw, hr']
        try omega
      | RIGHT =>
        simp only [USE_TREE_REBALANCE.filetree_t.child, Option.some.injEq] at hc
        subst hc
        simp only [USE_TREE_REBALANCE.registerfile, Option.some.injEq] at hr
        subst hr
        simp only [USE_TREE_REBALANCE.filetree_t.count, if_true] at hrw
        simp [USE_TREE_REBALANCE.filetree_t.weights_count_child_twice,
          USE_TREE_REBALANCE.filetree_t.count, hlw, hrw, hl]
        try omega
    | cons s p =>
      cases s with
      | NONE => simp [USE_TREE_REBALANCE.filetree_t.child] at hc
      | LEFT =>
        simp only [USE_TREE_REBALANCE.filetree_t.child] at hc
        cases d with
        | NONE => rw [child_NONE] at hc; simp at hc
        | LEFT =>
          simp only [USE_TREE_REBALANCE.registerfile, Option.map_eq_some'] at hr
          obtain ⟨l', hl', rfl⟩ := hr
          obtain ⟨a, b, c⟩ := ihl l' p _ hl hc hl'
          have hne : l ≠ .nil := by
            intro e; rw [e] at hc; simp [USE_TREE_REBALANCE.filetree_t.child] at hc
          simp [USE_TREE_REBALANCE.filetree_t.weights_count_child_twice,
            USE_TREE_REBALANCE.filetree_t.count, hlw, hrw, hr', a, b, c, hne]
          try omega
        | RIGHT =>
          simp only [USE_TREE_REBALANCE.registerfile, Option.map_eq_some'] at hr
          obtain ⟨l', hl', rfl⟩ := hr
          obtain ⟨a, b, c⟩ := ihl l' p _ hl hc hl'
          have hne : l ≠ .nil := by
            intro e; rw [e] at hc; simp [USE_TREE_REBALANCE.filetree_t.child] at hc
          simp [USE_TREE_REBALANCE.filetree_t.weights_count_child_twice,
            USE_TREE_REBALANCE.filetree_t.count, hlw, hrw, hr', a, b, c, hne]
          try omega
      | RIGHT =>
        simp only [USE_TREE_REBALANCE.filetree_t.child] at hc
        cases d with
        | NONE => rw [child_NONE] at hc; simp at hc
        | LEFT =>
          simp only [USE_TREE_REBALANCE.registerfile, Option.map_eq_some'] at hr
          obtain ⟨r1, hr1, rfl⟩ := hr
          obtain ⟨a, b, c⟩ := ihr r1 p _ hr' hc hr1
          have hne : r ≠ .nil := by
            intro e; rw [e] at hc; simp [USE_TREE_REBALANCE.filetree_t.child] at hc
          simp [USE_TREE_REBALANCE.filetree_t.weights_count_child_twice,
            USE_TREE_REBALANCE.filetree_t.count, hlw, hrw, hl, a, b, c, hne]
          try omega
        | RIGHT =>
          simp only [USE_TREE_REBALANCE.registerfile, Option.map_eq_some'] at hr
          obtain ⟨r1, hr1, rfl⟩ := hr
          obtain ⟨a, b, c⟩ := ihr r1 p _ hr' hc hr1
          have hne : r ≠ .nil := by
            intro e; rw [e] at hc; simp [USE_TREE_REBALANCE.filetree_t.child] at hc
          simp [USE_TREE_REBALANCE.filetree_t.weights_count_child_twice,
            USE_TREE_REBALANCE.filetree_t.count, hlw, hrw, hl, a, b, c, hne]
          try omega

/-- In every tree that calls of `registerfile` build, each weight is the node count of
its side plus one when the side is not empty. -/
theorem built_weights (tree : USE_TREE_REBALANCE.filetree_t)
    (h : USE_TREE_REBALANCE.built tree) : tree.weights_count_child_twice = true := by
  induction h with
  | root file => simp [USE_TREE_REBALANCE.filetree_t.weights_count_child_twice,
      USE_TREE_REBALANCE.filetree_t.count]
  | branch tree tree' path d file _ hfree hreg ih =>
    exact (registerfile_weights_step file tree tree' path d ih hfree hreg).1


/-- C28 fails: in the rebalancing build, hanging the record 1 to the left of a root
that stands alone is a tree built only by `registerfile`, and it leaves the root with
`left_weight = 2` over a left subtree of one node: the `switch` and the first pass of
the propagation loop both increment the weight of the new node's parent. -/
theorem registerfile_counts_child_twice :
    USE_TREE_REBALANCE.registerfile USE_TREE_REBALANCE.filetree_t.nil [] tree_direction.NONE 0 =
      some sample_weighted_root ∧
    sample_weighted_root.child [] tree_direction.LEFT = some USE_TREE_REBALANCE.filetree_t.nil ∧
    USE_TREE_REBALANCE.registerfile sample_weighted_root [] tree_direction.LEFT 1 =
      some sample_weighted_pair ∧
    USE_TREE_REBALANCE.built sample_weighted_pair ∧
    sample_weighted_pair =
      USE_TREE_REBALANCE.filetree_t.node 0 2 0
        (USE_TREE_REBALANCE.filetree_t.node 1 0 0 USE_TREE_REBALANCE.filetree_t.nil
          USE_TREE_REBALANCE.filetree_t.nil) USE_TREE_REBALANCE.filetree_t.nil ∧
    (USE_TREE_REBALANCE.filetree_t.node 1 0 0 USE_TREE_REBALANCE.filetree_t.nil
      USE_TREE_REBALANCE.filetree_t.nil).count = 1 ∧
    sample_weighted_pair.weights_are_counts = false ∧
    sample_weighted_pair.weights_count_child_twice = true :=
  ⟨rfl, rfl, rfl,
    USE_TREE_REBALANCE.built.branch sample_weighted_root sample_weighted_pair []
      tree_direction.LEFT 1 (USE_TREE_REBALANCE.built.root 0) rfl rfl,
    rfl, rfl, by decide, by decide⟩


/-! ## Sorted insertion -/

theorem insert_before_first_cons (p : Nat → Bool) (nm t : Nat) (post : List Nat) :
    insert_before_first p nm (t :: post) =
      if p t = true then nm :: t :: post else t :: insert_before_first p nm post := by
  unfold insert_before_first
  by_cases h : p t = true
  · simp [List.takeWhile, List.dropWhile, h]
  · have h' : p t = false := by simpa using h
    simp [List.takeWhile, List.dropWhile, h']

theorem insert_before_first_nil (p : Nat → Bool) (nm : Nat) :
    insert_before_first p nm [] = [nm] := rfl

theorem insert_before_first_perm (p : Nat → Bool) (nm : Nat) (L : List Nat) :
    List.Perm (insert_before_first p nm L) (nm :: L) := by
  unfold insert_before_first
  have h := List.takeWhile_append_dropWhile (fun e => !p e) L
  calc List.Perm (L.takeWhile (fun e => !p e) ++ nm :: L.dropWhile (fun e => !p e))
        (nm :: (L.takeWhile (fun e => !p e) ++ L.dropWhile (fun e => !p e))) :=
          List.perm_middle
    _ = nm :: L := by rw [h]

theorem is_chain_congr {fs fs' : Nat → file_t} :
    ∀ L : List Nat, (∀ i ∈ L, (fs' i).duplicates = (fs i).duplicates) →
      is_chain fs L → is_chain fs' L := by
  intro L
  induction L with
  | nil => intro _ h; exact h
  | cons x rest ih =>
    intro hf h
    cases rest with
    | nil =>
      simp only [is_chain] at h ⊢
      rw [hf x (by simp), h]
    | cons y rest =>
      simp only [is_chain] at h ⊢
      exact ⟨by rw [hf x (by simp), h.1],
        ih (fun i hi => hf i (List.mem_cons_of_mem _ hi)) h.2⟩

theorem is_chain_cons {fs : Nat → file_t} (x y : Nat) :
    ∀ L : List Nat, L.head? = some y → (fs x).duplicates = some y → is_chain fs L →
      is_chain fs (x :: L) := by
  intro L hh hx hc
  cases L with
  | nil => simp at hh
  | cons z rest =>
    simp only [List.head?_cons, Option.some.injEq] at hh
    subst hh
    exact ⟨hx, hc⟩

theorem insert_before_first_head (p : Nat → Bool) (nm t : Nat) (post : List Nat) :
    (insert_before_first p nm (t :: post)).head? = some (if p t = true then nm else t) := by
  rw [insert_before_first_cons]
  split_ifs <;> rfl


/-- The walk of `registerpair` over a chain given as a list: from the record `t` with
the rest `post` of the chain behind it, the loop ends within `post.length + 1` steps
and leaves the newcomer immediately before the first record it compares at most
equal to, or behind the last one; the record `back` is linked to whatever then
stands first, and no other record's link changes. -/
theorem registerpair_loop_chain (cmp : file_t → file_t → Int) (nm head : Nat)
    (fs : Nat → file_t) (hnm : (fs nm).duplicates = none) :
    ∀ (post : List Nat) (t : Nat) (back : Option Nat) (fuel : Nat),
      post.length < fuel → is_chain fs (t :: post) → (t :: post).Nodup → nm ∉ t :: post →
      (∀ b, back = some b → b ∉ t :: post ∧ b ≠ nm) →
      ∃ fs' h', registerpair_loop cmp nm fuel fs head back (some t) = some (fs', h') ∧
        is_chain fs'
          (insert_before_first (fun e => decide (cmp (fs nm) (fs e) ≤ 0)) nm (t :: post)) ∧
        (∀ b, back = some b → (fs' b).duplicates =
          if cmp (fs nm) (fs t) ≤ 0 then some nm else (fs b).duplicates) ∧
        (h' = if back = none ∧ cmp (fs nm) (fs t) ≤ 0 then nm else head) ∧
        (∀ i, i ∉ nm :: t :: post → back ≠ some i → (fs' i).duplicates = (fs i).duplicates) ∧
        ∀ i, stat_of (fs' i) = stat_of (fs i) := by
  intro post
  induction post with
  | nil =>
    intro t back fuel hfuel hch hnd hnot hback
    obtain ⟨fuel, rfl⟩ : ∃ f, fuel = f + 1 := ⟨fuel - 1, by simp at hfuel; omega⟩
    have hnt : nm ≠ t := by intro e; apply hnot; simp [e]
    simp only [is_chain] at hch
    rw [registerpair_loop, insert_before_first_cons]
    by_cases hc : cmp (fs nm) (fs t) ≤ 0
    · rw [if_pos hc]
      simp only [hc, decide_True, if_true, and_true]
      cases back with
      | none =>
        refine ⟨_, _, rfl, ?_, ?_, ?_, ?_, ?_⟩
        · refine ⟨by simp, ?_⟩
          simp only [is_chain]
          simp [Ne.symm hnt, hch]
        · intro b hb; simp at hb
        · simp
        · intro i hi _
          simp only [List.mem_cons, not_or] at hi
          simp [hi.1]
        · intro i; simp
      | some b =>
        obtain ⟨hb1, hb2⟩ := hback b rfl
        have hbt : t ≠ b := by intro e; apply hb1; simp [e]
        refine ⟨_, _, rfl, ?_, ?_, ?_, ?_, ?_⟩
        · refine ⟨by simp [Ne.symm hb2], ?_⟩
          simp only [is_chain]
          simp [hbt, Ne.symm hnt, hch]
        · intro b' hb'
          simp only [Option.some.injEq] at hb'
          subst hb'
          simp
        · simp
        · intro i hi hbi
          simp only [List.mem_cons, not_or] at hi
          have : i ≠ b := fun e => hbi (by rw [e])
          simp [hi.1, this]
        · intro i; simp
    · rw [if_neg hc, if_pos hch]
      simp only [hc, decide_False, Bool.false_eq_true, if_false, and_false,
        insert_before_first_nil]
      refine ⟨_, _, rfl, ?_, ?_, rfl, ?_, ?_⟩
      · simp only [is_chain]
        split_ifs <;> simp [hnt, hnm]
      · intro b hb
        obtain ⟨hb1, _⟩ := hback b hb
        have hbt : b ≠ t := by intro e; apply hb1; simp [e]
        split_ifs <;> simp [hbt]
      · intro i hi _
        simp only [List.mem_cons, not_or] at hi
        split_ifs <;> simp [hi.2.1]
      · intro i
        split_ifs <;> simp
  | cons t2 post ih =>
    intro t back fuel hfuel hch hnd hnot hback
    obtain ⟨fuel, rfl⟩ : ∃ f, fuel = f + 1 := ⟨fuel - 1, by simp at hfuel; omega⟩
    have hnt : nm ≠ t := by intro e; apply hnot; simp [e]
    simp only [is_chain] at hch
    obtain ⟨hlink, hrest⟩ := hch
    rw [registerpair_loop, insert_before_first_cons]
    by_cases hc : cmp (fs nm) (fs t) ≤ 0
    · rw [if_pos hc]
      simp only [hc, decide_True, if_true, and_true]
      have htail : ∀ fs' : Nat → file_t,
          (∀ i ∈ t :: t2 :: post, (fs' i).duplicates = (fs i).duplicates) →
          is_chain fs' (t :: t2 :: post) := fun fs' hf =>
        is_chain_congr (t :: t2 :: post) hf ⟨hlink, hrest⟩
      cases back with
      | none =>
        refine ⟨_, _, rfl, ?_, ?_, ?_, ?_, ?_⟩
        · refine ⟨by simp, htail _ ?_⟩
          intro i hi
          have : i ≠ nm := fun e => hnot (e ▸ hi)
          simp [this]
        · intro b hb; simp at hb
        · simp
        · intro i hi _
          simp only [List.mem_cons, not_or] at hi
          simp [hi.1]
        · intro i; simp
      | some b =>
        obtain ⟨hb1, hb2⟩ := hback b rfl
        refine ⟨_, _, rfl, ?_, ?_, ?_, ?_, ?_⟩
        · refine ⟨by simp [Ne.symm hb2], htail _ ?_⟩
          intro i hi
          have h1 : i ≠ nm := fun e => hnot (e ▸ hi)
          have h2 : i ≠ b := fun e => hb1 (e ▸ hi)
          simp [h1, h2]
        · intro b' hb'
          simp only [Option.some.injEq] at hb'
          subst hb'
          simp
        · simp
        · intro i hi hbi
          simp only [List.mem_cons, not_or] at hi
          have : i ≠ b := fun e => hbi (by rw [e])
          simp [hi.1, this]
        · intro i; simp
    · rw [if_neg hc, if_neg (by rw [hlink]; simp), hlink]
      simp only [hc, decide_False, Bool.false_eq_true, if_false, and_false]
      have hnd2 : (t2 :: post).Nodup := (List.nodup_cons.mp hnd).2
      have ht2 : t ∉ t2 :: post := (List.nodup_cons.mp hnd).1
      have hnot2 : nm ∉ t2 :: post := fun h => hnot (List.mem_cons_of_mem _ h)
      obtain ⟨fs', h', e, c1, c2, c3, c4, c5⟩ := ih t2 (some t) fuel
        (by simp only [List.length_cons] at hfuel; omega) hrest hnd2 hnot2
        (fun b hb => by
          simp only [Option.some.injEq] at hb
          subst hb
          exact ⟨ht2, Ne.symm hnt⟩)
      refine ⟨fs', h', e, ?_, ?_, ?_, ?_, c5⟩
      · refine is_chain_cons t (if cmp (fs nm) (fs t2) ≤ 0 then nm else t2) _ ?_ ?_ c1
        · rw [insert_before_first_head]
          simp only [decide_eq_true_eq]
        · rw [c2 t rfl]
          split_ifs
          · rfl
          · exact hlink
      · intro b hb
        obtain ⟨hb1, hb2⟩ := hback b hb
        refine c4 b ?_ ?_
        · intro h
          rcases List.mem_cons.mp h with h | h
          · exact hb2 h
          · exact hb1 (List.mem_cons_of_mem _ h)
        · intro h
          simp only [Option.some.injEq] at h
          apply hb1; simp [h]
      · rw [c3]; simp
      · intro i hi hbi
        simp only [List.mem_cons, not_or] at hi
        refine c4 i ?_ ?_
        · simp only [List.mem_cons, not_or]
          exact ⟨hi.1, hi.2.2.1, hi.2.2.2⟩
        · intro h
          simp only [Option.some.injEq] at h
          exact hi.2.1 h.symm


theorem insert_before_first_mem (p : Nat → Bool) (nm x : Nat) (L : List Nat) :
    x ∈ insert_before_first p nm L ↔ x = nm ∨ x ∈ L := by
  rw [(insert_before_first_perm p nm L).mem_iff, List.mem_cons]

/-- Putting a newcomer before the first element it is at most equal to keeps a list
sorted, for a total and transitive order. -/
theorem insert_before_first_sorted (R : Nat → Nat → Prop) (p : Nat → Bool) (nm : Nat)
    (hp : ∀ e, p e = true ↔ R nm e) (htot : ∀ a b, R a b ∨ R b a)
    (htrans : ∀ a b c, R a b → R b c → R a c) :
    ∀ L : List Nat, L.Pairwise R → (insert_before_first p nm L).Pairwise R := by
  intro L
  induction L with
  | nil => intro _; simp [insert_before_first_nil]
  | cons t post ih =>
    intro h
    obtain ⟨h1, h2⟩ := List.pairwise_cons.mp h
    rw [insert_before_first_cons]
    by_cases hc : p t = true
    · rw [if_pos hc]
      have hnt : R nm t := (hp t).mp hc
      refine List.pairwise_cons.mpr ⟨?_, h⟩
      intro x hx
      rcases List.mem_cons.mp hx with e | hx
      · rw [e]; exact hnt
      · exact htrans _ _ _ hnt (h1 x hx)
    · rw [if_neg hc]
      refine List.pairwise_cons.mpr ⟨?_, ih h2⟩
      intro x hx
      rcases (insert_before_first_mem p nm x post).mp hx with e | hx
      · rw [e]
        rcases htot t nm with h | h
        · exact h
        · exact absurd ((hp t).mpr h) hc
      · exact h1 x hx

/-- The function `registerpair` on a chain given as a list, for a comparator that
reads only what the walker stored: within `rest.length + 1` steps it leaves the
chain with the newcomer immediately before the first record it compares at most
equal to, or at the end; `*matchlist` is the first record of the new chain. -/
theorem registerpair_chain (cmp : file_t → file_t → Int)
    (hstat : ∀ a b a' b', stat_of a = stat_of a' → stat_of b = stat_of b' →
      cmp a b = cmp a' b')
    (fs : Nat → file_t) (h0 nm : Nat) (rest : List Nat) (fuel : Nat)
    (hfuel : rest.length < fuel) (hch : is_chain fs (h0 :: rest))
    (hnd : (h0 :: rest).Nodup) (hnot : nm ∉ h0 :: rest) (hnm : (fs nm).duplicates = none) :
    ∃ fs' h', registerpair cmp fuel fs h0 nm = some (fs', h') ∧
      (insert_before_first (fun e => decide (cmp (fs nm) (fs e) ≤ 0)) nm
        (h0 :: rest)).head? = some h' ∧
      is_chain fs'
        (insert_before_first (fun e => decide (cmp (fs nm) (fs e) ≤ 0)) nm (h0 :: rest)) ∧
      (∀ i, i ∉ nm :: h0 :: rest → (fs' i).duplicates = (fs i).duplicates) ∧
      ∀ i, stat_of (fs' i) = stat_of (fs i) := by
  have hp : (fun e => decide (cmp (mark_has_dupes fs h0 true nm)
      (mark_has_dupes fs h0 true e) ≤ 0)) = (fun e => decide (cmp (fs nm) (fs e) ≤ 0)) := by
    funext e
    rw [hstat _ _ (fs nm) (fs e) (mark_has_dupes_stat _ _ _ _) (mark_has_dupes_stat _ _ _ _)]
  obtain ⟨fs', h', e, c1, -, c3, c4, c5⟩ :=
    registerpair_loop_chain cmp nm h0 (mark_has_dupes fs h0 true)
      (by rw [mark_has_dupes_duplicates]; exact hnm) rest h0 none fuel hfuel
      (is_chain_congr _ (fun i _ => mark_has_dupes_duplicates _ _ _ _) hch) hnd hnot
      (fun b hb => by simp at hb)
  rw [hp] at c1
  refine ⟨fs', h', e, ?_, c1, ?_, ?_⟩
  · rw [insert_before_first_head, c3]
    rw [hstat _ _ (fs nm) (fs h0) (mark_has_dupes_stat _ _ _ _) (mark_has_dupes_stat _ _ _ _)]
    simp
  · intro i hi
    rw [c4 i hi (by simp), mark_has_dupes_duplicates]
  · intro i
    rw [c5, mark_has_dupes_stat]

/-- Every link `registerpair_loop` leaves is one it found, or leads from the newcomer
to a record it compares at most equal to, or leads to the newcomer from a record it
compares greater than. -/
theorem registerpair_loop_edges (cmp : file_t → file_t → Int) (nm : Nat)
    (fs : Nat → file_t) :
    ∀ (fuel : Nat) (head : Nat) (back tr : Option Nat) (r : (Nat → file_t) × Nat),
      registerpair_loop cmp nm fuel fs head back tr = some r →
      (∀ b, back = some b → ¬ cmp (fs nm) (fs b) ≤ 0) →
      (∀ i, stat_of (r.1 i) = stat_of (fs i)) ∧
      ∀ i j, (r.1 i).duplicates = some j →
        (fs i).duplicates = some j ∨ (i = nm ∧ cmp (fs nm) (fs j) ≤ 0) ∨
          (j = nm ∧ ¬ cmp (fs nm) (fs i) ≤ 0) := by
  intro fuel
  induction fuel with
  | zero =>
    intro head back tr r h _
    cases tr with
    | none =>
      simp only [registerpair_loop, Option.some.injEq] at h
      subst h
      exact ⟨fun _ => rfl, fun i j hij => Or.inl hij⟩
    | some t => simp [registerpair_loop] at h
  | succ fuel ih =>
    intro head back tr r h hback
    cases tr with
    | none =>
      simp only [registerpair_loop, Option.some.injEq] at h
      subst h
      exact ⟨fun _ => rfl, fun i j hij => Or.inl hij⟩
    | some t =>
      rw [registerpair_loop] at h
      by_cases hc : cmp (fs nm) (fs t) ≤ 0
      · rw [if_pos hc] at h
        cases back with
        | none =>
          simp only [Option.some.injEq] at h
          subst h
          refine ⟨fun i => by simp, ?_⟩
          intro i j hij
          simp only [mark_has_dupes_duplicates, link_duplicates_duplicates] at hij
          split_ifs at hij with h1
          · simp only [Option.some.injEq] at hij
            subst hij
            exact Or.inr (Or.inl ⟨h1, hc⟩)
          · exact Or.inl hij
        | some b =>
          simp only [Option.some.injEq] at h
          subst h
          refine ⟨fun i => by simp, ?_⟩
          intro i j hij
          simp only [link_duplicates_duplicates] at hij
          split_ifs at hij with h1 h2
          · simp only [Option.some.injEq] at hij
            subst hij
            subst h1
            exact Or.inr (Or.inr ⟨rfl, hback _ rfl⟩)
          · simp only [Option.some.injEq] at hij
            subst hij
            exact Or.inr (Or.inl ⟨h2, hc⟩)
          · exact Or.inl hij
      · rw [if_neg hc] at h
        by_cases hd : (fs t).duplicates = none
        · rw [if_pos hd] at h
          simp only [Option.some.injEq] at h
          subst h
          refine ⟨fun i => by dsimp only; split_ifs <;> simp, ?_⟩
          intro i j hij
          have hij' : (link_duplicates fs t (some nm) i).duplicates = some j := by
            dsimp only at hij
            split_ifs at hij
            · simpa using hij
            · exact hij
          simp only [link_duplicates_duplicates] at hij'
          split_ifs at hij' with h1
          · simp only [Option.some.injEq] at hij'
            subst hij'
            subst h1
            exact Or.inr (Or.inr ⟨rfl, hc⟩)
          · exact Or.inl hij'
        · rw [if_neg hd] at h
          exact ih head (some t) _ r h (fun b hb => by
            simp only [Option.some.injEq] at hb
            subst hb
            exact hc)

/-- Every link `registerpair` leaves is one it found, or joins the newcomer and
another record in the order of their comparison. -/
theorem registerpair_edges (cmp : file_t → file_t → Int)
    (hstat : ∀ a b a' b', stat_of a = stat_of a' → stat_of b = stat_of b' →
      cmp a b = cmp a' b')
    (fuel : Nat) (fs : Nat → file_t) (h0 nm : Nat) (r : (Nat → file_t) × Nat)
    (h : registerpair cmp fuel fs h0 nm = some r) :
    (∀ i, stat_of (r.1 i) = stat_of (fs i)) ∧
    ∀ i j, (r.1 i).duplicates = some j →
      (fs i).duplicates = some j ∨ (i = nm ∧ cmp (fs nm) (fs j) ≤ 0) ∨
        (j = nm ∧ ¬ cmp (fs nm) (fs i) ≤ 0) := by
  unfold registerpair at h
  obtain ⟨h1, h2⟩ := registerpair_loop_edges cmp nm _ fuel h0 none (some h0) r h
    (fun b hb => by simp at hb)
  have hc : ∀ a b, cmp (mark_has_dupes fs h0 true a) (mark_has_dupes fs h0 true b) =
      cmp (fs a) (fs b) := fun a b =>
    hstat _ _ _ _ (mark_has_dupes_stat _ _ _ _) (mark_has_dupes_stat _ _ _ _)
  refine ⟨fun i => by rw [h1, mark_has_dupes_stat], ?_⟩
  intro i j hij
  have := h2 i j hij
  simp only [mark_has_dupes_duplicates, hc] at this
  exact this

/-- The comparison of the scan reads only what the walker stored. -/
theorem comparef_stat (G : globals) (a b a' b' : file_t)
    (ha : stat_of a = stat_of a') (hb : stat_of b = stat_of b') :
    comparef G a b = comparef G a' b' := by
  obtain ⟨a1, a2, -, -, -, a6, -⟩ := stat_of_fields a a' ha
  obtain ⟨b1, b2, -, -, -, b6, -⟩ := stat_of_fields b b' hb
  unfold comparef
  split_ifs
  · unfold sort_pairs_by_mtime sort_pairs_by_param_order
    rw [a2, a6, b2, b6]
  · unfold sort_pairs_by_filename sort_pairs_by_param_order
    rw [a1, a2, b1, b2]


/-- Consecutive records of a chain read by `dupchain` are joined by a `duplicates`
pointer. -/
theorem dupchain_chain (fs : Nat → file_t) (R : Nat → Nat → Prop)
    (hedge : ∀ i j, (fs i).duplicates = some j → R i j) :
    ∀ (fuel h : Nat), List.Chain' R (dupchain fs fuel h) := by
  intro fuel
  induction fuel with
  | zero => intro h; simp [dupchain]
  | succ fuel ih =>
    intro h
    rw [dupchain]
    cases hd : (fs h).duplicates with
    | none => simp
    | some x =>
      dsimp only
      refine List.Chain'.cons' (ih x) ?_
      intro y hy
      have : (dupchain fs fuel x).head? = some x := by
        cases fuel <;> simp [dupchain]
      rw [this] at hy
      simp only [Option.mem_def, Option.some.injEq] at hy
      subst hy
      exact hedge h _ hd

/-- With a total comparison, after each pass of the main loop every `duplicates`
pointer leads from a record to one it compares at most equal to. -/
theorem scan_edges_sorted (G : globals)
    (htot : ∀ a b, comparef G a b ≤ 0 ∨ comparef G b a ≤ 0)
    (cands : List file_t) (hfresh : ∀ f ∈ cands, walker_fresh f)
    (k : Nat) (hk : k ≤ cands.length) :
    ∃ st rk, scan_upto G cands k = some st ∧
      chain_inv k st.files st.checktree.nodefiles rk ∧
      ∀ i j, (st.files i).duplicates = some j →
        comparef G (st.files i) (st.files j) ≤ 0 := by
  refine scan_upto_spec G cands hfresh
    (fun _ st => ∀ i j, (st.files i).duplicates = some j →
      comparef G (st.files i) (st.files j) ≤ 0) ?_ ?_ k hk
  · intro i j h
    have hf := ((scan_init_chain_inv cands hfresh).fresh i (Nat.zero_le _)).1
    rw [hf] at h
    exact absurd h (by simp)
  · intro k st st' rk _ e e2 _ hI _
    have keep : ∀ fs' : Nat → file_t, (∀ i, hash_evolves (st.files i) (fs' i)) →
        ∀ i j, (fs' i).duplicates = some j → comparef G (fs' i) (fs' j) ≤ 0 := by
      intro fs' hev i j hij
      rw [(hev i).2.1] at hij
      rw [comparef_stat G _ _ _ _ (hev i).1 (hev j).1]
      exact hI i j hij
    rw [scan_upto, e] at e2
    simp only [Option.some_bind] at e2
    unfold main_body at e2
    split at e2
    · simp only [Option.some.injEq] at e2
      subst e2
      exact hI
    · rename_i f l r hct
      have hev := (checkmatch_spec G k (filetree_t.node f l r) st.files st.trace).1
      dsimp only at e2
      split at e2
      · simp only [Option.some.injEq] at e2
        subst e2
        exact keep _ hev
      · rename_i p hp
        rcases main_match_cases G cands.length _ st' k p e2 with h | ⟨m, q, -, hq, hf, -⟩
        · intro i j hij
          rw [h.1] at hij ⊢
          exact keep _ hev i j hij
        · obtain ⟨q1, q2⟩ := registerpair_edges (comparef G) (comparef_stat G) _ _ _ _ q hq
          intro i j hij
          rw [hf] at hij ⊢
          rw [comparef_stat G _ _ _ _ (q1 i) (q1 j)]
          rcases q2 i j hij with h | ⟨h1, h2⟩ | ⟨h1, h2⟩
          · exact keep _ hev i j h
          · rw [h1]; exact h2
          · rw [h1]
            rcases htot
              ((checkmatch G (filetree_t.node f l r) k st.files st.trace).files i)
              ((checkmatch G (filetree_t.node f l r) k st.files st.trace).files k) with h | h
            · exact h
            · exact absurd h h2


/-- The comparison by modification time is total. -/
theorem sort_pairs_by_mtime_total (G : globals) (a b : file_t) :
    sort_pairs_by_mtime G a b ≤ 0 ∨ sort_pairs_by_mtime G b a ≤ 0 := by
  rw [sort_pairs_by_mtime_eq, sort_pairs_by_mtime_eq]
  have hd := sort_direction_cases G
  generalize sort_direction G = d at hd
  by_cases hp : G.flags.F_USEPARAMORDER = true
  · simp only [hp, true_and, ne_eq]
    rcases hd with e | e <;> rw [e] <;> split_ifs <;> (try simp only [not_not] at *) <;> omega
  · have hf : G.flags.F_USEPARAMORDER = false := by simpa using hp
    simp only [hf, Bool.false_eq_true, false_and, if_false]
    rcases hd with e | e <;> rw [e] <;> split_ifs <;> omega

/-- The comparison by modification time is transitive. -/
theorem sort_pairs_by_mtime_trans (G : globals) (a b c : file_t)
    (h1 : sort_pairs_by_mtime G a b ≤ 0) (h2 : sort_pairs_by_mtime G b c ≤ 0) :
    sort_pairs_by_mtime G a c ≤ 0 := by
  rw [sort_pairs_by_mtime_eq] at h1 h2 ⊢
  have hd := sort_direction_cases G
  generalize sort_direction G = d at hd h1 h2 ⊢
  by_cases hp : G.flags.F_USEPARAMORDER = true
  · simp only [hp, true_and, ne_eq] at h1 h2 ⊢
    rcases hd with e | e <;> rw [e] at h1 h2 ⊢ <;> split_ifs at h1 h2 ⊢ <;>
      (try simp only [not_not] at *) <;> omega
  · have hf : G.flags.F_USEPARAMORDER = false := by simpa using hp
    simp only [hf, Bool.false_eq_true, false_and, if_false] at h1 h2 ⊢
    rcases hd with e | e <;> rw [e] at h1 h2 ⊢ <;> split_ifs at h1 h2 ⊢ <;> omega


/-- C22: `registerpair` is a sorted insertion. Let the comparator read only what the
walker stored in a record, and let it be a total preorder. Then on every chain (a
list of distinct records linked by `duplicates`, the newcomer not among them and
without a link) `registerpair` ends within the length of the chain and leaves the
chain with the newcomer immediately before the first record `e` with
`cmp newcomer e ≤ 0`, or at the end when there is none; `*matchlist` is the first
record of that chain, which holds the old records and the newcomer, and no other
record's link changes; and if the chain was in non-decreasing order it is so again.
Hence after a scan with that comparator every group is in non-decreasing order. -/
theorem registerpair_sorted_insertion (cmp : file_t → file_t → Int)
    (hstat : ∀ a b a' b', stat_of a = stat_of a' → stat_of b = stat_of b' →
      cmp a b = cmp a' b')
    (htot : ∀ a b, cmp a b ≤ 0 ∨ cmp b a ≤ 0)
    (htrans : ∀ a b c, cmp a b ≤ 0 → cmp b c ≤ 0 → cmp a c ≤ 0) :
    (∀ (fs : Nat → file_t) (h0 nm : Nat) (rest : List Nat) (fuel : Nat),
      rest.length < fuel → is_chain fs (h0 :: rest) → (h0 :: rest).Nodup →
      nm ∉ h0 :: rest → (fs nm).duplicates = none →
      ∃ fs' h', registerpair cmp fuel fs h0 nm = some (fs', h') ∧
        (insert_before_first (fun e => decide (cmp (fs nm) (fs e) ≤ 0)) nm
          (h0 :: rest)).head? = some h' ∧
        is_chain fs'
          (insert_before_first (fun e => decide (cmp (fs nm) (fs e) ≤ 0)) nm (h0 :: rest)) ∧
        List.Perm
          (insert_before_first (fun e => decide (cmp (fs nm) (fs e) ≤ 0)) nm (h0 :: rest))
          (nm :: h0 :: rest) ∧
        (∀ i, i ∉ nm :: h0 :: rest → (fs' i).duplicates = (fs i).duplicates) ∧
        ((h0 :: rest).Pairwise (fun a b => cmp (fs a) (fs b) ≤ 0) →
          (insert_before_first (fun e => decide (cmp (fs nm) (fs e) ≤ 0)) nm
            (h0 :: rest)).Pairwise (fun a b => cmp (fs' a) (fs' b) ≤ 0))) ∧
    (∀ (G : globals) (cands : List file_t), comparef G = cmp →
      (∀ f ∈ cands, walker_fresh f) →
      ∃ st, scan G cands = some st ∧
        ∀ g ∈ groups cands.length st.files,
          g.Pairwise (fun a b => cmp (st.files a) (st.files b) ≤ 0)) := by
  constructor
  · intro fs h0 nm rest fuel hfuel hch hnd hnot hnm
    obtain ⟨fs', h', e, c1, c2, c3, c4⟩ :=
      registerpair_chain cmp hstat fs h0 nm rest fuel hfuel hch hnd hnot hnm
    refine ⟨fs', h', e, c1, c2, insert_before_first_perm _ _ _, c3, ?_⟩
    intro hs
    have hR : (fun a b => cmp (fs' a) (fs' b) ≤ 0) = (fun a b => cmp (fs a) (fs b) ≤ 0) := by
      funext a b
      rw [hstat _ _ _ _ (c4 a) (c4 b)]
    rw [hR]
    exact insert_before_first_sorted (fun a b => cmp (fs a) (fs b) ≤ 0) _ nm
      (fun e => by simp) (fun a b => htot _ _) (fun a b c => htrans _ _ _) _ hs
  · intro G cands hG hfresh
    subst hG
    obtain ⟨st, rk, e, -, hedge⟩ :=
      scan_edges_sorted G htot cands hfresh cands.length (le_refl _)
    refine ⟨st, e, ?_⟩
    intro g hg
    obtain ⟨h, -, -, rfl⟩ := mem_groups hg
    haveI : IsTrans Nat (fun a b => comparef G (st.files a) (st.files b) ≤ 0) :=
      ⟨fun a b c => htrans _ _ _⟩
    exact List.chain'_iff_pairwise.mp
      (dupchain_chain st.files (fun a b => comparef G (st.files a) (st.files b) ≤ 0)
        hedge cands.length h)

/-- C22, for the comparison by modification time: one registration on the chain of
the older sample file, and the scan of the two sample files. -/
theorem registerpair_sorted_insertion_witness :
    (∀ a b a' b', stat_of a = stat_of a' → stat_of b = stat_of b' →
      comparef sample_globals_time a b = comparef sample_globals_time a' b') ∧
    (∀ a b, comparef sample_globals_time a b ≤ 0 ∨ comparef sample_globals_time b a ≤ 0) ∧
    (∀ a b c, comparef sample_globals_time a b ≤ 0 → comparef sample_globals_time b c ≤ 0 →
      comparef sample_globals_time a c ≤ 0) ∧
    (∃ fs' h', registerpair (comparef sample_globals_time) 1 (scan_init sample_ab).files 0 1 =
        some (fs', h') ∧
      (insert_before_first (fun e => decide (comparef sample_globals_time
        ((scan_init sample_ab).files 1) ((scan_init sample_ab).files e) ≤ 0)) 1 [0]).head? =
          some h' ∧
      is_chain fs' (insert_before_first (fun e => decide (comparef sample_globals_time
        ((scan_init sample_ab).files 1) ((scan_init sample_ab).files e) ≤ 0)) 1 [0]) ∧
      List.Perm (insert_before_first (fun e => decide (comparef sample_globals_time
        ((scan_init sample_ab).files 1) ((scan_init sample_ab).files e) ≤ 0)) 1 [0]) [1, 0] ∧
      (∀ i, i ∉ [1, 0] → (fs' i).duplicates = ((scan_init sample_ab).files i).duplicates) ∧
      ([0].Pairwise (fun a b => comparef sample_globals_time ((scan_init sample_ab).files a)
          ((scan_init sample_ab).files b) ≤ 0) →
        (insert_before_first (fun e => decide (comparef sample_globals_time
          ((scan_init sample_ab).files 1) ((scan_init sample_ab).files e) ≤ 0)) 1
            [0]).Pairwise (fun a b => comparef sample_globals_time (fs' a) (fs' b) ≤ 0))) ∧
    ∃ st, scan sample_globals_time sample_ab = some st ∧
      ∀ g ∈ groups sample_ab.length st.files,
        g.Pairwise (fun a b => comparef sample_globals_time (st.files a) (st.files b) ≤ 0) :=
  have hstat := comparef_stat sample_globals_time
  have htot : ∀ a b, comparef sample_globals_time a b ≤ 0 ∨
      comparef sample_globals_time b a ≤ 0 := sort_pairs_by_mtime_total sample_globals_time
  have htrans : ∀ a b c, comparef sample_globals_time a b ≤ 0 →
      comparef sample_globals_time b c ≤ 0 → comparef sample_globals_time a c ≤ 0 :=
    sort_pairs_by_mtime_trans sample_globals_time
  ⟨hstat, htot, htrans,
    (registerpair_sorted_insertion (comparef sample_globals_time) hstat htot htrans).1
      (scan_init sample_ab).files 0 1 [] 1 (by decide) rfl (by decide) (by decide) rfl,
    (registerpair_sorted_insertion (comparef sample_globals_time) hstat htot htrans).2
      sample_globals_time sample_ab rfl (by decide)⟩


/-- C1 fails as stated: with hard links counted as duplicates, `a` is registered with
`d` because the two carry the same inode (no size test, no hash, no byte comparison),
and the copy `b` is then registered with `a` by its bytes. The one group holds `d`
and `b`, which are not linked and do not read the same bytes, and quick mode is
off. -/
theorem linked_pair_joins_other_bytes :
    (∀ f ∈ sample_dab, walker_fresh f) ∧
    sample_globals_H.flags.F_CONSIDERHARDLINKS = true ∧
    sample_globals_H.flags.F_QUICKCOMPARE = false ∧
    (scan sample_globals_H sample_dab).map (fun st => groups sample_dab.length st.files) =
      some [[2, 1, 0]] ∧
    ¬ linked (sample_dab.getD 0 default) (sample_dab.getD 2 default) ∧
    sample_globals_H.fopen (sample_dab.getD 0 default).d_name = some [1, 2, 4] ∧
    sample_globals_H.fopen (sample_dab.getD 2 default).d_name = some [1, 2, 3] := by
  decide


/-! ## The linked-files short circuit -/

/-- C7: the linked-files short circuit. Take the state of a scan over fresh candidates
before the pass for the record `c`, and let `check_conditions` yield 2 for the record
`n` of a tree node and `c` (so hard links count as duplicates and the two are
linked). Then `checkmatch` on that node returns the pointer to the node's slot at
once: records (hence every hash cache and computed bit), log (no call of
`get_filehash`) and tree are as before. And the main loop, given the pointer `p` to
the slot holding `n`, registers the pair: `registerpair` returns, the new state holds
its records and its head in the slot, the log is the old one (no call of
`confirmmatch`), no hash cache or computed bit changes, and `n` and `c` lie on the
chain of the new head and in one group. When `n` is the root of the tree this is the
whole pass of the main loop. -/
theorem linked_match_short_circuit (G : globals) (cands : List file_t)
    (hfresh : ∀ f ∈ cands, walker_fresh f) (c : Nat) (hc : c < cands.length)
    (st : scan_state) (hst : scan_upto G cands c = some st)
    (n : Nat) (l r : filetree_t) (p : List tree_direction)
    (hs : st.checktree.slot p = some n)
    (h2 : check_conditions G.flags (st.files n) (st.files c) = 2) :
    checkmatch G (filetree_t.node n l r) c st.files st.trace =
      { files := st.files, trace := st.trace, tree := filetree_t.node n l r, ret := some [] } ∧
    G.flags.F_CONSIDERHARDLINKS = true ∧ linked (st.files n) (st.files c) ∧
    ∃ fs' h', registerpair (comparef G) cands.length st.files n c = some (fs', h') ∧
      main_match G cands.length st c p =
        some { files := fs', checktree := st.checktree.setslot p h', trace := st.trace } ∧
      (∀ i, link_evolves (st.files i) (fs' i)) ∧
      reach fs' h' n ∧ reach fs' h' c ∧
      (∃ g ∈ groups cands.length fs', n ∈ g ∧ c ∈ g) ∧
      (st.checktree = filetree_t.node n l r →
        scan_upto G cands (c + 1) =
          some { files := fs', checktree := (filetree_t.node n l r).setslot [] h',
                 trace := st.trace }) := by
  obtain ⟨hl, hH⟩ := check_conditions_two _ _ _ h2
  have hcm : checkmatch G (filetree_t.node n l r) c st.files st.trace =
      { files := st.files, trace := st.trace, tree := filetree_t.node n l r,
        ret := some [] } := by
    rw [checkmatch]
    dsimp only
    rw [if_pos h2]
  obtain ⟨st0, rk, e0, hinv⟩ := scan_total G cands hfresh c (le_of_lt hc)
  rw [hst] at e0
  simp only [Option.some.injEq] at e0
  subst e0
  have hn : n < c := (hinv.nodes n (slot_mem _ p n hs)).1
  obtain ⟨fs', h', e, hreg⟩ := registerpair_spec (comparef G) c n c cands.length rk st.files
    (fun i j h => (hinv.edges i j h).2) hn (by omega)
  have hmm : ∀ (q : List tree_direction) (tree : filetree_t), tree.slot q = some n →
      main_match G cands.length { files := st.files, checktree := tree, trace := st.trace } c q =
        some { files := fs', checktree := tree.setslot q h', trace := st.trace } := by
    intro q tree hq
    unfold main_match
    dsimp only
    rw [hq]
    dsimp only
    rw [if_pos (Or.inr ⟨hH, hl.1.symm, hl.2.symm⟩), e]
    rfl
  obtain ⟨-, hrn, hrc⟩ := reach_registered (hinv.fresh c (le_refl _)).1 hreg
  obtain ⟨rk', hinv'⟩ := chain_inv_register hinv hs hreg
  have hhead : h' = c ∨ h' = n := registered_head hreg
  have hh' : h' < cands.length := by rcases hhead with h | h <;> omega
  have hsucc : (fs' h').duplicates ≠ none := by
    intro hnone
    have stay : ∀ x, reach fs' h' x → x = h' := by
      intro x hx
      rcases Relation.ReflTransGen.cases_head hx with h | ⟨y, hy, -⟩
      · exact h.symm
      · rw [hnone] at hy; exact absurd hy (by simp)
    have := stay n hrn
    have := stay c hrc
    omega
  have hmem : h' ∈ (st.checktree.setslot p h').nodefiles := by
    obtain ⟨A, B, -, hB⟩ := setslot_nodefiles h' st.checktree p n hs
    rw [hB]; simp
  have hflag : (fs' h').F_HAS_DUPES = true := hinv'.flagged h' hmem hsucc
  have hrk : ∀ i j, (fs' i).duplicates = some j → j < cands.length ∧ rk' j < rk' i := by
    intro i j h
    obtain ⟨-, h1, h3⟩ := hinv'.edges i j h
    exact ⟨by omega, h3⟩
  have hcard : ((Finset.range cands.length).filter (fun i => rk' i ≤ rk' h')).card ≤
      cands.length + 1 := by
    have := Finset.card_filter_le (Finset.range cands.length) (fun i => rk' i ≤ rk' h')
    simp only [Finset.card_range] at this
    omega
  refine ⟨hcm, hH, hl, fs', h', e, hmm p st.checktree hs, fun i => hreg.1 i, hrn, hrc, ?_, ?_⟩
  · refine ⟨dupchain fs' cands.length h', ?_, ?_, ?_⟩
    · unfold groups
      simp only [List.mem_map, List.mem_filter, List.mem_range]
      exact ⟨h', ⟨hh', hflag⟩, rfl⟩
    · exact reach_mem_dupchain hrk _ h' n hh' hcard hrn
    · exact reach_mem_dupchain hrk _ h' c hh' hcard hrc
  · intro ht
    rw [scan_upto, hst]
    simp only [Option.some_bind]
    unfold main_body
    rw [ht]
    dsimp only
    rw [hcm]
    dsimp only
    exact hmm [] (filetree_t.node n l r) rfl


/-- C7, run on two hard links with hard links counted as duplicates: the first is
the root of the tree, the second comes in. -/
theorem linked_match_short_circuit_witness :
    (∀ f ∈ sample_links, walker_fresh f) ∧ 1 < sample_links.length ∧
    scan_upto sample_globals_H sample_links 1 = some sample_links_state ∧
    sample_links_state.checktree.slot [] = some 0 ∧
    check_conditions sample_globals_H.flags (sample_links_state.files 0)
      (sample_links_state.files 1) = 2 ∧
    checkmatch sample_globals_H (filetree_t.node 0 filetree_t.nil filetree_t.nil) 1
        sample_links_state.files sample_links_state.trace =
      { files := sample_links_state.files, trace := sample_links_state.trace,
        tree := filetree_t.node 0 filetree_t.nil filetree_t.nil, ret := some [] } ∧
    sample_globals_H.flags.F_CONSIDERHARDLINKS = true ∧
    linked (sample_links_state.files 0) (sample_links_state.files 1) ∧
    ∃ fs' h', registerpair (comparef sample_globals_H) sample_links.length
        sample_links_state.files 0 1 = some (fs', h') ∧
      main_match sample_globals_H sample_links.length sample_links_state 1 [] =
        some { files := fs', checktree := sample_links_state.checktree.setslot [] h',
               trace := sample_links_state.trace } ∧
      (∀ i, link_evolves (sample_links_state.files i) (fs' i)) ∧
      reach fs' h' 0 ∧ reach fs' h' 1 ∧
      (∃ g ∈ groups sample_links.length fs', 0 ∈ g ∧ 1 ∈ g) ∧
      (sample_links_state.checktree = filetree_t.node 0 filetree_t.nil filetree_t.nil →
        scan_upto sample_globals_H sample_links (1 + 1) =
          some { files := fs',
                 checktree := (filetree_t.node 0 filetree_t.nil filetree_t.nil).setslot [] h',
                 trace := sample_links_state.trace }) :=
  ⟨by decide, by decide, rfl, rfl, by decide,
    linked_match_short_circuit sample_globals_H sample_links (by decide) 1 (by decide)
      sample_links_state rfl 0 filetree_t.nil filetree_t.nil [] rfl (by decide)⟩


/-! ## Size exclusion in the walker -/

/-- The walker with `--xsize` set, on an entry that is not a directory: it leaves the
entry out when the size test fires, and otherwise does what it does without
`--xsize`. -/
theorem grok_entry_excludesize (E : walk_env) (ty : excludetype_t) (e : Nat)
    (user_dir_count device : Nat) (recurse : Bool)
    (grok : String → walk_state → Option walk_state) (dir name : String) (st : walk_state)
    (hx : E.flags.F_EXCLUDESIZE = false)
    (hnd : ¬ E.fs.S_ISDIR (getfilestats E.fs
      { d_name := entry_path dir name, user_order := user_dir_count }).2.mode = true) :
    grok_entry { E with flags := { E.flags with F_EXCLUDESIZE := true },
                        excludetype := ty, excludesize := e }
        user_dir_count device recurse grok dir name st =
      if xsize_excluded ty e (getfilestats E.fs
          { d_name := entry_path dir name, user_order := user_dir_count }).2.size
      then some st
      else grok_entry E user_dir_count device recurse grok dir name st := by
  unfold grok_entry
  dsimp only
  generalize getfilestats E.fs
    { d_name := entry_path dir name, user_order := user_dir_count } = gs at hnd ⊢
  by_cases h1 : name = "." ∨ name = ".."
  · rw [if_pos h1, if_pos h1]; simp
  rw [if_neg h1, if_neg h1]
  by_cases h2 : E.flags.F_EXCLUDEHIDDEN = true ∧ name.data.head? = some '.'
  · rw [if_pos h2, if_pos h2]; simp
  rw [if_neg h2, if_neg h2]
  by_cases h3 : gs.1 ≠ 0 ∨ gs.2.size = -1
  · rw [if_pos h3, if_pos h3]; simp
  rw [if_neg h3, if_neg h3]
  by_cases h4 : ¬ E.fs.S_ISDIR gs.2.mode = true ∧ gs.2.size = 0 ∧
      ¬ E.flags.F_INCLUDEEMPTY = true
  · rw [if_pos h4, if_pos h4]; simp
  rw [if_neg h4, if_neg h4]
  have h5 : ¬ (¬ E.fs.S_ISDIR gs.2.mode = true ∧ E.flags.F_EXCLUDESIZE = true ∧
      xsize_excluded E.excludetype E.excludesize gs.2.size) := by
    rw [hx]; simp
  rw [if_neg h5]
  by_cases h6 : xsize_excluded ty e gs.2.size
  · rw [if_pos h6, if_pos ⟨hnd, rfl, h6⟩]
  · rw [if_neg h6, if_neg (fun h => h6 h.2.2)]


/-- C17 as the code has it: size exclusion. Let the walker run without `--xsize`
(flag clear, `excludetype` at its initial value) and keep an entry that is not a
directory, of size `s`. For every `--xsize` argument with sign, number `N` and suffix
(none, `K`, `M` or `G`, either case) whose threshold, `N` times the factor of the
suffix, is below 2⁶³ (fits the signed 64-bit `off_t`), the option switch accepts the
argument, and the walker run with it rejects the entry (leaves the candidate list as
it is) iff `s` is below the threshold without `+`, iff `s` is above it with `+`;
otherwise it keeps the entry as before, in particular when `s` equals the threshold.
Whether or not the entry is kept without `--xsize`, the walker with the option
rejects it when the size is out of bounds and else does what it does without. -/
theorem size_exclusion (E : walk_env) (plus : Bool) (N : Nat) (endptr : List Char)
    (mult : Nat) (user_dir_count device : Nat) (recurse : Bool)
    (grok : String → walk_state → Option walk_state) (dir name : String) (st : walk_state)
    (hx : E.flags.F_EXCLUDESIZE = false)
    (hty : E.excludetype = excludetype_t.SMALLERTHAN)
    (hm : suffix_multiplier endptr = some mult) (hT : N * mult < 2 ^ 63)
    (hnd : ¬ E.fs.S_ISDIR (getfilestats E.fs
      { d_name := entry_path dir name, user_order := user_dir_count }).2.mode = true)
    (hkept : grok_entry E user_dir_count device recurse grok dir name st =
      some { st with files := (getfilestats E.fs
        { d_name := entry_path dir name, user_order := user_dir_count }).2 :: st.files }) :
    ∃ E', main_case_x E plus N endptr = some E' ∧
      E'.flags.F_EXCLUDESIZE = true ∧
      (grok_entry E' user_dir_count device recurse grok dir name st = some st ↔
        (if plus then (getfilestats E.fs
            { d_name := entry_path dir name, user_order := user_dir_count }).2.size >
              ((N * mult : Nat) : Int)
         else (getfilestats E.fs
            { d_name := entry_path dir name, user_order := user_dir_count }).2.size <
              ((N * mult : Nat) : Int))) ∧
      (grok_entry E' user_dir_count device recurse grok dir name st = some st ∨
        grok_entry E' user_dir_count device recurse grok dir name st =
          some { st with files := (getfilestats E.fs
            { d_name := entry_path dir name, user_order := user_dir_count }).2 :: st.files }) ∧
      ((getfilestats E.fs
          { d_name := entry_path dir name, user_order := user_dir_count }).2.size =
            ((N * mult : Nat) : Int) →
        grok_entry E' user_dir_count device recurse grok dir name st =
          some { st with files := (getfilestats E.fs
            { d_name := entry_path dir name, user_order := user_dir_count }).2 :: st.files }) ∧
      grok_entry E' user_dir_count device recurse grok dir name st =
        (if (if plus then (getfilestats E.fs
              { d_name := entry_path dir name, user_order := user_dir_count }).2.size >
                ((N * mult : Nat) : Int)
           else (getfilestats E.fs
              { d_name := entry_path dir name, user_order := user_dir_count }).2.size <
                ((N * mult : Nat) : Int))
         then some st
         else grok_entry E user_dir_count device recurse grok dir name st) := by
  obtain ⟨ty, e, hopt, htest, -⟩ := xsize_excluded_threshold plus N endptr mult
    (getfilestats E.fs { d_name := entry_path dir name, user_order := user_dir_count }).2.size
    hm hT
  have hty' : ty = (if plus then excludetype_t.LARGERTHAN else E.excludetype) := by
    have h := xsize_option_value plus N endptr mult hm
    rw [hopt] at h
    simp only [Option.some.injEq, Prod.mk.injEq] at h
    rw [h.1, hty]
  have hE : main_case_x E plus N endptr =
      some { E with flags := { E.flags with F_EXCLUDESIZE := true },
                    excludetype := ty, excludesize := e } := by
    unfold main_case_x
    rw [hopt, hty']
    rfl
  have hne : (some { st with files := (getfilestats E.fs
      { d_name := entry_path dir name, user_order := user_dir_count }).2 :: st.files } :
        Option walk_state) ≠ some st := by
    intro h
    simp only [Option.some.injEq] at h
    have := congrArg walk_state.files h
    simp at this
  have hmain := grok_entry_excludesize E ty e user_dir_count device recurse grok dir name st
    hx hnd
  refine ⟨_, hE, rfl, ?_, ?_, ?_, ?_⟩
  · rw [hmain, hkept, ← htest]
    split_ifs with h
    · simp [h]
    · simp only [h, iff_false]
      exact hne
  · rw [hmain, hkept]
    split_ifs
    · exact Or.inl rfl
    · exact Or.inr rfl
  · intro hs
    rw [hmain, hkept, if_neg]
    rw [htest, hs]
    cases plus <;> simp
  · rw [hmain]
    simp only [htest]


/-- C17 as the code has it, for `--xsize=+2K` and the entry `R/big` of 3000 bytes,
which the walker keeps without the option. -/
theorem size_exclusion_witness :
    sample_walk_sizes.flags.F_EXCLUDESIZE = false ∧
    sample_walk_sizes.excludetype = excludetype_t.SMALLERTHAN ∧
    suffix_multiplier ['K'] = some 1024 ∧ 2 * 1024 < 2 ^ 63 ∧
    ¬ sample_walk_sizes.fs.S_ISDIR (getfilestats sample_walk_sizes.fs
      { d_name := entry_path "R" "big", user_order := 1 }).2.mode = true ∧
    grok_entry sample_walk_sizes 1 1 false (fun _ s => some s) "R" "big" {} =
      some { ({} : walk_state) with files := (getfilestats sample_walk_sizes.fs
        { d_name := entry_path "R" "big", user_order := 1 }).2 :: ({} : walk_state).files } ∧
    ∃ E', main_case_x sample_walk_sizes true 2 ['K'] = some E' ∧
      E'.flags.F_EXCLUDESIZE = true ∧
      (grok_entry E' 1 1 false (fun _ s => some s) "R" "big" {} = some {} ↔
        (if true = true then (getfilestats sample_walk_sizes.fs
            { d_name := entry_path "R" "big", user_order := 1 }).2.size >
              ((2 * 1024 : Nat) : Int)
         else (getfilestats sample_walk_sizes.fs
            { d_name := entry_path "R" "big", user_order := 1 }).2.size <
              ((2 * 1024 : Nat) : Int))) ∧
      (grok_entry E' 1 1 false (fun _ s => some s) "R" "big" {} = some {} ∨
        grok_entry E' 1 1 false (fun _ s => some s) "R" "big" {} =
          some { ({} : walk_state) with files := (getfilestats sample_walk_sizes.fs
            { d_name := entry_path "R" "big", user_order := 1 }).2 ::
              ({} : walk_state).files }) ∧
      ((getfilestats sample_walk_sizes.fs
          { d_name := entry_path "R" "big", user_order := 1 }).2.size =
            ((2 * 1024 : Nat) : Int) →
        grok_entry E' 1 1 false (fun _ s => some s) "R" "big" {} =
          some { ({} : walk_state) with files := (getfilestats sample_walk_sizes.fs
            { d_name := entry_path "R" "big", user_order := 1 }).2 ::
              ({} : walk_state).files }) ∧
      grok_entry E' 1 1 false (fun _ s => some s) "R" "big" {} =
        (if (if true = true then (getfilestats sample_walk_sizes.fs
              { d_name := entry_path "R" "big", user_order := 1 }).2.size >
                ((2 * 1024 : Nat) : Int)
           else (getfilestats sample_walk_sizes.fs
              { d_name := entry_path "R" "big", user_order := 1 }).2.size <
                ((2 * 1024 : Nat) : Int))
         then some {}
         else grok_entry sample_walk_sizes 1 1 false (fun _ s => some s) "R" "big" {}) :=
  ⟨rfl, rfl, by decide, by decide, by decide, rfl,
    size_exclusion sample_walk_sizes true 2 ['K'] 1024 1 1 false (fun _ s => some s)
      "R" "big" {} rfl rfl (by decide) (by decide) (by decide) rfl⟩

/-- C17 fails as stated, in two ways. For `--xsize=9223372036854775808` (2⁶³, an
unsigned 64-bit number without suffix) the walker keeps the entry `R/ten` of 10 bytes,
which is below the threshold: the cast to `off_t` turns the threshold negative. And
under `--xsize=+5` the walker rejects the entry `R/empty`, whose size 0 is not above
the threshold: it rejects an empty file with or without the option. -/
theorem xsize_threshold_wraps :
    (9223372036854775808 : Nat) < 2 ^ 64 ∧
    suffix_multiplier [] = some 1 ∧
    (10 : Int) < ((9223372036854775808 * 1 : Nat) : Int) ∧
    off_t_cast 9223372036854775808 = -9223372036854775808 ∧
    ((main_case_x sample_walk_sizes false 9223372036854775808 []).bind
      (fun E' => grok_roots E' 9 [("R", false)] 1 {})).map
        (fun st => st.files.map (fun f => (f.d_name, f.size))) =
      some [("R/big", 3000), ("R/even", 2048), ("R/ten", 10)] ∧
    ¬ ((0 : Int) > ((5 : Nat) : Int)) ∧
    ((main_case_x sample_walk_sizes true 5 []).bind
      (fun E' => grok_roots E' 9 [("R", false)] 1 {})).map
        (fun st => st.files.map (fun f => (f.d_name, f.size))) = some [] ∧
    (grok_roots sample_walk_sizes 9 [("R", false)] 1 {}).map
        (fun st => st.files.map (fun f => (f.d_name, f.size))) =
      some [("R/big", 3000), ("R/even", 2048), ("R/ten", 10)] := by
  decide

end jdupes
